import Mathlib

/-! # Zone memory allocator of Doom8088 (`src/z_zone.c`)

A shallow embedding of the zone allocator and proofs about it.

Modelling decisions, all visible in the definitions below:

* The 8088 configuration is embedded: `_M_I86` is defined, so a block header has the
  `id` field, `Z_Malloc` stamps it, and `Z_Free` and `Z_CheckHeap` test it.
* Memory is seen one paragraph (16 bytes) at a time: `Zone.hdr s` is the block header
  stored at paragraph `s`.  Every `memblock_t*` of the source is `segmentToPointer s`
  for some handle `s`, so block pointers are represented by their handle.
* Owner slots (`void **user`) live in a separate address-indexed store `Zone.slot`;
  a pointer to a slot is the natural number of its 32-bit value, `0` being `NULL`.
* `I_Error` never returns: a function that reaches it yields `Res.fatal` together with
  the heap state at that point.  Loops carry a fuel argument; `Res.timeout` means the
  fuel ran out, which says nothing about the program.
* The bit-fields `size:24` and `tag:4` truncate on every store.
* Handles are natural numbers, the paragraph index of a header, and the request of
  `Z_Malloc` is a natural number: the allocator is followed for addresses below `2^20`
  and requests up to `2^31 - 32`, where neither a 16-bit handle nor the `int32_t` needed
  size wraps. `pointerToSegment16` and `Z_Malloc_size32` are the two computations on
  machine words.
* The zero-filled allocations act on a byte memory of their own, and `S_SoundIsPlaying`
  of `src/s_sound.c` is embedded next to the allocator.
-/

namespace Zone8088

/-! ## Constants -/

def PU_STATIC : Nat := 1
def PU_LEVEL : Nat := 2
def PU_LEVSPEC : Nat := 3
def PU_CACHE : Nat := 4
def PU_PURGELEVEL : Nat := PU_CACHE
def ZONEID : Nat := 0x1dea
def PARAGRAPH_SIZE : Nat := 16
def MINFRAGMENT : Nat := 64

/-! ## Data model -/

/-- Modelled from the spec: the far-pointer representation (`FP_SEG`, `FP_OFF`, `MK_FP`
and the `segment` handle type come from `compiler.h`, which is not among the sources).
A pointer is a segment part and an offset part; its linear address is
`seg * 16 + off`; a handle is the natural number of a paragraph. -/
structure FarPtr where
  seg : Nat
  off : Nat
deriving DecidableEq, Repr

/-- The null pointer. -/
def NULL : FarPtr := ⟨0, 0⟩

/-- Linear address of a far pointer. -/
def FarPtr.linear (p : FarPtr) : Nat := p.seg * PARAGRAPH_SIZE + p.off

/-- The value of `(uint32_t) ptr`: segment part in the high word, offset in the low word. -/
def FarPtr.bits (p : FarPtr) : Nat := p.seg * 65536 + p.off

/-- Block header `memblock_t`. -/
structure memblock_t where
  size : Nat
  tag : Nat
  user : Nat
  next : Nat
  prev : Nat
  id : Nat
deriving DecidableEq, Repr

/-- The allocator state: header memory, owner-slot memory and the globals of `z_zone.c`. -/
structure Zone where
  hdr : Nat → memblock_t
  slot : Nat → FarPtr
  mainzone : FarPtr
  mainzone_blocklist : Nat
  mainzone_rover : Nat

/-- The fatal errors (`I_Error` call sites) of `z_zone.c`. -/
inductive ZErr where
  | unaligned
  | freeNoZoneId
  | allocFailed
  | ownerRequired
  | checkId
  | checkSize
  | checkBackLink
  | checkTwoFree
  | noArena
deriving DecidableEq, Repr

/-- Outcome of an operation: normal return with the new state, a fatal error with the
state at the point of the error, or fuel exhausted. -/
inductive Res (α : Type) where
  | ok (z : Zone) (a : α)
  | fatal (e : ZErr) (z : Zone)
  | timeout

/-- The error of an outcome, if it is a fatal one. -/
def Res.err {α : Type} : Res α → Option ZErr
  | .fatal e _ => some e
  | _ => none

/-- The state carried by an outcome (after a return, or at the fatal error). -/
def Res.state {α : Type} : Res α → Option Zone
  | .ok z _ => some z
  | .fatal _ z => some z
  | .timeout => none

/-- The returned value of an outcome. -/
def Res.val {α : Type} : Res α → Option α
  | .ok _ a => some a
  | _ => none

/-! ## Header stores -/

def Zone.setHdr (z : Zone) (b : Nat) (h : memblock_t) : Zone :=
  { z with hdr := fun x => if x = b then h else z.hdr x }

/-- Store to `block->size` (24-bit field). -/
def Zone.setSize (z : Zone) (b v : Nat) : Zone :=
  z.setHdr b { z.hdr b with size := v % 2 ^ 24 }

/-- Store to `block->tag` (4-bit field). -/
def Zone.setTag (z : Zone) (b v : Nat) : Zone :=
  z.setHdr b { z.hdr b with tag := v % 16 }

def Zone.setUser (z : Zone) (b v : Nat) : Zone :=
  z.setHdr b { z.hdr b with user := v }

def Zone.setNext (z : Zone) (b v : Nat) : Zone :=
  z.setHdr b { z.hdr b with next := v }

def Zone.setPrev (z : Zone) (b v : Nat) : Zone :=
  z.setHdr b { z.hdr b with prev := v }

/-- Store to `block->id` (16-bit field). -/
def Zone.setId (z : Zone) (b v : Nat) : Zone :=
  z.setHdr b { z.hdr b with id := v % 65536 }

/-- Store through an owner pointer: `*user = p`. -/
def Zone.setSlot (z : Zone) (u : Nat) (p : FarPtr) : Zone :=
  { z with slot := fun x => if x = u then p else z.slot x }

def Zone.setRover (z : Zone) (r : Nat) : Zone :=
  { z with mainzone_rover := r }

/-! ## Addressing layer -/

/-- `pointerToSegment`: `none` is the fatal alignment error. The test looks at the low
four bits of `(uint32_t) ptr`. The result is the paragraph index `linear / 16` as a
natural number, before its conversion to the 16-bit return type (`pointerToSegment16`);
the two are the same for addresses below `2^20`. -/
def pointerToSegment (ptr : FarPtr) : Option Nat :=
  if ptr.bits % PARAGRAPH_SIZE ≠ 0 then none
  else some ((ptr.seg * PARAGRAPH_SIZE + ptr.off) / PARAGRAPH_SIZE)

/-- `segmentToPointer`: `MK_FP(seg, 0)`. -/
def segmentToPointer (seg : Nat) : FarPtr := ⟨seg, 0⟩

/-- Modelled from the spec: the handle type `segment` is declared in `compiler.h`, which is
not among the sources; it is 16 bits wide, since `memblock_t` with two handles, a far
pointer, the 32-bit size and tag word and the 16-bit id has to fit in 16 bytes
(`assertMemblockSize`). Conversion of a value to that type. -/
def toSegment (n : Nat) : Nat := n % 65536

/-- The value `pointerToSegment` returns, as the 16-bit `segment` of its return type:
`linear`, a `uint32_t`, is `seg * 16 + off`, and `linear / PARAGRAPH_SIZE` is converted
to `segment` by the `return`. `none` is the fatal alignment error. -/
def pointerToSegment16 (ptr : FarPtr) : Option Nat :=
  if ptr.bits % PARAGRAPH_SIZE ≠ 0 then none
  else
    let linear := (ptr.seg * PARAGRAPH_SIZE + ptr.off) % 2 ^ 32
    some (toSegment (linear / PARAGRAPH_SIZE))

/-! ## Z_Free -/

/-- Lines 180-224 of `Z_Free`: the work on the block header found before `ptr`. -/
def Z_Free_block (z : Zone) (block : Nat) : Zone :=
  -- clear the user's mark
  let z := if 0x100 < (z.hdr block).user then z.setSlot (z.hdr block).user NULL else z
  -- mark as free
  let z := z.setUser block 0
  let z := z.setTag block 0
  let other := (z.hdr block).prev
  let zb : Zone × Nat :=
    if (z.hdr other).user = 0 then
      -- merge with previous free block
      let z := z.setSize other ((z.hdr other).size + (z.hdr block).size)
      let z := z.setNext other (z.hdr block).next
      let z := z.setPrev (z.hdr other).next other
      let z := if block = z.mainzone_rover then z.setRover other else z
      (z, other)
    else (z, block)
  let z := zb.1
  let block := zb.2
  let other := (z.hdr block).next
  if (z.hdr other).user = 0 then
    -- merge the next free block onto the end
    let z := z.setSize block ((z.hdr block).size + (z.hdr other).size)
    let z := z.setNext block (z.hdr other).next
    let z := z.setPrev (z.hdr block).next block
    if other = z.mainzone_rover then z.setRover block else z
  else z

/-- `Z_Free`. -/
def Z_Free (z : Zone) (ptr : FarPtr) : Res Unit :=
  if ptr = NULL then .ok z ()
  else
    match pointerToSegment ptr with
    | none => .fatal .unaligned z
    | some s =>
      let block := s - 1
      if (z.hdr block).id ≠ ZONEID then .fatal .freeNoZoneId z
      else .ok (Z_Free_block z block) ()

/-! ## Z_Malloc -/

/-- The needed block size: `(size + 15) & ~15`, then `+ 16` for the header, computed on
natural numbers. The request is an `int32_t`; for a non-negative request up to
`2 ^ 31 - 32` this is the value the 32-bit arithmetic of the source gives
(`Z_Malloc_size32`). Above that the `int32_t` of the source overflows, which this
definition does not follow: here a needed size of `2 ^ 24` or more is above every
24-bit size field, so no block is ever selected for it. -/
def Z_Malloc_size (size : Nat) : Nat :=
  (size + (PARAGRAPH_SIZE - 1)) / PARAGRAPH_SIZE * PARAGRAPH_SIZE + PARAGRAPH_SIZE

/-- One pass through the body of the `do ... while` of `Z_Malloc` after the
`rover == start` test (lines 288-308): the new pair `base`, `rover`. -/
def Z_Malloc_scan_body (z : Zone) (base rover : Nat) : Res (Nat × Nat) :=
  if (z.hdr rover).user ≠ 0 then
    if (z.hdr rover).tag < PU_PURGELEVEL then
      -- hit a block that can't be purged, so move base past it
      .ok z ((z.hdr rover).next, (z.hdr rover).next)
    else
      -- free the rover block (adding the size to base)
      let base := (z.hdr base).prev
      match Z_Free z (segmentToPointer (rover + 1)) with
      | .ok z _ =>
        let base := (z.hdr base).next
        .ok z (base, (z.hdr base).next)
      | .fatal e z => .fatal e z
      | .timeout => .timeout
  else .ok z (base, (z.hdr rover).next)

/-- The `do ... while` scan of `Z_Malloc` (lines 280-310) from the pair `base`, `rover`;
returns the selected `base`. -/
def Z_Malloc_scan (size start : Nat) : Nat → Zone → Nat → Nat → Res Nat
  | 0, _, _, _ => .timeout
  | fuel + 1, z, base, rover =>
    if rover = start then
      -- scanned all the way around the list
      .fatal .allocFailed z
    else
      match Z_Malloc_scan_body z base rover with
      | .ok z (base, rover) =>
        if (z.hdr base).user ≠ 0 ∨ (z.hdr base).size < size then
          Z_Malloc_scan size start fuel z base rover
        else .ok z base
      | .fatal e z => .fatal e z
      | .timeout => .timeout

/-- Lines 313-331 of `Z_Malloc`: split off the tail of `base` when it is large enough. -/
def Z_Malloc_split (z : Zone) (base size : Nat) : Zone :=
  let extra := (z.hdr base).size - size
  if extra > MINFRAGMENT then
    -- there will be a free fragment after the allocated block
    let newblock := base + size / PARAGRAPH_SIZE
    let z := z.setSize newblock extra
    let z := z.setUser newblock 0
    let z := z.setTag newblock 0
    let z := z.setPrev newblock base
    let z := z.setNext newblock (z.hdr base).next
    let z := z.setPrev (z.hdr newblock).next newblock
    let z := z.setNext base newblock
    z.setSize base size
  else z

/-- `Z_Malloc`. `size` is the non-negative request, `tag` the `int32_t` tag, `user`
the owner pointer (`0` for `NULL`). The needed size is `Z_Malloc_size size`, so the
call is followed for requests up to `2 ^ 31 - 32`. -/
def Z_Malloc (fuel : Nat) (z : Zone) (size : Nat) (tag : Int) (user : Nat) : Res FarPtr :=
  let size := Z_Malloc_size size
  -- if there is a free block behind the rover, back up over them
  let base := z.mainzone_rover
  let base := if (z.hdr (z.hdr base).prev).user = 0 then (z.hdr base).prev else base
  let rover := base
  let start := (z.hdr base).prev
  match Z_Malloc_scan size start fuel z base rover with
  | .timeout => .timeout
  | .fatal e z => .fatal e z
  | .ok z base =>
    -- found a block big enough
    let z := Z_Malloc_split z base size
    if user ≠ 0 then
      -- mark as an in use block
      let z := z.setUser base user
      let z := z.setSlot user (segmentToPointer (base + 1))
      let z := z.setTag base (tag % 16).toNat
      let z := z.setId base ZONEID
      -- next allocation will start looking here
      let z := z.setRover (z.hdr base).next
      .ok z (segmentToPointer (base + 1))
    else if tag ≥ (PU_PURGELEVEL : Int) then
      .fatal .ownerRequired z
    else
      -- mark as in use, but unowned
      let z := z.setUser base 2
      let z := z.setTag base (tag % 16).toNat
      let z := z.setId base ZONEID
      let z := z.setRover (z.hdr base).next
      .ok z (segmentToPointer (base + 1))

def Z_MallocStatic (fuel : Nat) (z : Zone) (size : Nat) : Res FarPtr :=
  Z_Malloc fuel z size PU_STATIC 0

def Z_MallocLevel (fuel : Nat) (z : Zone) (size : Nat) (user : Nat) : Res FarPtr :=
  Z_Malloc fuel z size PU_LEVEL user

/-! ## Z_FreeTags -/

/-- The loop of `Z_FreeTags` from the current `block`. -/
def Z_FreeTags_loop : Nat → Zone → Nat → Res Unit
  | 0, _, _ => .timeout
  | fuel + 1, z, block =>
    if block = z.mainzone_blocklist then .ok z ()
    else
      -- get link before freeing
      let next := (z.hdr block).next
      -- already a free block?
      if (z.hdr block).user = 0 then Z_FreeTags_loop fuel z next
      else if PU_LEVEL ≤ (z.hdr block).tag ∧ (z.hdr block).tag ≤ PU_PURGELEVEL - 1 then
        match Z_Free z (segmentToPointer (block + 1)) with
        | .ok z _ => Z_FreeTags_loop fuel z next
        | .fatal e z => .fatal e z
        | .timeout => .timeout
      else Z_FreeTags_loop fuel z next

/-- `Z_FreeTags`. -/
def Z_FreeTags (fuel : Nat) (z : Zone) : Res Unit :=
  Z_FreeTags_loop fuel z (z.hdr z.mainzone_blocklist).next

/-! ## Z_CheckHeap -/

/-- The loop of `Z_CheckHeap` from the current `block`. -/
def Z_CheckHeap_loop : Nat → Zone → Nat → Res Unit
  | 0, _, _ => .timeout
  | fuel + 1, z, block =>
    if (z.hdr block).next = z.mainzone_blocklist then
      -- all blocks have been hit
      .ok z ()
    else if (z.hdr block).id ≠ ZONEID then .fatal .checkId z
    else if block + (z.hdr block).size / PARAGRAPH_SIZE ≠ (z.hdr block).next then
      .fatal .checkSize z
    else if (z.hdr (z.hdr block).next).prev ≠ block then .fatal .checkBackLink z
    else if (z.hdr block).user = 0 ∧ (z.hdr (z.hdr block).next).user = 0 then
      .fatal .checkTwoFree z
    else Z_CheckHeap_loop fuel z (z.hdr block).next

/-- `Z_CheckHeap`. -/
def Z_CheckHeap (fuel : Nat) (z : Zone) : Res Unit :=
  Z_CheckHeap_loop fuel z (z.hdr z.mainzone_blocklist).next

/-! ## Z_Init -/

/-- The environment `Z_Init` runs in. -/
structure Env where
  /-- the result of `halloc(numb, PARAGRAPH_SIZE)`, `NULL` when the request is refused -/
  halloc : Int → FarPtr
  /-- the address of `mainzone_blocklist_buffer[0]` -/
  buffer : FarPtr
  /-- memory before `Z_Init` (nothing is assumed about it) -/
  hdr : Nat → memblock_t
  slot : Nat → FarPtr

/-- The `do ... while (mainzone == NULL)` loop of `Z_Init`; yields `mainzone` and
`hallocNumb` as they are when the loop ends. -/
def Z_Init_halloc (halloc : Int → FarPtr) : Nat → Int → Option (FarPtr × Int)
  | 0, _ => none
  | fuel + 1, hallocNumb =>
    let mainzone := halloc hallocNumb
    let hallocNumb := hallocNumb - 1
    if mainzone = NULL then Z_Init_halloc halloc fuel hallocNumb
    else some (mainzone, hallocNumb)

/-- The loops `while ((m & 15) != 0) m = (uint32_t) ++mainzone;` and
`while ((b & 15) != 0) b = (uint32_t) &mainzone_blocklist_buffer[i++];`: step the
offset up to the next paragraph boundary (at most 15 steps; the offset is 16 bits). -/
def alignUp : Nat → FarPtr → FarPtr
  | 0, p => p
  | k + 1, p =>
    if p.bits % PARAGRAPH_SIZE ≠ 0 then alignUp k ⟨p.seg, (p.off + 1) % 65536⟩ else p

/-- Lines 143-158 of `Z_Init`: set the entire zone to one free block. -/
def Z_Init_setup (env : Env) (mainzone mainzone_blocklist : FarPtr) (heapSize : Nat) :
    Res Unit :=
  let z : Zone :=
    { hdr := env.hdr, slot := env.slot, mainzone := mainzone,
      mainzone_blocklist := mainzone_blocklist.linear / PARAGRAPH_SIZE,
      mainzone_rover := 0 }
  match pointerToSegment mainzone, pointerToSegment mainzone_blocklist with
  | some block, some bl =>
    let z := z.setPrev bl block
    let z := z.setNext bl block
    let z := z.setUser bl mainzone.bits
    let z := z.setTag bl PU_STATIC
    let z := z.setRover block
    let z := z.setNext block bl
    let z := z.setPrev block bl
    -- NULL indicates a free block.
    let z := z.setUser block 0
    let z := z.setSize block heapSize
    .ok z ()
  | _, _ => .fatal .unaligned z

/-- `Z_Init`. -/
def Z_Init (fuel : Nat) (env : Env) : Res Unit :=
  match Z_Init_halloc env.halloc fuel (640 * 1024 / 16) with
  | none => .timeout
  | some (mainzone, hallocNumb) =>
    let hallocNumb := hallocNumb + 1
    let heapSize := ((hallocNumb * 16) % 2 ^ 32).toNat
    -- align mainzone
    let heapSize :=
      if mainzone.bits % PARAGRAPH_SIZE ≠ 0 then (heapSize + 2 ^ 32 - 16) % 2 ^ 32
      else heapSize
    let mainzone := alignUp 16 mainzone
    -- align blocklist
    let mainzone_blocklist := alignUp 16 env.buffer
    Z_Init_setup env mainzone mainzone_blocklist heapSize

/-! ## The block list and the reachable heap states -/

/-- The `n`-th block met when walking the `next` links from the sentinel. -/
def nthBlock (z : Zone) : Nat → Nat
  | 0 => z.mainzone_blocklist
  | n + 1 => (z.hdr (nthBlock z n)).next

/-- The block whose header is at paragraph `b` is in the block list. -/
def InList (z : Zone) (b : Nat) : Prop := ∃ n, nthBlock z n = b

/-- The block at `b` is a block of the list other than the sentinel and is in use. -/
def InUse (z : Zone) (b : Nat) : Prop :=
  InList z b ∧ b ≠ z.mainzone_blocklist ∧ (z.hdr b).user ≠ 0

/-- What is assumed of the platform: `halloc` grants only requests of 1 to 40960
paragraphs, the granted region and the static 32-byte buffer of the sentinel do not
overlap, and stepping a pointer to the next paragraph boundary does not wrap its offset. -/
structure EnvOK (env : Env) : Prop where
  grant : ∀ n, env.halloc n ≠ NULL →
    1 ≤ n ∧ n ≤ 40960 ∧ (env.halloc n).off + 16 ≤ 65536 ∧
    (env.buffer.linear + 32 ≤ (env.halloc n).linear ∨
      (env.halloc n).linear + 16 * n.toNat ≤ env.buffer.linear)
  buf : env.buffer.off + 32 ≤ 65536

/-- Heap states reached from `Z_Init` by successful `Z_Malloc` calls, `Z_Free` calls on
addresses of in-use blocks, and `Z_FreeTags` calls. -/
inductive Reachable : Zone → Prop where
  | init (fuel : Nat) (env : Env) (z : Zone) :
      EnvOK env → Z_Init fuel env = .ok z () → Reachable z
  | malloc (fuel : Nat) (z : Zone) (size : Nat) (tag : Int) (user : Nat) (z' : Zone)
      (p : FarPtr) :
      Reachable z → Z_Malloc fuel z size tag user = .ok z' p → Reachable z'
  | free (z : Zone) (ptr : FarPtr) (b : Nat) (z' : Zone) :
      Reachable z → InUse z b → pointerToSegment ptr = some (b + 1) →
      Z_Free z ptr = .ok z' () → Reachable z'
  | freeTags (fuel : Nat) (z z' : Zone) :
      Reachable z → Z_FreeTags fuel z = .ok z' () → Reachable z'

/-! ## The ring of blocks: the structure the operations maintain -/

/-- The first element of a list, or `d` when the list is empty. -/
def firstOr : List Nat → Nat → Nat
  | [], d => d
  | a :: _, _ => a

/-- The last element of a list, or `d` when the list is empty. -/
def lastOr : List Nat → Nat → Nat
  | [], d => d
  | a :: l, _ => lastOr l a

/-- Every element `b` of the list satisfies `R p b n`, where `p` is its predecessor and
`n` its successor in the list (the given `p` before the first element, the given `n`
after the last). -/
def Seg (R : Nat → Nat → Nat → Prop) : Nat → List Nat → Nat → Prop
  | _, [], _ => True
  | p, b :: l, n => R p b (firstOr l n) ∧ Seg R b l n

/-- The header at `b` links to `p` and `n`; unless `b` is the sentinel its size is a
multiple of 16, it lies in the arena `[lo, hi)`, it ends where `n` starts unless `n` is
the sentinel, and it carries `ZONEID` when in use. -/
def BlockOK (z : Zone) (lo hi : Nat) (p b n : Nat) : Prop :=
  (z.hdr b).prev = p ∧ (z.hdr b).next = n ∧
  (b ≠ z.mainzone_blocklist →
    (z.hdr b).size % 16 = 0 ∧ lo ≤ b ∧ b + (z.hdr b).size / 16 ≤ hi ∧
    (n ≠ z.mainzone_blocklist → b + (z.hdr b).size / 16 = n) ∧
    ((z.hdr b).user ≠ 0 → (z.hdr b).id = ZONEID))

/-- The link structure of the heap: the circular list `c :: rest` (closed from the last
element back to `c`) holds the sentinel and every block, each with well-formed
header, in list order; blocks do not overlap and the sentinel is outside the arena. -/
structure PreRing (z : Zone) (c : Nat) (rest : List Nat) (lo hi : Nat) : Prop where
  links : Seg (BlockOK z lo hi) (lastOr rest c) (c :: rest) c
  nodup : (c :: rest).Nodup
  sent : z.mainzone_blocklist ∈ c :: rest
  sentUser : (z.hdr z.mainzone_blocklist).user ≠ 0
  sentTag : (z.hdr z.mainzone_blocklist).tag = PU_STATIC
  outside : z.mainzone_blocklist < lo ∨ hi ≤ z.mainzone_blocklist
  bound : hi * 16 < lo * 16 + 2 ^ 24
  sep : ∀ a ∈ c :: rest, ∀ b ∈ c :: rest, a ≠ z.mainzone_blocklist →
    b ≠ z.mainzone_blocklist → a ≠ b →
    a + (z.hdr a).size / 16 ≤ b ∨ b + (z.hdr b).size / 16 ≤ a
  rover : z.mainzone_rover ∈ c :: rest

/-- A well-formed heap: the link structure, and no two adjacent free blocks. -/
structure Ring (z : Zone) (c : Nat) (rest : List Nat) (lo hi : Nat) : Prop where
  pre : PreRing z c rest lo hi
  naf : ∀ v ∈ c :: rest, ¬ ((z.hdr v).user = 0 ∧ (z.hdr (z.hdr v).next).user = 0)

/-- The first three stores of `Z_Free` on a block: owner slot cleared, block marked free. -/
def markFree (z : Zone) (block : Nat) : Zone :=
  let z := if 0x100 < (z.hdr block).user then z.setSlot (z.hdr block).user NULL else z
  let z := z.setUser block 0
  z.setTag block 0

/-- The merge of `Z_Free`, written twice there: block `x` takes over its successor `y`. -/
def absorb (z : Zone) (x y : Nat) : Zone :=
  let z := z.setSize x ((z.hdr x).size + (z.hdr y).size)
  let z := z.setNext x (z.hdr y).next
  let z := z.setPrev (z.hdr x).next x
  if y = z.mainzone_rover then z.setRover x else z

/-- The stores of `Z_Malloc` that mark `base` in use (lines 336/345, 348-354), without
the store through the owner pointer. -/
def markUsed (z : Zone) (base u : Nat) (tag : Int) : Zone :=
  let z := z.setUser base u
  let z := z.setTag base (tag % 16).toNat
  let z := z.setId base ZONEID
  z.setRover (z.hdr base).next

/-- Block `v` has the same size, tag, owner and id in `z'` as in `z`. -/
def Kept (z z' : Zone) (v : Nat) : Prop :=
  (z'.hdr v).size = (z.hdr v).size ∧ (z'.hdr v).tag = (z.hdr v).tag ∧
  (z'.hdr v).user = (z.hdr v).user ∧ (z'.hdr v).id = (z.hdr v).id

/-- What a scan may do to the heap between `z` (ring `l`) and `z'` (ring `l'`): owner
slots are only ever set to `NULL`, and a block in use in `z` is either still a member
with the same size, tag, owner and id, or it was purgeable and its owner slot (if the
owner pointer is above `0x100`) now holds `NULL`. -/
def Frame (z z' : Zone) (l l' : List Nat) : Prop :=
  z'.mainzone_blocklist = z.mainzone_blocklist ∧
  (∀ u, z'.slot u = z.slot u ∨ z'.slot u = NULL) ∧
  (∀ v ∈ l, (z.hdr v).user ≠ 0 →
    (v ∈ l' ∧ Kept z z' v) ∨
    (PU_PURGELEVEL ≤ (z.hdr v).tag ∧
      (0x100 < (z.hdr v).user → z'.slot (z.hdr v).user = NULL)))

/-- The invariant of the scan loop of `Z_Malloc`, over the ring opened at `start`:
`vis` are the blocks already passed, `rem` the blocks still ahead of `rover`. -/
structure ScanInv (z : Zone) (start lo hi base rover : Nat) (vis rem : List Nat) : Prop where
  hring : Ring z start (vis ++ rem) lo hi
  hstart : (z.hdr start).user ≠ 0
  hrover : rover = firstOr rem start
  hbase : (base = rover ∧ (z.hdr (lastOr vis start)).user ≠ 0) ∨
    (∃ vis0, vis = vis0 ++ [base] ∧ (z.hdr base).user = 0)

/-- What the scan of `Z_Malloc` guarantees when started in a state `z` satisfying the
loop invariant, with ring `l` and `n` blocks ahead of the rover: it runs out of fuel
only if `fuel ≤ n`; its only fatal error is the exhaustion error; and when it selects a
block, that block is a free member of the ring and large enough. -/
def ScanPost (size start lo hi : Nat) (z : Zone) (l : List Nat) (n fuel : Nat) :
    Res Nat → Prop
  | .timeout => fuel ≤ n
  | .fatal e z' => e = ZErr.allocFailed ∧ (z'.hdr start).user ≠ 0 ∧
      ∃ rest', Ring z' start rest' lo hi ∧ Frame z z' l (start :: rest')
  | .ok z' b => (z'.hdr b).user = 0 ∧ size ≤ (z'.hdr b).size ∧ (z'.hdr start).user ≠ 0 ∧
      ∃ pre post, Ring z' start (pre ++ b :: post) lo hi ∧
        Frame z z' l (start :: (pre ++ b :: post))

/-- The state `Z_Malloc` returns once the scan has selected `base` in state `z1`. -/
def Z_Malloc_finish (z1 : Zone) (base size : Nat) (tag : Int) (user : Nat) : Zone :=
  if user ≠ 0 then
    (markUsed (Z_Malloc_split z1 base size) base user tag).setSlot user
      (segmentToPointer (base + 1))
  else markUsed (Z_Malloc_split z1 base size) base 2 tag

/-- The scan of `Z_Malloc`, started in `z` with ring `l`, has selected the block `b` in
state `z1`: a free member of the ring of `z1`, of size at least `sz`. -/
structure ScanOK (z z1 : Zone) (l : List Nat) (sz start b : Nat) (pre post : List Nat)
    (lo hi : Nat) : Prop where
  hring : Ring z1 start (pre ++ b :: post) lo hi
  hfree : (z1.hdr b).user = 0
  hbig : sz ≤ (z1.hdr b).size
  hstart : (z1.hdr start).user ≠ 0
  hframe : Frame z z1 l (start :: (pre ++ b :: post))

/-- The heap invariant: the blocks form a well-formed ring through the sentinel. -/
def WF (z : Zone) : Prop := ∃ rest lo hi, Ring z z.mainzone_blocklist rest lo hi

/-! ## Concrete heaps used to exercise the theorems -/

/-- The state carried by an outcome, `d` when the fuel ran out. -/
def Res.zoneD {α : Type} (r : Res α) (d : Zone) : Zone :=
  match r with
  | .ok z _ => z
  | .fatal _ z => z
  | .timeout => d

/-- An environment: `halloc` grants the full 40960 paragraphs at `1000:0000`, the
sentinel buffer is at `0800:0000`, and memory holds zeros. -/
def exEnv : Env :=
  { halloc := fun n => if n = 40960 then ⟨0x1000, 0⟩ else NULL
    buffer := ⟨0x0800, 0⟩
    hdr := fun _ => ⟨0, 0, 0, 0, 0, 0⟩
    slot := fun _ => NULL }

def exDefault : Zone := ⟨exEnv.hdr, exEnv.slot, NULL, 0, 0⟩

/-- The heap after `Z_Init`: sentinel at paragraph `0x800`, one free block of 655360
bytes at paragraph `0x1000`. -/
def exInit : Zone := (Z_Init 1 exEnv).zoneD exDefault

/-- `exInit` after `Z_Malloc(112, PU_STATIC, NULL)`: block `A` of 128 bytes at `0x1000`. -/
def exA : Zone := (Z_Malloc 10 exInit 112 1 0).zoneD exDefault

/-- `exA` after `Z_Malloc(16, PU_STATIC, NULL)`: block `B` of 32 bytes at `0x1008`. -/
def exB : Zone := (Z_Malloc 10 exA 16 1 0).zoneD exDefault

/-- `exB` after `Z_Malloc(655184, PU_STATIC, NULL)`: block `C` takes all that is left. -/
def exC : Zone := (Z_Malloc 10 exB 655184 1 0).zoneD exDefault

/-- `exC` after `Z_Free` of block `A`. -/
def exD : Zone := (Z_Free exC (segmentToPointer 0x1001)).zoneD exDefault

/-- `exD` after `Z_Malloc(16, PU_STATIC, NULL)`: the free block at `0x1000` is split. -/
def exE : Zone := (Z_Malloc 10 exD 16 1 0).zoneD exDefault

/-- `exInit` after `Z_Malloc(16, PU_CACHE, 0x80)`: a purgeable block whose owner pointer
is below `0x100`. -/
def exLow : Zone := (Z_Malloc 10 exInit 16 4 0x80).zoneD exDefault

/-- `exInit` after `Z_Malloc(16, PU_CACHE, 0x200)`: a purgeable block at `0x1000`. -/
def exQ : Zone := (Z_Malloc 10 exInit 16 4 0x200).zoneD exDefault

/-- `exLow` after `Z_Free` of its purgeable block. -/
def exLowF : Zone := (Z_Free exLow (segmentToPointer 0x1001)).zoneD exDefault

/-- The state in which `Z_Malloc(16, PU_CACHE, NULL)` on `exInit` stops. -/
def exO : Zone := (Z_Malloc 10 exInit 16 4 0).zoneD exDefault

/-- `exInit` after `Z_Malloc(16, PU_STATIC, NULL)`: block `X` of 32 bytes at `0x1000`. -/
def exR1 : Zone := (Z_Malloc 10 exInit 16 1 0).zoneD exDefault

/-- `exR1` after `Z_Malloc(1008, PU_CACHE, 0x200)`: purgeable block `A` of 1024 bytes at
`0x1002`, owner slot `0x200`. -/
def exR2 : Zone := (Z_Malloc 10 exR1 1008 4 0x200).zoneD exDefault

/-- `exR2` after `Z_Malloc(16, PU_STATIC, NULL)`: block `B` of 32 bytes at `0x1042`. -/
def exR3 : Zone := (Z_Malloc 10 exR2 16 1 0).zoneD exDefault

/-- `exR3` after `Z_Malloc(654256, PU_STATIC, NULL)`: block `C` at `0x1044` takes all
that is left. -/
def exR4 : Zone := (Z_Malloc 10 exR3 654256 1 0).zoneD exDefault

/-- `exR4` after `Z_Free` of block `X`: a free block of 32 bytes before block `A`. -/
def exR5 : Zone := (Z_Free exR4 (segmentToPointer 0x1001)).zoneD exDefault

/-- `exR5` after `Z_Free` of block `A`. -/
def exR5F : Zone := (Z_Free exR5 (segmentToPointer 0x1003)).zoneD exDefault

/-- `exR5` after `Z_Malloc(64, PU_CACHE, 0x300)`, whose scan evicts block `A`. -/
def exR6 : Zone := (Z_Malloc 10 exR5 64 4 0x300).zoneD exDefault

/-- `exR5` after `Z_Malloc(64, PU_CACHE, 0x200)`, whose scan evicts block `A` and which
passes the owner slot of `A` again. -/
def exR6s : Zone := (Z_Malloc 10 exR5 64 4 0x200).zoneD exDefault

/-- Lines 260 and 268 of `Z_Malloc` on 32-bit two's-complement words, `size` being the bit
pattern of the `int32_t` argument: `size = (size + 15) & ~15`, where `~15` is
`0xFFFFFFF0`, then `size += 16`. -/
def Z_Malloc_size32 (size : Nat) : Nat :=
  let size := ((size + (PARAGRAPH_SIZE - 1)) % 2 ^ 32) &&& (2 ^ 32 - 1 - (PARAGRAPH_SIZE - 1))
  (size + PARAGRAPH_SIZE) % 2 ^ 32

/-- An environment in which `halloc` refuses every request. -/
def exNoMem : Env :=
  { halloc := fun _ => NULL
    buffer := ⟨0x0800, 0⟩
    hdr := fun _ => ⟨0, 0, 0, 0, 0, 0⟩
    slot := fun _ => NULL }

/-- Lines 270-310 of `Z_Malloc`: back up the rover over a free block, then scan; yields
the free region `base` selected for the needed block size, in the state the scan left. -/
def Z_Malloc_find (fuel : Nat) (z : Zone) (size : Nat) : Res Nat :=
  let size := Z_Malloc_size size
  let base := z.mainzone_rover
  let base := if (z.hdr (z.hdr base).prev).user = 0 then (z.hdr base).prev else base
  let rover := base
  let start := (z.hdr base).prev
  Z_Malloc_scan size start fuel z base rover

/-- The block that holds the bytes of `block` once `Z_Free` is done: the variable `block`
of the source after the first merge (line 211), that is the predecessor when that one
is free and `block` itself otherwise. -/
def Z_Free_target (z : Zone) (block : Nat) : Nat :=
  if (z.hdr (z.hdr block).prev).user = 0 then (z.hdr block).prev else block

/-- `exR1` after `Z_Malloc(16, PU_STATIC, NULL)`: block `Y` of 32 bytes at `0x1002`, the
free remainder at `0x1004`. -/
def exS2 : Zone := (Z_Malloc 10 exR1 16 1 0).zoneD exDefault

/-- `exS2` after `Z_Free` of block `X`: block `Y` stands between two free blocks. -/
def exS3 : Zone := (Z_Free exS2 (segmentToPointer 0x1001)).zoneD exDefault

/-- `exS3` after `Z_Free` of block `Y`. -/
def exS4 : Zone := (Z_Free exS3 (segmentToPointer 0x1003)).zoneD exDefault

/-- The blocks of the list reach from `lo` to `hi`: the first block after the sentinel
starts at paragraph `lo` and the last block before the sentinel ends at paragraph `hi`. -/
def Tiled (z : Zone) (lo hi : Nat) : Prop :=
  (z.hdr z.mainzone_blocklist).next = lo ∧
  (z.hdr z.mainzone_blocklist).prev +
    (z.hdr (z.hdr z.mainzone_blocklist).prev).size / 16 = hi

/-- The test of `Z_FreeTags` (lines 406-409) on the block at `v`: the block is in use and
its tag lies between `PU_LEVEL` and `PU_PURGELEVEL - 1`, so it is `PU_LEVEL` or
`PU_LEVSPEC`. -/
def Levelled (z : Zone) (v : Nat) : Prop :=
  (z.hdr v).user ≠ 0 ∧ PU_LEVEL ≤ (z.hdr v).tag ∧ (z.hdr v).tag ≤ PU_PURGELEVEL - 1

/-- What `Z_FreeTags` may have done to the heap between `z` (list `l`) and `z'` (list
`l'`): a free header stays free; an owner slot is either untouched or holds `NULL`, and
then it is the owner (above `0x100`) of a block that was level-tagged; a level-tagged
block is either freed, with its owner slot nulled, or still a level-tagged member with
the same owner; any other in-use block is still a member with the same size, tag,
owner and id; and no block has become level-tagged. -/
def PurgeFrame (z z' : Zone) (l l' : List Nat) : Prop :=
  z'.mainzone_blocklist = z.mainzone_blocklist ∧
  (∀ v, (z.hdr v).user = 0 → (z'.hdr v).user = 0) ∧
  (∀ u, z'.slot u = z.slot u ∨
    (z'.slot u = NULL ∧ ∃ w ∈ l, Levelled z w ∧ (z.hdr w).user = u ∧ 0x100 < u)) ∧
  (∀ v ∈ l, Levelled z v →
    ((z'.hdr v).user = 0 ∧ (0x100 < (z.hdr v).user → z'.slot (z.hdr v).user = NULL)) ∨
    (v ∈ l' ∧ Levelled z' v ∧ (z'.hdr v).user = (z.hdr v).user)) ∧
  (∀ v ∈ l, (z.hdr v).user ≠ 0 → ¬ Levelled z v → v ∈ l' ∧ Kept z z' v) ∧
  (∀ w ∈ l', Levelled z' w → w ∈ l ∧ Levelled z w ∧ (z.hdr w).user = (z'.hdr w).user)

/-- The loop of `Z_GetLargestFreeBlockSize` from the current `block`; `none` when the
fuel runs out. -/
def Z_GetLargestFreeBlockSize_loop : Nat → Zone → Nat → Nat → Option Nat
  | 0, _, _, _ => none
  | fuel + 1, z, block, largestFreeBlockSize =>
    if block = z.mainzone_blocklist then some largestFreeBlockSize
    else
      let largestFreeBlockSize :=
        if (z.hdr block).user = 0 ∧ (z.hdr block).size > largestFreeBlockSize then
          (z.hdr block).size
        else largestFreeBlockSize
      Z_GetLargestFreeBlockSize_loop fuel z (z.hdr block).next largestFreeBlockSize

/-- `Z_GetLargestFreeBlockSize`. -/
def Z_GetLargestFreeBlockSize (fuel : Nat) (z : Zone) : Option Nat :=
  Z_GetLargestFreeBlockSize_loop fuel z (z.hdr z.mainzone_blocklist).next 0

/-- The loop of `Z_GetTotalFreeMemory` from the current `block` (the sum is a
`uint32_t`); `none` when the fuel runs out. -/
def Z_GetTotalFreeMemory_loop : Nat → Zone → Nat → Nat → Option Nat
  | 0, _, _, _ => none
  | fuel + 1, z, block, totalFreeMemory =>
    if block = z.mainzone_blocklist then some totalFreeMemory
    else
      let totalFreeMemory :=
        if (z.hdr block).user = 0 then (totalFreeMemory + (z.hdr block).size) % 2 ^ 32
        else totalFreeMemory
      Z_GetTotalFreeMemory_loop fuel z (z.hdr block).next totalFreeMemory

/-- `Z_GetTotalFreeMemory`. -/
def Z_GetTotalFreeMemory (fuel : Nat) (z : Zone) : Option Nat :=
  Z_GetTotalFreeMemory_loop fuel z (z.hdr z.mainzone_blocklist).next 0

/-- Heap states reached from the state `z0` by successful `Z_Malloc` calls, `Z_Free`
calls on addresses of in-use blocks, and `Z_FreeTags` calls. -/
inductive ReachedFrom (z0 : Zone) : Zone → Prop where
  | start : ReachedFrom z0 z0
  | malloc (fuel : Nat) (z : Zone) (size : Nat) (tag : Int) (user : Nat) (z' : Zone)
      (p : FarPtr) :
      ReachedFrom z0 z → Z_Malloc fuel z size tag user = .ok z' p → ReachedFrom z0 z'
  | free (z : Zone) (ptr : FarPtr) (b : Nat) (z' : Zone) :
      ReachedFrom z0 z → InUse z b → pointerToSegment ptr = some (b + 1) →
      Z_Free z ptr = .ok z' () → ReachedFrom z0 z'
  | freeTags (fuel : Nat) (z z' : Zone) :
      ReachedFrom z0 z → Z_FreeTags fuel z = .ok z' () → ReachedFrom z0 z'

/-- `exInit` after `Z_Malloc(16, PU_LEVEL, 0x200)`: a level block at `0x1000`, followed by
the free remainder at `0x1002`. -/
def exP1 : Zone := (Z_Malloc 10 exInit 16 2 0x200).zoneD exDefault

/-- `exP1` after `Z_FreeTags`. -/
def exP1F : Zone := (Z_FreeTags 10 exP1).zoneD exDefault

/-- `exR1` (a static block at `0x1000`) after `Z_Malloc(16, PU_LEVEL, 0x200)`: a level
block at `0x1002`. -/
def exT2 : Zone := (Z_Malloc 10 exR1 16 2 0x200).zoneD exDefault

/-- `exT2` after `Z_Malloc(16, PU_CACHE, 0x300)`: a cache block at `0x1004`. -/
def exT3 : Zone := (Z_Malloc 10 exT2 16 4 0x300).zoneD exDefault

/-- `exT3` after `Z_FreeTags`. -/
def exT3F : Zone := (Z_FreeTags 10 exT3).zoneD exDefault

/-- `exQ` (a cache block at `0x1000` with owner slot `0x200`) after
`Z_Malloc(16, PU_LEVEL, 0x200)`: a level block at `0x1002` recording the same owner slot. -/
def exSh : Zone := (Z_Malloc 10 exQ 16 2 0x200).zoneD exDefault

/-- `exSh` after `Z_FreeTags`. -/
def exShF : Zone := (Z_FreeTags 10 exSh).zoneD exDefault

/-- `exInit` after `Z_Malloc(100, PU_STATIC, NULL)`, which returns `a1 = 1001:0000`. -/
def exW1 : Zone := (Z_Malloc 10 exInit 100 1 0).zoneD exDefault

/-- `exW1` after `Z_Malloc(200, PU_LEVEL, 0x200)`, which returns `a2 = 1009:0000`. -/
def exW2 : Zone := (Z_Malloc 10 exW1 200 2 0x200).zoneD exDefault

/-- `exW2` after `Z_Free(a1)`. -/
def exW3 : Zone := (Z_Free exW2 (segmentToPointer 0x1001)).zoneD exDefault

/-- `exW3` after `Z_FreeTags`. -/
def exW4 : Zone := (Z_FreeTags 10 exW3).zoneD exDefault

/-- An environment in which nothing is aligned: `halloc` grants the full 40960 paragraphs
at `1000:0008`, and the sentinel buffer starts at `0800:0004`. -/
def exMis : Env :=
  { halloc := fun n => if n = 40960 then ⟨0x1000, 8⟩ else NULL
    buffer := ⟨0x0800, 4⟩
    hdr := fun _ => ⟨0, 0, 0, 0, 0, 0⟩
    slot := fun _ => NULL }

/-- The heap after `Z_Init` in `exMis`: sentinel at paragraph `0x801`, one free block of
655344 bytes at paragraph `0x1001`. -/
def exMisInit : Zone := (Z_Init 1 exMis).zoneD exDefault

/-- `exR1` after `Z_Malloc(655312, PU_CACHE, 0x200)`: the purgeable block `A` at `0x1002`
takes the whole remainder, so the list is `X`, `A`. -/
def exU2 : Zone := (Z_Malloc 10 exR1 655312 4 0x200).zoneD exDefault

/-- `exU2` after `Z_Free` of block `X`. -/
def exU3 : Zone := (Z_Free exU2 (segmentToPointer 0x1001)).zoneD exDefault

/-- `exU3` after `Z_Malloc(16, PU_STATIC, NULL)`, which takes `X` again and leaves the
rover at `A`. -/
def exU4 : Zone := (Z_Malloc 10 exU3 16 1 0).zoneD exDefault

/-- `exU4` after `Z_Free` of block `X`: the rover designates `A`, the block before it is
free with 32 bytes. -/
def exU5 : Zone := (Z_Free exU4 (segmentToPointer 0x1001)).zoneD exDefault

/-- `exU5` after `Z_Malloc(64, PU_STATIC, NULL)`, which evicts `A`. -/
def exU6 : Zone := (Z_Malloc 10 exU5 64 1 0).zoneD exDefault

/-- The structural conditions of the specification on the block at `b`, in the order
size check, back link, adjacent free: the error of the first one that `b` violates, `none`
when it violates none. -/
def spec_violation (z : Zone) (b : Nat) : Option ZErr :=
  if b + (z.hdr b).size / PARAGRAPH_SIZE ≠ (z.hdr b).next then some .checkSize
  else if (z.hdr (z.hdr b).next).prev ≠ b then some .checkBackLink
  else if (z.hdr b).user = 0 ∧ (z.hdr (z.hdr b).next).user = 0 then some .checkTwoFree
  else none

/-- `exW3` with the size field of the block at `0x1008` overwritten by 64. -/
def exBadSize : Zone := exW3.setSize 0x1008 64

/-- `exE` with the size field of the block at `0x1008` overwritten by 64. -/
def exBadId : Zone := exE.setSize 0x1008 64

/-- `memset(s, c, n)` of the C library on the byte memory `m`, addressed linearly: the `n`
bytes from the address of `s` on are set to `c`, every other byte is kept. -/
def memset (m : Nat → Nat) (s : FarPtr) (c n : Nat) : Nat → Nat :=
  fun a => if s.linear ≤ a ∧ a < s.linear + n then c % 256 else m a

/-- `Z_CallocLevSpec` on the heap `z` and the byte memory `m`; the result is the address
and the memory. The third argument of `memset` is a `size_t`, to which the `int32_t`
`size` is converted; `sizeBits` is the width of `size_t`, 16 on the 8086 targets. -/
def Z_CallocLevSpec (sizeBits fuel : Nat) (z : Zone) (m : Nat → Nat) (size : Nat) :
    Res (FarPtr × (Nat → Nat)) :=
  match Z_Malloc fuel z size PU_LEVSPEC 0 with
  | .ok z ptr => .ok z (ptr, memset m ptr 0 (size % 2 ^ sizeBits))
  | .fatal e z => .fatal e z
  | .timeout => .timeout

/-- `Z_CallocLevel` on the heap `z` and the byte memory `m`, as `Z_CallocLevSpec` with the
tag `PU_LEVEL`. -/
def Z_CallocLevel (sizeBits fuel : Nat) (z : Zone) (m : Nat → Nat) (size : Nat) :
    Res (FarPtr × (Nat → Nat)) :=
  match Z_Malloc fuel z size PU_LEVEL 0 with
  | .ok z ptr => .ok z (ptr, memset m ptr 0 (size % 2 ^ sizeBits))
  | .fatal e z => .fatal e z
  | .timeout => .timeout

/-- The byte at linear address `a` of the memory a zero-filled allocation returned, `d`
when the call did not return. -/
def Res.byteD (r : Res (FarPtr × (Nat → Nat))) (a d : Nat) : Nat :=
  match r with
  | .ok _ v => v.2 a
  | _ => d
/-- What the zeroing of a zero-filled allocation did: `p` is the payload address of a
block of the list of `z1`, whose payload holds `n` bytes; `m1` is `m` with the `w` bytes
from `p` on set to zero, these bytes lie in that payload and in no header of a block of
the list, and every other byte is as in `m`. -/
def ZeroFilled (m : Nat → Nat) (n w : Nat) (z1 : Zone) (p : FarPtr) (m1 : Nat → Nat) : Prop :=
  1 ≤ p.seg ∧ p.off = 0 ∧ InList z1 (p.seg - 1) ∧ p.linear = (p.seg - 1) * 16 + 16 ∧
  p.linear + n ≤ (p.seg - 1) * 16 + (z1.hdr (p.seg - 1)).size ∧ w ≤ n ∧
  (∀ a, p.linear ≤ a → a < p.linear + w → m1 a = 0) ∧
  (∀ a, a < p.linear ∨ p.linear + w ≤ a → m1 a = m a) ∧
  (∀ v, InList z1 v → v * 16 + 16 ≤ p.linear ∨ p.linear + w ≤ v * 16)

/-- The last block of the list, the one before the sentinel, has at least 16 bytes. -/
def LastPos (z : Zone) : Prop :=
  16 ≤ (z.hdr (z.hdr z.mainzone_blocklist).prev).size

/-- An environment with almost no far memory: `halloc` refuses every request but the one
for a single paragraph, which it grants at the unaligned address `1000:0008`. -/
def exDeg : Env :=
  { halloc := fun n => if n = 1 then ⟨0x1000, 8⟩ else NULL
    buffer := ⟨0x0800, 0⟩
    hdr := fun _ => ⟨0, 0, 0, 0, 0, 0⟩
    slot := fun _ => NULL }

/-- The heap `Z_Init` builds in `exDeg`: `mainzone` stepped up to `1000:0010`, the usable
size 16 - 16 = 0, so one free block of 0 bytes at paragraph `0x1001`. -/
def exDegInit : Zone :=
  (Z_Init_setup exDeg (alignUp 16 ⟨0x1000, 8⟩) (alignUp 16 exDeg.buffer) 0).zoneD exDefault

/-- The value of a 32-bit word taken as a two's-complement `int32_t`. -/
def toInt32 (n : Nat) : Int :=
  if n % 4294967296 < 2147483648 then Int.ofNat (n % 4294967296)
  else Int.ofNat (n % 4294967296) - 4294967296

/-- Modelled from the spec: a sound channel of `s_sound.c`, with the two fields
`S_SoundIsPlaying` reads: `sfxinfo`, the pointer to the sound assigned to the channel
(`0` for `NULL`), and `tickend`, the 32-bit tick-end stamp, a signed value. -/
structure channel_t where
  sfxinfo : Nat
  tickend : Nat

/-- Modelled from the spec: the part of the global state `_g` that `S_SoundIsPlaying`
reads: the channels and the 32-bit tick counter `gametic`, a signed value. -/
structure globals_t where
  channels : Nat → channel_t
  gametic : Nat

/-- `S_SoundIsPlaying` of `s_sound.c` (lines 274-286). -/
def S_SoundIsPlaying (g : globals_t) (cnum : Nat) : Bool :=
  let channel := g.channels cnum
  if channel.sfxinfo ≠ 0 then
    let ticknow := toInt32 g.gametic
    decide (toInt32 channel.tickend < ticknow)
  else false

/-- A sound state at the rollover of the tick counter: channel 0 has a sound assigned that
ends at tick `0x7FFFFFFF`, and `gametic` is one tick later, `0x80000000`. -/
def exSnd : globals_t :=
  { channels := fun _ => ⟨1, 0x7FFFFFFF⟩
    gametic := 0x80000000 }

/-- Heap states reached from `Z_Init` through the exported operations only: successful
calls of `Z_MallocStatic`, `Z_MallocLevel`, `Z_CallocLevel` and `Z_CallocLevSpec`, `Z_Free`
calls on addresses of in-use blocks, and `Z_FreeTags` calls. -/
inductive PublicReached : Zone → Prop where
  | init (fuel : Nat) (env : Env) (z : Zone) :
      EnvOK env → Z_Init fuel env = .ok z () → PublicReached z
  | mallocStatic (fuel : Nat) (z : Zone) (size : Nat) (z' : Zone) (p : FarPtr) :
      PublicReached z → Z_MallocStatic fuel z size = .ok z' p → PublicReached z'
  | mallocLevel (fuel : Nat) (z : Zone) (size user : Nat) (z' : Zone) (p : FarPtr) :
      PublicReached z → Z_MallocLevel fuel z size user = .ok z' p → PublicReached z'
  | callocLevSpec (sizeBits fuel : Nat) (z : Zone) (m : Nat → Nat) (size : Nat) (z' : Zone)
      (r : FarPtr × (Nat → Nat)) :
      PublicReached z → Z_CallocLevSpec sizeBits fuel z m size = .ok z' r → PublicReached z'
  | callocLevel (sizeBits fuel : Nat) (z : Zone) (m : Nat → Nat) (size : Nat) (z' : Zone)
      (r : FarPtr × (Nat → Nat)) :
      PublicReached z → Z_CallocLevel sizeBits fuel z m size = .ok z' r → PublicReached z'
  | free (z : Zone) (ptr : FarPtr) (b : Nat) (z' : Zone) :
      PublicReached z → InUse z b → pointerToSegment ptr = some (b + 1) →
      Z_Free z ptr = .ok z' () → PublicReached z'
  | freeTags (fuel : Nat) (z z' : Zone) :
      PublicReached z → Z_FreeTags fuel z = .ok z' () → PublicReached z'

/-- Every block in use of the list has the tag `PU_STATIC`, `PU_LEVEL` or `PU_LEVSPEC`. -/
def Unpurgeable (z : Zone) : Prop :=
  ∀ v, InList z v → (z.hdr v).user ≠ 0 →
    (z.hdr v).tag = PU_STATIC ∨ (z.hdr v).tag = PU_LEVEL ∨ (z.hdr v).tag = PU_LEVSPEC

/-- The outcome `r` of an allocation on `z` for the owner `user` has evicted nothing: it
is not the owner-required error, and in the state it ended in every block that was in
use is still in the list with the same size, tag, user field and id, and every owner
slot holds what it held, but for the slot of `user` itself. -/
def NoEvict {α : Type} (z : Zone) (user : Nat) (r : Res α) : Prop :=
  r.err ≠ some ZErr.ownerRequired ∧
  ∀ z', r.state = some z' →
    (∀ v, InList z v → (z.hdr v).user ≠ 0 → InList z' v ∧ Kept z z' v) ∧
    (∀ u, ¬ (user ≠ 0 ∧ u = user) → z'.slot u = z.slot u)

/-- The sum of the size fields of the blocks in `l`. -/
def sizeSum (z : Zone) : List Nat → Nat
  | [] => 0
  | v :: l => (z.hdr v).size + sizeSum z l

/-! ## Facts about the stores -/

@[simp] theorem setHdr_hdr (z : Zone) (b : Nat) (h : memblock_t) (x : Nat) :
    (z.setHdr b h).hdr x = if x = b then h else z.hdr x := rfl
@[simp] theorem setHdr_slot (z : Zone) (b : Nat) (h : memblock_t) : (z.setHdr b h).slot = z.slot := rfl
@[simp] theorem setHdr_blocklist (z : Zone) (b : Nat) (h : memblock_t) :
    (z.setHdr b h).mainzone_blocklist = z.mainzone_blocklist := rfl
@[simp] theorem setHdr_rover (z : Zone) (b : Nat) (h : memblock_t) :
    (z.setHdr b h).mainzone_rover = z.mainzone_rover := rfl
@[simp] theorem setRover_hdr (z : Zone) (r : Nat) : (z.setRover r).hdr = z.hdr := rfl
@[simp] theorem setRover_slot (z : Zone) (r : Nat) : (z.setRover r).slot = z.slot := rfl
@[simp] theorem setRover_blocklist (z : Zone) (r : Nat) :
    (z.setRover r).mainzone_blocklist = z.mainzone_blocklist := rfl
@[simp] theorem setRover_rover (z : Zone) (r : Nat) : (z.setRover r).mainzone_rover = r := rfl
@[simp] theorem setSlot_hdr (z : Zone) (u : Nat) (p : FarPtr) : (z.setSlot u p).hdr = z.hdr := rfl
@[simp] theorem setSlot_slot (z : Zone) (u : Nat) (p : FarPtr) (x : Nat) :
    (z.setSlot u p).slot x = if x = u then p else z.slot x := rfl
@[simp] theorem setSlot_blocklist (z : Zone) (u : Nat) (p : FarPtr) :
    (z.setSlot u p).mainzone_blocklist = z.mainzone_blocklist := rfl
@[simp] theorem setSlot_rover (z : Zone) (u : Nat) (p : FarPtr) :
    (z.setSlot u p).mainzone_rover = z.mainzone_rover := rfl

@[simp] theorem setSize_size (z : Zone) (b v x : Nat) :
    ((z.setSize b v).hdr x).size = if x = b then v % 2 ^ 24 else (z.hdr x).size := by
  unfold Zone.setSize; rw [setHdr_hdr]; split
  · rfl
  · rfl

@[simp] theorem setSize_tag (z : Zone) (b v x : Nat) :
    ((z.setSize b v).hdr x).tag = (z.hdr x).tag := by
  unfold Zone.setSize; rw [setHdr_hdr]; split
  · rename_i e; rw [e]
  · rfl

@[simp] theorem setSize_user (z : Zone) (b v x : Nat) :
    ((z.setSize b v).hdr x).user = (z.hdr x).user := by
  unfold Zone.setSize; rw [setHdr_hdr]; split
  · rename_i e; rw [e]
  · rfl

@[simp] theorem setSize_next (z : Zone) (b v x : Nat) :
    ((z.setSize b v).hdr x).next = (z.hdr x).next := by
  unfold Zone.setSize; rw [setHdr_hdr]; split
  · rename_i e; rw [e]
  · rfl

@[simp] theorem setSize_prev (z : Zone) (b v x : Nat) :
    ((z.setSize b v).hdr x).prev = (z.hdr x).prev := by
  unfold Zone.setSize; rw [setHdr_hdr]; split
  · rename_i e; rw [e]
  · rfl

@[simp] theorem setSize_id (z : Zone) (b v x : Nat) :
    ((z.setSize b v).hdr x).id = (z.hdr x).id := by
  unfold Zone.setSize; rw [setHdr_hdr]; split
  · rename_i e; rw [e]
  · rfl

@[simp] theorem setSize_blocklist (z : Zone) (b v : Nat) :
    (z.setSize b v).mainzone_blocklist = z.mainzone_blocklist := rfl

@[simp] theorem setSize_rover (z : Zone) (b v : Nat) :
    (z.setSize b v).mainzone_rover = z.mainzone_rover := rfl

@[simp] theorem setSize_slot (z : Zone) (b v : Nat) :
    (z.setSize b v).slot = z.slot := rfl

@[simp] theorem setSize_mainzone (z : Zone) (b v : Nat) :
    (z.setSize b v).mainzone = z.mainzone := rfl

theorem setSize_hdr_ne (z : Zone) (b v x : Nat) (h : x ≠ b) :
    (z.setSize b v).hdr x = z.hdr x := by
  unfold Zone.setSize; rw [setHdr_hdr, if_neg h]

@[simp] theorem setTag_size (z : Zone) (b v x : Nat) :
    ((z.setTag b v).hdr x).size = (z.hdr x).size := by
  unfold Zone.setTag; rw [setHdr_hdr]; split
  · rename_i e; rw [e]
  · rfl

@[simp] theorem setTag_tag (z : Zone) (b v x : Nat) :
    ((z.setTag b v).hdr x).tag = if x = b then v % 16 else (z.hdr x).tag := by
  unfold Zone.setTag; rw [setHdr_hdr]; split
  · rfl
  · rfl

@[simp] theorem setTag_user (z : Zone) (b v x : Nat) :
    ((z.setTag b v).hdr x).user = (z.hdr x).user := by
  unfold Zone.setTag; rw [setHdr_hdr]; split
  · rename_i e; rw [e]
  · rfl

@[simp] theorem setTag_next (z : Zone) (b v x : Nat) :
    ((z.setTag b v).hdr x).next = (z.hdr x).next := by
  unfold Zone.setTag; rw [setHdr_hdr]; split
  · rename_i e; rw [e]
  · rfl

@[simp] theorem setTag_prev (z : Zone) (b v x : Nat) :
    ((z.setTag b v).hdr x).prev = (z.hdr x).prev := by
  unfold Zone.setTag; rw [setHdr_hdr]; split
  · rename_i e; rw [e]
  · rfl

@[simp] theorem setTag_id (z : Zone) (b v x : Nat) :
    ((z.setTag b v).hdr x).id = (z.hdr x).id := by
  unfold Zone.setTag; rw [setHdr_hdr]; split
  · rename_i e; rw [e]
  · rfl

@[simp] theorem setTag_blocklist (z : Zone) (b v : Nat) :
    (z.setTag b v).mainzone_blocklist = z.mainzone_blocklist := rfl

@[simp] theorem setTag_rover (z : Zone) (b v : Nat) :
    (z.setTag b v).mainzone_rover = z.mainzone_rover := rfl

@[simp] theorem setTag_slot (z : Zone) (b v : Nat) :
    (z.setTag b v).slot = z.slot := rfl

@[simp] theorem setTag_mainzone (z : Zone) (b v : Nat) :
    (z.setTag b v).mainzone = z.mainzone := rfl

theorem setTag_hdr_ne (z : Zone) (b v x : Nat) (h : x ≠ b) :
    (z.setTag b v).hdr x = z.hdr x := by
  unfold Zone.setTag; rw [setHdr_hdr, if_neg h]

@[simp] theorem setUser_size (z : Zone) (b v x : Nat) :
    ((z.setUser b v).hdr x).size = (z.hdr x).size := by
  unfold Zone.setUser; rw [setHdr_hdr]; split
  · rename_i e; rw [e]
  · rfl

@[simp] theorem setUser_tag (z : Zone) (b v x : Nat) :
    ((z.setUser b v).hdr x).tag = (z.hdr x).tag := by
  unfold Zone.setUser; rw [setHdr_hdr]; split
  · rename_i e; rw [e]
  · rfl

@[simp] theorem setUser_user (z : Zone) (b v x : Nat) :
    ((z.setUser b v).hdr x).user = if x = b then v else (z.hdr x).user := by
  unfold Zone.setUser; rw [setHdr_hdr]; split
  · rfl
  · rfl

@[simp] theorem setUser_next (z : Zone) (b v x : Nat) :
    ((z.setUser b v).hdr x).next = (z.hdr x).next := by
  unfold Zone.setUser; rw [setHdr_hdr]; split
  · rename_i e; rw [e]
  · rfl

@[simp] theorem setUser_prev (z : Zone) (b v x : Nat) :
    ((z.setUser b v).hdr x).prev = (z.hdr x).prev := by
  unfold Zone.setUser; rw [setHdr_hdr]; split
  · rename_i e; rw [e]
  · rfl

@[simp] theorem setUser_id (z : Zone) (b v x : Nat) :
    ((z.setUser b v).hdr x).id = (z.hdr x).id := by
  unfold Zone.setUser; rw [setHdr_hdr]; split
  · rename_i e; rw [e]
  · rfl

@[simp] theorem setUser_blocklist (z : Zone) (b v : Nat) :
    (z.setUser b v).mainzone_blocklist = z.mainzone_blocklist := rfl

@[simp] theorem setUser_rover (z : Zone) (b v : Nat) :
    (z.setUser b v).mainzone_rover = z.mainzone_rover := rfl

@[simp] theorem setUser_slot (z : Zone) (b v : Nat) :
    (z.setUser b v).slot = z.slot := rfl

@[simp] theorem setUser_mainzone (z : Zone) (b v : Nat) :
    (z.setUser b v).mainzone = z.mainzone := rfl

theorem setUser_hdr_ne (z : Zone) (b v x : Nat) (h : x ≠ b) :
    (z.setUser b v).hdr x = z.hdr x := by
  unfold Zone.setUser; rw [setHdr_hdr, if_neg h]

@[simp] theorem setNext_size (z : Zone) (b v x : Nat) :
    ((z.setNext b v).hdr x).size = (z.hdr x).size := by
  unfold Zone.setNext; rw [setHdr_hdr]; split
  · rename_i e; rw [e]
  · rfl

@[simp] theorem setNext_tag (z : Zone) (b v x : Nat) :
    ((z.setNext b v).hdr x).tag = (z.hdr x).tag := by
  unfold Zone.setNext; rw [setHdr_hdr]; split
  · rename_i e; rw [e]
  · rfl

@[simp] theorem setNext_user (z : Zone) (b v x : Nat) :
    ((z.setNext b v).hdr x).user = (z.hdr x).user := by
  unfold Zone.setNext; rw [setHdr_hdr]; split
  · rename_i e; rw [e]
  · rfl

@[simp] theorem setNext_next (z : Zone) (b v x : Nat) :
    ((z.setNext b v).hdr x).next = if x = b then v else (z.hdr x).next := by
  unfold Zone.setNext; rw [setHdr_hdr]; split
  · rfl
  · rfl

@[simp] theorem setNext_prev (z : Zone) (b v x : Nat) :
    ((z.setNext b v).hdr x).prev = (z.hdr x).prev := by
  unfold Zone.setNext; rw [setHdr_hdr]; split
  · rename_i e; rw [e]
  · rfl

@[simp] theorem setNext_id (z : Zone) (b v x : Nat) :
    ((z.setNext b v).hdr x).id = (z.hdr x).id := by
  unfold Zone.setNext; rw [setHdr_hdr]; split
  · rename_i e; rw [e]
  · rfl

@[simp] theorem setNext_blocklist (z : Zone) (b v : Nat) :
    (z.setNext b v).mainzone_blocklist = z.mainzone_blocklist := rfl

@[simp] theorem setNext_rover (z : Zone) (b v : Nat) :
    (z.setNext b v).mainzone_rover = z.mainzone_rover := rfl

@[simp] theorem setNext_slot (z : Zone) (b v : Nat) :
    (z.setNext b v).slot = z.slot := rfl

@[simp] theorem setNext_mainzone (z : Zone) (b v : Nat) :
    (z.setNext b v).mainzone = z.mainzone := rfl

theorem setNext_hdr_ne (z : Zone) (b v x : Nat) (h : x ≠ b) :
    (z.setNext b v).hdr x = z.hdr x := by
  unfold Zone.setNext; rw [setHdr_hdr, if_neg h]

@[simp] theorem setPrev_size (z : Zone) (b v x : Nat) :
    ((z.setPrev b v).hdr x).size = (z.hdr x).size := by
  unfold Zone.setPrev; rw [setHdr_hdr]; split
  · rename_i e; rw [e]
  · rfl

@[simp] theorem setPrev_tag (z : Zone) (b v x : Nat) :
    ((z.setPrev b v).hdr x).tag = (z.hdr x).tag := by
  unfold Zone.setPrev; rw [setHdr_hdr]; split
  · rename_i e; rw [e]
  · rfl

@[simp] theorem setPrev_user (z : Zone) (b v x : Nat) :
    ((z.setPrev b v).hdr x).user = (z.hdr x).user := by
  unfold Zone.setPrev; rw [setHdr_hdr]; split
  · rename_i e; rw [e]
  · rfl

@[simp] theorem setPrev_next (z : Zone) (b v x : Nat) :
    ((z.setPrev b v).hdr x).next = (z.hdr x).next := by
  unfold Zone.setPrev; rw [setHdr_hdr]; split
  · rename_i e; rw [e]
  · rfl

@[simp] theorem setPrev_prev (z : Zone) (b v x : Nat) :
    ((z.setPrev b v).hdr x).prev = if x = b then v else (z.hdr x).prev := by
  unfold Zone.setPrev; rw [setHdr_hdr]; split
  · rfl
  · rfl

@[simp] theorem setPrev_id (z : Zone) (b v x : Nat) :
    ((z.setPrev b v).hdr x).id = (z.hdr x).id := by
  unfold Zone.setPrev; rw [setHdr_hdr]; split
  · rename_i e; rw [e]
  · rfl

@[simp] theorem setPrev_blocklist (z : Zone) (b v : Nat) :
    (z.setPrev b v).mainzone_blocklist = z.mainzone_blocklist := rfl

@[simp] theorem setPrev_rover (z : Zone) (b v : Nat) :
    (z.setPrev b v).mainzone_rover = z.mainzone_rover := rfl

@[simp] theorem setPrev_slot (z : Zone) (b v : Nat) :
    (z.setPrev b v).slot = z.slot := rfl

@[simp] theorem setPrev_mainzone (z : Zone) (b v : Nat) :
    (z.setPrev b v).mainzone = z.mainzone := rfl

theorem setPrev_hdr_ne (z : Zone) (b v x : Nat) (h : x ≠ b) :
    (z.setPrev b v).hdr x = z.hdr x := by
  unfold Zone.setPrev; rw [setHdr_hdr, if_neg h]

@[simp] theorem setId_size (z : Zone) (b v x : Nat) :
    ((z.setId b v).hdr x).size = (z.hdr x).size := by
  unfold Zone.setId; rw [setHdr_hdr]; split
  · rename_i e; rw [e]
  · rfl

@[simp] theorem setId_tag (z : Zone) (b v x : Nat) :
    ((z.setId b v).hdr x).tag = (z.hdr x).tag := by
  unfold Zone.setId; rw [setHdr_hdr]; split
  · rename_i e; rw [e]
  · rfl

@[simp] theorem setId_user (z : Zone) (b v x : Nat) :
    ((z.setId b v).hdr x).user = (z.hdr x).user := by
  unfold Zone.setId; rw [setHdr_hdr]; split
  · rename_i e; rw [e]
  · rfl

@[simp] theorem setId_next (z : Zone) (b v x : Nat) :
    ((z.setId b v).hdr x).next = (z.hdr x).next := by
  unfold Zone.setId; rw [setHdr_hdr]; split
  · rename_i e; rw [e]
  · rfl

@[simp] theorem setId_prev (z : Zone) (b v x : Nat) :
    ((z.setId b v).hdr x).prev = (z.hdr x).prev := by
  unfold Zone.setId; rw [setHdr_hdr]; split
  · rename_i e; rw [e]
  · rfl

@[simp] theorem setId_id (z : Zone) (b v x : Nat) :
    ((z.setId b v).hdr x).id = if x = b then v % 65536 else (z.hdr x).id := by
  unfold Zone.setId; rw [setHdr_hdr]; split
  · rfl
  · rfl

@[simp] theorem setId_blocklist (z : Zone) (b v : Nat) :
    (z.setId b v).mainzone_blocklist = z.mainzone_blocklist := rfl

@[simp] theorem setId_rover (z : Zone) (b v : Nat) :
    (z.setId b v).mainzone_rover = z.mainzone_rover := rfl

@[simp] theorem setId_slot (z : Zone) (b v : Nat) :
    (z.setId b v).slot = z.slot := rfl

@[simp] theorem setId_mainzone (z : Zone) (b v : Nat) :
    (z.setId b v).mainzone = z.mainzone := rfl

theorem setId_hdr_ne (z : Zone) (b v x : Nat) (h : x ≠ b) :
    (z.setId b v).hdr x = z.hdr x := by
  unfold Zone.setId; rw [setHdr_hdr, if_neg h]

theorem Z_Free_block_eq (z : Zone) (b : Nat) :
    Z_Free_block z b =
      (let z1 := markFree z b
       let p := (z1.hdr b).prev
       let z2 := if (z1.hdr p).user = 0 then absorb z1 p b else z1
       let blk := if (z1.hdr p).user = 0 then p else b
       let n := (z2.hdr blk).next
       if (z2.hdr n).user = 0 then absorb z2 blk n else z2) := by
  unfold Z_Free_block markFree absorb
  by_cases h : ((((if 256 < (z.hdr b).user then z.setSlot (z.hdr b).user NULL else z).setUser b 0).setTag b 0).hdr
      ((((if 256 < (z.hdr b).user then z.setSlot (z.hdr b).user NULL else z).setUser b 0).setTag b 0).hdr b).prev).user = 0
  · simp only [h, if_true]
  · simp only [h, if_false]

@[simp] theorem firstOr_nil (d : Nat) : firstOr [] d = d := rfl
@[simp] theorem firstOr_cons (a d : Nat) (l : List Nat) : firstOr (a :: l) d = a := rfl
@[simp] theorem lastOr_nil (d : Nat) : lastOr [] d = d := rfl
@[simp] theorem lastOr_cons (a d : Nat) (l : List Nat) : lastOr (a :: l) d = lastOr l a := rfl

@[simp] theorem lastOr_append_cons (l1 l2 : List Nat) (a d : Nat) :
    lastOr (l1 ++ a :: l2) d = lastOr l2 a := by
  induction l1 generalizing d with
  | nil => rfl
  | cons b l ih => simp [ih]

@[simp] theorem firstOr_append_cons (l1 l2 : List Nat) (a d : Nat) :
    firstOr (l1 ++ a :: l2) d = firstOr l1 a := by
  cases l1 <;> rfl

theorem lastOr_mem (l : List Nat) (d : Nat) : lastOr l d = d ∨ lastOr l d ∈ l := by
  induction l generalizing d with
  | nil => simp
  | cons a l ih =>
    rcases ih a with h | h
    · right; simp [h]
    · right; simp [h]

theorem firstOr_mem (l : List Nat) (d : Nat) : firstOr l d = d ∨ firstOr l d ∈ l := by
  cases l <;> simp

@[simp] theorem Seg_nil (R : Nat → Nat → Nat → Prop) (p n : Nat) : Seg R p [] n = True := rfl

@[simp] theorem Seg_cons (R : Nat → Nat → Nat → Prop) (p b n : Nat) (l : List Nat) :
    Seg R p (b :: l) n = (R p b (firstOr l n) ∧ Seg R b l n) := rfl

theorem Seg_append (R : Nat → Nat → Nat → Prop) (l1 l2 : List Nat) (p n : Nat) :
    Seg R p (l1 ++ l2) n ↔ Seg R p l1 (firstOr l2 n) ∧ Seg R (lastOr l1 p) l2 n := by
  induction l1 generalizing p with
  | nil => simp
  | cons a l ih =>
    simp only [List.cons_append, Seg_cons, ih, lastOr_cons]
    cases l with
    | nil => simp
    | cons a' l' => simp [and_assoc]

theorem Seg_mono_mem {R R' : Nat → Nat → Nat → Prop} {l : List Nat} {p n : Nat}
    (h : ∀ p b n, b ∈ l → R p b n → R' p b n) (hs : Seg R p l n) : Seg R' p l n := by
  induction l generalizing p with
  | nil => trivial
  | cons a l ih =>
    simp only [Seg_cons] at hs ⊢
    exact ⟨h _ _ _ (List.mem_cons_self _ _) hs.1,
      ih (fun p b n hb => h p b n (List.mem_cons_of_mem _ hb)) hs.2⟩

/-- Each element of a segment satisfies the relation, with neighbours from the list. -/
theorem Seg_mem {R : Nat → Nat → Nat → Prop} {l : List Nat} {p n b : Nat}
    (hs : Seg R p l n) (hb : b ∈ l) :
    ∃ p' n', (p' = p ∨ p' ∈ l) ∧ (n' = n ∨ n' ∈ l) ∧ R p' b n' := by
  obtain ⟨l1, l2, rfl⟩ := List.append_of_mem hb
  rw [Seg_append] at hs
  simp only [Seg_cons] at hs
  refine ⟨lastOr l1 p, firstOr l2 n, ?_, ?_, hs.2.1⟩
  · rcases lastOr_mem l1 p with h | h
    · exact Or.inl h
    · exact Or.inr (List.mem_append_left _ h)
  · rcases firstOr_mem l2 n with h | h
    · exact Or.inl h
    · exact Or.inr (List.mem_append_right _ (List.mem_cons_of_mem _ h))

/-- The predecessor argument is irrelevant when the relation ignores it. -/
theorem Seg_pred_irrel {R : Nat → Nat → Nat → Prop} (hR : ∀ p p' b n, R p b n → R p' b n)
    {l : List Nat} {p p' n : Nat} (hs : Seg R p l n) : Seg R p' l n := by
  cases l with
  | nil => trivial
  | cons a l => exact ⟨hR _ _ _ _ hs.1, hs.2⟩

theorem absorb_blocklist (z : Zone) (x y : Nat) :
    (absorb z x y).mainzone_blocklist = z.mainzone_blocklist := by
  unfold absorb
  simp only [Zone.setSize, Zone.setNext, Zone.setPrev]
  split <;> rfl

theorem absorb_slot (z : Zone) (x y : Nat) : (absorb z x y).slot = z.slot := by
  unfold absorb
  simp only [Zone.setSize, Zone.setNext, Zone.setPrev]
  split <;> rfl

theorem absorb_rover (z : Zone) (x y : Nat) :
    (absorb z x y).mainzone_rover = if y = z.mainzone_rover then x else z.mainzone_rover := by
  unfold absorb
  simp only [Zone.setSize, Zone.setNext, Zone.setPrev, setHdr_rover]
  split <;> simp

/-- The headers after a merge, when the absorbed block's successor is not `x` itself. -/
theorem absorb_hdr (z : Zone) (x y v : Nat) (hxy : y ≠ x) (hn : (z.hdr y).next ≠ x) :
    (absorb z x y).hdr v =
      if v = (z.hdr y).next then { z.hdr v with prev := x }
      else if v = x then
        { z.hdr x with size := ((z.hdr x).size + (z.hdr y).size) % 2 ^ 24,
                       next := (z.hdr y).next }
      else z.hdr v := by
  have h1 : (absorb z x y).hdr =
      (((z.setSize x ((z.hdr x).size + (z.hdr y).size)).setNext x
        ((z.setSize x ((z.hdr x).size + (z.hdr y).size)).hdr y).next).setPrev
        ((((z.setSize x ((z.hdr x).size + (z.hdr y).size)).setNext x
        ((z.setSize x ((z.hdr x).size + (z.hdr y).size)).hdr y).next)).hdr x).next x).hdr := by
    unfold absorb
    simp only []
    split <;> rfl
  rw [h1]
  simp only [Zone.setSize, Zone.setNext, Zone.setPrev, setHdr_hdr, if_true, if_neg hxy]
  by_cases hv : v = (z.hdr y).next
  · subst hv
    simp [hn]
  · by_cases hvx : v = x
    · subst hvx; simp [hv]
    · simp [hv, hvx]

theorem BlockOK_congr {z z' : Zone} {lo hi p b n : Nat}
    (hS : z'.mainzone_blocklist = z.mainzone_blocklist) (hb : z'.hdr b = z.hdr b)
    (h : BlockOK z lo hi p b n) : BlockOK z' lo hi p b n := by
  unfold BlockOK at h ⊢
  rw [hS, hb]; exact h

theorem BlockOK_prev {z z' : Zone} {lo hi p p' b n : Nat}
    (hS : z'.mainzone_blocklist = z.mainzone_blocklist)
    (hb : z'.hdr b = { z.hdr b with prev := p' })
    (h : BlockOK z lo hi p b n) : BlockOK z' lo hi p' b n := by
  unfold BlockOK at h ⊢
  rw [hS, hb]; exact ⟨rfl, h.2⟩

/-- Unfolding of the link structure around two consecutive blocks `x`, `y`. -/
theorem links_split {R : Nat → Nat → Nat → Prop} {c x y : Nat} {pre post : List Nat}
    (h : Seg R (lastOr (pre ++ x :: y :: post) c) (c :: (pre ++ x :: y :: post)) c) :
    R (lastOr post y) c (firstOr pre x) ∧ Seg R c pre x ∧ R (lastOr pre c) x y ∧
      R x y (firstOr post c) ∧ Seg R y post c := by
  rw [Seg_cons, Seg_append] at h
  simp only [Seg_cons, lastOr_append_cons, lastOr_cons, firstOr_append_cons, firstOr_cons] at h
  exact ⟨h.1, h.2.1, h.2.2.1, h.2.2.2.1, h.2.2.2.2⟩

/-- Unfolding of the link structure around one block `x`. -/
theorem links_split1 {R : Nat → Nat → Nat → Prop} {c x : Nat} {pre post : List Nat} :
    Seg R (lastOr (pre ++ x :: post) c) (c :: (pre ++ x :: post)) c ↔
    (R (lastOr post x) c (firstOr pre x) ∧ Seg R c pre x ∧
      R (lastOr pre c) x (firstOr post c) ∧ Seg R x post c) := by
  rw [Seg_cons, Seg_append]
  simp only [Seg_cons, lastOr_append_cons, lastOr_cons, firstOr_append_cons, firstOr_cons]

theorem absorb_user (z : Zone) (x y v : Nat) :
    ((absorb z x y).hdr v).user = (z.hdr v).user := by
  unfold absorb
  simp only []
  split <;> simp


theorem absorb_tag (z : Zone) (x y v : Nat) :
    ((absorb z x y).hdr v).tag = (z.hdr v).tag := by
  unfold absorb
  simp only []
  split <;> simp


theorem absorb_id (z : Zone) (x y v : Nat) :
    ((absorb z x y).hdr v).id = (z.hdr v).id := by
  unfold absorb
  simp only []
  split <;> simp


theorem absorb_next (z : Zone) (x y v : Nat) :
    ((absorb z x y).hdr v).next = if v = x then (z.hdr y).next else (z.hdr v).next := by
  unfold absorb
  simp only []
  split <;> simp


theorem absorb_size (z : Zone) (x y v : Nat) :
    ((absorb z x y).hdr v).size =
      if v = x then ((z.hdr x).size + (z.hdr y).size) % 2 ^ 24 else (z.hdr v).size := by
  unfold absorb
  simp only []
  split <;> simp


theorem markFree_hdr (z : Zone) (b v : Nat) :
    (markFree z b).hdr v = if v = b then { z.hdr b with user := 0, tag := 0 } else z.hdr v := by
  have hz : (if 0x100 < (z.hdr b).user then z.setSlot (z.hdr b).user NULL else z).hdr = z.hdr := by
    split <;> rfl
  unfold markFree
  simp only [Zone.setUser, Zone.setTag, setHdr_hdr, hz]
  by_cases hv : v = b
  · subst hv; simp
  · simp [hv]


theorem markFree_blocklist (z : Zone) (b : Nat) :
    (markFree z b).mainzone_blocklist = z.mainzone_blocklist := by
  unfold markFree
  simp only [Zone.setUser, Zone.setTag, setHdr_blocklist]
  split <;> rfl

theorem markFree_rover (z : Zone) (b : Nat) :
    (markFree z b).mainzone_rover = z.mainzone_rover := by
  unfold markFree
  simp only [Zone.setUser, Zone.setTag, setHdr_rover]
  split <;> rfl

theorem markFree_slot (z : Zone) (b u : Nat) :
    (markFree z b).slot u =
      if 0x100 < (z.hdr b).user ∧ u = (z.hdr b).user then NULL else z.slot u := by
  unfold markFree
  simp only [Zone.setUser, Zone.setTag, setHdr_slot]
  by_cases h : 0x100 < (z.hdr b).user
  · simp only [h, if_true, setSlot_slot, true_and]
  · simp only [h, if_false, false_and]

theorem markFree_preRing {z : Zone} {c b lo hi : Nat} {rest : List Nat}
    (h : PreRing z c rest lo hi) (hb : b ≠ z.mainzone_blocklist) :
    PreRing (markFree z b) c rest lo hi := by
  have hS := markFree_blocklist z b
  have hsize : ∀ v, ((markFree z b).hdr v).size = (z.hdr v).size := by
    intro v; rw [markFree_hdr]; split
    · rename_i e; rw [e]
    · rfl
  constructor
  · refine Seg_mono_mem ?_ h.links
    intro p v n _ hR
    unfold BlockOK at hR ⊢
    rw [hS, markFree_hdr]
    by_cases hv : v = b
    · subst hv
      simp only [if_true]
      refine ⟨hR.1, hR.2.1, fun hvS => ?_⟩
      obtain ⟨h1, h2, h3, h4, _⟩ := hR.2.2 hvS
      exact ⟨h1, h2, h3, h4, fun hc => absurd rfl hc⟩
    · simp only [if_neg hv]; exact hR
  · exact h.nodup
  · rw [hS]; exact h.sent
  · rw [hS, markFree_hdr, if_neg (Ne.symm hb)]; exact h.sentUser
  · rw [hS, markFree_hdr, if_neg (Ne.symm hb)]; exact h.sentTag
  · rw [hS]; exact h.outside
  · exact h.bound
  · intro a ha b' hb' haS hbS hab
    rw [hS] at haS hbS
    rw [hsize, hsize]
    exact h.sep a ha b' hb' haS hbS hab
  · rw [markFree_rover]; exact h.rover

/-- In a ring, each member has a successor in the ring which links back to it. -/
theorem Seg_ring_pair {R : Nat → Nat → Nat → Prop} {c v : Nat} {rest : List Nat}
    (h : Seg R (lastOr rest c) (c :: rest) c) (hv : v ∈ c :: rest) :
    ∃ p s q, R p v s ∧ R v s q ∧ s ∈ c :: rest ∧ p ∈ c :: rest := by
  rcases List.mem_cons.1 hv with e | e
  · subst e
    cases rest with
    | nil => exact ⟨v, v, v, h.1, h.1, by simp, by simp⟩
    | cons s rest' =>
      refine ⟨_, s, _, h.1, h.2.1, by simp, ?_⟩
      rcases lastOr_mem (s :: rest') v with e | e
      · rw [e]; simp
      · exact List.mem_cons_of_mem _ e
  · obtain ⟨l1, l2, rfl⟩ := List.append_of_mem e
    rw [links_split1] at h
    obtain ⟨hc, _, hv', hpost⟩ := h
    have hp : lastOr l1 c ∈ c :: (l1 ++ v :: l2) := by
      rcases lastOr_mem l1 c with e | e
      · rw [e]; simp
      · simp [e]
    cases l2 with
    | nil => exact ⟨_, _, _, hv', hc, by simp, hp⟩
    | cons s l2' => exact ⟨_, _, _, hv', hpost.1, by simp, hp⟩

/-- In a ring, each member is the successor of its predecessor. -/
theorem Seg_ring_pred {R : Nat → Nat → Nat → Prop} {c v : Nat} {rest : List Nat}
    (h : Seg R (lastOr rest c) (c :: rest) c) (hv : v ∈ c :: rest) :
    ∃ pp p s, R pp p v ∧ R p v s := by
  rcases List.mem_cons.1 hv with e | e
  · subst e
    cases rest using List.reverseRecOn with
    | nil => exact ⟨v, v, v, h.1, h.1⟩
    | append_singleton l p _ =>
      have h' := (@links_split1 _ _ p l []).1 h
      exact ⟨_, _, _, h'.2.2.1, h'.1⟩
  · obtain ⟨l1, l2, rfl⟩ := List.append_of_mem e
    cases l1 using List.reverseRecOn with
    | nil =>
      have h' := (@links_split1 _ _ v [] l2).1 h
      exact ⟨_, _, _, h'.1, h'.2.2.1⟩
    | append_singleton l p _ =>
      rw [List.append_assoc] at h
      have h' := @links_split _ _ p v l l2 h
      exact ⟨_, _, _, h'.2.2.1, h'.2.2.2.1⟩

theorem PreRing.next_mem {z : Zone} {c lo hi v : Nat} {rest : List Nat}
    (h : PreRing z c rest lo hi) (hv : v ∈ c :: rest) : (z.hdr v).next ∈ c :: rest := by
  obtain ⟨p, s, q, h1, _, h3, _⟩ := Seg_ring_pair h.links hv
  rw [h1.2.1]; exact h3

theorem PreRing.prev_mem {z : Zone} {c lo hi v : Nat} {rest : List Nat}
    (h : PreRing z c rest lo hi) (hv : v ∈ c :: rest) : (z.hdr v).prev ∈ c :: rest := by
  obtain ⟨p, s, q, h1, _, _, h4⟩ := Seg_ring_pair h.links hv
  rw [h1.1]; exact h4

theorem PreRing.prev_next {z : Zone} {c lo hi v : Nat} {rest : List Nat}
    (h : PreRing z c rest lo hi) (hv : v ∈ c :: rest) :
    (z.hdr (z.hdr v).next).prev = v := by
  obtain ⟨p, s, q, h1, h2, _, _⟩ := Seg_ring_pair h.links hv
  rw [h1.2.1]; exact h2.1

theorem PreRing.next_prev {z : Zone} {c lo hi v : Nat} {rest : List Nat}
    (h : PreRing z c rest lo hi) (hv : v ∈ c :: rest) :
    (z.hdr (z.hdr v).prev).next = v := by
  obtain ⟨pp, p, s, h1, h2⟩ := Seg_ring_pred h.links hv
  rw [h2.1]; exact h1.2.1

theorem links_split2 {R : Nat → Nat → Nat → Prop} {c x y : Nat} {pre post : List Nat} :
    Seg R (lastOr (pre ++ x :: y :: post) c) (c :: (pre ++ x :: y :: post)) c ↔
    (R (lastOr post y) c (firstOr pre x) ∧ Seg R c pre x ∧ R (lastOr pre c) x y ∧
      R x y (firstOr post c) ∧ Seg R y post c) := by
  rw [Seg_cons, Seg_append]
  simp only [Seg_cons, lastOr_append_cons, lastOr_cons, firstOr_append_cons, firstOr_cons]

/-- Distinctness facts of a ring around a member `x`. -/
theorem nodup_around {c x : Nat} {pre post : List Nat}
    (hnd : (c :: (pre ++ x :: post)).Nodup) :
    c ≠ x ∧ c ∉ pre ∧ c ∉ post ∧ x ∉ pre ∧ x ∉ post ∧ (∀ v ∈ pre, v ∉ post) ∧
      pre.Nodup ∧ post.Nodup ∧ firstOr post c ≠ x ∧ lastOr pre c ≠ x ∧
      firstOr post c ∉ pre := by
  simp only [List.nodup_cons, List.mem_append, List.mem_cons, List.nodup_append,
    not_or] at hnd
  obtain ⟨⟨hcpre, hcx, hcpost⟩, hndpre, ⟨hxpost, hndpost⟩, hdisj⟩ := hnd
  have hxpre : x ∉ pre := fun e => hdisj e (by simp)
  have hpp : ∀ v ∈ pre, v ∉ post := fun v hv e => hdisj hv (by simp [e])
  refine ⟨hcx, hcpre, hcpost, hxpre, hxpost, hpp, hndpre, hndpost, ?_, ?_, ?_⟩
  · rcases firstOr_mem post c with e | e
    · rw [e]; exact hcx
    · intro e'; rw [e'] at e; exact hxpost e
  · rcases lastOr_mem pre c with e | e
    · rw [e]; exact hcx
    · intro e'; rw [e'] at e; exact hxpre e
  · rcases firstOr_mem post c with e | e
    · rw [e]; exact hcpre
    · exact fun e' => hpp _ e' e

/-- Removing the member `y` after `x` from a ring: it suffices to re-establish the
relation at `x` and at the successor of `y`. -/
theorem ring_delete {R R' : Nat → Nat → Nat → Prop} {c x y : Nat} {pre post : List Nat}
    (hnd : (c :: (pre ++ x :: y :: post)).Nodup)
    (h : Seg R (lastOr (pre ++ x :: y :: post) c) (c :: (pre ++ x :: y :: post)) c)
    (hsame : ∀ v p n, v ∈ c :: (pre ++ post) → v ≠ firstOr post c → R p v n → R' p v n)
    (hN : ∀ p n, R p (firstOr post c) n → R' x (firstOr post c) n)
    (hx : R' (lastOr pre c) x (firstOr post c)) :
    Seg R' (lastOr (pre ++ x :: post) c) (c :: (pre ++ x :: post)) c := by
  obtain ⟨hc, hpre, -, -, hpost⟩ := links_split2.1 h
  obtain ⟨-, hcpre, hcyp, -, -, hpp, -, hndyp, -, -, hNpre⟩ := nodup_around hnd
  have hpp' : ∀ v ∈ pre, v ∉ post := fun v hv e => hpp v hv (by simp [e])
  have hcpost : c ∉ post := fun e => hcyp (by simp [e])
  have hNpre' : firstOr post c ∉ pre := by
    rcases firstOr_mem post c with e | e
    · rw [e]; exact hcpre
    · exact fun e' => hpp' _ e' e
  have hpre' : Seg R' c pre x := by
    refine Seg_mono_mem ?_ hpre
    intro p v n hv hR
    exact hsame v p n (by simp [hv]) (fun e => hNpre' (e ▸ hv)) hR
  rw [links_split1]
  cases post with
  | nil => exact ⟨hN _ _ hc, hpre', hx, trivial⟩
  | cons n post' =>
    have hndp : (n :: post').Nodup := (List.nodup_cons.1 hndyp).2
    refine ⟨hsame c _ _ (by simp) ?_ hc, hpre', hx, ⟨hN _ _ hpost.1, ?_⟩⟩
    · exact fun e => hcpost (by simp [firstOr] at e; simp [e])
    · refine Seg_mono_mem ?_ hpost.2
      intro p v m hv hR
      refine hsame v p m (by simp [hv]) ?_ hR
      intro e
      simp only [firstOr_cons] at e
      exact (List.nodup_cons.1 hndp).1 (e ▸ hv)

/-- Inserting a fresh member `nb` after `x` into a ring. -/
theorem ring_insert {R R' : Nat → Nat → Nat → Prop} {c x nb : Nat} {pre post : List Nat}
    (hnd : (c :: (pre ++ x :: post)).Nodup)
    (h : Seg R (lastOr (pre ++ x :: post) c) (c :: (pre ++ x :: post)) c)
    (hsame : ∀ v p n, v ∈ c :: (pre ++ post) → v ≠ firstOr post c → R p v n → R' p v n)
    (hN : ∀ p n, R p (firstOr post c) n → R' nb (firstOr post c) n)
    (hx : R' (lastOr pre c) x nb) (hnb : R' x nb (firstOr post c)) :
    Seg R' (lastOr (pre ++ x :: nb :: post) c) (c :: (pre ++ x :: nb :: post)) c := by
  obtain ⟨hc, hpre, -, hpost⟩ := links_split1.1 h
  obtain ⟨-, hcpre, hcpost, -, -, hpp, -, hndp, -, -, hNpre⟩ := nodup_around hnd
  have hpre' : Seg R' c pre x := by
    refine Seg_mono_mem ?_ hpre
    intro p v n hv hR
    exact hsame v p n (by simp [hv]) (fun e => hNpre (e ▸ hv)) hR
  rw [links_split2]
  cases post with
  | nil => exact ⟨hN _ _ hc, hpre', hx, hnb, trivial⟩
  | cons n post' =>
    refine ⟨hsame c _ _ (by simp) ?_ hc, hpre', hx, hnb, ⟨hN _ _ hpost.1, ?_⟩⟩
    · exact fun e => hcpost (by simp [firstOr] at e; simp [e])
    · refine Seg_mono_mem ?_ hpost.2
      intro p v m hv hR
      refine hsame v p m (by simp [hv]) ?_ hR
      intro e
      simp only [firstOr_cons] at e
      exact (List.nodup_cons.1 hndp).1 (e ▸ hv)

theorem absorb_blockOK {z z' : Zone} {lo hi p x y n : Nat}
    (hS : z'.mainzone_blocklist = z.mainzone_blocklist)
    (hx : BlockOK z lo hi p x y) (hy : BlockOK z lo hi x y n)
    (hxS : x ≠ z.mainzone_blocklist) (hyS : y ≠ z.mainzone_blocklist)
    (hbd : hi * 16 < lo * 16 + 2 ^ 24)
    (h1 : (z'.hdr x).prev = (z.hdr x).prev) (h2 : (z'.hdr x).next = n)
    (h3 : (z'.hdr x).size = ((z.hdr x).size + (z.hdr y).size) % 2 ^ 24)
    (h4 : (z'.hdr x).user = (z.hdr x).user) (h5 : (z'.hdr x).id = (z.hdr x).id) :
    BlockOK z' lo hi p x n ∧ (z'.hdr x).size = (z.hdr x).size + (z.hdr y).size := by
  obtain ⟨hx1, -, hx3⟩ := hx
  obtain ⟨-, -, hy3⟩ := hy
  obtain ⟨hxm, hxlo, hxhi, hxg, hxid⟩ := hx3 hxS
  obtain ⟨hym, hylo, hyhi, hyg, -⟩ := hy3 hyS
  have hgap := hxg hyS
  have hsz : ((z.hdr x).size + (z.hdr y).size) % 2 ^ 24 = (z.hdr x).size + (z.hdr y).size := by
    apply Nat.mod_eq_of_lt
    omega
  rw [hsz] at h3
  refine ⟨?_, h3⟩
  unfold BlockOK
  rw [hS, h1, h2, h3, h4, h5]
  refine ⟨hx1, rfl, fun _ => ⟨?_, hxlo, ?_, ?_, hxid⟩⟩
  · omega
  · omega
  · intro hn
    have := hyg hn
    omega

theorem absorb_sep_aux (x y sx sy v sv : Nat) (hg : x + sx / 16 = y) (hm : sx % 16 = 0)
    (hvy : v ≠ y) (h1 : x + sx / 16 ≤ v ∨ v + sv / 16 ≤ x)
    (h2 : y + sy / 16 ≤ v ∨ v + sv / 16 ≤ y) :
    x + (sx + sy) / 16 ≤ v ∨ v + sv / 16 ≤ x := by
  omega

theorem mem_delete_after (c v x y : Nat) (pre post : List Nat) :
    v ∈ c :: (pre ++ x :: y :: post) ↔ v = y ∨ v ∈ c :: (pre ++ x :: post) := by
  simp only [List.mem_cons, List.mem_append]
  tauto

theorem absorb_preRing {z : Zone} {c x y lo hi : Nat} {pre post : List Nat}
    (h : PreRing z c (pre ++ x :: y :: post) lo hi)
    (hx : x ≠ z.mainzone_blocklist) (hy : y ≠ z.mainzone_blocklist) :
    PreRing (absorb z x y) c (pre ++ x :: post) lo hi := by
  obtain ⟨hc, hpre, hxl, hyl, hpost⟩ := links_split2.1 h.links
  have hnd := h.nodup
  have hS := absorb_blocklist z x y
  obtain ⟨hcx, hcpre, hcyp, hxpre, hxyp, hpyp, hndpre, hndyp, hNx', hPx, -⟩ := nodup_around hnd
  have hxy : x ≠ y := fun e => hxyp (by simp [e])
  have hypost : y ∉ post := (List.nodup_cons.1 hndyp).1
  have hnd2 : (c :: (pre ++ x :: post)).Nodup := by
    have : (c :: (pre ++ x :: post)).Sublist (c :: (pre ++ x :: y :: post)) := by
      refine List.Sublist.cons₂ _ ?_
      refine List.Sublist.append (List.Sublist.refl _) ?_
      exact List.Sublist.cons₂ _ (List.sublist_cons_self _ _)
    exact hnd.sublist this
  obtain ⟨-, -, -, -, -, -, -, -, hNx, -, -⟩ := nodup_around hnd2
  have hny : (z.hdr y).next = firstOr post c := hyl.2.1
  have hH := fun v => absorb_hdr z x y v (Ne.symm hxy) (by rw [hny]; exact hNx)
  have hymem : ∀ v, v ∈ c :: (pre ++ x :: post) → v ≠ y := by
    intro v hv e
    subst e
    have := (List.nodup_cons.1 hnd)
    simp only [List.mem_cons, List.mem_append] at hv
    rcases hv with e | e | e | e
    · exact hcyp (by simp [e])
    · exact hpyp v e (by simp)
    · exact hxy e.symm
    · exact hypost e
  have hBx := @absorb_blockOK z (absorb z x y) _ _ _ _ _ _ hS hxl hyl hx hy h.bound
    (by rw [hH x, if_neg (by rw [hny]; exact Ne.symm hNx), if_pos rfl])
    (by rw [hH x, if_neg (by rw [hny]; exact Ne.symm hNx), if_pos rfl, hny])
    (by rw [hH x, if_neg (by rw [hny]; exact Ne.symm hNx), if_pos rfl])
    (by rw [hH x, if_neg (by rw [hny]; exact Ne.symm hNx), if_pos rfl])
    (by rw [hH x, if_neg (by rw [hny]; exact Ne.symm hNx), if_pos rfl])
  have hsize : ∀ v, v ≠ x → ((absorb z x y).hdr v).size = (z.hdr v).size := by
    intro v hv
    rw [absorb_size, if_neg hv]
  constructor
  · refine ring_delete hnd h.links ?_ ?_ hBx.1
    · intro v p n hv hvN hR
      refine BlockOK_congr hS ?_ hR
      rw [hH v, if_neg (by rw [hny]; exact hvN), if_neg]
      intro e
      subst e
      simp only [List.mem_cons, List.mem_append] at hv
      rcases hv with e | e | e
      · exact hcx e.symm
      · exact hxpre e
      · exact hxyp (by simp [e])
    · intro p n hR
      refine BlockOK_prev hS ?_ hR
      rw [hH, if_pos hny.symm]
  · exact hnd2
  · rw [hS]
    rcases (mem_delete_after _ _ _ _ _ _).1 h.sent with e | e
    · exact absurd e.symm hy
    · exact e
  · rw [hS, absorb_user]; exact h.sentUser
  · rw [hS, absorb_tag]; exact h.sentTag
  · rw [hS]; exact h.outside
  · exact h.bound
  · intro a ha b hb haS hbS hab
    rw [hS] at haS hbS
    have ha1 := (mem_delete_after c a x y pre post).2 (Or.inr ha)
    have hb1 := (mem_delete_after c b x y pre post).2 (Or.inr hb)
    have hxin : x ∈ c :: (pre ++ x :: y :: post) := by simp
    have hyin : y ∈ c :: (pre ++ x :: y :: post) := by simp
    have hg := (hxl.2.2 hx).2.2.2.1 hy
    have hm := (hxl.2.2 hx).1
    by_cases hax : a = x
    · subst hax
      rw [hBx.2, hsize b (Ne.symm hab)]
      exact absorb_sep_aux _ _ _ _ _ _ hg hm (hymem b hb)
        (h.sep a hxin b hb1 hx hbS hab) (h.sep y hyin b hb1 hy hbS (Ne.symm (hymem b hb)))
    · by_cases hbx : b = x
      · subst hbx
        rw [hBx.2, hsize a hax]
        exact (absorb_sep_aux _ _ _ _ _ _ hg hm (hymem a ha)
          (h.sep b hxin a ha1 hx haS (Ne.symm hab))
          (h.sep y hyin a ha1 hy haS (Ne.symm (hymem a ha)))).symm
      · rw [hsize a hax, hsize b hbx]
        exact h.sep a ha1 b hb1 haS hbS hab
  · rw [absorb_rover]
    split
    · simp
    · rename_i hr
      rcases (mem_delete_after _ _ _ _ _ _).1 h.rover with e | e
      · exact absurd e.symm hr
      · exact e

theorem lastOr_ne {l : List Nat} {d : Nat} (h : lastOr l d ≠ d) :
    ∃ l0, l = l0 ++ [lastOr l d] := by
  cases l using List.reverseRecOn with
  | nil => exact absurd rfl h
  | append_singleton l0 a _ => exact ⟨l0, by simp⟩

theorem firstOr_ne {l : List Nat} {d : Nat} (h : firstOr l d ≠ d) :
    ∃ l0, l = firstOr l d :: l0 := by
  cases l with
  | nil => exact absurd rfl h
  | cons a l0 => exact ⟨l0, rfl⟩

/-- The user fields after `Z_Free_block`: only the freed block changes. -/
theorem Z_Free_block_user (z : Zone) (b v : Nat) :
    ((Z_Free_block z b).hdr v).user = if v = b then 0 else (z.hdr v).user := by
  rw [Z_Free_block_eq]
  simp only []
  have hm : ((markFree z b).hdr v).user = if v = b then 0 else (z.hdr v).user := by
    rw [markFree_hdr]; split <;> rfl
  split <;> split <;> simp only [absorb_user, hm]

theorem Z_Free_block_blocklist (z : Zone) (b : Nat) :
    (Z_Free_block z b).mainzone_blocklist = z.mainzone_blocklist := by
  rw [Z_Free_block_eq]
  simp only []
  split <;> split <;> simp only [absorb_blocklist, markFree_blocklist]

/-- `Z_Free_block` keeps the heap well formed.  With the ring opened at an in-use block
`c`, the freed block `b` leaves the list when its predecessor is free, and its successor
leaves the list when that one is free. -/
theorem Z_Free_block_ring {z : Zone} {c b lo hi : Nat} {pre post : List Nat}
    (h : Ring z c (pre ++ b :: post) lo hi) (hc : (z.hdr c).user ≠ 0)
    (hb : b ≠ z.mainzone_blocklist) :
    Ring (Z_Free_block z b) c
      ((if (z.hdr (lastOr pre c)).user = 0 then pre else pre ++ [b]) ++
        (if (z.hdr (firstOr post c)).user = 0 then post.tail else post)) lo hi := by
  have hU := Z_Free_block_user z b
  have hnd := h.pre.nodup
  simp only [List.nodup_cons, List.mem_append, List.mem_cons, List.nodup_append,
    not_or] at hnd
  obtain ⟨⟨hcpre, hcb, hcpost⟩, hndpre, ⟨hbpost, hndpost⟩, hdisj⟩ := hnd
  have hpreb : ∀ v ∈ pre, v ≠ b := fun v hv e => hdisj hv (by simp [e])
  have hprepost : ∀ v ∈ pre, v ∉ post := fun v hv e => hdisj hv (by simp [e])
  have hbin : b ∈ c :: (pre ++ b :: post) := by simp
  obtain ⟨-, -, hbl, -⟩ := links_split1.1 h.pre.links
  have hPb : lastOr pre c ≠ b := by
    rcases lastOr_mem pre c with e | e
    · rw [e]; exact hcb
    · exact hpreb _ e
  have hNb : firstOr post c ≠ b := by
    rcases firstOr_mem post c with e | e
    · rw [e]; exact hcb
    · intro e'; rw [e'] at e; exact hbpost e
  have hSu := h.pre.sentUser
  -- a free member is neither `c` nor the sentinel
  have hfree_ne : ∀ v, (z.hdr v).user = 0 → v ≠ c ∧ v ≠ z.mainzone_blocklist :=
    fun v hv => ⟨fun e => hc (e ▸ hv), fun e => hSu (e ▸ hv)⟩
  -- a member whose successor is `b` is the predecessor of `b`
  have hpredb : ∀ v ∈ c :: (pre ++ b :: post), (z.hdr v).next = b → v = lastOr pre c := by
    intro v hv e
    have := h.pre.prev_next hv
    rw [e, hbl.1] at this
    exact this.symm
  have h1 := markFree_preRing h.pre hb
  have hS1 := markFree_blocklist z b
  have hprev1 : ((markFree z b).hdr b).prev = lastOr pre c := by
    rw [markFree_hdr, if_pos rfl]; exact hbl.1
  have hnext1 : ∀ v, ((markFree z b).hdr v).next = (z.hdr v).next := by
    intro v; rw [markFree_hdr]; split
    · rename_i e; rw [e]
    · rfl
  have huser1 : ∀ v, v ≠ b → ((markFree z b).hdr v).user = (z.hdr v).user := by
    intro v hv; rw [markFree_hdr, if_neg hv]
  rw [Z_Free_block_eq] at hU ⊢
  simp only [hprev1, huser1 _ hPb] at hU ⊢
  by_cases hP : (z.hdr (lastOr pre c)).user = 0
  · -- the predecessor is free: it absorbs `b`
    simp only [hP, if_true] at hU ⊢
    obtain ⟨hPc, hPS⟩ := hfree_ne _ hP
    obtain ⟨pre0, hpre0⟩ := lastOr_ne hPc
    generalize lastOr pre c = P at *
    subst hpre0
    have h1' : PreRing (markFree z b) c (pre0 ++ P :: b :: post) lo hi := by
      simpa using h1
    have h2 := absorb_preRing h1' (by rw [hS1]; exact hPS) (by rw [hS1]; exact hb)
    have hS2 : (absorb (markFree z b) P b).mainzone_blocklist = z.mainzone_blocklist := by
      rw [absorb_blocklist, hS1]
    have hnext2 : ∀ v, ((absorb (markFree z b) P b).hdr v).next =
        if v = P then firstOr post c else (z.hdr v).next := by
      intro v; rw [absorb_next, hnext1, hnext1, hbl.2.1]
    have hNP : firstOr post c ≠ P := by
      rcases firstOr_mem post c with e | e
      · rw [e]; exact Ne.symm hPc
      · intro e'; rw [e'] at e; exact hprepost P (by simp) e
    simp only [hnext2 P, if_true, absorb_user, huser1 _ hNb] at hU ⊢
    by_cases hN : (z.hdr (firstOr post c)).user = 0
    · simp only [hN, if_true] at hU ⊢
      obtain ⟨hNc, hNS⟩ := hfree_ne _ hN
      obtain ⟨post0, hpost0⟩ := firstOr_ne hNc
      generalize firstOr post c = N at *
      subst hpost0
      have h3 := absorb_preRing h2 (by rw [hS2]; exact hPS) (by rw [hS2]; exact hNS)
      have hlist : pre0 ++ [P] ++ (N :: post0).tail = pre0 ++ P :: post0 := by simp
      rw [hlist]
      refine ⟨h3, ?_⟩
      intro v hv hf
      simp only [hU, absorb_next, hnext2, hnext1, if_neg hNP] at hf
      have hvold : v ∈ c :: (pre0 ++ [P] ++ b :: N :: post0) ∧ v ≠ b ∧ v ≠ N := by
        simp only [List.mem_cons, List.mem_append] at hv ⊢
        rcases hv with e | e | e | e
        · exact ⟨Or.inl e, e ▸ hcb, fun e' => hcpost (by simp [← e', e])⟩
        · exact ⟨by simp [e], hpreb v (by simp [e]),
            fun e' => hprepost v (by simp [e]) (by simp [e'])⟩
        · exact ⟨by simp [e], e ▸ hPb, e ▸ Ne.symm hNP⟩
        · exact ⟨by simp [e], fun e' => hbpost (by simp [← e', e]),
            fun e' => (List.nodup_cons.1 hndpost).1 (e' ▸ e)⟩
      obtain ⟨hvin, hvb, hvN⟩ := hvold
      simp only [if_neg hvb] at hf
      by_cases hvP : v = P
      · simp only [if_pos hvP] at hf
        have hNin : N ∈ c :: (pre0 ++ [P] ++ b :: N :: post0) := by simp
        have hnn := h.naf N hNin
        by_cases e : (z.hdr N).next = b
        · exact hNP (hpredb N hNin e)
        · simp only [if_neg e] at hf
          exact hnn ⟨hN, hf.2⟩
      · simp only [if_neg hvP] at hf
        by_cases e : (z.hdr v).next = b
        · exact hvP (hpredb v hvin e)
        · simp only [if_neg e] at hf
          exact h.naf v hvin hf
    · simp only [hN, if_false] at hU ⊢
      have hlist : pre0 ++ [P] ++ post = pre0 ++ P :: post := by simp
      rw [hlist]
      refine ⟨h2, ?_⟩
      intro v hv hf
      simp only [hU, hnext2] at hf
      have hvold : v ∈ c :: (pre0 ++ [P] ++ b :: post) ∧ v ≠ b := by
        simp only [List.mem_cons, List.mem_append] at hv ⊢
        rcases hv with e | e | e | e
        · exact ⟨Or.inl e, e ▸ hcb⟩
        · exact ⟨by simp [e], hpreb v (by simp [e])⟩
        · exact ⟨by simp [e], e ▸ hPb⟩
        · exact ⟨by simp [e], fun e' => hbpost (e' ▸ e)⟩
      obtain ⟨hvin, hvb⟩ := hvold
      simp only [if_neg hvb] at hf
      by_cases hvP : v = P
      · simp only [if_pos hvP, if_neg hNb] at hf
        exact hN hf.2
      · simp only [if_neg hvP] at hf
        by_cases e : (z.hdr v).next = b
        · exact hvP (hpredb v hvin e)
        · simp only [if_neg e] at hf
          exact h.naf v hvin hf
  · -- the predecessor is in use: `b` stays
    simp only [hP, if_false] at hU ⊢
    simp only [hnext1 b, hbl.2.1, huser1 _ hNb] at hU ⊢
    by_cases hN : (z.hdr (firstOr post c)).user = 0
    · simp only [hN, if_true] at hU ⊢
      obtain ⟨hNc, hNS⟩ := hfree_ne _ hN
      obtain ⟨post0, hpost0⟩ := firstOr_ne hNc
      generalize firstOr post c = N at *
      subst hpost0
      have h3 := absorb_preRing h1 (by rw [hS1]; exact hb) (by rw [hS1]; exact hNS)
      have hlist : pre ++ [b] ++ (N :: post0).tail = pre ++ b :: post0 := by simp
      rw [hlist]
      refine ⟨h3, ?_⟩
      intro v hv hf
      simp only [hU, absorb_next, hnext1] at hf
      have hvold : v ∈ c :: (pre ++ b :: N :: post0) := by
        simp only [List.mem_cons, List.mem_append] at hv ⊢
        rcases hv with e | e | e | e
        · exact Or.inl e
        · exact Or.inr (Or.inl e)
        · exact Or.inr (Or.inr (Or.inl e))
        · exact Or.inr (Or.inr (Or.inr (Or.inr e)))
      by_cases hvb : v = b
      · simp only [if_pos hvb] at hf
        have hNin : N ∈ c :: (pre ++ b :: N :: post0) := by simp
        by_cases e : (z.hdr N).next = b
        · exact hP (hpredb N hNin e ▸ hN)
        · simp only [if_neg e] at hf
          exact h.naf N hNin ⟨hN, hf.2⟩
      · simp only [if_neg hvb] at hf
        by_cases e : (z.hdr v).next = b
        · exact hP (hpredb v hvold e ▸ hf.1)
        · simp only [if_neg e] at hf
          exact h.naf v hvold hf
    · simp only [hN, if_false] at hU ⊢
      have hlist : pre ++ [b] ++ post = pre ++ b :: post := by simp
      rw [hlist]
      refine ⟨h1, ?_⟩
      intro v hv hf
      simp only [hU, hnext1] at hf
      by_cases hvb : v = b
      · simp only [hvb, hbl.2.1, if_neg hNb] at hf
        exact hN hf.2
      · simp only [if_neg hvb] at hf
        by_cases e : (z.hdr v).next = b
        · exact hP (hpredb v hv e ▸ hf.1)
        · simp only [if_neg e] at hf
          exact h.naf v hv hf

theorem ring_mem_rotate (c d v : Nat) (xs ys : List Nat) :
    v ∈ d :: (ys ++ c :: xs) ↔ v ∈ c :: (xs ++ d :: ys) := by
  simp only [List.mem_cons, List.mem_append]
  tauto

theorem PreRing.rotate {z : Zone} {c d lo hi : Nat} {xs ys : List Nat}
    (h : PreRing z c (xs ++ d :: ys) lo hi) : PreRing z d (ys ++ c :: xs) lo hi := by
  have hm := fun v => ring_mem_rotate c d v xs ys
  constructor
  · have := links_split1.1 h.links
    exact links_split1.2 ⟨this.2.2.1, this.2.2.2, this.1, this.2.1⟩
  · have hp : (d :: (ys ++ c :: xs)).Perm (c :: (xs ++ d :: ys)) := by
      have h1 : (d :: (ys ++ c :: xs)) = (d :: ys) ++ (c :: xs) := rfl
      have h2 : (c :: (xs ++ d :: ys)) = (c :: xs) ++ (d :: ys) := rfl
      rw [h1, h2]
      exact List.perm_append_comm
    exact hp.nodup_iff.2 h.nodup
  · exact (hm _).2 h.sent
  · exact h.sentUser
  · exact h.sentTag
  · exact h.outside
  · exact h.bound
  · intro a ha b hb
    exact h.sep a ((hm a).1 ha) b ((hm b).1 hb)
  · exact (hm _).2 h.rover

theorem Ring.rotated {z : Zone} {c d lo hi : Nat} {xs ys : List Nat}
    (h : Ring z c (xs ++ d :: ys) lo hi) : Ring z d (ys ++ c :: xs) lo hi :=
  ⟨h.pre.rotate, fun v hv => h.naf v ((ring_mem_rotate c d v xs ys).1 hv)⟩

/-- A ring can be opened at any of its members. -/
theorem Ring.reopen {z : Zone} {c d lo hi : Nat} {rest : List Nat}
    (h : Ring z c rest lo hi) (hd : d ∈ c :: rest) :
    ∃ rest', Ring z d rest' lo hi ∧ ∀ v, v ∈ d :: rest' ↔ v ∈ c :: rest := by
  rcases List.mem_cons.1 hd with e | e
  · subst e; exact ⟨rest, h, fun _ => Iff.rfl⟩
  · obtain ⟨xs, ys, rfl⟩ := List.append_of_mem e
    exact ⟨_, h.rotated, fun v => ring_mem_rotate c d v xs ys⟩

/-- Sizes, tags and ids of the other in-use blocks are untouched by `Z_Free_block`. -/
theorem Z_Free_block_frame (z : Zone) (b v : Nat) (hv : v ≠ b) (hu : (z.hdr v).user ≠ 0) :
    ((Z_Free_block z b).hdr v).size = (z.hdr v).size ∧
    ((Z_Free_block z b).hdr v).tag = (z.hdr v).tag ∧
    ((Z_Free_block z b).hdr v).id = (z.hdr v).id := by
  have hu1 : ((markFree z b).hdr v).user ≠ 0 := by rw [markFree_hdr, if_neg hv]; exact hu
  have h1 : (markFree z b).hdr v = z.hdr v := by rw [markFree_hdr, if_neg hv]
  rw [Z_Free_block_eq]
  simp only []
  by_cases hP : ((markFree z b).hdr ((markFree z b).hdr b).prev).user = 0
  · have hvP : v ≠ ((markFree z b).hdr b).prev := fun e => hu1 (e ▸ hP)
    simp only [hP, if_true]
    split
    · simp only [absorb_size, absorb_tag, absorb_id, if_neg hvP, h1, and_self]
    · simp only [absorb_size, absorb_tag, absorb_id, if_neg hvP, h1, and_self]
  · simp only [hP, if_false]
    split
    · simp only [absorb_size, absorb_tag, absorb_id, if_neg hv, h1, and_self]
    · simp only [h1, and_self]

/-- The only owner slot `Z_Free_block` writes is the one recorded in the freed block, and
only when that pointer is above `0x100`. -/
theorem Z_Free_block_slot (z : Zone) (b u : Nat) :
    (Z_Free_block z b).slot u =
      if 0x100 < (z.hdr b).user ∧ u = (z.hdr b).user then NULL else z.slot u := by
  rw [Z_Free_block_eq]
  simp only []
  split <;> split <;> simp only [absorb_slot, markFree_slot]

theorem pointerToSegment_segmentToPointer (s : Nat) :
    pointerToSegment (segmentToPointer s) = some s := by
  unfold pointerToSegment segmentToPointer FarPtr.bits PARAGRAPH_SIZE
  simp
  omega

theorem pointerToSegment_ne_NULL {ptr : FarPtr} {b : Nat}
    (h : pointerToSegment ptr = some (b + 1)) : ptr ≠ NULL := by
  intro e
  subst e
  unfold pointerToSegment NULL FarPtr.bits PARAGRAPH_SIZE at h
  simp at h

/-- `Z_Free` on the address of a block that carries `ZONEID`. -/
theorem Z_Free_eq {z : Zone} {ptr : FarPtr} {b : Nat}
    (hp : pointerToSegment ptr = some (b + 1)) (hid : (z.hdr b).id = ZONEID) :
    Z_Free z ptr = .ok (Z_Free_block z b) () := by
  unfold Z_Free
  rw [if_neg (pointerToSegment_ne_NULL hp), hp]
  simp [hid]

theorem split_blocklist (z : Zone) (base sz : Nat) :
    (Z_Malloc_split z base sz).mainzone_blocklist = z.mainzone_blocklist := by
  unfold Z_Malloc_split; simp only []; split <;> rfl

theorem split_rover (z : Zone) (base sz : Nat) :
    (Z_Malloc_split z base sz).mainzone_rover = z.mainzone_rover := by
  unfold Z_Malloc_split; simp only []; split <;> rfl

theorem split_slot (z : Zone) (base sz : Nat) :
    (Z_Malloc_split z base sz).slot = z.slot := by
  unfold Z_Malloc_split; simp only []; split <;> rfl

theorem split_none (z : Zone) (base sz : Nat) (h : ¬ (z.hdr base).size - sz > MINFRAGMENT) :
    Z_Malloc_split z base sz = z := by
  unfold Z_Malloc_split; simp only [h, if_false]

theorem split_id (z : Zone) (base sz v : Nat) :
    ((Z_Malloc_split z base sz).hdr v).id = (z.hdr v).id := by
  unfold Z_Malloc_split; simp only []; split <;> simp

theorem split_user (z : Zone) (base sz v : Nat) (h : (z.hdr base).size - sz > MINFRAGMENT) :
    ((Z_Malloc_split z base sz).hdr v).user =
      if v = base + sz / PARAGRAPH_SIZE then 0 else (z.hdr v).user := by
  unfold Z_Malloc_split; simp only [h, if_true]; simp

theorem split_tag (z : Zone) (base sz v : Nat) (h : (z.hdr base).size - sz > MINFRAGMENT) :
    ((Z_Malloc_split z base sz).hdr v).tag =
      if v = base + sz / PARAGRAPH_SIZE then 0 else (z.hdr v).tag := by
  unfold Z_Malloc_split; simp only [h, if_true]; simp

theorem split_size (z : Zone) (base sz v : Nat) (h : (z.hdr base).size - sz > MINFRAGMENT) :
    ((Z_Malloc_split z base sz).hdr v).size =
      if v = base then sz % 2 ^ 24
      else if v = base + sz / PARAGRAPH_SIZE then ((z.hdr base).size - sz) % 2 ^ 24
      else (z.hdr v).size := by
  unfold Z_Malloc_split; simp only [h, if_true]; simp

theorem split_next (z : Zone) (base sz v : Nat) (h : (z.hdr base).size - sz > MINFRAGMENT) :
    ((Z_Malloc_split z base sz).hdr v).next =
      if v = base then base + sz / PARAGRAPH_SIZE
      else if v = base + sz / PARAGRAPH_SIZE then (z.hdr base).next
      else (z.hdr v).next := by
  unfold Z_Malloc_split; simp only [h, if_true]; simp

theorem split_prev (z : Zone) (base sz v : Nat) (h : (z.hdr base).size - sz > MINFRAGMENT) :
    ((Z_Malloc_split z base sz).hdr v).prev =
      if v = (z.hdr base).next then base + sz / PARAGRAPH_SIZE
      else if v = base + sz / PARAGRAPH_SIZE then base
      else (z.hdr v).prev := by
  unfold Z_Malloc_split; simp only [h, if_true]; simp

theorem BlockOK_congr_fields {z z' : Zone} {lo hi p b n : Nat}
    (hS : z'.mainzone_blocklist = z.mainzone_blocklist)
    (h1 : (z'.hdr b).prev = (z.hdr b).prev) (h2 : (z'.hdr b).next = (z.hdr b).next)
    (h3 : (z'.hdr b).size = (z.hdr b).size) (h4 : (z'.hdr b).user = (z.hdr b).user)
    (h5 : (z'.hdr b).id = (z.hdr b).id)
    (h : BlockOK z lo hi p b n) : BlockOK z' lo hi p b n := by
  unfold BlockOK at h ⊢
  rw [hS, h1, h2, h3, h4, h5]; exact h

theorem BlockOK_prev_fields {z z' : Zone} {lo hi p p' b n : Nat}
    (hS : z'.mainzone_blocklist = z.mainzone_blocklist)
    (h1 : (z'.hdr b).prev = p') (h2 : (z'.hdr b).next = (z.hdr b).next)
    (h3 : (z'.hdr b).size = (z.hdr b).size) (h4 : (z'.hdr b).user = (z.hdr b).user)
    (h5 : (z'.hdr b).id = (z.hdr b).id)
    (h : BlockOK z lo hi p b n) : BlockOK z' lo hi p' b n := by
  unfold BlockOK at h ⊢
  rw [hS, h1, h2, h3, h4, h5]; exact ⟨rfl, h.2⟩

theorem mem_insert_after (c v base nb : Nat) (pre post : List Nat) :
    v ∈ c :: (pre ++ base :: nb :: post) ↔ v = nb ∨ v ∈ c :: (pre ++ base :: post) := by
  simp only [List.mem_cons, List.mem_append]
  tauto

theorem mem_skip {c v : Nat} (x : Nat) {pre post : List Nat}
    (h : v ∈ c :: (pre ++ post)) : v ∈ c :: (pre ++ x :: post) := by
  simp only [List.mem_cons, List.mem_append] at h ⊢
  tauto

theorem split_sep_aux (base sz size v sv : Nat) (h16 : sz % 16 = 0) (hs16 : size % 16 = 0)
    (hex : size > sz + 64) (hk : base + size / 16 ≤ v ∨ v + sv / 16 ≤ base) :
    (base + sz / 16 + (size - sz) / 16 ≤ v ∨ v + sv / 16 ≤ base + sz / 16) ∧
      (base + sz / 16 ≤ v ∨ v + sv / 16 ≤ base) := by
  omega

theorem split_fresh_aux (base sz size v sv : Nat) (hszpos : 16 ≤ sz)
    (hex : size > sz + 64) (hk : base + size / 16 ≤ v ∨ v + sv / 16 ≤ base) :
    v ≠ base + sz / 16 := by
  omega

theorem split_arith (base sz size lo hi : Nat) (hszpos : 16 ≤ sz) (h16 : sz % 16 = 0)
    (hs16 : size % 16 = 0) (hex : size > sz + 64) (hlo : lo ≤ base)
    (hhi : base + size / 16 ≤ hi) (hbd : hi * 16 < lo * 16 + 2 ^ 24) :
    sz % 2 ^ 24 = sz ∧ (size - sz) % 2 ^ 24 = size - sz ∧ base + sz / 16 ≠ base ∧
      base + sz / 16 ≤ hi ∧ (size - sz) % 16 = 0 ∧ lo ≤ base + sz / 16 ∧
      base + sz / 16 + (size - sz) / 16 = base + size / 16 ∧
      base + sz / 16 < base + size / 16 := by
  have h1 : sz < 2 ^ 24 := by omega
  have h2 : size - sz < 2 ^ 24 := by omega
  refine ⟨Nat.mod_eq_of_lt h1, Nat.mod_eq_of_lt h2, ?_, ?_, ?_, ?_, ?_, ?_⟩ <;> omega

/-- Splitting a block keeps the link structure: the new block enters the list right
after `base`. -/
theorem split_preRing {z : Zone} {c base sz lo hi : Nat} {pre post : List Nat}
    (h : PreRing z c (pre ++ base :: post) lo hi) (hb : base ≠ z.mainzone_blocklist)
    (hsz16 : sz % 16 = 0) (hszpos : 16 ≤ sz)
    (hex : (z.hdr base).size - sz > MINFRAGMENT) :
    PreRing (Z_Malloc_split z base sz) c (pre ++ base :: (base + sz / 16) :: post) lo hi := by
  obtain ⟨hc, hpre, hbl, hpost⟩ := links_split1.1 h.links
  have hS := split_blocklist z base sz
  have hnd := h.nodup
  obtain ⟨hcb, hcpre, hcpost, hbpre, hbpost, hpp, hndpre, hndpost, hNb, hPb, hNpre⟩ :=
    nodup_around hnd
  obtain ⟨hb1, hb2, hb3⟩ := hbl
  obtain ⟨hbm, hblo, hbhi, hbg, hbid⟩ := hb3 hb
  have hex' : (z.hdr base).size > sz + 64 := by
    unfold MINFRAGMENT at hex; omega
  obtain ⟨hm1, hm2, hnbb, hnbhi, hexm, hnblo, hnbend, hnblt⟩ :=
    split_arith base sz _ lo hi hszpos hsz16 hbm hex' hblo hbhi h.bound
  have hbin : base ∈ c :: (pre ++ base :: post) := by simp
  have key : ∀ v, v ∈ c :: (pre ++ base :: post) → v ≠ z.mainzone_blocklist → v ≠ base →
      base + (z.hdr base).size / 16 ≤ v ∨ v + (z.hdr v).size / 16 ≤ base :=
    fun v hv hvS hvb => h.sep base hbin v hv hb hvS (Ne.symm hvb)
  have hnbS : base + sz / 16 ≠ z.mainzone_blocklist := by
    have := h.outside
    omega
  -- the new block is fresh
  have hfresh : ∀ v ∈ c :: (pre ++ base :: post), v ≠ base + sz / 16 := by
    intro v hv
    by_cases hvS : v = z.mainzone_blocklist
    · rw [hvS]; exact Ne.symm hnbS
    · by_cases hvb : v = base
      · rw [hvb]; exact Ne.symm hnbb
      · exact split_fresh_aux _ _ _ _ _ hszpos hex' (key v hv hvS hvb)
  have hNnb : firstOr post c ≠ base + sz / 16 := by
    rcases firstOr_mem post c with e | e
    · rw [e]; exact hfresh c (by simp)
    · exact hfresh _ (by simp [e])
  have hP16 : PARAGRAPH_SIZE = 16 := rfl
  have hU := fun v => split_user z base sz v hex
  have hSz := fun v => split_size z base sz v hex
  have hNx := fun v => split_next z base sz v hex
  have hPv := fun v => split_prev z base sz v hex
  have hId := fun v => split_id z base sz v
  simp only [hP16, hb2] at hU hSz hNx hPv
  have hBbase : BlockOK (Z_Malloc_split z base sz) lo hi (lastOr pre c) base (base + sz / 16) := by
    unfold BlockOK
    rw [hS, hPv, hNx, hSz, hU, hId, if_neg (Ne.symm hNb), if_neg (Ne.symm hnbb), if_pos rfl,
      if_pos rfl, if_neg (Ne.symm hnbb), hm1]
    exact ⟨hb1, rfl, fun _ => ⟨hsz16, hblo, hnbhi, fun _ => rfl, hbid⟩⟩
  have hBnb : BlockOK (Z_Malloc_split z base sz) lo hi base (base + sz / 16)
      (firstOr post c) := by
    unfold BlockOK
    rw [hS, hPv, hNx, hSz, hU, hId, if_neg (Ne.symm hNnb), if_pos rfl, if_neg hnbb, if_pos rfl,
      if_neg hnbb, if_pos rfl, if_pos rfl, hm2]
    refine ⟨rfl, rfl, fun _ => ⟨hexm, hnblo, ?_, ?_, fun e => absurd rfl e⟩⟩
    · rw [hnbend]; exact hbhi
    · intro hn
      rw [hnbend]; exact hbg hn
  constructor
  · -- links
    refine ring_insert hnd h.links ?_ ?_ hBbase hBnb
    · intro v p n hv hvN hR
      have h1 : v ≠ base := by
        intro e; subst e
        simp only [List.mem_cons, List.mem_append] at hv
        rcases hv with e | e | e
        · exact hcb e.symm
        · exact hbpre e
        · exact hbpost e
      have h2 : v ≠ base + sz / 16 := by
        exact hfresh v (mem_skip base hv)
      refine BlockOK_congr_fields hS ?_ ?_ ?_ ?_ (hId v) hR
      · rw [hPv, if_neg hvN, if_neg h2]
      · rw [hNx, if_neg h1, if_neg h2]
      · rw [hSz, if_neg h1, if_neg h2]
      · rw [hU, if_neg h2]
    · intro p n hR
      refine BlockOK_prev_fields hS ?_ ?_ ?_ ?_ (hId _) hR
      · rw [hPv, if_pos rfl]
      · rw [hNx, if_neg hNb, if_neg hNnb]
      · rw [hSz, if_neg hNb, if_neg hNnb]
      · rw [hU, if_neg hNnb]
  · -- nodup
    have hperm : (c :: (pre ++ base :: (base + sz / 16) :: post)).Perm
        ((base + sz / 16) :: c :: (pre ++ base :: post)) := by
      refine (List.Perm.cons c ?_).trans (List.Perm.swap _ _ _)
      have : pre ++ base :: (base + sz / 16) :: post
          = (pre ++ [base]) ++ (base + sz / 16) :: post := by simp
      rw [this]
      refine List.perm_middle.trans ?_
      simp
    rw [hperm.nodup_iff, List.nodup_cons]
    exact ⟨fun e => hfresh _ e rfl, hnd⟩
  · rw [hS, mem_insert_after]
    exact Or.inr h.sent
  · rw [hS, hU, if_neg (Ne.symm hnbS)]; exact h.sentUser
  · rw [hS, split_tag z base sz _ hex, hP16, if_neg (Ne.symm hnbS)]; exact h.sentTag
  · rw [hS]; exact h.outside
  · exact h.bound
  · -- separation
    intro a ha b hb' haS hbS hab
    rw [hS] at haS hbS
    rw [hSz a, hSz b, hm1, hm2]
    have hmem : ∀ v, v ∈ c :: (pre ++ base :: (base + sz / 16) :: post) →
        v = base + sz / 16 ∨ v ∈ c :: (pre ++ base :: post) :=
      fun v hv => (mem_insert_after c v base _ pre post).1 hv
    rcases hmem a ha with ea | ea <;> rcases hmem b hb' with eb | eb
    · exact absurd (ea.trans eb.symm) hab
    · subst ea
      rw [if_neg hnbb, if_pos rfl]
      by_cases hbb : b = base
      · subst hbb; rw [if_pos rfl]; exact Or.inr (le_refl _)
      · rw [if_neg hbb, if_neg (hfresh b eb)]
        exact (split_sep_aux _ _ _ _ _ hsz16 hbm hex' (key b eb hbS hbb)).1
    · subst eb
      rw [if_neg hnbb, if_pos rfl]
      by_cases hab' : a = base
      · subst hab'; rw [if_pos rfl]; exact Or.inl (le_refl _)
      · rw [if_neg hab', if_neg (hfresh a ea)]
        exact (split_sep_aux _ _ _ _ _ hsz16 hbm hex' (key a ea haS hab')).1.symm
    · by_cases hab' : a = base
      · subst hab'
        rw [if_pos rfl, if_neg (Ne.symm hab), if_neg (hfresh b eb)]
        exact (split_sep_aux _ _ _ _ _ hsz16 hbm hex' (key b eb hbS (Ne.symm hab))).2
      · rw [if_neg hab', if_neg (hfresh a ea)]
        by_cases hbb : b = base
        · subst hbb
          rw [if_pos rfl]
          exact (split_sep_aux _ _ _ _ _ hsz16 hbm hex' (key a ea haS hab')).2.symm
        · rw [if_neg hbb, if_neg (hfresh b eb)]
          exact h.sep a ea b eb haS hbS hab
  · rw [split_rover, mem_insert_after]
    exact Or.inr h.rover

theorem markUsed_blocklist (z : Zone) (base u : Nat) (tag : Int) :
    (markUsed z base u tag).mainzone_blocklist = z.mainzone_blocklist := rfl

theorem markUsed_slot (z : Zone) (base u : Nat) (tag : Int) :
    (markUsed z base u tag).slot = z.slot := rfl

theorem markUsed_rover (z : Zone) (base u : Nat) (tag : Int) :
    (markUsed z base u tag).mainzone_rover = (z.hdr base).next := by
  unfold markUsed; simp

theorem markUsed_user (z : Zone) (base u : Nat) (tag : Int) (v : Nat) :
    ((markUsed z base u tag).hdr v).user = if v = base then u else (z.hdr v).user := by
  unfold markUsed; simp

theorem markUsed_tag (z : Zone) (base u : Nat) (tag : Int) (v : Nat) :
    ((markUsed z base u tag).hdr v).tag =
      if v = base then (tag % 16).toNat % 16 else (z.hdr v).tag := by
  unfold markUsed; simp

theorem markUsed_id (z : Zone) (base u : Nat) (tag : Int) (v : Nat) :
    ((markUsed z base u tag).hdr v).id = if v = base then ZONEID else (z.hdr v).id := by
  unfold markUsed; simp [ZONEID]

theorem markUsed_size (z : Zone) (base u : Nat) (tag : Int) (v : Nat) :
    ((markUsed z base u tag).hdr v).size = (z.hdr v).size := by
  unfold markUsed; simp

theorem markUsed_next (z : Zone) (base u : Nat) (tag : Int) (v : Nat) :
    ((markUsed z base u tag).hdr v).next = (z.hdr v).next := by
  unfold markUsed; simp

theorem markUsed_prev (z : Zone) (base u : Nat) (tag : Int) (v : Nat) :
    ((markUsed z base u tag).hdr v).prev = (z.hdr v).prev := by
  unfold markUsed; simp

/-- Marking a block in use restores "no two adjacent free blocks" when `base` was the
only block that could have a free neighbour. -/
theorem markUsed_ring {z : Zone} {c base u lo hi : Nat} {tag : Int} {rest : List Nat}
    (h : PreRing z c rest lo hi) (hin : base ∈ c :: rest)
    (hb : base ≠ z.mainzone_blocklist) (hu : u ≠ 0)
    (hnaf : ∀ v ∈ c :: rest, v ≠ base →
      ¬ ((z.hdr v).user = 0 ∧ (z.hdr (z.hdr v).next).user = 0 ∧ (z.hdr v).next ≠ base)) :
    Ring (markUsed z base u tag) c rest lo hi := by
  have hS := markUsed_blocklist z base u tag
  refine ⟨⟨?_, h.nodup, h.sent, ?_, ?_, h.outside, h.bound, ?_, ?_⟩, ?_⟩
  · refine Seg_mono_mem ?_ h.links
    intro p v n _ hR
    unfold BlockOK at hR ⊢
    rw [hS, markUsed_prev, markUsed_next, markUsed_size, markUsed_user, markUsed_id]
    refine ⟨hR.1, hR.2.1, fun hvS => ?_⟩
    obtain ⟨h1, h2, h3, h4, h5⟩ := hR.2.2 hvS
    refine ⟨h1, h2, h3, h4, ?_⟩
    by_cases hv : v = base
    · rw [if_pos hv, if_pos hv]; exact fun _ => rfl
    · rw [if_neg hv, if_neg hv]; exact h5
  · rw [hS, markUsed_user, if_neg (Ne.symm hb)]; exact h.sentUser
  · rw [hS, markUsed_tag, if_neg (Ne.symm hb)]; exact h.sentTag
  · intro a ha b hb' haS hbS hab
    rw [markUsed_size, markUsed_size]
    exact h.sep a ha b hb' haS hbS hab
  · rw [markUsed_rover]; exact h.next_mem hin
  · intro v hv hf
    rw [markUsed_user, markUsed_user, markUsed_next] at hf
    by_cases hvb : v = base
    · rw [if_pos hvb] at hf; exact hu hf.1
    · rw [if_neg hvb] at hf
      by_cases hn : (z.hdr v).next = base
      · rw [if_pos hn] at hf; exact hu hf.2
      · rw [if_neg hn] at hf
        exact hnaf v hv hvb ⟨hf.1, hf.2, hn⟩

/-- The ring does not depend on the owner slots. -/
theorem Ring_setSlot {z : Zone} {c lo hi : Nat} {rest : List Nat} (u : Nat) (p : FarPtr)
    (h : Ring z c rest lo hi) : Ring (z.setSlot u p) c rest lo hi :=
  ⟨⟨h.pre.links, h.pre.nodup, h.pre.sent, h.pre.sentUser, h.pre.sentTag, h.pre.outside,
    h.pre.bound, h.pre.sep, h.pre.rover⟩, h.naf⟩

theorem Z_Malloc_size_facts (size : Nat) :
    Z_Malloc_size size % 16 = 0 ∧ 16 ≤ Z_Malloc_size size := by
  unfold Z_Malloc_size PARAGRAPH_SIZE
  omega

/-- Split and mark: the tail of a successful `Z_Malloc` keeps the heap well formed. -/
theorem alloc_ring {z : Zone} {c base sz u lo hi : Nat} {tag : Int} {pre post : List Nat}
    (h : Ring z c (pre ++ base :: post) lo hi) (hb : base ≠ z.mainzone_blocklist)
    (hfree : (z.hdr base).user = 0) (hsz16 : sz % 16 = 0) (hszpos : 16 ≤ sz) (hu : u ≠ 0) :
    Ring (markUsed (Z_Malloc_split z base sz) base u tag) c
      (pre ++ base ::
        ((if (z.hdr base).size - sz > MINFRAGMENT then [base + sz / 16] else []) ++ post))
      lo hi := by
  have hbin : base ∈ c :: (pre ++ base :: post) := by simp
  have hnextb : (z.hdr base).next = firstOr post c := (links_split1.1 h.pre.links).2.2.1.2.1
  by_cases hex : (z.hdr base).size - sz > MINFRAGMENT
  · rw [if_pos hex]
    have h1 := split_preRing h.pre hb hsz16 hszpos hex
    have hS := split_blocklist z base sz
    have hU := fun v => split_user z base sz v hex
    have hNx := fun v => split_next z base sz v hex
    have hP16 : PARAGRAPH_SIZE = 16 := rfl
    simp only [hP16] at hU hNx
    have hnd := h1.nodup
    have hfresh : ∀ v ∈ c :: (pre ++ base :: post), v ≠ base + sz / 16 := by
      intro v hv e
      have hperm : (c :: (pre ++ base :: (base + sz / 16) :: post)).Perm
          ((base + sz / 16) :: c :: (pre ++ base :: post)) := by
        refine (List.Perm.cons c ?_).trans (List.Perm.swap _ _ _)
        have : pre ++ base :: (base + sz / 16) :: post
            = (pre ++ [base]) ++ (base + sz / 16) :: post := by simp
        rw [this]
        refine List.perm_middle.trans ?_
        simp
      rw [hperm.nodup_iff, List.nodup_cons] at hnd
      exact hnd.1 (e ▸ hv)
    refine markUsed_ring h1 ((mem_insert_after _ _ _ _ _ _).2 (Or.inr hbin))
      (by rw [hS]; exact hb) hu ?_
    intro v hv hvb hf
    have hNin : firstOr post c ∈ c :: (pre ++ base :: post) := by
      rw [← hnextb]; exact h.pre.next_mem hbin
    rcases (mem_insert_after _ _ _ _ _ _).1 hv with e | e
    · -- the new free block: its successor is in use
      simp only [hU, hNx, if_neg hvb, if_pos e, hnextb, if_neg (hfresh _ hNin)] at hf
      have hN := h.naf base hbin
      rw [hnextb] at hN
      exact hN ⟨hfree, hf.2.1⟩
    · simp only [hU, hNx, if_neg hvb, if_neg (hfresh v e),
        if_neg (hfresh _ (h.pre.next_mem e))] at hf
      exact h.naf v e ⟨hf.1, hf.2.1⟩
  · rw [if_neg hex, split_none z base sz hex]
    refine markUsed_ring h.pre hbin hb hu ?_
    intro v hv _ hf
    exact h.naf v hv ⟨hf.1, hf.2.1⟩

theorem Kept_refl (z : Zone) (v : Nat) : Kept z z v := ⟨rfl, rfl, rfl, rfl⟩

theorem Kept_trans {z z' z'' : Zone} {v : Nat} (h1 : Kept z z' v) (h2 : Kept z' z'' v) :
    Kept z z'' v :=
  ⟨h2.1.trans h1.1, h2.2.1.trans h1.2.1, h2.2.2.1.trans h1.2.2.1, h2.2.2.2.trans h1.2.2.2⟩

theorem Frame_refl (z : Zone) (l : List Nat) : Frame z z l l :=
  ⟨rfl, fun _ => Or.inl rfl, fun v hv _ => Or.inl ⟨hv, Kept_refl z v⟩⟩

theorem Frame_trans {z z' z'' : Zone} {l l' l'' : List Nat}
    (h1 : Frame z z' l l') (h2 : Frame z' z'' l' l'') : Frame z z'' l l'' := by
  obtain ⟨a1, b1, c1⟩ := h1
  obtain ⟨a2, b2, c2⟩ := h2
  refine ⟨a2.trans a1, ?_, ?_⟩
  · intro u
    rcases b2 u with e | e
    · rw [e]; exact b1 u
    · exact Or.inr e
  · intro v hv hu
    rcases c1 v hv hu with ⟨hv', hk⟩ | ⟨ht, hs⟩
    · have hu' : (z'.hdr v).user ≠ 0 := by rw [hk.2.2.1]; exact hu
      rcases c2 v hv' hu' with ⟨hv'', hk'⟩ | ⟨ht', hs'⟩
      · exact Or.inl ⟨hv'', Kept_trans hk hk'⟩
      · right
        rw [hk.2.1] at ht'
        rw [hk.2.2.1] at hs'
        exact ⟨ht', hs'⟩
    · right
      refine ⟨ht, fun hgt => ?_⟩
      rcases b2 ((z.hdr v).user) with e | e
      · rw [e]; exact hs hgt
      · exact e

/-- The frame of one eviction. -/
theorem Frame_free {z : Zone} {c b : Nat} {pre post : List Nat}
    (ht : PU_PURGELEVEL ≤ (z.hdr b).tag) :
    Frame z (Z_Free_block z b) (c :: (pre ++ b :: post))
      (c :: ((if (z.hdr (lastOr pre c)).user = 0 then pre else pre ++ [b]) ++
        (if (z.hdr (firstOr post c)).user = 0 then post.tail else post))) := by
  refine ⟨Z_Free_block_blocklist z b, ?_, ?_⟩
  · intro u
    rw [Z_Free_block_slot]
    split
    · exact Or.inr rfl
    · exact Or.inl rfl
  · intro v hv hu
    by_cases hvb : v = b
    · right
      subst hvb
      refine ⟨ht, fun hgt => ?_⟩
      rw [Z_Free_block_slot, if_pos ⟨hgt, rfl⟩]
    · left
      obtain ⟨h1, h2, h3⟩ := Z_Free_block_frame z b v hvb hu
      refine ⟨?_, h1, h2, ?_, h3⟩
      · simp only [List.mem_cons, List.mem_append] at hv ⊢
        rcases hv with e | e | e | e
        · exact Or.inl e
        · right; left
          split
          · exact e
          · exact List.mem_append_left _ e
        · exact absurd e hvb
        · right; right
          split
          · rename_i hN
            cases post with
            | nil => exact absurd e (List.not_mem_nil _)
            | cons n post' =>
              simp only [firstOr_cons] at hN
              rcases List.mem_cons.1 e with e' | e'
              · exact absurd (e' ▸ hN) hu
              · exact e'
          · exact e
      · rw [Z_Free_block_user, if_neg hvb]

theorem append_singleton_append (vis : List Nat) (r : Nat) (rem : List Nat) :
    (vis ++ [r]) ++ rem = vis ++ r :: rem := by simp

/-- One pass of the scan keeps the loop invariant and shortens the list of blocks ahead. -/
theorem scan_step {z : Zone} {start lo hi base rover : Nat} {vis rem' : List Nat}
    (h : ScanInv z start lo hi base rover vis (rover :: rem')) :
    ∃ z' base' rover' vis' rem2,
      Z_Malloc_scan_body z base rover = .ok z' (base', rover') ∧
      ScanInv z' start lo hi base' rover' vis' rem2 ∧ rem2.length ≤ rem'.length ∧
      Frame z z' (start :: (vis ++ rover :: rem')) (start :: (vis' ++ rem2)) := by
  have hR := h.hring
  obtain ⟨-, -, hrl, -⟩ := links_split1.1 hR.pre.links
  have hrin : rover ∈ start :: (vis ++ rover :: rem') := by simp
  have hnd := hR.pre.nodup
  obtain ⟨hsr, -, -, -, -, -, -, -, -, -, -⟩ := nodup_around hnd
  unfold Z_Malloc_scan_body
  by_cases hu : (z.hdr rover).user = 0
  · -- a free block: move on
    simp only [hu, ne_eq, not_true_eq_false, if_false]
    have hb : base = rover := by
      rcases h.hbase with ⟨e, -⟩ | ⟨vis0, e, hf⟩
      · exact e
      · exfalso
        subst e
        have hR' := hR
        rw [List.append_assoc] at hR'
        have hl := links_split2.1 hR'.pre.links
        have hbin : base ∈ start :: (vis0 ++ [base] ++ rover :: rem') := by simp
        have := hR.naf base hbin
        rw [show (z.hdr base).next = rover from hl.2.2.1.2.1] at this
        exact this ⟨hf, hu⟩
    refine ⟨z, base, (z.hdr rover).next, vis ++ [rover], rem', rfl, ⟨?_, h.hstart, hrl.2.1, ?_⟩,
      le_refl _, ?_⟩
    · rw [append_singleton_append]; exact hR
    · exact Or.inr ⟨vis, by rw [hb], by rw [hb]; exact hu⟩
    · rw [append_singleton_append]; exact Frame_refl _ _
  · simp only [ne_eq, hu, not_false_eq_true, if_true]
    by_cases htag : (z.hdr rover).tag < PU_PURGELEVEL
    · -- a protected block: move base past it
      simp only [htag, if_true]
      refine ⟨z, (z.hdr rover).next, (z.hdr rover).next, vis ++ [rover], rem', rfl,
        ⟨?_, h.hstart, hrl.2.1, ?_⟩, le_refl _, ?_⟩
      · rw [append_singleton_append]; exact hR
      · left
        refine ⟨rfl, ?_⟩
        rw [lastOr_append_cons]; exact hu
      · rw [append_singleton_append]; exact Frame_refl _ _
    · -- a purgeable block: free it
      simp only [htag, if_false]
      have hrS : rover ≠ z.mainzone_blocklist := by
        intro e
        rw [e, hR.pre.sentTag] at htag
        exact htag (by decide)
      have hid : (z.hdr rover).id = ZONEID := (hrl.2.2 hrS).2.2.2.2 hu
      rw [Z_Free_eq (pointerToSegment_segmentToPointer _) hid]
      simp only []
      have hR' := Z_Free_block_ring hR h.hstart hrS
      have hF := @Frame_free z start rover vis rem' (le_of_not_lt htag)
      have hU := Z_Free_block_user z rover
      have hstart' : ((Z_Free_block z rover).hdr start).user ≠ 0 := by
        rw [hU, if_neg hsr]; exact h.hstart
      have hlen : (if (z.hdr (firstOr rem' start)).user = 0 then rem'.tail else rem').length
          ≤ rem'.length := by
        split
        · simp
        · exact le_refl _
      rcases h.hbase with ⟨e, hP⟩ | ⟨vis0, e, hf⟩
      · -- base is the rover itself
        subst e
        rw [if_neg hP] at hR' hF
        have hl := links_split1.1 (by
          have := hR'.pre.links
          rw [append_singleton_append] at this
          exact this)
        have hbl := hl.2.2.1
        have hin' : base ∈ start :: (vis ++ [base] ++
            (if (z.hdr (firstOr rem' start)).user = 0 then rem'.tail else rem')) := by simp
        have hnp := hR'.pre.next_prev hin'
        rw [hbl.1] at hnp
        rw [hrl.1, hnp, hbl.2.1]
        refine ⟨_, _, _, vis ++ [base], _, rfl, ⟨hR', hstart', rfl, ?_⟩, hlen, hF⟩
        exact Or.inr ⟨vis, rfl, by rw [hU, if_pos rfl]⟩
      · -- base is the free block before the rover
        subst e
        have hPe : lastOr (vis0 ++ [base]) start = base := by simp
        rw [hPe, if_pos hf] at hR' hF
        have hbr : base ≠ rover := fun e => hu (e ▸ hf)
        have hl := links_split1.1 (by
          have := hR'.pre.links
          rw [append_singleton_append] at this
          exact this)
        have hbl := hl.2.2.1
        have hin' : base ∈ start :: (vis0 ++ [base] ++
            (if (z.hdr (firstOr rem' start)).user = 0 then rem'.tail else rem')) := by simp
        have hnp := hR'.pre.next_prev hin'
        rw [hbl.1] at hnp
        have hold := links_split2.1 (by
          have := hR.pre.links
          rw [List.append_assoc] at this
          exact this)
        have hprev : (z.hdr base).prev = lastOr vis0 start := hold.2.2.1.1
        rw [hprev, hnp, hbl.2.1]
        refine ⟨_, _, _, vis0 ++ [base], _, rfl, ⟨hR', hstart', rfl, ?_⟩, hlen, hF⟩
        exact Or.inr ⟨vis0, rfl, by rw [hU, if_neg hbr]; exact hf⟩

theorem ScanPost_step {size start lo hi : Nat} {z z' : Zone} {l l' : List Nat} {n n' fuel : Nat}
    {r : Res Nat} (h : ScanPost size start lo hi z' l' n' fuel r) (hF : Frame z z' l l')
    (hn : n' < n) : ScanPost size start lo hi z l n (fuel + 1) r := by
  cases r with
  | timeout => exact Nat.succ_le_of_lt (Nat.lt_of_le_of_lt h hn)
  | fatal e z'' =>
    obtain ⟨h1, h2, rest', h3, h4⟩ := h
    exact ⟨h1, h2, rest', h3, Frame_trans hF h4⟩
  | ok z'' b =>
    obtain ⟨h1, h2, h3, pre, post, h4, h5⟩ := h
    exact ⟨h1, h2, h3, pre, post, h4, Frame_trans hF h5⟩

/-- The scan of `Z_Malloc`, started in a state satisfying the loop invariant. -/
theorem scan_spec (size start lo hi : Nat) (fuel : Nat) :
    ∀ (z : Zone) (base rover : Nat) (vis rem : List Nat),
      ScanInv z start lo hi base rover vis rem →
      ScanPost size start lo hi z (start :: (vis ++ rem)) rem.length fuel
        (Z_Malloc_scan size start fuel z base rover) := by
  induction fuel with
  | zero =>
    intro z base rover vis rem _
    exact Nat.zero_le _
  | succ fuel ih =>
    intro z base rover vis rem h
    unfold Z_Malloc_scan
    by_cases hrs : rover = start
    · rw [if_pos hrs]
      exact ⟨rfl, h.hstart, _, h.hring, Frame_refl _ _⟩
    · rw [if_neg hrs]
      cases rem with
      | nil => exact absurd h.hrover hrs
      | cons r rem' =>
        have hr : rover = r := h.hrover
        subst hr
        obtain ⟨z', base', rover', vis', rem2, hbody, hinv, hlen, hF⟩ := scan_step h
        rw [hbody]
        simp only []
        by_cases hcond : (z'.hdr base').user ≠ 0 ∨ (z'.hdr base').size < size
        · rw [if_pos hcond]
          exact ScanPost_step (ih z' base' rover' vis' rem2 hinv) hF
            (Nat.lt_succ_of_le hlen)
        · rw [if_neg hcond]
          have hfree : (z'.hdr base').user = 0 := by
            by_contra hne; exact hcond (Or.inl hne)
          have hsize : size ≤ (z'.hdr base').size := by
            by_contra hne; exact hcond (Or.inr (Nat.lt_of_not_le hne))
          refine ⟨hfree, hsize, hinv.hstart, ?_⟩
          rcases hinv.hbase with ⟨e, -⟩ | ⟨vis0, e, -⟩
          · cases rem2 with
            | nil =>
              exfalso
              have : base' = start := e.trans hinv.hrover
              exact hinv.hstart (this ▸ hfree)
            | cons r2 rem2' =>
              have : base' = r2 := e.trans hinv.hrover
              subst this
              exact ⟨vis', rem2', hinv.hring, hF⟩
          · subst e
            refine ⟨vis0, rem2, ?_, ?_⟩
            · have := hinv.hring
              rw [append_singleton_append] at this
              exact this
            · rw [append_singleton_append] at hF
              exact hF

/-- A ring can be opened at any of its members; the members and their number stay. -/
theorem Ring.reopen_len {z : Zone} {c d lo hi : Nat} {rest : List Nat}
    (h : Ring z c rest lo hi) (hd : d ∈ c :: rest) :
    ∃ rest', Ring z d rest' lo hi ∧ (∀ v, v ∈ d :: rest' ↔ v ∈ c :: rest) ∧
      rest'.length = rest.length := by
  rcases List.mem_cons.1 hd with e | e
  · subst e; exact ⟨rest, h, fun _ => Iff.rfl, rfl⟩
  · obtain ⟨xs, ys, rfl⟩ := List.append_of_mem e
    refine ⟨_, h.rotated, fun v => ring_mem_rotate c d v xs ys, ?_⟩
    simp only [List.length_append, List.length_cons]
    omega

theorem Frame_congr {z z' : Zone} {l0 l l' l0' : List Nat} (h : Frame z z' l0 l0')
    (hl : ∀ v, v ∈ l → v ∈ l0) (hl' : ∀ v, v ∈ l0' → v ∈ l') : Frame z z' l l' := by
  obtain ⟨a, b, c⟩ := h
  refine ⟨a, b, fun v hv hu => ?_⟩
  rcases c v (hl v hv) hu with ⟨h1, h2⟩ | h1
  · exact Or.inl ⟨hl' v h1, h2⟩
  · exact Or.inr h1

/-- The loop invariant holds when `Z_Malloc` enters its scan. -/
theorem scan_init {z : Zone} {c lo hi : Nat} {rest : List Nat} (h : Ring z c rest lo hi) :
    ∃ rest0, (∀ v, v ∈
        (z.hdr (if (z.hdr (z.hdr z.mainzone_rover).prev).user = 0
          then (z.hdr z.mainzone_rover).prev else z.mainzone_rover)).prev :: rest0 ↔
        v ∈ c :: rest) ∧ rest0.length = rest.length ∧
      ScanInv z
        (z.hdr (if (z.hdr (z.hdr z.mainzone_rover).prev).user = 0
          then (z.hdr z.mainzone_rover).prev else z.mainzone_rover)).prev lo hi
        (if (z.hdr (z.hdr z.mainzone_rover).prev).user = 0
          then (z.hdr z.mainzone_rover).prev else z.mainzone_rover)
        (if (z.hdr (z.hdr z.mainzone_rover).prev).user = 0
          then (z.hdr z.mainzone_rover).prev else z.mainzone_rover) [] rest0 := by
  have hr := h.pre.rover
  have hp := h.pre.prev_mem hr
  generalize hb : (if (z.hdr (z.hdr z.mainzone_rover).prev).user = 0
          then (z.hdr z.mainzone_rover).prev else z.mainzone_rover) = base
  have hbin : base ∈ c :: rest := by
    rw [← hb]; split
    · exact hp
    · exact hr
  have hsin := h.pre.prev_mem hbin
  obtain ⟨rest0, hR0, hmem, hlen⟩ := h.reopen_len hsin
  have hnp : (z.hdr (z.hdr base).prev).next = base := h.pre.next_prev hbin
  have hnext : (z.hdr (z.hdr base).prev).next = firstOr rest0 (z.hdr base).prev := by
    have := hR0.pre.links
    rw [Seg_cons] at this
    exact this.1.2.1
  have hstart : (z.hdr (z.hdr base).prev).user ≠ 0 := by
    by_cases hP : (z.hdr (z.hdr z.mainzone_rover).prev).user = 0
    · rw [if_pos hP] at hb
      intro hf
      have := h.naf _ hsin
      rw [hnp] at this
      refine this ⟨hf, ?_⟩
      rw [← hb]; exact hP
    · rw [if_neg hP] at hb
      rw [← hb]; exact hP
  refine ⟨rest0, hmem, hlen, ⟨hR0, hstart, ?_, Or.inl ⟨rfl, hstart⟩⟩⟩
  rw [← hnext, hnp]

/-- `Z_Malloc` as its scan followed by the split and the marking. -/
theorem Z_Malloc_eq (fuel : Nat) (z : Zone) (size : Nat) (tag : Int) (user : Nat) :
    Z_Malloc fuel z size tag user =
      match Z_Malloc_scan (Z_Malloc_size size)
          (z.hdr (if (z.hdr (z.hdr z.mainzone_rover).prev).user = 0
            then (z.hdr z.mainzone_rover).prev else z.mainzone_rover)).prev fuel z
          (if (z.hdr (z.hdr z.mainzone_rover).prev).user = 0
            then (z.hdr z.mainzone_rover).prev else z.mainzone_rover)
          (if (z.hdr (z.hdr z.mainzone_rover).prev).user = 0
            then (z.hdr z.mainzone_rover).prev else z.mainzone_rover) with
      | .timeout => .timeout
      | .fatal e z' => .fatal e z'
      | .ok z1 base =>
        if user = 0 ∧ tag ≥ (PU_PURGELEVEL : Int) then
          .fatal .ownerRequired (Z_Malloc_split z1 base (Z_Malloc_size size))
        else .ok (Z_Malloc_finish z1 base (Z_Malloc_size size) tag user)
          (segmentToPointer (base + 1)) := by
  unfold Z_Malloc
  simp only []
  cases Z_Malloc_scan (Z_Malloc_size size)
          (z.hdr (if (z.hdr (z.hdr z.mainzone_rover).prev).user = 0
            then (z.hdr z.mainzone_rover).prev else z.mainzone_rover)).prev fuel z
          (if (z.hdr (z.hdr z.mainzone_rover).prev).user = 0
            then (z.hdr z.mainzone_rover).prev else z.mainzone_rover)
          (if (z.hdr (z.hdr z.mainzone_rover).prev).user = 0
            then (z.hdr z.mainzone_rover).prev else z.mainzone_rover) with
  | timeout => rfl
  | fatal e z' => rfl
  | ok z1 base =>
    simp only []
    by_cases hu : user = 0
    · subst hu
      by_cases ht : tag ≥ (PU_PURGELEVEL : Int)
      · simp [ht]
      · simp [ht, Z_Malloc_finish, markUsed]
    · simp [hu, Z_Malloc_finish, markUsed]
      rfl

/-- The four ways a call of `Z_Malloc` on a well-formed heap can end. -/
theorem Z_Malloc_cases {z : Zone} {c lo hi : Nat} {rest : List Nat}
    (h : Ring z c rest lo hi) (fuel size : Nat) (tag : Int) (user : Nat) :
    (Z_Malloc fuel z size tag user = .timeout ∧ fuel ≤ rest.length) ∨
    (∃ z' start rest', Z_Malloc fuel z size tag user = .fatal .allocFailed z' ∧
      Ring z' start rest' lo hi ∧ (z'.hdr start).user ≠ 0 ∧
      Frame z z' (c :: rest) (start :: rest')) ∨
    (∃ z1 start b pre post,
      ScanOK z z1 (c :: rest) (Z_Malloc_size size) start b pre post lo hi ∧
      user = 0 ∧ tag ≥ (PU_PURGELEVEL : Int) ∧
      Z_Malloc fuel z size tag user =
        .fatal .ownerRequired (Z_Malloc_split z1 b (Z_Malloc_size size))) ∨
    (∃ z1 start b pre post,
      ScanOK z z1 (c :: rest) (Z_Malloc_size size) start b pre post lo hi ∧
      ¬ (user = 0 ∧ tag ≥ (PU_PURGELEVEL : Int)) ∧
      Z_Malloc fuel z size tag user =
        .ok (Z_Malloc_finish z1 b (Z_Malloc_size size) tag user)
          (segmentToPointer (b + 1))) := by
  obtain ⟨rest0, hmem, hlen, hinv⟩ := scan_init h
  have hspec := scan_spec (Z_Malloc_size size) _ lo hi fuel z _ _ [] rest0 hinv
  rw [Z_Malloc_eq]
  generalize hb : (if (z.hdr (z.hdr z.mainzone_rover).prev).user = 0
          then (z.hdr z.mainzone_rover).prev else z.mainzone_rover) = base at *
  generalize hs : (z.hdr base).prev = start at *
  cases hscan : Z_Malloc_scan (Z_Malloc_size size) start fuel z base base with
  | timeout =>
    rw [hscan] at hspec
    left
    exact ⟨rfl, hlen ▸ hspec⟩
  | fatal e z' =>
    rw [hscan] at hspec
    obtain ⟨he, h2, rest', h3, h4⟩ := hspec
    right; left
    subst he
    exact ⟨z', start, rest', rfl, h3, h2,
      Frame_congr h4 (fun v hv => (hmem v).2 hv) (fun v hv => hv)⟩
  | ok z1 b =>
    rw [hscan] at hspec
    obtain ⟨h1, h2, h3, pre, post, h4, h5⟩ := hspec
    have hok : ScanOK z z1 (c :: rest) (Z_Malloc_size size) start b pre post lo hi :=
      ⟨h4, h1, h2, h3, Frame_congr h5 (fun v hv => (hmem v).2 hv) (fun v hv => hv)⟩
    right; right
    by_cases hcond : user = 0 ∧ tag ≥ (PU_PURGELEVEL : Int)
    · left
      exact ⟨z1, start, b, pre, post, hok, hcond.1, hcond.2, by simp only [if_pos hcond]⟩
    · right
      exact ⟨z1, start, b, pre, post, hok, hcond, by simp only [if_neg hcond]⟩

theorem WF_of_ring {z : Zone} {c lo hi : Nat} {rest : List Nat} (h : Ring z c rest lo hi) :
    WF z := by
  obtain ⟨rest', h', -⟩ := h.reopen h.pre.sent
  exact ⟨rest', lo, hi, h'⟩

theorem Z_Malloc_finish_blocklist (z1 : Zone) (b sz : Nat) (tag : Int) (user : Nat) :
    (Z_Malloc_finish z1 b sz tag user).mainzone_blocklist = z1.mainzone_blocklist := by
  unfold Z_Malloc_finish
  split
  · rw [setSlot_blocklist, markUsed_blocklist, split_blocklist]
  · rw [markUsed_blocklist, split_blocklist]

/-- The state returned by a successful `Z_Malloc` is well formed; the list gains the
split-off block, if any, right after the allocated block. -/
theorem Z_Malloc_finish_ring {z z1 : Zone} {l : List Nat} {size start b lo hi : Nat}
    {pre post : List Nat} (tag : Int) (user : Nat)
    (h : ScanOK z z1 l (Z_Malloc_size size) start b pre post lo hi) :
    Ring (Z_Malloc_finish z1 b (Z_Malloc_size size) tag user) start
      (pre ++ b ::
        ((if (z1.hdr b).size - Z_Malloc_size size > MINFRAGMENT
          then [b + Z_Malloc_size size / 16] else []) ++ post)) lo hi := by
  have hbS : b ≠ z1.mainzone_blocklist := fun e => h.hring.pre.sentUser (e ▸ h.hfree)
  obtain ⟨h16, hpos⟩ := Z_Malloc_size_facts size
  unfold Z_Malloc_finish
  split
  · rename_i hu
    exact Ring_setSlot _ _ (alloc_ring h.hring hbS h.hfree h16 hpos hu)
  · exact alloc_ring h.hring hbS h.hfree h16 hpos (by decide)

/-- Members of the ring are exactly the blocks met when walking from the sentinel. -/
theorem nthBlock_mem {z : Zone} {c lo hi : Nat} {rest : List Nat} (h : PreRing z c rest lo hi)
    (n : Nat) : nthBlock z n ∈ c :: rest := by
  induction n with
  | zero => exact h.sent
  | succ n ih => exact h.next_mem ih

theorem InList_mem {z : Zone} {c lo hi : Nat} {rest : List Nat} (h : PreRing z c rest lo hi)
    {b : Nat} (hb : InList z b) : b ∈ c :: rest := by
  obtain ⟨n, rfl⟩ := hb
  exact nthBlock_mem h n

theorem Seg_reach {z : Zone} {lo hi : Nat} (l : List Nat) :
    ∀ (p n k : Nat), Seg (BlockOK z lo hi) p l n → nthBlock z k = firstOr l n →
      ∀ v ∈ l, InList z v := by
  induction l with
  | nil => intro p n k _ _ v hv; exact absurd hv (List.not_mem_nil _)
  | cons a l ih =>
    intro p n k hs hk v hv
    rw [Seg_cons] at hs
    rcases List.mem_cons.1 hv with e | e
    · exact ⟨k, by rw [hk, e]; rfl⟩
    · refine ih a n (k + 1) hs.2 ?_ v e
      show (z.hdr (nthBlock z k)).next = firstOr l n
      rw [hk]
      exact hs.1.2.1

theorem mem_InList {z : Zone} {lo hi : Nat} {rest : List Nat}
    (h : PreRing z z.mainzone_blocklist rest lo hi) {b : Nat}
    (hb : b ∈ z.mainzone_blocklist :: rest) : InList z b :=
  Seg_reach _ _ _ 0 h.links rfl b hb

/-- In a well-formed heap, being in the list is being a member of the ring. -/
theorem InList_iff {z : Zone} {c lo hi : Nat} {rest : List Nat} (h : Ring z c rest lo hi)
    (b : Nat) : InList z b ↔ b ∈ c :: rest := by
  constructor
  · exact InList_mem h.pre
  · intro hb
    obtain ⟨rest', h', hm⟩ := h.reopen h.pre.sent
    exact mem_InList h'.pre ((hm b).2 hb)

theorem Z_Init_halloc_some {halloc : Int → FarPtr} :
    ∀ (fuel : Nat) (n0 : Int) (m : FarPtr) (k : Int),
      Z_Init_halloc halloc fuel n0 = some (m, k) → m = halloc (k + 1) ∧ m ≠ NULL ∧ k + 1 ≤ n0 := by
  intro fuel
  induction fuel with
  | zero => intro n0 m k h; simp [Z_Init_halloc] at h
  | succ fuel ih =>
    intro n0 m k h
    unfold Z_Init_halloc at h
    simp only [] at h
    by_cases hnull : halloc n0 = NULL
    · rw [if_pos hnull] at h
      obtain ⟨h1, h2, h3⟩ := ih _ _ _ h
      exact ⟨h1, h2, by omega⟩
    · rw [if_neg hnull] at h
      simp only [Option.some.injEq, Prod.mk.injEq] at h
      obtain ⟨h1, h2⟩ := h
      subst h1 h2
      rw [sub_add_cancel]
      exact ⟨rfl, hnull, le_refl _⟩

theorem alignUp_spec :
    ∀ (k : Nat) (p : FarPtr), (16 - p.off % 16) % 16 ≤ k →
      p.off + (16 - p.off % 16) % 16 < 65536 →
      alignUp k p = ⟨p.seg, p.off + (16 - p.off % 16) % 16⟩ := by
  intro k
  induction k with
  | zero =>
    intro p h _
    have : (16 - p.off % 16) % 16 = 0 := by omega
    cases p
    simp only [alignUp, this, Nat.add_zero]
  | succ k ih =>
    intro p h hlt
    unfold alignUp
    have hb : p.bits % PARAGRAPH_SIZE = p.off % 16 := by
      unfold FarPtr.bits PARAGRAPH_SIZE; omega
    rw [hb]
    by_cases ha : p.off % 16 = 0
    · have : ¬ (p.off % 16 ≠ 0) := fun e => e ha
      rw [if_neg this]
      have : (16 - p.off % 16) % 16 = 0 := by omega
      cases p
      simp only [this, Nat.add_zero]
    · rw [if_pos ha]
      have hmod : (p.off + 1) % 65536 = p.off + 1 := Nat.mod_eq_of_lt (by omega)
      rw [hmod, ih]
      · simp only [FarPtr.mk.injEq, true_and]
        omega
      · simp only; omega
      · simp only; omega

theorem pointerToSegment_aligned (p : FarPtr) (h : p.off % 16 = 0) :
    pointerToSegment p = some (p.seg + p.off / 16) := by
  unfold pointerToSegment FarPtr.bits PARAGRAPH_SIZE
  have : ¬ ((p.seg * 65536 + p.off) % 16 ≠ 0) := by omega
  rw [if_neg this]
  congr 1
  omega

/-- Arithmetic of the arena set up by `Z_Init`. -/
theorem init_arith (mseg moff bseg boff n : Nat) (hn1 : 1 ≤ n) (hn2 : n ≤ 40960)
    (hdis : bseg * 16 + boff + 32 ≤ mseg * 16 + moff ∨
      mseg * 16 + moff + 16 * n ≤ bseg * 16 + boff) :
    let a := mseg + (moff + (16 - moff % 16) % 16) / 16
    let s := bseg + (boff + (16 - boff % 16) % 16) / 16
    let hs := if moff % 16 ≠ 0 then (16 * n + 2 ^ 32 - 16) % 2 ^ 32 else 16 * n
    a ≠ s ∧ (s < a ∨ a + hs / 16 ≤ s) ∧ hs % 2 ^ 24 = hs ∧ hs % 16 = 0 ∧
      (a + hs / 16) * 16 < a * 16 + 2 ^ 24 := by
  intro a s hs
  have hhs : hs = if moff % 16 ≠ 0 then 16 * n - 16 else 16 * n := by
    show (if moff % 16 ≠ 0 then (16 * n + 2 ^ 32 - 16) % 2 ^ 32 else 16 * n) = _
    split
    · have : (16 * n + 2 ^ 32 - 16) = (16 * n - 16) + 2 ^ 32 := by omega
      rw [this, Nat.add_mod_right]
      exact Nat.mod_eq_of_lt (by omega)
    · rfl
  have hlt : hs < 2 ^ 24 := by rw [hhs]; split <;> omega
  refine ⟨?_, ?_, Nat.mod_eq_of_lt hlt, ?_, ?_⟩
  · show mseg + (moff + (16 - moff % 16) % 16) / 16 ≠ bseg + (boff + (16 - boff % 16) % 16) / 16
    omega
  · rw [hhs]
    show bseg + (boff + (16 - boff % 16) % 16) / 16 < mseg + (moff + (16 - moff % 16) % 16) / 16 ∨
      mseg + (moff + (16 - moff % 16) % 16) / 16 + (if moff % 16 ≠ 0 then 16 * n - 16 else 16 * n) / 16
        ≤ bseg + (boff + (16 - boff % 16) % 16) / 16
    split <;> omega
  · rw [hhs]; split <;> omega
  · omega

/-- The state built by `Z_Init_setup` is a ring of the sentinel and one free block. -/
theorem Z_Init_setup_ring {env : Env} {mz bl : FarPtr} {hs : Nat} {z : Zone}
    (hmz : mz.off % 16 = 0) (hbl : bl.off % 16 = 0)
    (hbits : mz.bits ≠ 0)
    (hne : mz.seg + mz.off / 16 ≠ bl.seg + bl.off / 16)
    (hout : bl.seg + bl.off / 16 < mz.seg + mz.off / 16 ∨
      mz.seg + mz.off / 16 + hs / 16 ≤ bl.seg + bl.off / 16)
    (hs24 : hs % 2 ^ 24 = hs) (hs16 : hs % 16 = 0)
    (hbd : (mz.seg + mz.off / 16 + hs / 16) * 16 < (mz.seg + mz.off / 16) * 16 + 2 ^ 24)
    (h : Z_Init_setup env mz bl hs = .ok z ()) :
    z.mainzone_blocklist = bl.seg + bl.off / 16 ∧
    Ring z (bl.seg + bl.off / 16) [mz.seg + mz.off / 16]
      (mz.seg + mz.off / 16) (mz.seg + mz.off / 16 + hs / 16) ∧
    (z.hdr (mz.seg + mz.off / 16)).user = 0 ∧ (z.hdr (mz.seg + mz.off / 16)).size = hs ∧
    z.mainzone_rover = mz.seg + mz.off / 16 := by
  unfold Z_Init_setup at h
  rw [pointerToSegment_aligned mz hmz, pointerToSegment_aligned bl hbl] at h
  simp only [] at h
  have hlin : bl.linear / PARAGRAPH_SIZE = bl.seg + bl.off / 16 := by
    unfold FarPtr.linear PARAGRAPH_SIZE; omega
  rw [hlin] at h
  injection h with hz
  generalize mz.seg + mz.off / 16 = a at *
  generalize bl.seg + bl.off / 16 = s at *
  have hsa : s ≠ a := Ne.symm hne
  subst hz
  have h24 : hs % 16777216 = hs := by omega
  refine ⟨rfl, ⟨⟨?_, ?_, ?_, ?_, ?_, ?_, hbd, ?_, ?_⟩, ?_⟩, ?_, ?_, rfl⟩
  · simp only [Seg_cons, Seg_nil, firstOr_cons, firstOr_nil, lastOr_cons, lastOr_nil, and_true]
    constructor
    · unfold BlockOK
      simp [hsa, hne]
    · unfold BlockOK
      simp [hsa, hne, h24, hs16]
  · simp [hsa]
  · simp
  · simp [hsa, hne]; exact hbits
  · simp [hsa, hne, PU_STATIC]
  · simp; exact hout
  · intro x hx y hy hxS hyS hxy
    simp only [setSize_blocklist, setUser_blocklist, setPrev_blocklist, setNext_blocklist,
      setRover_blocklist, setTag_blocklist] at hxS hyS
    simp only [List.mem_cons, List.mem_singleton, List.not_mem_nil, or_false] at hx hy
    rcases hx with e | e
    · exact absurd e hxS
    · rcases hy with e' | e'
      · exact absurd e' hyS
      · exact absurd (e.trans e'.symm) hxy
  · simp
  · intro v hv
    simp only [List.mem_cons, List.mem_singleton, List.not_mem_nil, or_false] at hv
    rcases hv with e | e
    · subst e; simp [hsa, hne]
      exact hbits
    · subst e; simp [hsa, hne]
      exact hbits
  · simp
  · simp [h24]

/-- `Z_Init` yields a well-formed heap: the sentinel and one free block spanning the arena. -/
theorem Z_Init_ring {fuel : Nat} {env : Env} {z : Zone} (hE : EnvOK env)
    (h : Z_Init fuel env = .ok z ()) :
    ∃ a lo hi, Ring z z.mainzone_blocklist [a] lo hi ∧ (z.hdr a).user = 0 ∧
      z.mainzone_rover = a := by
  unfold Z_Init at h
  cases hh : Z_Init_halloc env.halloc fuel (640 * 1024 / 16) with
  | none => rw [hh] at h; exact absurd h (by simp)
  | some r =>
    obtain ⟨m, k⟩ := r
    rw [hh] at h
    simp only [] at h
    obtain ⟨hm, hnull, -⟩ := Z_Init_halloc_some _ _ _ _ hh
    obtain ⟨hk1, hk2, hoff, hdis⟩ := hE.grant (k + 1) (hm ▸ hnull)
    rw [← hm] at hoff hdis
    have hbuf := hE.buf
    have hmz : alignUp 16 m = ⟨m.seg, m.off + (16 - m.off % 16) % 16⟩ :=
      alignUp_spec 16 m (by omega) (by omega)
    have hbl : alignUp 16 env.buffer =
        ⟨env.buffer.seg, env.buffer.off + (16 - env.buffer.off % 16) % 16⟩ :=
      alignUp_spec 16 env.buffer (by omega) (by omega)
    have hheap : (((k + 1) * 16) % 2 ^ 32).toNat = 16 * (k + 1).toNat := by omega
    have hbitsm : m.bits % PARAGRAPH_SIZE = m.off % 16 := by
      unfold FarPtr.bits PARAGRAPH_SIZE; omega
    rw [hmz, hbl, hheap, hbitsm] at h
    unfold FarPtr.linear PARAGRAPH_SIZE at hdis
    obtain ⟨a1, a2, a3, a4, a5⟩ :=
      init_arith m.seg m.off env.buffer.seg env.buffer.off (k + 1).toNat (by omega) (by omega)
        hdis
    have hbits : (⟨m.seg, m.off + (16 - m.off % 16) % 16⟩ : FarPtr).bits ≠ 0 := by
      unfold FarPtr.bits
      simp only []
      intro e
      apply hnull
      have h1 : m.seg = 0 := by omega
      have h2 : m.off = 0 := by omega
      cases m
      simp only at h1 h2
      subst h1 h2
      rfl
    obtain ⟨r1, r2, r3, -, r5⟩ := Z_Init_setup_ring (by simp only; omega) (by simp only; omega)
      hbits a1 a2 a3 a4 a5 h
    rw [← r1] at r2
    exact ⟨_, _, _, r2, r3, r5⟩

/-- `Z_Free_block` leaves the `next` link of every header other than the freed block and
its predecessor alone. -/
theorem Z_Free_block_next (z : Zone) (b v : Nat) (hvb : v ≠ b) (hvp : v ≠ (z.hdr b).prev) :
    ((Z_Free_block z b).hdr v).next = (z.hdr v).next := by
  have hnext1 : ∀ w, ((markFree z b).hdr w).next = (z.hdr w).next := by
    intro w; rw [markFree_hdr]; split
    · rename_i e; rw [e]
    · rfl
  have hprev1 : ((markFree z b).hdr b).prev = (z.hdr b).prev := by
    rw [markFree_hdr, if_pos rfl]
  rw [Z_Free_block_eq]
  simp only [hprev1]
  split <;> split <;> simp only [absorb_next, hnext1, if_neg hvb, if_neg hvp]

/-- Freeing an in-use block of a well-formed heap gives a well-formed heap. -/
theorem Z_Free_ring {z z' : Zone} {lo hi b : Nat} {rest : List Nat} {ptr : FarPtr}
    (h : Ring z z.mainzone_blocklist rest lo hi) (hb : b ∈ rest) (hu : (z.hdr b).user ≠ 0)
    (hp : pointerToSegment ptr = some (b + 1)) (hf : Z_Free z ptr = .ok z' ()) :
    z' = Z_Free_block z b ∧ z'.mainzone_blocklist = z.mainzone_blocklist ∧
      ∃ rest', Ring z' z.mainzone_blocklist rest' lo hi ∧
        ∀ v ∈ rest, v ≠ b → (z.hdr v).user ≠ 0 → v ∈ rest' := by
  have hbS : b ≠ z.mainzone_blocklist := by
    intro e
    have := h.pre.nodup
    rw [List.nodup_cons] at this
    exact this.1 (e ▸ hb)
  obtain ⟨pre, post, rfl⟩ := List.append_of_mem hb
  obtain ⟨-, -, hbl, -⟩ := links_split1.1 h.pre.links
  have hid : (z.hdr b).id = ZONEID := (hbl.2.2 hbS).2.2.2.2 hu
  rw [Z_Free_eq hp hid] at hf
  injection hf with hz
  subst hz
  refine ⟨rfl, Z_Free_block_blocklist z b, _, Z_Free_block_ring h h.pre.sentUser hbS, ?_⟩
  intro v hv hvb hvu
  simp only [List.mem_append, List.mem_cons] at hv ⊢
  rcases hv with e | e | e
  · left
    split
    · exact e
    · exact List.mem_append_left _ e
  · exact absurd e hvb
  · right
    split
    · rename_i hN
      cases post with
      | nil => exact absurd e (List.not_mem_nil _)
      | cons n post' =>
        simp only [firstOr_cons] at hN
        rcases List.mem_cons.1 e with e' | e'
        · exact absurd (e' ▸ hN) hvu
        · exact e'
    · exact e

theorem Z_Free_WF {z z' : Zone} {b : Nat} {ptr : FarPtr} (h : WF z) (hb : InUse z b)
    (hp : pointerToSegment ptr = some (b + 1)) (hf : Z_Free z ptr = .ok z' ()) : WF z' := by
  obtain ⟨rest, lo, hi, hR⟩ := h
  obtain ⟨hin, hbS, hu⟩ := hb
  have hmem := InList_mem hR.pre hin
  have hb' : b ∈ rest := by
    rcases List.mem_cons.1 hmem with e | e
    · exact absurd e hbS
    · exact e
  obtain ⟨-, hS, rest', hR', -⟩ := Z_Free_ring hR hb' hu hp hf
  exact ⟨rest', lo, hi, hS ▸ hR'⟩

/-- The loop of `Z_FreeTags` keeps the heap well formed.  The loop variable is a member
of the ring, or it is the header of a free block that the last `Z_Free` merged away,
whose `next` link still names a member. -/
theorem Z_FreeTags_loop_WF (fuel : Nat) :
    ∀ (z z' : Zone) (block lo hi : Nat) (rest : List Nat),
      Ring z z.mainzone_blocklist rest lo hi →
      (block ∈ z.mainzone_blocklist :: rest ∨
        ((z.hdr block).user = 0 ∧ (z.hdr block).next ∈ z.mainzone_blocklist :: rest)) →
      Z_FreeTags_loop fuel z block = .ok z' () → WF z' := by
  induction fuel with
  | zero => intro z z' block lo hi rest _ _ h; simp [Z_FreeTags_loop] at h
  | succ fuel ih =>
    intro z z' block lo hi rest hR hblk h
    unfold Z_FreeTags_loop at h
    by_cases hS : block = z.mainzone_blocklist
    · rw [if_pos hS] at h
      injection h with hz
      subst hz
      exact ⟨rest, lo, hi, hR⟩
    · rw [if_neg hS] at h
      simp only [] at h
      by_cases hfree : (z.hdr block).user = 0
      · rw [if_pos hfree] at h
        refine ih z z' _ lo hi rest hR (Or.inl ?_) h
        rcases hblk with e | ⟨-, e⟩
        · exact hR.pre.next_mem e
        · exact e
      · rw [if_neg hfree] at h
        have hmem : block ∈ z.mainzone_blocklist :: rest := by
          rcases hblk with e | ⟨e, -⟩
          · exact e
          · exact absurd e hfree
        by_cases htag : PU_LEVEL ≤ (z.hdr block).tag ∧ (z.hdr block).tag ≤ PU_PURGELEVEL - 1
        · rw [if_pos htag] at h
          have hb' : block ∈ rest := by
            rcases List.mem_cons.1 hmem with e | e
            · exact absurd e hS
            · exact e
          cases hfr : Z_Free z (segmentToPointer (block + 1)) with
          | timeout => rw [hfr] at h; exact absurd h (by simp)
          | fatal e z1 => rw [hfr] at h; exact absurd h (by simp)
          | ok z1 u =>
            rw [hfr] at h
            simp only [] at h
            obtain ⟨pre, post, hrest⟩ := List.append_of_mem hb'
            subst hrest
            obtain ⟨hz1, hS1, -⟩ := Z_Free_ring hR hb' hfree
              (pointerToSegment_segmentToPointer _) hfr
            have hR1 := Z_Free_block_ring hR hR.pre.sentUser hS
            rw [← hz1] at hR1
            obtain ⟨-, -, hbl, -⟩ := links_split1.1 hR.pre.links
            have hnd := nodup_around hR.pre.nodup
            refine ih z1 z' _ lo hi _ (hS1 ▸ hR1) ?_ h
            rw [hS1, hbl.2.1]
            by_cases hN : (z.hdr (firstOr post z.mainzone_blocklist)).user = 0
            · right
              have hNS : firstOr post z.mainzone_blocklist ≠ z.mainzone_blocklist :=
                fun e => hR.pre.sentUser (e ▸ hN)
              obtain ⟨post0, hpost0⟩ := firstOr_ne hNS
              have hNb : firstOr post z.mainzone_blocklist ≠ block := hnd.2.2.2.2.2.2.2.2.1
              have hNp : firstOr post z.mainzone_blocklist ≠ (z.hdr block).prev := by
                rw [hbl.1]
                rcases lastOr_mem pre z.mainzone_blocklist with e | e
                · rw [e]; exact hNS
                · intro e'
                  rw [← e'] at e
                  exact hnd.2.2.2.2.2.2.2.2.2.2 e
              rw [hz1, Z_Free_block_user, if_neg hNb, Z_Free_block_next _ _ _ hNb hNp]
              refine ⟨hN, ?_⟩
              rw [if_pos hN]
              generalize firstOr post z.mainzone_blocklist = N at *
              subst hpost0
              have hl := links_split2.1 hR.pre.links
              rw [hl.2.2.2.1.2.1]
              simp only [List.tail_cons]
              rcases firstOr_mem post0 z.mainzone_blocklist with e | e
              · rw [e]; simp
              · simp [e]
            · left
              rw [if_neg hN]
              rcases firstOr_mem post z.mainzone_blocklist with e | e
              · rw [e]; simp
              · simp [e]
        · rw [if_neg htag] at h
          exact ih z z' _ lo hi rest hR (Or.inl (hR.pre.next_mem hmem)) h

theorem Z_FreeTags_WF {fuel : Nat} {z z' : Zone} (h : WF z)
    (hf : Z_FreeTags fuel z = .ok z' ()) : WF z' := by
  obtain ⟨rest, lo, hi, hR⟩ := h
  exact Z_FreeTags_loop_WF fuel z z' _ lo hi rest hR
    (Or.inl (hR.pre.next_mem (List.mem_cons_self _ _))) hf

/-- A successful `Z_Malloc` on a well-formed heap, taken apart: the scan selected a free
block `b` of the ring in an intermediate state `z1`, and the result is `z1` split and
marked. -/
theorem Z_Malloc_ok_inv {z z' : Zone} {c lo hi : Nat} {rest : List Nat} {fuel size : Nat}
    {tag : Int} {user : Nat} {p : FarPtr} (h : Ring z c rest lo hi)
    (hm : Z_Malloc fuel z size tag user = .ok z' p) :
    ∃ z1 start b pre post,
      ScanOK z z1 (c :: rest) (Z_Malloc_size size) start b pre post lo hi ∧
      ¬ (user = 0 ∧ tag ≥ (PU_PURGELEVEL : Int)) ∧
      z' = Z_Malloc_finish z1 b (Z_Malloc_size size) tag user ∧
      p = segmentToPointer (b + 1) := by
  rcases Z_Malloc_cases h fuel size tag user with
    ⟨e, -⟩ | ⟨z2, start, rest', e, -⟩ | ⟨z1, start, b, pre, post, -, -, -, e⟩ |
    ⟨z1, start, b, pre, post, hok, hcond, e⟩
  · rw [e] at hm; exact absurd hm (by simp)
  · rw [e] at hm; exact absurd hm (by simp)
  · rw [e] at hm; exact absurd hm (by simp)
  · rw [e] at hm
    injection hm with h1 h2
    exact ⟨z1, start, b, pre, post, hok, hcond, h1.symm, h2.symm⟩

theorem Z_Malloc_WF {z z' : Zone} {fuel size : Nat} {tag : Int} {user : Nat} {p : FarPtr}
    (h : WF z) (hm : Z_Malloc fuel z size tag user = .ok z' p) : WF z' := by
  obtain ⟨rest, lo, hi, hR⟩ := h
  obtain ⟨z1, start, b, pre, post, hok, -, hz, -⟩ := Z_Malloc_ok_inv hR hm
  rw [hz]
  exact WF_of_ring (Z_Malloc_finish_ring tag user hok)

/-- Every reachable heap state is well formed. -/
theorem Reachable_WF {z : Zone} (h : Reachable z) : WF z := by
  induction h with
  | init fuel env z hE hI =>
    obtain ⟨a, lo, hi, hR, -, -⟩ := Z_Init_ring hE hI
    exact ⟨_, lo, hi, hR⟩
  | malloc fuel z size tag user z' p _ hm ih => exact Z_Malloc_WF ih hm
  | free z ptr b z' _ hb hp hf ih => exact Z_Free_WF ih hb hp hf
  | freeTags fuel z z' _ hf ih => exact Z_FreeTags_WF ih hf

theorem exEnv_ok : EnvOK exEnv := by
  constructor
  · intro n hn
    have : n = 40960 := by
      by_contra hne
      apply hn
      simp [exEnv, hne]
    subst this
    simp [exEnv, FarPtr.linear, PARAGRAPH_SIZE]
  · simp [exEnv]

theorem exInit_reachable : Reachable exInit :=
  Reachable.init 1 exEnv exInit exEnv_ok rfl

theorem exA_reachable : Reachable exA :=
  Reachable.malloc 10 exInit 112 1 0 exA (segmentToPointer 0x1001) exInit_reachable rfl

theorem exB_reachable : Reachable exB :=
  Reachable.malloc 10 exA 16 1 0 exB (segmentToPointer 0x1009) exA_reachable rfl

theorem exC_reachable : Reachable exC :=
  Reachable.malloc 10 exB 655184 1 0 exC (segmentToPointer 0x100b) exB_reachable rfl

theorem exD_reachable : Reachable exD :=
  Reachable.free exC (segmentToPointer 0x1001) 0x1000 exD exC_reachable
    ⟨⟨1, rfl⟩, by decide, by decide⟩ rfl rfl

theorem exE_reachable : Reachable exE :=
  Reachable.malloc 10 exD 16 1 0 exE (segmentToPointer 0x1001) exD_reachable rfl

/-! ## Properties of the allocator -/

/-- C1. No-adjacent-free invariant: in every heap state reached from `Z_Init` by
successful `Z_Malloc` calls, `Z_Free` calls on addresses of in-use blocks and
`Z_FreeTags` calls, no block `b` of the list is free together with its successor. -/
theorem C1_no_adjacent_free (z : Zone) (h : Reachable z) (b : Nat) (hb : InList z b) :
    ¬ ((z.hdr b).user = 0 ∧ (z.hdr (z.hdr b).next).user = 0) := by
  obtain ⟨rest, lo, hi, hR⟩ := Reachable_WF h
  exact hR.naf b (InList_mem hR.pre hb)

/-- Witness for C1: the free block at `0x1002` of the heap `exE` and its successor. -/
theorem C1_witness :
    Reachable exE ∧ InList exE 0x1002 ∧
      ¬ ((exE.hdr 0x1002).user = 0 ∧ (exE.hdr (exE.hdr 0x1002).next).user = 0) :=
  ⟨exE_reachable, ⟨2, rfl⟩, C1_no_adjacent_free exE exE_reachable 0x1002 ⟨2, rfl⟩⟩

/-- C2 as stated fails: right after `Z_Init` the only block, at `0x1000`, is not the
sentinel, yet its end (`0x1000 * 16 + 655360`) is not the address of its successor,
the sentinel at paragraph `0x800`. -/
theorem C2_counterexample :
    Reachable exInit ∧ InList exInit 0x1000 ∧ 0x1000 ≠ exInit.mainzone_blocklist ∧
      0x1000 * 16 + (exInit.hdr 0x1000).size ≠ (exInit.hdr 0x1000).next * 16 :=
  ⟨exInit_reachable, ⟨1, rfl⟩, by decide, by decide⟩

/-- C2, amended. Gaplessness: in every reachable heap state, every block `b` of the list
other than the sentinel whose successor is not the sentinel ends exactly where its
successor starts: `address(b) + size(b) = address(next(b))`. -/
theorem C2_gapless (z : Zone) (h : Reachable z) (b : Nat) (hb : InList z b)
    (hbS : b ≠ z.mainzone_blocklist) (hn : (z.hdr b).next ≠ z.mainzone_blocklist) :
    b * 16 + (z.hdr b).size = (z.hdr b).next * 16 := by
  obtain ⟨rest, lo, hi, hR⟩ := Reachable_WF h
  obtain ⟨p, s, q, h1, -, -, -⟩ := Seg_ring_pair hR.pre.links (InList_mem hR.pre hb)
  obtain ⟨-, hnext, h3⟩ := h1
  obtain ⟨hm, -, -, hg, -⟩ := h3 hbS
  have := hg (hnext ▸ hn)
  rw [hnext]
  omega

/-- Witness for C2: block `A` at `0x1000` of the heap `exA` and the free block after it. -/
theorem C2_witness :
    Reachable exA ∧ InList exA 0x1000 ∧ 0x1000 ≠ exA.mainzone_blocklist ∧
      (exA.hdr 0x1000).next ≠ exA.mainzone_blocklist ∧
      0x1000 * 16 + (exA.hdr 0x1000).size = (exA.hdr 0x1000).next * 16 :=
  ⟨exA_reachable, ⟨1, rfl⟩, by decide, by decide,
    C2_gapless exA exA_reachable 0x1000 ⟨1, rfl⟩ (by decide) (by decide)⟩

/-- C3: the code breaks the claim. `exE` is reached from `Z_Init` by three allocations,
one `Z_Free` and one more allocation; `Z_CheckHeap` on it reaches its first `I_Error`
(`block has id ... instead of ZONEID`): the free block split off at `0x1002` never
received an id. -/
theorem C3_checkheap_fails :
    Reachable exE ∧ (Z_CheckHeap 10 exE).err = some ZErr.checkId ∧
      (exE.hdr 0x1002).user = 0 ∧ (exE.hdr 0x1002).id ≠ ZONEID :=
  ⟨exE_reachable, by decide, by decide, by decide⟩

/-- A successful `Z_Malloc` returns the state built from the scan result, on any heap. -/
theorem Z_Malloc_ok_eq {z z' : Zone} {fuel size : Nat} {tag : Int} {user : Nat} {p : FarPtr}
    (hm : Z_Malloc fuel z size tag user = .ok z' p) :
    ∃ z1 b, ¬ (user = 0 ∧ tag ≥ (PU_PURGELEVEL : Int)) ∧
      z' = Z_Malloc_finish z1 b (Z_Malloc_size size) tag user ∧
      p = segmentToPointer (b + 1) := by
  rw [Z_Malloc_eq] at hm
  split at hm
  · exact absurd hm (by simp)
  · exact absurd hm (by simp)
  · rename_i z1 b _
    by_cases hc : user = 0 ∧ tag ≥ (PU_PURGELEVEL : Int)
    · rw [if_pos hc] at hm; exact absurd hm (by simp)
    · rw [if_neg hc] at hm
      injection hm with h1 h2
      exact ⟨z1, b, hc, h1.symm, h2.symm⟩

theorem finish_size (z1 : Zone) (b sz : Nat) (tag : Int) (user v : Nat) :
    ((Z_Malloc_finish z1 b sz tag user).hdr v).size = ((Z_Malloc_split z1 b sz).hdr v).size := by
  unfold Z_Malloc_finish
  split
  · rw [setSlot_hdr, markUsed_size]
  · rw [markUsed_size]

theorem finish_user (z1 : Zone) (b sz : Nat) (tag : Int) (user v : Nat) :
    ((Z_Malloc_finish z1 b sz tag user).hdr v).user =
      if v = b then (if user ≠ 0 then user else 2)
      else ((Z_Malloc_split z1 b sz).hdr v).user := by
  unfold Z_Malloc_finish
  split
  · rw [setSlot_hdr, markUsed_user]
  · rw [markUsed_user]

theorem finish_tag (z1 : Zone) (b sz : Nat) (tag : Int) (user v : Nat) :
    ((Z_Malloc_finish z1 b sz tag user).hdr v).tag =
      if v = b then (tag % 16).toNat else ((Z_Malloc_split z1 b sz).hdr v).tag := by
  have : (tag % 16).toNat % 16 = (tag % 16).toNat := by omega
  unfold Z_Malloc_finish
  split
  · rw [setSlot_hdr, markUsed_tag, this]
  · rw [markUsed_tag, this]

theorem finish_id (z1 : Zone) (b sz : Nat) (tag : Int) (user v : Nat) :
    ((Z_Malloc_finish z1 b sz tag user).hdr v).id =
      if v = b then ZONEID else ((Z_Malloc_split z1 b sz).hdr v).id := by
  unfold Z_Malloc_finish
  split
  · rw [setSlot_hdr, markUsed_id]
  · rw [markUsed_id]

theorem finish_slot (z1 : Zone) (b sz : Nat) (tag : Int) (user u : Nat) :
    (Z_Malloc_finish z1 b sz tag user).slot u =
      if user ≠ 0 ∧ u = user then segmentToPointer (b + 1) else z1.slot u := by
  unfold Z_Malloc_finish
  by_cases hu : user ≠ 0
  · rw [if_pos hu, setSlot_slot, markUsed_slot, split_slot]
    by_cases e : u = user
    · rw [if_pos e, if_pos ⟨hu, e⟩]
    · rw [if_neg e, if_neg (fun h => e h.2)]
  · rw [if_neg hu, markUsed_slot, split_slot, if_neg (fun h => hu h.1)]

/-- C5. For every successful `Z_Malloc(size, tag, user)` the block whose header lies one
paragraph before the returned address is in use and its tag field is `tag`: the field
holds `tag` reduced modulo 16, which is `tag` itself for every tag from 0 to 15, the
purge tags `PU_STATIC` to `PU_CACHE` among them. If `user` is not `NULL` the user field
is `user` and `*user` is the returned address; if `user` is `NULL` then
`tag < PU_PURGELEVEL` and the user field is the marker 2. -/
theorem C5_alloc_mark (z : Zone) (fuel size : Nat) (tag : Int) (user : Nat) (z' : Zone)
    (p : FarPtr) (hm : Z_Malloc fuel z size tag user = .ok z' p) :
    1 ≤ p.seg ∧ p.off = 0 ∧ (z'.hdr (p.seg - 1)).user ≠ 0 ∧
      ((z'.hdr (p.seg - 1)).tag : Int) = tag % 16 ∧
      (0 ≤ tag → tag ≤ 15 → ((z'.hdr (p.seg - 1)).tag : Int) = tag) ∧
      (user ≠ 0 → (z'.hdr (p.seg - 1)).user = user ∧ z'.slot user = p) ∧
      (user = 0 → tag < (PU_PURGELEVEL : Int) ∧ (z'.hdr (p.seg - 1)).user = 2) := by
  obtain ⟨z1, b, hc, hz, hp⟩ := Z_Malloc_ok_eq hm
  subst hz hp
  have hseg : (segmentToPointer (b + 1)).seg - 1 = b := rfl
  rw [hseg, finish_user, finish_tag, if_pos rfl, if_pos rfl]
  refine ⟨Nat.succ_le_succ (Nat.zero_le _), rfl, ?_, ?_, ?_, ?_, ?_⟩
  · split
    · rename_i hu; exact hu
    · decide
  · omega
  · intro h0 h15; omega
  · intro hu
    rw [if_pos hu, finish_slot, if_pos ⟨hu, rfl⟩]
    exact ⟨rfl, rfl⟩
  · intro hu
    have hu' : ¬ (user ≠ 0) := fun e => e hu
    rw [if_neg hu']
    refine ⟨?_, rfl⟩
    by_contra hge
    exact hc ⟨hu, not_lt.1 hge⟩

/-- Witness for C5: `Z_Malloc(16, PU_CACHE, 0x200)` right after `Z_Init`. -/
theorem C5_witness :
    Z_Malloc 10 exInit 16 4 0x200 = .ok exQ (segmentToPointer 0x1001) ∧
      (exQ.hdr 0x1000).user ≠ 0 ∧ ((exQ.hdr 0x1000).tag : Int) = 4 ∧
      (exQ.hdr 0x1000).user = 0x200 ∧ exQ.slot 0x200 = segmentToPointer 0x1001 :=
  have h := C5_alloc_mark exInit 10 16 4 0x200 exQ (segmentToPointer 0x1001) rfl
  ⟨rfl, h.2.2.1, h.2.2.2.2.1 (by decide) (by decide),
    (h.2.2.2.2.2.1 (by decide)).1, (h.2.2.2.2.2.1 (by decide)).2⟩

/-- In a heap with well-formed links, the list is the ring (whichever way it is opened). -/
theorem PreRing.inList_iff {z : Zone} {c lo hi : Nat} {rest : List Nat}
    (h : PreRing z c rest lo hi) (b : Nat) : InList z b ↔ b ∈ c :: rest := by
  constructor
  · exact InList_mem h
  · intro hb
    rcases List.mem_cons.1 h.sent with e | e
    · have h' : PreRing z z.mainzone_blocklist rest lo hi := e ▸ h
      exact mem_InList h' (by rw [e]; exact hb)
    · obtain ⟨xs, ys, rfl⟩ := List.append_of_mem e
      exact mem_InList h.rotate ((ring_mem_rotate c _ b xs ys).2 hb)

/-- The split keeps every other member of the ring as it is. -/
theorem split_kept {z : Zone} {c b sz lo hi v : Nat} {pre post : List Nat}
    (h : PreRing z c (pre ++ b :: post) lo hi) (hb : b ≠ z.mainzone_blocklist)
    (hsz16 : sz % 16 = 0) (hszpos : 16 ≤ sz)
    (hv : v ∈ c :: (pre ++ b :: post)) (hvb : v ≠ b) :
    PreRing (Z_Malloc_split z b sz) c
      (pre ++ b :: ((if (z.hdr b).size - sz > MINFRAGMENT then [b + sz / 16] else []) ++ post))
      lo hi ∧
    v ∈ c :: (pre ++ b ::
      ((if (z.hdr b).size - sz > MINFRAGMENT then [b + sz / 16] else []) ++ post)) ∧
    Kept z (Z_Malloc_split z b sz) v := by
  by_cases hex : (z.hdr b).size - sz > MINFRAGMENT
  · rw [if_pos hex]
    have h1 := split_preRing h hb hsz16 hszpos hex
    have hmem : v ∈ c :: (pre ++ b :: ([b + sz / 16] ++ post)) :=
      (mem_insert_after c v b _ pre post).2 (Or.inr hv)
    have hfresh : v ≠ b + sz / 16 := by
      intro e
      have hnd := h1.nodup
      have hperm : (c :: (pre ++ b :: (b + sz / 16) :: post)).Perm
          ((b + sz / 16) :: c :: (pre ++ b :: post)) := by
        refine (List.Perm.cons c ?_).trans (List.Perm.swap _ _ _)
        have : pre ++ b :: (b + sz / 16) :: post = (pre ++ [b]) ++ (b + sz / 16) :: post := by
          simp
        rw [this]
        refine List.perm_middle.trans ?_
        simp
      rw [hperm.nodup_iff, List.nodup_cons] at hnd
      exact hnd.1 (e ▸ hv)
    have hP16 : PARAGRAPH_SIZE = 16 := rfl
    refine ⟨h1, hmem, ?_, ?_, ?_, split_id _ _ _ _⟩
    · rw [split_size _ _ _ _ hex, if_neg hvb, hP16, if_neg hfresh]
    · rw [split_tag _ _ _ _ hex, hP16, if_neg hfresh]
    · rw [split_user _ _ _ _ hex, hP16, if_neg hfresh]
  · rw [if_neg hex, split_none _ _ _ hex]
    exact ⟨h, hv, Kept_refl _ _⟩

/-- Marking the allocated block keeps every other header's size, tag, owner and id. -/
theorem finish_kept (z1 : Zone) (b sz : Nat) (tag : Int) (user v : Nat) (hvb : v ≠ b) :
    Kept (Z_Malloc_split z1 b sz) (Z_Malloc_finish z1 b sz tag user) v := by
  refine ⟨finish_size _ _ _ _ _ _, ?_, ?_, ?_⟩
  · rw [finish_tag, if_neg hvb]
  · rw [finish_user, if_neg hvb]
  · rw [finish_id, if_neg hvb]

/-- What any ending of `Z_Malloc` on a well-formed heap leaves of a block that was in
use: it is still in the list with the same size, tag, owner and id, or it was purgeable. -/
theorem Z_Malloc_kept {z z' : Zone} {c lo hi : Nat} {rest : List Nat} {fuel size : Nat}
    {tag : Int} {user v : Nat} (h : Ring z c rest lo hi)
    (hres : (Z_Malloc fuel z size tag user).state = some z')
    (hv : v ∈ c :: rest) (hu : (z.hdr v).user ≠ 0) :
    (InList z' v ∧ Kept z z' v) ∨
    (PU_PURGELEVEL ≤ (z.hdr v).tag ∧
      (0x100 < (z.hdr v).user → (z.hdr v).user ≠ user → z'.slot (z.hdr v).user = NULL)) := by
  obtain ⟨h16, hpos⟩ := Z_Malloc_size_facts size
  rcases Z_Malloc_cases h fuel size tag user with
    ⟨e, -⟩ | ⟨z2, start, rest', e, hR2, -, hF⟩ | ⟨z1, start, b, pre, post, hok, -, -, e⟩ |
    ⟨z1, start, b, pre, post, hok, -, e⟩
  · rw [e] at hres; exact absurd hres (by simp [Res.state])
  · rw [e] at hres
    simp only [Res.state, Option.some.injEq] at hres
    subst hres
    rcases hF.2.2 v hv hu with ⟨hm, hk⟩ | ⟨ht, hs⟩
    · exact Or.inl ⟨(hR2.pre.inList_iff v).2 hm, hk⟩
    · exact Or.inr ⟨ht, fun hgt _ => hs hgt⟩
  · rw [e] at hres
    simp only [Res.state, Option.some.injEq] at hres
    subst hres
    rcases hok.hframe.2.2 v hv hu with ⟨hm, hk⟩ | ⟨ht, hs⟩
    · have hvb : v ≠ b := fun e' => hu (by rw [← hk.2.2.1, e']; exact hok.hfree)
      have hbS : b ≠ z1.mainzone_blocklist :=
        fun e' => hok.hring.pre.sentUser (e' ▸ hok.hfree)
      obtain ⟨hP, hm', hk'⟩ := split_kept hok.hring.pre hbS h16 hpos hm hvb
      exact Or.inl ⟨(hP.inList_iff v).2 hm', Kept_trans hk hk'⟩
    · refine Or.inr ⟨ht, fun hgt _ => ?_⟩
      rw [split_slot]; exact hs hgt
  · rw [e] at hres
    simp only [Res.state, Option.some.injEq] at hres
    subst hres
    rcases hok.hframe.2.2 v hv hu with ⟨hm, hk⟩ | ⟨ht, hs⟩
    · have hvb : v ≠ b := fun e' => hu (by rw [← hk.2.2.1, e']; exact hok.hfree)
      have hbS : b ≠ z1.mainzone_blocklist :=
        fun e' => hok.hring.pre.sentUser (e' ▸ hok.hfree)
      obtain ⟨-, hm', hk'⟩ := split_kept hok.hring.pre hbS h16 hpos hm hvb
      have hRf := Z_Malloc_finish_ring tag user hok
      exact Or.inl ⟨(hRf.pre.inList_iff v).2 hm',
        Kept_trans (Kept_trans hk hk') (finish_kept _ _ _ _ _ _ hvb)⟩
    · refine Or.inr ⟨ht, fun hgt hne => ?_⟩
      rw [finish_slot, if_neg (fun h' => hne h'.2)]
      exact hs hgt

theorem exLow_reachable : Reachable exLow :=
  Reachable.malloc 10 exInit 16 4 0x80 exLow (segmentToPointer 0x1001) exInit_reachable rfl

theorem exQ_reachable : Reachable exQ :=
  Reachable.malloc 10 exInit 16 4 0x200 exQ (segmentToPointer 0x1001) exInit_reachable rfl

theorem exR1_reachable : Reachable exR1 :=
  Reachable.malloc 10 exInit 16 1 0 exR1 (segmentToPointer 0x1001) exInit_reachable rfl

theorem exR2_reachable : Reachable exR2 :=
  Reachable.malloc 10 exR1 1008 4 0x200 exR2 (segmentToPointer 0x1003) exR1_reachable rfl

theorem exR3_reachable : Reachable exR3 :=
  Reachable.malloc 10 exR2 16 1 0 exR3 (segmentToPointer 0x1043) exR2_reachable rfl

theorem exR4_reachable : Reachable exR4 :=
  Reachable.malloc 10 exR3 654256 1 0 exR4 (segmentToPointer 0x1045) exR3_reachable rfl

theorem exR5_reachable : Reachable exR5 :=
  Reachable.free exR4 (segmentToPointer 0x1001) 0x1000 exR5 exR4_reachable
    ⟨⟨1, rfl⟩, by decide, by decide⟩ rfl rfl

/-- C6. `Z_Malloc` never evicts a protected block: every call of `Z_Malloc` on a
reachable heap state ends (given enough fuel for the scan), and in the state it ends
in, whether it returns or stops with a fatal error, every block that was in the list
and in use with tag below `PU_PURGELEVEL` before the call is still in the list at the
same address, in use, with the same size, tag and user field. -/
theorem C6_protected_kept (z : Zone) (h : Reachable z) (size : Nat) (tag : Int)
    (user : Nat) :
    (∃ N, ∀ fuel, N ≤ fuel → (Z_Malloc fuel z size tag user).state ≠ none) ∧
    ∀ fuel z' v, (Z_Malloc fuel z size tag user).state = some z' → InList z v →
      (z.hdr v).user ≠ 0 → (z.hdr v).tag < PU_PURGELEVEL →
      InList z' v ∧ (z'.hdr v).user ≠ 0 ∧ (z'.hdr v).size = (z.hdr v).size ∧
        (z'.hdr v).tag = (z.hdr v).tag ∧ (z'.hdr v).user = (z.hdr v).user := by
  obtain ⟨rest, lo, hi, hR⟩ := Reachable_WF h
  refine ⟨⟨rest.length + 1, fun fuel hf => ?_⟩, fun fuel z' v hres hin hu ht => ?_⟩
  · rcases Z_Malloc_cases hR fuel size tag user with
      ⟨-, e⟩ | ⟨z2, start, rest', e, -⟩ | ⟨z1, start, b, pre, post, -, -, -, e⟩ |
      ⟨z1, start, b, pre, post, -, -, e⟩
    · omega
    · rw [e]; simp [Res.state]
    · rw [e]; simp [Res.state]
    · rw [e]; simp [Res.state]
  · rcases Z_Malloc_kept hR hres (InList_mem hR.pre hin) hu with ⟨h1, h2⟩ | ⟨h1, -⟩
    · exact ⟨h1, by rw [h2.2.2.1]; exact hu, h2.1, h2.2.1, h2.2.2.1⟩
    · exact absurd ht (not_lt.2 h1)

/-- Witness for C6: `Z_Malloc(64, PU_CACHE, 0x300)` on `exR5` evicts the purgeable block
at `0x1002` and leaves the protected block `B` at `0x1042` alone. -/
theorem C6_witness :
    Reachable exR5 ∧ (Z_Malloc 10 exR5 64 4 0x300).state = some exR6 ∧
      InList exR5 0x1042 ∧ (exR5.hdr 0x1042).user ≠ 0 ∧
      (exR5.hdr 0x1042).tag < PU_PURGELEVEL ∧
      (InList exR6 0x1042 ∧ (exR6.hdr 0x1042).user ≠ 0 ∧
        (exR6.hdr 0x1042).size = (exR5.hdr 0x1042).size ∧
        (exR6.hdr 0x1042).tag = (exR5.hdr 0x1042).tag ∧
        (exR6.hdr 0x1042).user = (exR5.hdr 0x1042).user) ∧
      (exR5.hdr 0x1002).user ≠ 0 ∧ (exR6.hdr 0x1002).user = 0 :=
  ⟨exR5_reachable, rfl, ⟨3, rfl⟩, by decide, by decide,
    (C6_protected_kept exR5 exR5_reachable 64 4 0x300).2 10 exR6 0x1042 rfl ⟨3, rfl⟩
      (by decide) (by decide),
    by decide, by decide⟩

/-- C7 as stated fails, in two ways. (1) `Z_Malloc(16, PU_CACHE, 0x80)` right after
`Z_Init` gives the block at `0x1000`; `Z_Free` of its address leaves the owner slot
`0x80` holding the address, because `Z_Free` does not write through owner pointers
that are not above `0x100`. (2) In `exR5` the purgeable block at `0x1002` has owner slot
`0x200`; `Z_Malloc(64, PU_CACHE, 0x200)` evicts it and then stores the new address in
the same slot, which is not `NULL` afterwards. -/
theorem C7_counterexample :
    (Reachable exLow ∧ InUse exLow 0x1000 ∧ (exLow.hdr 0x1000).user = 0x80 ∧
      (exLow.hdr 0x1000).tag = PU_CACHE ∧
      Z_Free exLow (segmentToPointer 0x1001) = .ok exLowF () ∧
      (exLowF.hdr 0x1000).user = 0 ∧ exLowF.slot 0x80 ≠ NULL) ∧
    (Reachable exR5 ∧ InUse exR5 0x1002 ∧ (exR5.hdr 0x1002).user = 0x200 ∧
      (exR5.hdr 0x1002).tag = PU_CACHE ∧
      Z_Malloc 10 exR5 64 4 0x200 = .ok exR6s (segmentToPointer 0x1001) ∧
      (exR6s.hdr 0x1002).user = 0 ∧ exR6s.slot 0x200 ≠ NULL) :=
  ⟨⟨exLow_reachable, ⟨⟨1, rfl⟩, by decide, by decide⟩, by decide, by decide, rfl, by decide,
    by decide⟩,
   ⟨exR5_reachable, ⟨⟨2, rfl⟩, by decide, by decide⟩, by decide, by decide, rfl, by decide,
    by decide⟩⟩

/-- C7, amended. Owner-nulling: in every reachable heap state, for every in-use block
`b` whose recorded owner pointer is above `0x100`: a direct `Z_Free` of its address
returns, leaves the block free and the owner slot holding `NULL`; and after a
`Z_Malloc` whose own owner argument is a different pointer, in whatever state that
call ends, either the block is still in the list, in use with the same owner, or its
owner slot holds `NULL`. -/
theorem C7_owner_nulled (z : Zone) (h : Reachable z) (b : Nat) (hb : InUse z b)
    (hu : 0x100 < (z.hdr b).user) :
    (∀ ptr, pointerToSegment ptr = some (b + 1) → (Z_Free z ptr).err = none) ∧
    (∀ ptr z', pointerToSegment ptr = some (b + 1) → Z_Free z ptr = .ok z' () →
      (z'.hdr b).user = 0 ∧ z'.slot (z.hdr b).user = NULL) ∧
    (∀ fuel size tag user z', user ≠ (z.hdr b).user →
      (Z_Malloc fuel z size tag user).state = some z' →
      (InList z' b ∧ (z'.hdr b).user = (z.hdr b).user) ∨
        z'.slot (z.hdr b).user = NULL) := by
  obtain ⟨rest, lo, hi, hR⟩ := Reachable_WF h
  obtain ⟨hin, hbS, hbu⟩ := hb
  have hmem := InList_mem hR.pre hin
  obtain ⟨p, s, q, h1, -, -, -⟩ := Seg_ring_pair hR.pre.links hmem
  have hid : (z.hdr b).id = ZONEID := (h1.2.2 hbS).2.2.2.2 hbu
  refine ⟨?_, ?_, ?_⟩
  · intro ptr hp
    rw [Z_Free_eq hp hid]; rfl
  · intro ptr z' hp hf
    rw [Z_Free_eq hp hid] at hf
    injection hf with hz
    subst hz
    refine ⟨?_, ?_⟩
    · rw [Z_Free_block_user, if_pos rfl]
    · rw [Z_Free_block_slot, if_pos ⟨hu, rfl⟩]
  · intro fuel size tag user z' hne hres
    rcases Z_Malloc_kept hR hres hmem hbu with ⟨k1, k2⟩ | ⟨-, k2⟩
    · exact Or.inl ⟨k1, k2.2.2.1⟩
    · exact Or.inr (k2 hu (Ne.symm hne))

/-- Witness for C7: the purgeable block at `0x1002` of `exR5` with owner slot `0x200`,
freed directly, and evicted by `Z_Malloc(64, PU_CACHE, 0x300)`. -/
theorem C7_witness :
    Reachable exR5 ∧ InUse exR5 0x1002 ∧ 0x100 < (exR5.hdr 0x1002).user ∧
      (Z_Free exR5 (segmentToPointer 0x1003)).err = none ∧
      Z_Free exR5 (segmentToPointer 0x1003) = .ok exR5F () ∧
      ((exR5F.hdr 0x1002).user = 0 ∧ exR5F.slot (exR5.hdr 0x1002).user = NULL) ∧
      (Z_Malloc 10 exR5 64 4 0x300).state = some exR6 ∧
      ((InList exR6 0x1002 ∧ (exR6.hdr 0x1002).user = (exR5.hdr 0x1002).user) ∨
        exR6.slot (exR5.hdr 0x1002).user = NULL) ∧
      (exR6.hdr 0x1002).user = 0 :=
  have hb : InUse exR5 0x1002 := ⟨⟨2, rfl⟩, by decide, by decide⟩
  have h := C7_owner_nulled exR5 exR5_reachable 0x1002 hb (by decide)
  ⟨exR5_reachable, hb, by decide, h.1 (segmentToPointer 0x1003) rfl, rfl,
    h.2.1 (segmentToPointer 0x1003) exR5F rfl rfl, rfl,
    h.2.2 10 64 4 0x300 exR6 (by decide) rfl, by decide⟩

/-- C9. `Z_Malloc(size, tag, NULL)` with `tag >= PU_PURGELEVEL` is rejected: on every
reachable heap state and for every size the call never returns an address, and with
enough fuel for the scan it ends in a fatal error (the owner-required error, or the
exhaustion error when the scan finds no block). -/
theorem C9_purgeable_needs_owner (z : Zone) (h : Reachable z) (size : Nat) (tag : Int)
    (ht : (PU_PURGELEVEL : Int) ≤ tag) :
    (∀ fuel, (Z_Malloc fuel z size tag 0).val = none) ∧
    ∃ N, ∀ fuel, N ≤ fuel →
      (Z_Malloc fuel z size tag 0).err = some ZErr.ownerRequired ∨
      (Z_Malloc fuel z size tag 0).err = some ZErr.allocFailed := by
  obtain ⟨rest, lo, hi, hR⟩ := Reachable_WF h
  refine ⟨fun fuel => ?_, rest.length + 1, fun fuel hf => ?_⟩
  · rcases Z_Malloc_cases hR fuel size tag 0 with
      ⟨e, -⟩ | ⟨z2, start, rest', e, -⟩ | ⟨z1, start, b, pre, post, -, -, -, e⟩ |
      ⟨z1, start, b, pre, post, -, hc, -⟩
    · rw [e]; rfl
    · rw [e]; rfl
    · rw [e]; rfl
    · exact absurd ⟨rfl, ht⟩ hc
  · rcases Z_Malloc_cases hR fuel size tag 0 with
      ⟨-, e⟩ | ⟨z2, start, rest', e, -⟩ | ⟨z1, start, b, pre, post, -, -, -, e⟩ |
      ⟨z1, start, b, pre, post, -, hc, -⟩
    · omega
    · right; rw [e]; rfl
    · left; rw [e]; rfl
    · exact absurd ⟨rfl, ht⟩ hc

/-- Witness for C9: `Z_Malloc(16, PU_CACHE, NULL)` right after `Z_Init`. -/
theorem C9_witness :
    Reachable exInit ∧ (PU_PURGELEVEL : Int) ≤ 4 ∧
      (Z_Malloc 10 exInit 16 4 0).val = none ∧
      (Z_Malloc 10 exInit 16 4 0).err = some ZErr.ownerRequired ∧
      ∃ N, ∀ fuel, N ≤ fuel →
        (Z_Malloc fuel exInit 16 4 0).err = some ZErr.ownerRequired ∨
        (Z_Malloc fuel exInit 16 4 0).err = some ZErr.allocFailed :=
  have h := C9_purgeable_needs_owner exInit exInit_reachable 16 4 (by decide)
  ⟨exInit_reachable, by decide, h.1 10, by decide, h.2⟩

/-- `Z_Malloc` in terms of the outcome of its scan, which depends neither on the tag nor
on the owner; on a well-formed heap the only fatal error of the scan is exhaustion. -/
theorem Z_Malloc_via_scan {z : Zone} {c lo hi : Nat} {rest : List Nat}
    (h : Ring z c rest lo hi) (fuel size : Nat) :
    ∃ r : Res Nat,
      (∀ (tag : Int) (user : Nat), Z_Malloc fuel z size tag user =
        match r with
        | .timeout => .timeout
        | .fatal e z' => .fatal e z'
        | .ok z1 base =>
          if user = 0 ∧ tag ≥ (PU_PURGELEVEL : Int) then
            .fatal .ownerRequired (Z_Malloc_split z1 base (Z_Malloc_size size))
          else .ok (Z_Malloc_finish z1 base (Z_Malloc_size size) tag user)
            (segmentToPointer (base + 1))) ∧
      (∀ e z', r = .fatal e z' → e = ZErr.allocFailed) ∧
      (∀ z1 b, r = .ok z1 b → (z1.hdr b).user = 0 ∧ Z_Malloc_size size ≤ (z1.hdr b).size ∧
        ∃ start pre post, Ring z1 start (pre ++ b :: post) lo hi) := by
  obtain ⟨rest0, hmem, hlen, hinv⟩ := scan_init h
  have hspec := scan_spec (Z_Malloc_size size) _ lo hi fuel z _ _ [] rest0 hinv
  refine ⟨_, fun tag user => Z_Malloc_eq fuel z size tag user, ?_, ?_⟩
  · intro e z' hr
    rw [hr] at hspec
    exact hspec.1
  · intro z1 b hr
    rw [hr] at hspec
    obtain ⟨h1, h2, -, pre, post, h4, -⟩ := hspec
    exact ⟨h1, h2, _, pre, post, h4⟩

/-- C10 as stated fails. `Z_Malloc(16, PU_CACHE, NULL)` right after `Z_Init` stops with
the owner-required error only after the scan and the split: at that point the block at
`0x1000` has been cut down from 655360 to 32 bytes and a new free block stands at
`0x1002`. And `Z_Malloc(700000, PU_CACHE, NULL)` stops with the exhaustion error, not
the owner-required error. -/
theorem C10_counterexample :
    (Reachable exInit ∧ (Z_Malloc 10 exInit 16 4 0).err = some ZErr.ownerRequired ∧
      (Z_Malloc 10 exInit 16 4 0).state = some exO ∧
      (exInit.hdr 0x1000).size = 655360 ∧ (exO.hdr 0x1000).size = 32 ∧
      (exInit.hdr 0x1000).next = 0x800 ∧ (exO.hdr 0x1000).next = 0x1002 ∧
      InList exO 0x1002 ∧ (exO.hdr 0x1002).size = 655328) ∧
    (Z_Malloc 10 exInit 700000 4 0).err = some ZErr.allocFailed :=
  ⟨⟨exInit_reachable, by decide, rfl, by decide, by decide, by decide, by decide, ⟨2, rfl⟩,
    by decide⟩, by decide⟩

/-- C10, amended. The contract violation of `Z_Malloc` (`user == NULL` with
`tag >= PU_PURGELEVEL`) is detected only after the scan and the split, before the
selected block is marked. On a reachable heap state such a call that stops with a
fatal error stops with the exhaustion error or the owner-required error. When it is
the owner-required error, the scan has selected a block, which at that point is in the
list, still free and at least as large as needed, and the same call with any
non-`NULL` owner returns an address. When it is the exhaustion error, the same call
with any owner stops with the exhaustion error too. -/
theorem C10_late_detection (z : Zone) (h : Reachable z) (fuel size : Nat) (tag : Int)
    (ht : (PU_PURGELEVEL : Int) ≤ tag) (e : ZErr) (z' : Zone)
    (hr : Z_Malloc fuel z size tag 0 = .fatal e z') :
    (e = ZErr.allocFailed ∨ e = ZErr.ownerRequired) ∧
    (e = ZErr.ownerRequired →
      (∃ b, InList z' b ∧ (z'.hdr b).user = 0 ∧ Z_Malloc_size size ≤ (z'.hdr b).size) ∧
      ∀ user, user ≠ 0 → (Z_Malloc fuel z size tag user).err = none ∧
        (Z_Malloc fuel z size tag user).val ≠ none) ∧
    (e = ZErr.allocFailed →
      ∀ user, (Z_Malloc fuel z size tag user).err = some ZErr.allocFailed) := by
  obtain ⟨rest, lo, hi, hR⟩ := Reachable_WF h
  obtain ⟨h16, hpos⟩ := Z_Malloc_size_facts size
  obtain ⟨r, hall, hfat, hok⟩ := Z_Malloc_via_scan hR fuel size
  have h0 := hall tag 0
  rw [hr] at h0
  cases r with
  | timeout => exact absurd h0 (by simp)
  | fatal e2 z2 =>
    simp only [] at h0
    injection h0 with he0 hz0
    have he2 := hfat e2 z2 rfl
    have he : e = ZErr.allocFailed := he0.trans he2
    refine ⟨Or.inl he, fun h' => ?_, fun _ user => ?_⟩
    · rw [he] at h'; exact absurd h' (by decide)
    · rw [hall tag user, he2]; rfl
  | ok z1 b =>
    have hcond : True ∧ tag ≥ (PU_PURGELEVEL : Int) := ⟨trivial, ht⟩
    simp only [] at h0
    rw [if_pos hcond] at h0
    injection h0 with he hz
    obtain ⟨hfree, hbig, start, pre, post, hR1⟩ := hok z1 b rfl
    have hbS : b ≠ z1.mainzone_blocklist := fun e' => hR1.pre.sentUser (e' ▸ hfree)
    refine ⟨Or.inr he, fun _ => ⟨⟨b, ?_, ?_, ?_⟩, fun user hu => ?_⟩, fun h' => ?_⟩
    · rw [hz]
      by_cases hex : (z1.hdr b).size - Z_Malloc_size size > MINFRAGMENT
      · have hP := split_preRing hR1.pre hbS h16 hpos hex
        exact (hP.inList_iff b).2 (by simp)
      · rw [split_none _ _ _ hex]
        exact (hR1.pre.inList_iff b).2 (by simp)
    · rw [hz]
      by_cases hex : (z1.hdr b).size - Z_Malloc_size size > MINFRAGMENT
      · rw [split_user _ _ _ _ hex, if_neg]
        · exact hfree
        · have : 0 < Z_Malloc_size size / PARAGRAPH_SIZE := by
            unfold PARAGRAPH_SIZE; omega
          omega
      · rw [split_none _ _ _ hex]; exact hfree
    · rw [hz]
      by_cases hex : (z1.hdr b).size - Z_Malloc_size size > MINFRAGMENT
      · obtain ⟨-, -, hbl, -⟩ := links_split1.1 hR1.pre.links
        obtain ⟨hm16, hlo, hhi, -, -⟩ := hbl.2.2 hbS
        have hbd := hR1.pre.bound
        rw [split_size _ _ _ _ hex, if_pos rfl]
        have : Z_Malloc_size size % 2 ^ 24 = Z_Malloc_size size :=
          Nat.mod_eq_of_lt (by omega)
        rw [this]
      · rw [split_none _ _ _ hex]; exact hbig
    · rw [hall tag user]
      have : ¬ (user = 0 ∧ tag ≥ (PU_PURGELEVEL : Int)) := fun h' => hu h'.1
      simp only [if_neg this]
      exact ⟨rfl, by simp [Res.val]⟩
    · rw [he] at h'; exact absurd h' (by decide)

/-- Witness for C10: `Z_Malloc(16, PU_CACHE, NULL)` right after `Z_Init` stops with the
owner-required error at state `exO`, where the selected block at `0x1000` is still
free; with the owner `0x200` the same call returns. -/
theorem C10_witness :
    Reachable exInit ∧ (PU_PURGELEVEL : Int) ≤ 4 ∧
      Z_Malloc 10 exInit 16 4 0 = .fatal ZErr.ownerRequired exO ∧
      (∃ b, InList exO b ∧ (exO.hdr b).user = 0 ∧ Z_Malloc_size 16 ≤ (exO.hdr b).size) ∧
      (Z_Malloc 10 exInit 16 4 0x200).err = none ∧
      (Z_Malloc 10 exInit 16 4 0x200).val ≠ none :=
  have h := C10_late_detection exInit exInit_reachable 10 16 4 (by decide)
    ZErr.ownerRequired exO rfl
  ⟨exInit_reachable, by decide, rfl, (h.2.1 rfl).1, ((h.2.1 rfl).2 0x200 (by decide)).1,
    ((h.2.1 rfl).2 0x200 (by decide)).2⟩

/-- On a 32-bit word, masking with `0xFFFFFFF0` rounds down to a multiple of 16. -/
theorem land_mask16 (x : Nat) (hx : x < 2 ^ 32) : x &&& (2 ^ 32 - 1 - 15) = x / 16 * 16 := by
  apply Nat.eq_of_testBit_eq
  intro i
  have h1 : x / 16 * 16 = (x >>> 4) <<< 4 := by
    rw [Nat.shiftRight_eq_div_pow, Nat.shiftLeft_eq]
  have h2 : (2 ^ 32 - 1 - 15 : Nat) = (2 ^ 28 - 1) <<< 4 := by decide
  rw [h1, h2, Nat.testBit_land, Nat.testBit_shiftLeft, Nat.testBit_shiftLeft,
    Nat.testBit_shiftRight, Nat.testBit_two_pow_sub_one]
  by_cases h4 : 4 ≤ i
  · have e : 4 + (i - 4) = i := by omega
    simp only [h4, decide_True, Bool.true_and, e]
    by_cases h28 : i - 4 < 28
    · simp [h28]
    · have : x.testBit i = false := by
        apply Nat.testBit_lt_two_pow
        calc x < 2 ^ 32 := hx
          _ ≤ 2 ^ i := Nat.pow_le_pow_right (by decide) (by omega)
      simp [this]
  · simp [h4]

/-- C20. Size rounding in `Z_Malloc`: for a request `size` with `0 ≤ size ≤ 2^31 - 32`
the 32-bit computation of lines 260 and 268 does not wrap and gives the needed block
size the scan uses, `16 * ceil(size / 16) + 16`: a header of 16 bytes plus the least
multiple of 16 that is at least `size`. In particular size 0 needs exactly 16 bytes. -/
theorem C20_size_rounding (size : Nat) (h : size ≤ 2 ^ 31 - 32) :
    Z_Malloc_size32 size = Z_Malloc_size size ∧
    Z_Malloc_size size = 16 * ((size + 15) / 16) + 16 ∧
    (∃ k, Z_Malloc_size size = 16 * k + 16 ∧ size ≤ 16 * k ∧
      ∀ j, size ≤ 16 * j → k ≤ j) ∧
    Z_Malloc_size size < 2 ^ 31 ∧ Z_Malloc_size 0 = 16 := by
  have hs : Z_Malloc_size size = (size + 15) / 16 * 16 + 16 := rfl
  refine ⟨?_, ?_, ⟨(size + 15) / 16, ?_, ?_, ?_⟩, ?_, rfl⟩
  · have h1 : (size + 15) % 2 ^ 32 = size + 15 := Nat.mod_eq_of_lt (by omega)
    have h2 := land_mask16 (size + 15) (by omega)
    show ((((size + 15) % 2 ^ 32) &&& (2 ^ 32 - 1 - 15)) + 16) % 2 ^ 32 = _
    rw [h1, h2, hs]
    exact Nat.mod_eq_of_lt (by omega)
  · rw [hs]; omega
  · rw [hs]; omega
  · omega
  · intro j hj; omega
  · rw [hs]; omega

/-- Witness for C20: a request of 100 bytes needs 128 bytes. -/
theorem C20_witness :
    Z_Malloc_size32 100 = Z_Malloc_size 100 ∧ Z_Malloc_size 100 = 128 ∧
      Z_Malloc_size 100 = 16 * ((100 + 15) / 16) + 16 :=
  have h := C20_size_rounding 100 (by decide)
  ⟨h.1, by decide, h.2.1⟩

/-- C16. Round-trip addressing: every address `A` returned by `Z_Malloc` converts to a
handle without the alignment error, and `segmentToPointer` of that handle is `A`
again (same segment and offset, hence same linear address); and for every handle `h`
whose linear address is below `2^20`, `pointerToSegment(segmentToPointer(h))` is `h`,
without the alignment error. -/
theorem C16_round_trip :
    (∀ fuel z size tag user z' A, Z_Malloc fuel z size tag user = .ok z' A →
      ∃ h, pointerToSegment A = some h ∧ segmentToPointer h = A ∧
        (segmentToPointer h).linear = A.linear) ∧
    (∀ h, h * 16 < 2 ^ 20 → pointerToSegment (segmentToPointer h) = some h ∧
      (segmentToPointer h).linear = h * 16) := by
  refine ⟨fun fuel z size tag user z' A hm => ?_, fun h _ => ?_⟩
  · obtain ⟨z1, b, -, -, hp⟩ := Z_Malloc_ok_eq hm
    subst hp
    exact ⟨b + 1, pointerToSegment_segmentToPointer (b + 1), rfl, rfl⟩
  · refine ⟨pointerToSegment_segmentToPointer h, ?_⟩
    show h * 16 + 0 = h * 16
    omega

/-- Witness for C16: the address `1001:0000` returned by `Z_Malloc(112, PU_STATIC, NULL)`
right after `Z_Init`, and the handle `0x1001`. -/
theorem C16_witness :
    Z_Malloc 10 exInit 112 1 0 = .ok exA (segmentToPointer 0x1001) ∧
      (∃ h, pointerToSegment (segmentToPointer 0x1001) = some h ∧
        segmentToPointer h = segmentToPointer 0x1001 ∧
        (segmentToPointer h).linear = (segmentToPointer 0x1001).linear) ∧
      0x1001 * 16 < 2 ^ 20 ∧
      pointerToSegment (segmentToPointer 0x1001) = some 0x1001 :=
  ⟨rfl, C16_round_trip.1 10 exInit 112 1 0 exA (segmentToPointer 0x1001) rfl, by decide,
    (C16_round_trip.2 0x1001 (by decide)).1⟩

/-- The retry loop of `Z_Init` does not end while `halloc` refuses. -/
theorem Z_Init_halloc_none {halloc : Int → FarPtr} :
    ∀ (fuel : Nat) (n0 : Int), (∀ n, n ≤ n0 → halloc n = NULL) →
      Z_Init_halloc halloc fuel n0 = none := by
  intro fuel
  induction fuel with
  | zero => intro n0 _; rfl
  | succ fuel ih =>
    intro n0 h
    unfold Z_Init_halloc
    simp only []
    rw [if_pos (h n0 (le_refl _))]
    exact ih _ (fun n hn => h n (by omega))

/-- The retry loop of `Z_Init` ends at the first request that `halloc` grants. -/
theorem Z_Init_halloc_first {halloc : Int → FarPtr} :
    ∀ (fuel : Nat) (n0 : Int) (m : FarPtr) (k : Int),
      Z_Init_halloc halloc fuel n0 = some (m, k) →
      ∀ j, k + 1 < j → j ≤ n0 → halloc j = NULL := by
  intro fuel
  induction fuel with
  | zero => intro n0 m k h; simp [Z_Init_halloc] at h
  | succ fuel ih =>
    intro n0 m k h j hj1 hj2
    unfold Z_Init_halloc at h
    simp only [] at h
    by_cases hnull : halloc n0 = NULL
    · rw [if_pos hnull] at h
      by_cases e : j = n0
      · rw [e]; exact hnull
      · exact ih _ _ _ h j hj1 (by omega)
    · rw [if_neg hnull] at h
      simp only [Option.some.injEq, Prod.mk.injEq] at h
      omega

/-- The retry loop of `Z_Init` ends once some request is granted. -/
theorem Z_Init_halloc_ends {halloc : Int → FarPtr} (n : Int) (hn : halloc n ≠ NULL) :
    ∀ (fuel : Nat) (n0 : Int), n ≤ n0 → (n0 - n).toNat < fuel →
      ∃ m k, Z_Init_halloc halloc fuel n0 = some (m, k) := by
  intro fuel
  induction fuel with
  | zero => intro n0 _ h; omega
  | succ fuel ih =>
    intro n0 h1 h2
    unfold Z_Init_halloc
    simp only []
    by_cases hnull : halloc n0 = NULL
    · rw [if_pos hnull]
      have hne : n ≠ n0 := fun e => hn (e ▸ hnull)
      exact ih _ (by omega) (by omega)
    · rw [if_neg hnull]
      exact ⟨_, _, rfl⟩

theorem Z_Init_setup_mainzone {env : Env} {mz bl : FarPtr} {hs : Nat} {z : Zone}
    (h : Z_Init_setup env mz bl hs = .ok z ()) : z.mainzone = mz := by
  unfold Z_Init_setup at h
  split at h
  · injection h with hz
    subst hz
    rfl
  · exact absurd h (by simp)

/-- What `Z_Init` builds when it returns. -/
theorem Z_Init_facts {fuel : Nat} {env : Env} {z : Zone} (hE : EnvOK env)
    (h : Z_Init fuel env = .ok z ()) :
    ∃ (a : Nat) (n : Int) (hs : Nat), env.halloc n ≠ NULL ∧ 1 ≤ n ∧ n ≤ 40960 ∧
      (∀ j, n < j → j ≤ 40960 → env.halloc j = NULL) ∧
      hs = (if (env.halloc n).off % 16 = 0 then 16 * n.toNat else 16 * n.toNat - 16) ∧
      z.mainzone = alignUp 16 (env.halloc n) ∧
      pointerToSegment z.mainzone = some a ∧ a * 16 = z.mainzone.linear ∧
      a ≠ z.mainzone_blocklist ∧
      Ring z z.mainzone_blocklist [a] a (a + hs / 16) ∧ (z.hdr a).user = 0 ∧
      (z.hdr a).size = hs ∧ z.mainzone_rover = a := by
  unfold Z_Init at h
  cases hh : Z_Init_halloc env.halloc fuel (640 * 1024 / 16) with
  | none => rw [hh] at h; exact absurd h (by simp)
  | some r =>
    obtain ⟨m, k⟩ := r
    rw [hh] at h
    simp only [] at h
    obtain ⟨hm, hnull, hk0⟩ := Z_Init_halloc_some _ _ _ _ hh
    have hfirst := Z_Init_halloc_first _ _ _ _ hh
    obtain ⟨hk1, hk2, hoff, hdis⟩ := hE.grant (k + 1) (hm ▸ hnull)
    rw [← hm] at hoff hdis
    have hbuf := hE.buf
    have hmz : alignUp 16 m = ⟨m.seg, m.off + (16 - m.off % 16) % 16⟩ :=
      alignUp_spec 16 m (by omega) (by omega)
    have hbl : alignUp 16 env.buffer =
        ⟨env.buffer.seg, env.buffer.off + (16 - env.buffer.off % 16) % 16⟩ :=
      alignUp_spec 16 env.buffer (by omega) (by omega)
    have hheap : (((k + 1) * 16) % 2 ^ 32).toNat = 16 * (k + 1).toNat := by omega
    have hbitsm : m.bits % PARAGRAPH_SIZE = m.off % 16 := by
      unfold FarPtr.bits PARAGRAPH_SIZE; omega
    have hmain := Z_Init_setup_mainzone h
    rw [hmz, hbl, hheap, hbitsm] at h
    unfold FarPtr.linear PARAGRAPH_SIZE at hdis
    obtain ⟨a1, a2, a3, a4, a5⟩ :=
      init_arith m.seg m.off env.buffer.seg env.buffer.off (k + 1).toNat (by omega) (by omega)
        hdis
    have hbits : (⟨m.seg, m.off + (16 - m.off % 16) % 16⟩ : FarPtr).bits ≠ 0 := by
      unfold FarPtr.bits
      simp only []
      intro e
      apply hnull
      have h1 : m.seg = 0 := by omega
      have h2 : m.off = 0 := by omega
      cases m
      simp only at h1 h2
      subst h1 h2
      rfl
    obtain ⟨r1, r2, r3, r4, r5⟩ := Z_Init_setup_ring (by simp only; omega) (by simp only; omega)
      hbits a1 a2 a3 a4 a5 h
    rw [← r1] at r2
    simp only [] at r1 r2 r3 r4 r5 a1
    have hal : (m.off + (16 - m.off % 16) % 16) % 16 = 0 := by omega
    refine ⟨_, k + 1, _, hm ▸ hnull, hk1, hk2, fun j hj1 hj2 => hfirst j hj1 hj2, ?_,
      ?_, ?_, ?_, ?_, r2, r3, r4, r5⟩
    · rw [← hm]
      by_cases e : m.off % 16 = 0
      · rw [if_pos e, if_neg (not_not.2 e)]
      · rw [if_neg e, if_pos e]
        have : (16 * (k + 1).toNat + 2 ^ 32 - 16) = (16 * (k + 1).toNat - 16) + 2 ^ 32 := by
          omega
        rw [this, Nat.add_mod_right]
        exact Nat.mod_eq_of_lt (by omega)
    · rw [hmain, ← hm]
    · rw [hmain, hmz]
      exact pointerToSegment_aligned _ hal
    · rw [hmain, hmz]
      show _ = m.seg * 16 + (m.off + (16 - m.off % 16) % 16)
      omega
    · rw [r1]; exact a1

/-- Under the platform assumptions `Z_Init` returns as soon as its retry loop has ended. -/
theorem Z_Init_ok {fuel : Nat} {env : Env} {m : FarPtr} {k : Int} (hE : EnvOK env)
    (hh : Z_Init_halloc env.halloc fuel (640 * 1024 / 16) = some (m, k)) :
    ∃ z, Z_Init fuel env = .ok z () := by
  obtain ⟨hm, hnull, hk0⟩ := Z_Init_halloc_some _ _ _ _ hh
  obtain ⟨hk1, hk2, hoff, hdis⟩ := hE.grant (k + 1) (hm ▸ hnull)
  rw [← hm] at hoff
  have hbuf := hE.buf
  have hmz : alignUp 16 m = ⟨m.seg, m.off + (16 - m.off % 16) % 16⟩ :=
    alignUp_spec 16 m (by omega) (by omega)
  have hbl : alignUp 16 env.buffer =
      ⟨env.buffer.seg, env.buffer.off + (16 - env.buffer.off % 16) % 16⟩ :=
    alignUp_spec 16 env.buffer (by omega) (by omega)
  unfold Z_Init
  rw [hh]
  simp only []
  rw [hmz, hbl]
  unfold Z_Init_setup
  rw [pointerToSegment_aligned _ (by simp only; omega),
    pointerToSegment_aligned _ (by simp only; omega)]
  exact ⟨_, rfl⟩

/-- C19: the code breaks the claim. When `halloc` returns `NULL` for every paragraph
count from 40960 downward, the retry loop of `Z_Init` has not ended after any number
of iterations (`fuel` counts them): `Z_Init` neither reaches a fatal error nor returns;
it has no lower bound on the count and no error path. -/
theorem C19_init_never_fails (env : Env) (h : ∀ n, n ≤ 40960 → env.halloc n = NULL)
    (fuel : Nat) :
    Z_Init_halloc env.halloc fuel 40960 = none ∧ Z_Init fuel env = .timeout ∧
      (Z_Init fuel env).err = none ∧ (Z_Init fuel env).state = none := by
  have hh : Z_Init_halloc env.halloc fuel (640 * 1024 / 16) = none :=
    Z_Init_halloc_none fuel _ (fun n hn => h n (by omega))
  have hz : Z_Init fuel env = .timeout := by
    unfold Z_Init
    rw [hh]
  refine ⟨hh, hz, ?_, ?_⟩
  · rw [hz]; rfl
  · rw [hz]; rfl

/-- Witness for C19: the environment `exNoMem`, after a million iterations. -/
theorem C19_witness :
    (∀ n : Int, n ≤ 40960 → exNoMem.halloc n = NULL) ∧
      Z_Init 1000000 exNoMem = .timeout ∧ (Z_Init 1000000 exNoMem).err = none :=
  have h := C19_init_never_fails exNoMem (fun _ _ => rfl) 1000000
  ⟨fun _ _ => rfl, h.2.1, h.2.2.1⟩

/-- C18. Postcondition of `Z_Init`: when `halloc` grants a request, `Z_Init` returns, and
when it returns the block list consists of exactly the sentinel and one block `b` at
the arena start aligned up to a paragraph; `b` is free, its size is `heapSize` (16
bytes for each paragraph of the first granted request, less 16 when the region was
not aligned), its `next` and `prev` are the sentinel, the sentinel's `next` and `prev`
are `b`, and the rover designates `b`. -/
theorem C18_init_post (env : Env) (hE : EnvOK env) :
    ((∃ n, n ≤ 40960 ∧ env.halloc n ≠ NULL) →
      ∃ N, ∀ fuel, N ≤ fuel → ∃ z, Z_Init fuel env = .ok z ()) ∧
    ∀ fuel z, Z_Init fuel env = .ok z () →
      ∃ b n, env.halloc n ≠ NULL ∧ (∀ j, n < j → j ≤ 40960 → env.halloc j = NULL) ∧
        z.mainzone = alignUp 16 (env.halloc n) ∧ z.mainzone.linear % 16 = 0 ∧
        (env.halloc n).linear ≤ z.mainzone.linear ∧
        z.mainzone.linear < (env.halloc n).linear + 16 ∧
        b * 16 = z.mainzone.linear ∧ b ≠ z.mainzone_blocklist ∧
        (∀ v, InList z v ↔ v = z.mainzone_blocklist ∨ v = b) ∧
        (z.hdr b).user = 0 ∧
        (z.hdr b).size =
          (if (env.halloc n).linear % 16 = 0 then 16 * n.toNat else 16 * n.toNat - 16) ∧
        (z.hdr b).next = z.mainzone_blocklist ∧ (z.hdr b).prev = z.mainzone_blocklist ∧
        (z.hdr z.mainzone_blocklist).next = b ∧ (z.hdr z.mainzone_blocklist).prev = b ∧
        z.mainzone_rover = b := by
  refine ⟨fun ⟨n, hn, hg⟩ => ?_, fun fuel z h => ?_⟩
  · refine ⟨(40960 - n).toNat + 1, fun fuel hf => ?_⟩
    obtain ⟨m, k, hh⟩ := Z_Init_halloc_ends n hg fuel (640 * 1024 / 16) (by omega) (by omega)
    exact Z_Init_ok hE hh
  · obtain ⟨a, n, hs, h1, h2, h3, h4, h5, h6, h7, h8, h9, hR, h10, h11, h12⟩ :=
      Z_Init_facts hE h
    have hl := hR.pre.links
    simp only [Seg_cons, Seg_nil, firstOr_cons, firstOr_nil, lastOr_cons, lastOr_nil,
      and_true] at hl
    obtain ⟨⟨s1, s2, -⟩, ⟨b1, b2, -⟩⟩ := hl
    obtain ⟨-, -, hoff, -⟩ := hE.grant n h1
    have hmz : alignUp 16 (env.halloc n) =
        ⟨(env.halloc n).seg, (env.halloc n).off + (16 - (env.halloc n).off % 16) % 16⟩ :=
      alignUp_spec 16 _ (by omega) (by omega)
    have hlin : z.mainzone.linear =
        (env.halloc n).seg * 16 + ((env.halloc n).off + (16 - (env.halloc n).off % 16) % 16) := by
      rw [h6, hmz]; rfl
    have hlin0 : (env.halloc n).linear = (env.halloc n).seg * 16 + (env.halloc n).off := rfl
    refine ⟨a, n, h1, h4, h6, ?_, ?_, ?_, h8, h9, ?_, h10, ?_, b2, b1, s2, s1, h12⟩
    · rw [hlin]; omega
    · rw [hlin, hlin0]; omega
    · rw [hlin, hlin0]; omega
    · intro v
      rw [InList_iff hR]
      simp
    · rw [h11, h5, hlin0]
      have : ((env.halloc n).seg * 16 + (env.halloc n).off) % 16 = (env.halloc n).off % 16 := by
        omega
      rw [this]

/-- Witness for C18: the environment `exEnv`, where `halloc` grants the full 40960
paragraphs at `1000:0000`. -/
theorem C18_witness :
    EnvOK exEnv ∧ Z_Init 1 exEnv = .ok exInit () ∧
      (∃ N, ∀ fuel, N ≤ fuel → ∃ z, Z_Init fuel exEnv = .ok z ()) ∧
      ∃ b n, exEnv.halloc n ≠ NULL ∧ (∀ j, n < j → j ≤ 40960 → exEnv.halloc j = NULL) ∧
        exInit.mainzone = alignUp 16 (exEnv.halloc n) ∧ exInit.mainzone.linear % 16 = 0 ∧
        (exEnv.halloc n).linear ≤ exInit.mainzone.linear ∧
        exInit.mainzone.linear < (exEnv.halloc n).linear + 16 ∧
        b * 16 = exInit.mainzone.linear ∧ b ≠ exInit.mainzone_blocklist ∧
        (∀ v, InList exInit v ↔ v = exInit.mainzone_blocklist ∨ v = b) ∧
        (exInit.hdr b).user = 0 ∧
        (exInit.hdr b).size =
          (if (exEnv.halloc n).linear % 16 = 0 then 16 * n.toNat else 16 * n.toNat - 16) ∧
        (exInit.hdr b).next = exInit.mainzone_blocklist ∧
        (exInit.hdr b).prev = exInit.mainzone_blocklist ∧
        (exInit.hdr exInit.mainzone_blocklist).next = b ∧
        (exInit.hdr exInit.mainzone_blocklist).prev = b ∧
        exInit.mainzone_rover = b :=
  ⟨exEnv_ok, rfl, (C18_init_post exEnv exEnv_ok).1 ⟨40960, le_refl _, by decide⟩,
    (C18_init_post exEnv exEnv_ok).2 1 exInit rfl⟩

/-- A successful `Z_Malloc` is its scan, returning a free region `b`, then the split and
the marking of `b`. -/
theorem Z_Malloc_find_inv {z z' : Zone} {c lo hi : Nat} {rest : List Nat} {fuel size : Nat}
    {tag : Int} {user : Nat} {p : FarPtr} (h : Ring z c rest lo hi)
    (hm : Z_Malloc fuel z size tag user = .ok z' p) :
    ∃ z1 start b pre post, Z_Malloc_find fuel z size = .ok z1 b ∧
      ScanOK z z1 (c :: rest) (Z_Malloc_size size) start b pre post lo hi ∧
      z' = Z_Malloc_finish z1 b (Z_Malloc_size size) tag user ∧
      p = segmentToPointer (b + 1) := by
  obtain ⟨rest0, hmem, hlen, hinv⟩ := scan_init h
  have hspec := scan_spec (Z_Malloc_size size) _ lo hi fuel z _ _ [] rest0 hinv
  rw [Z_Malloc_eq] at hm
  unfold Z_Malloc_find
  simp only []
  generalize hb : (if (z.hdr (z.hdr z.mainzone_rover).prev).user = 0
          then (z.hdr z.mainzone_rover).prev else z.mainzone_rover) = base at *
  generalize hs : (z.hdr base).prev = start at *
  cases hscan : Z_Malloc_scan (Z_Malloc_size size) start fuel z base base with
  | timeout => rw [hscan] at hm; exact absurd hm (by simp)
  | fatal e z' => rw [hscan] at hm; exact absurd hm (by simp)
  | ok z1 b =>
    rw [hscan] at hspec hm
    obtain ⟨h1, h2, h3, pre, post, h4, h5⟩ := hspec
    have hok : ScanOK z z1 (c :: rest) (Z_Malloc_size size) start b pre post lo hi :=
      ⟨h4, h1, h2, h3, Frame_congr h5 (fun v hv => (hmem v).2 hv) (fun v hv => hv)⟩
    simp only [] at hm
    by_cases hcond : user = 0 ∧ tag ≥ (PU_PURGELEVEL : Int)
    · rw [if_pos hcond] at hm; exact absurd hm (by simp)
    · rw [if_neg hcond] at hm
      injection hm with e1 e2
      exact ⟨z1, start, b, pre, post, rfl, hok, e1.symm, e2.symm⟩

theorem finish_next (z1 : Zone) (b sz : Nat) (tag : Int) (user v : Nat) :
    ((Z_Malloc_finish z1 b sz tag user).hdr v).next = ((Z_Malloc_split z1 b sz).hdr v).next := by
  unfold Z_Malloc_finish
  split
  · rw [setSlot_hdr, markUsed_next]
  · rw [markUsed_next]

theorem finish_prev (z1 : Zone) (b sz : Nat) (tag : Int) (user v : Nat) :
    ((Z_Malloc_finish z1 b sz tag user).hdr v).prev = ((Z_Malloc_split z1 b sz).hdr v).prev := by
  unfold Z_Malloc_finish
  split
  · rw [setSlot_hdr, markUsed_prev]
  · rw [markUsed_prev]

/-- Arithmetic of a split: `R` the region size, `N` the needed size. -/
theorem split_tiles (b N R lo hi : Nat) (hN16 : N % 16 = 0) (hNpos : 16 ≤ N) (hR16 : R % 16 = 0)
    (hNR : N ≤ R) (hlo : lo ≤ b) (hhi : b + R / 16 ≤ hi) (hbd : hi * 16 < lo * 16 + 2 ^ 24) :
    N % 2 ^ 24 = N ∧ (R - N) % 2 ^ 24 = R - N ∧ b + N / 16 ≠ b ∧
      b * 16 + N = (b + N / 16) * 16 ∧ (b + N / 16) * 16 + (R - N) = b * 16 + R ∧
      (∀ n, b + R / 16 = n → (b + N / 16) * 16 + (R - N) = n * 16) := by
  have h1 : N < 2 ^ 24 := by omega
  have h2 : R - N < 2 ^ 24 := by omega
  refine ⟨Nat.mod_eq_of_lt h1, Nat.mod_eq_of_lt h2, by omega, by omega, by omega, ?_⟩
  intro n hn
  omega

/-- A merge adds the sizes exactly: the 24-bit size field does not wrap inside the arena. -/
theorem absorb_size_exact {z : Zone} {c x y lo hi : Nat} {pre post : List Nat}
    (h : PreRing z c (pre ++ x :: y :: post) lo hi)
    (hx : x ≠ z.mainzone_blocklist) (hy : y ≠ z.mainzone_blocklist) :
    ((absorb z x y).hdr x).size = (z.hdr x).size + (z.hdr y).size := by
  obtain ⟨-, -, hbx, hby, -⟩ := links_split h.links
  obtain ⟨x16, xlo, -, xg, -⟩ := hbx.2.2 hx
  obtain ⟨y16, -, yhi, -, -⟩ := hby.2.2 hy
  have hg := xg hy
  have hbd := h.bound
  rw [absorb_size, if_pos rfl]
  exact Nat.mod_eq_of_lt (by omega)

/-- The size of the block that holds the freed bytes after `Z_Free_block`. -/
theorem Z_Free_block_size {z : Zone} {c b lo hi : Nat} {pre post : List Nat}
    (h : Ring z c (pre ++ b :: post) lo hi) (hc : (z.hdr c).user ≠ 0)
    (hb : b ≠ z.mainzone_blocklist) :
    ((Z_Free_block z b).hdr (if (z.hdr (lastOr pre c)).user = 0 then lastOr pre c else b)).size =
      (z.hdr b).size + (if (z.hdr (lastOr pre c)).user = 0 then (z.hdr (lastOr pre c)).size else 0)
        + (if (z.hdr (firstOr post c)).user = 0 then (z.hdr (firstOr post c)).size else 0) := by
  have hnd := h.pre.nodup
  simp only [List.nodup_cons, List.mem_append, List.mem_cons, List.nodup_append,
    not_or] at hnd
  obtain ⟨⟨hcpre, hcb, hcpost⟩, hndpre, ⟨hbpost, hndpost⟩, hdisj⟩ := hnd
  have hpreb : ∀ v ∈ pre, v ≠ b := fun v hv e => hdisj hv (by simp [e])
  have hprepost : ∀ v ∈ pre, v ∉ post := fun v hv e => hdisj hv (by simp [e])
  obtain ⟨-, -, hbl, -⟩ := links_split1.1 h.pre.links
  have hPb : lastOr pre c ≠ b := by
    rcases lastOr_mem pre c with e | e
    · rw [e]; exact hcb
    · exact hpreb _ e
  have hNb : firstOr post c ≠ b := by
    rcases firstOr_mem post c with e | e
    · rw [e]; exact hcb
    · intro e'; rw [e'] at e; exact hbpost e
  have hSu := h.pre.sentUser
  have hfree_ne : ∀ v, (z.hdr v).user = 0 → v ≠ c ∧ v ≠ z.mainzone_blocklist :=
    fun v hv => ⟨fun e => hc (e ▸ hv), fun e => hSu (e ▸ hv)⟩
  have h1 := markFree_preRing h.pre hb
  have hS1 := markFree_blocklist z b
  have hprev1 : ((markFree z b).hdr b).prev = lastOr pre c := by
    rw [markFree_hdr, if_pos rfl]; exact hbl.1
  have hnext1 : ∀ v, ((markFree z b).hdr v).next = (z.hdr v).next := by
    intro v; rw [markFree_hdr]; split
    · rename_i e; rw [e]
    · rfl
  have hsize1 : ∀ v, ((markFree z b).hdr v).size = (z.hdr v).size := by
    intro v; rw [markFree_hdr]; split
    · rename_i e; rw [e]
    · rfl
  have huser1 : ∀ v, v ≠ b → ((markFree z b).hdr v).user = (z.hdr v).user := by
    intro v hv; rw [markFree_hdr, if_neg hv]
  rw [Z_Free_block_eq]
  simp only [hprev1, huser1 _ hPb]
  by_cases hP : (z.hdr (lastOr pre c)).user = 0
  · simp only [hP, if_true]
    obtain ⟨hPc, hPS⟩ := hfree_ne _ hP
    obtain ⟨pre0, hpre0⟩ := lastOr_ne hPc
    generalize lastOr pre c = P at *
    subst hpre0
    have h1' : PreRing (markFree z b) c (pre0 ++ P :: b :: post) lo hi := by
      simpa using h1
    have h2 := absorb_preRing h1' (by rw [hS1]; exact hPS) (by rw [hS1]; exact hb)
    have hS2 : (absorb (markFree z b) P b).mainzone_blocklist = z.mainzone_blocklist := by
      rw [absorb_blocklist, hS1]
    have hsz2 := absorb_size_exact h1' (by rw [hS1]; exact hPS) (by rw [hS1]; exact hb)
    rw [hsize1, hsize1] at hsz2
    have hnext2 : ∀ v, ((absorb (markFree z b) P b).hdr v).next =
        if v = P then firstOr post c else (z.hdr v).next := by
      intro v; rw [absorb_next, hnext1, hnext1, hbl.2.1]
    have hNP : firstOr post c ≠ P := by
      rcases firstOr_mem post c with e | e
      · rw [e]; exact Ne.symm hPc
      · intro e'; rw [e'] at e; exact hprepost P (by simp) e
    simp only [hnext2 P, if_true, absorb_user, huser1 _ hNb]
    by_cases hN : (z.hdr (firstOr post c)).user = 0
    · simp only [hN, if_true]
      obtain ⟨hNc, hNS⟩ := hfree_ne _ hN
      obtain ⟨post0, hpost0⟩ := firstOr_ne hNc
      generalize firstOr post c = N at *
      subst hpost0
      have hsz3 := absorb_size_exact h2 (by rw [hS2]; exact hPS) (by rw [hS2]; exact hNS)
      rw [hsz3, hsz2, absorb_size, if_neg hNP, hsize1]
      omega
    · simp only [hN, if_false]
      rw [hsz2]
      omega
  · simp only [hP, if_false]
    simp only [hnext1 b, hbl.2.1, huser1 _ hNb]
    by_cases hN : (z.hdr (firstOr post c)).user = 0
    · simp only [hN, if_true]
      obtain ⟨hNc, hNS⟩ := hfree_ne _ hN
      obtain ⟨post0, hpost0⟩ := firstOr_ne hNc
      generalize firstOr post c = N at *
      subst hpost0
      have hsz3 := absorb_size_exact h1 (by rw [hS1]; exact hb) (by rw [hS1]; exact hNS)
      rw [hsz3, hsize1, hsize1]
      omega
    · simp only [hN, if_false]
      rw [hsize1]
      omega

/-- Where the block holding the freed bytes starts, and that it is a member of the ring
that `Z_Free_block` leaves. -/
theorem Z_Free_block_target {z : Zone} {c b lo hi : Nat} {pre post : List Nat}
    (h : Ring z c (pre ++ b :: post) lo hi) (hc : (z.hdr c).user ≠ 0)
    (hb : b ≠ z.mainzone_blocklist) :
    (if (z.hdr (lastOr pre c)).user = 0 then lastOr pre c else b) ∈
      c :: ((if (z.hdr (lastOr pre c)).user = 0 then pre else pre ++ [b]) ++
        (if (z.hdr (firstOr post c)).user = 0 then post.tail else post)) ∧
    (if (z.hdr (lastOr pre c)).user = 0 then lastOr pre c else b) ≠ z.mainzone_blocklist ∧
    (if (z.hdr (lastOr pre c)).user = 0 then lastOr pre c else b) * 16 +
      (if (z.hdr (lastOr pre c)).user = 0 then (z.hdr (lastOr pre c)).size else 0) = b * 16 ∧
    (z.hdr b).size % 16 = 0 := by
  obtain ⟨-, -, hbl, -⟩ := links_split1.1 h.pre.links
  have hb16 := (hbl.2.2 hb).1
  by_cases hP : (z.hdr (lastOr pre c)).user = 0
  · simp only [hP, if_true]
    have hPc : lastOr pre c ≠ c := fun e => hc (e ▸ hP)
    have hPS : lastOr pre c ≠ z.mainzone_blocklist := fun e => h.pre.sentUser (e ▸ hP)
    obtain ⟨pre0, hpre0⟩ := lastOr_ne hPc
    generalize lastOr pre c = P at *
    subst hpre0
    have hl : Seg (BlockOK z lo hi) (lastOr (pre0 ++ P :: b :: post) c)
        (c :: (pre0 ++ P :: b :: post)) c := by
      have := h.pre.links
      rwa [append_singleton_append] at this
    obtain ⟨-, -, hbx, -, -⟩ := links_split hl
    obtain ⟨x16, -, -, xg, -⟩ := hbx.2.2 hPS
    have hg := xg hb
    refine ⟨by simp, hPS, ?_, hb16⟩
    omega
  · simp only [hP, if_false]
    exact ⟨by simp, hb, by omega, hb16⟩

/-- Two blocks of a ring that share a byte are the same block. -/
theorem ring_overlap {z : Zone} {c lo hi v f : Nat} {rest : List Nat}
    (h : PreRing z c rest lo hi) (hv : v ∈ c :: rest) (hf : f ∈ c :: rest)
    (hvS : v ≠ z.mainzone_blocklist) (hfS : f ≠ z.mainzone_blocklist)
    (x y : Nat) (hx : f * 16 ≤ x) (hy : y ≤ f * 16 + (z.hdr f).size)
    (h1 : v * 16 < y) (h2 : x < v * 16 + (z.hdr v).size) : v = f := by
  by_contra hne
  obtain ⟨p, s, q, hbv, -, -, -⟩ := Seg_ring_pair h.links hv
  obtain ⟨p', s', q', hbf, -, -, -⟩ := Seg_ring_pair h.links hf
  have v16 := (hbv.2.2 hvS).1
  have f16 := (hbf.2.2 hfS).1
  have := h.sep v hv f hf hvS hfS hne
  omega

/-- C12. Coalescing on free: `Z_Free` of the address of an in-use block `b` of a reachable
heap returns, and afterwards the block `F` that starts at `prev(b)` when that block
was free and at `b` otherwise is a free block of the list whose size is
`size(b)` plus `size(prev(b))` if that was free plus `size(next(b))` if that was free;
the bytes of `b` lie in `F` and in no other block of the list; the list neighbours of
`F` link to it in both directions and both are in use. -/
theorem C12_free_coalesces (z : Zone) (h : Reachable z) (b : Nat) (hb : InUse z b)
    (ptr : FarPtr) (hp : pointerToSegment ptr = some (b + 1)) :
    ∃ z', Z_Free z ptr = .ok z' () ∧
      InList z' (Z_Free_target z b) ∧ Z_Free_target z b ≠ z'.mainzone_blocklist ∧
      (z'.hdr (Z_Free_target z b)).user = 0 ∧
      (z'.hdr (Z_Free_target z b)).size =
        (z.hdr b).size +
          (if (z.hdr (z.hdr b).prev).user = 0 then (z.hdr (z.hdr b).prev).size else 0) +
          (if (z.hdr (z.hdr b).next).user = 0 then (z.hdr (z.hdr b).next).size else 0) ∧
      Z_Free_target z b * 16 ≤ b * 16 ∧
      b * 16 + (z.hdr b).size ≤
        Z_Free_target z b * 16 + (z'.hdr (Z_Free_target z b)).size ∧
      (∀ v, InList z' v → v ≠ z'.mainzone_blocklist → v * 16 < b * 16 + (z.hdr b).size →
        b * 16 < v * 16 + (z'.hdr v).size → v = Z_Free_target z b) ∧
      (z'.hdr (z'.hdr (Z_Free_target z b)).prev).next = Z_Free_target z b ∧
      (z'.hdr (z'.hdr (Z_Free_target z b)).next).prev = Z_Free_target z b ∧
      (z'.hdr (z'.hdr (Z_Free_target z b)).prev).user ≠ 0 ∧
      (z'.hdr (z'.hdr (Z_Free_target z b)).next).user ≠ 0 := by
  obtain ⟨rest, lo, hi, hR⟩ := Reachable_WF h
  obtain ⟨hin, hbS, hbu⟩ := hb
  have hmem := InList_mem hR.pre hin
  have hbr : b ∈ rest := by
    rcases List.mem_cons.1 hmem with e | e
    · exact absurd e hbS
    · exact e
  obtain ⟨pre, post, hrest⟩ := List.append_of_mem hbr
  subst hrest
  obtain ⟨-, -, hbl, -⟩ := links_split1.1 hR.pre.links
  have hid : (z.hdr b).id = ZONEID := (hbl.2.2 hbS).2.2.2.2 hbu
  have hSu := hR.pre.sentUser
  have hR' := Z_Free_block_ring hR hSu hbS
  have hsz := Z_Free_block_size hR hSu hbS
  obtain ⟨hF, hFS, hFb, hb16⟩ := Z_Free_block_target hR hSu hbS
  have hU := Z_Free_block_user z b
  have hS' := Z_Free_block_blocklist z b
  have hFu : ((Z_Free_block z b).hdr (if (z.hdr (lastOr pre z.mainzone_blocklist)).user = 0
      then lastOr pre z.mainzone_blocklist else b)).user = 0 := by
    rw [hU]
    by_cases hP : (z.hdr (lastOr pre z.mainzone_blocklist)).user = 0
    · simp only [hP, if_true]
      split <;> rfl
    · simp only [hP, if_false, if_true]
  refine ⟨Z_Free_block z b, Z_Free_eq hp hid, ?_⟩
  unfold Z_Free_target
  rw [hbl.1, hbl.2.1, hS']
  generalize (if (z.hdr (lastOr pre z.mainzone_blocklist)).user = 0
    then lastOr pre z.mainzone_blocklist else b) = F at *
  generalize ((if (z.hdr (lastOr pre z.mainzone_blocklist)).user = 0 then pre else pre ++ [b]) ++
        (if (z.hdr (firstOr post z.mainzone_blocklist)).user = 0 then post.tail else post)) =
    L at *
  have hn := hR'.naf F hF
  have hq := hR'.naf _ (hR'.pre.prev_mem hF)
  rw [hR'.pre.next_prev hF] at hq
  refine ⟨(hR'.pre.inList_iff F).2 hF, hFS, hFu, hsz, by omega, by omega, ?_,
    hR'.pre.next_prev hF, hR'.pre.prev_next hF, fun e => hq ⟨e, hFu⟩, fun e => hn ⟨hFu, e⟩⟩
  intro v hv hvS h1 h2
  have hvm := (hR'.pre.inList_iff v).1 hv
  exact ring_overlap hR'.pre hvm hF (by rw [hS']; exact hvS) (by rw [hS']; exact hFS)
    (b * 16) (b * 16 + (z.hdr b).size) (by omega) (by omega) h1 h2

theorem exS2_reachable : Reachable exS2 :=
  Reachable.malloc 10 exR1 16 1 0 exS2 (segmentToPointer 0x1003) exR1_reachable rfl

theorem exS3_reachable : Reachable exS3 :=
  Reachable.free exS2 (segmentToPointer 0x1001) 0x1000 exS3 exS2_reachable
    ⟨⟨1, rfl⟩, by decide, by decide⟩ rfl rfl

/-- Witness for C12: in `exS3` the in-use block `Y` at `0x1002` stands between the free
blocks at `0x1000` and `0x1004`; freeing it leaves one free block of 655360 bytes at
`0x1000`. -/
theorem C12_witness :
    Reachable exS3 ∧ InUse exS3 0x1002 ∧
      Z_Free exS3 (segmentToPointer 0x1003) = .ok exS4 () ∧
      Z_Free_target exS3 0x1002 = 0x1000 ∧ (exS4.hdr 0x1000).size = 655360 ∧
      ∃ z', Z_Free exS3 (segmentToPointer 0x1003) = .ok z' () ∧
        InList z' (Z_Free_target exS3 0x1002) ∧ Z_Free_target exS3 0x1002 ≠ z'.mainzone_blocklist ∧
        (z'.hdr (Z_Free_target exS3 0x1002)).user = 0 ∧
        (z'.hdr (Z_Free_target exS3 0x1002)).size =
          (exS3.hdr 0x1002).size +
            (if (exS3.hdr (exS3.hdr 0x1002).prev).user = 0 then (exS3.hdr (exS3.hdr 0x1002).prev).size else 0) +
            (if (exS3.hdr (exS3.hdr 0x1002).next).user = 0 then (exS3.hdr (exS3.hdr 0x1002).next).size else 0) ∧
        Z_Free_target exS3 0x1002 * 16 ≤ 0x1002 * 16 ∧
        0x1002 * 16 + (exS3.hdr 0x1002).size ≤
          Z_Free_target exS3 0x1002 * 16 + (z'.hdr (Z_Free_target exS3 0x1002)).size ∧
        (∀ v, InList z' v → v ≠ z'.mainzone_blocklist → v * 16 < 0x1002 * 16 + (exS3.hdr 0x1002).size →
          0x1002 * 16 < v * 16 + (z'.hdr v).size → v = Z_Free_target exS3 0x1002) ∧
        (z'.hdr (z'.hdr (Z_Free_target exS3 0x1002)).prev).next = Z_Free_target exS3 0x1002 ∧
        (z'.hdr (z'.hdr (Z_Free_target exS3 0x1002)).next).prev = Z_Free_target exS3 0x1002 ∧
        (z'.hdr (z'.hdr (Z_Free_target exS3 0x1002)).prev).user ≠ 0 ∧
        (z'.hdr (z'.hdr (Z_Free_target exS3 0x1002)).next).user ≠ 0 :=
  have hb : InUse exS3 0x1002 := ⟨⟨2, rfl⟩, by decide, by decide⟩
  ⟨exS3_reachable, hb, rfl, by decide, by decide,
    C12_free_coalesces exS3 exS3_reachable 0x1002 hb (segmentToPointer 0x1003) rfl⟩

theorem absorb_prev (z : Zone) (x y v : Nat) :
    ((absorb z x y).hdr v).prev = if v = (z.hdr y).next then x else (z.hdr v).prev := by
  unfold absorb
  simp only []
  split <;> simp

/-- What holds before `Z_Free_block` and is kept by marking a block free and by merging
two adjacent blocks of a well-linked ring, holds after `Z_Free_block`. -/
theorem Z_Free_block_induct {lo hi : Nat} (Q : Zone → Prop)
    (hmark : ∀ (z : Zone) (c : Nat) (rest : List Nat) (b : Nat), PreRing z c rest lo hi →
      b ≠ z.mainzone_blocklist → Q z → Q (markFree z b))
    (habs : ∀ (z : Zone) (c : Nat) (pre : List Nat) (x y : Nat) (post : List Nat),
      PreRing z c (pre ++ x :: y :: post) lo hi → x ≠ z.mainzone_blocklist →
      y ≠ z.mainzone_blocklist → Q z → Q (absorb z x y))
    {z : Zone} {c b : Nat} {pre post : List Nat}
    (h : Ring z c (pre ++ b :: post) lo hi) (hc : (z.hdr c).user ≠ 0)
    (hb : b ≠ z.mainzone_blocklist) (hQ : Q z) : Q (Z_Free_block z b) := by
  have hnd := h.pre.nodup
  simp only [List.nodup_cons, List.mem_append, List.mem_cons, List.nodup_append,
    not_or] at hnd
  obtain ⟨⟨hcpre, hcb, hcpost⟩, hndpre, ⟨hbpost, hndpost⟩, hdisj⟩ := hnd
  have hpreb : ∀ v ∈ pre, v ≠ b := fun v hv e => hdisj hv (by simp [e])
  obtain ⟨-, -, hbl, -⟩ := links_split1.1 h.pre.links
  have hPb : lastOr pre c ≠ b := by
    rcases lastOr_mem pre c with e | e
    · rw [e]; exact hcb
    · exact hpreb _ e
  have hNb : firstOr post c ≠ b := by
    rcases firstOr_mem post c with e | e
    · rw [e]; exact hcb
    · intro e'; rw [e'] at e; exact hbpost e
  have hSu := h.pre.sentUser
  have hfree_ne : ∀ v, (z.hdr v).user = 0 → v ≠ c ∧ v ≠ z.mainzone_blocklist :=
    fun v hv => ⟨fun e => hc (e ▸ hv), fun e => hSu (e ▸ hv)⟩
  have h1 := markFree_preRing h.pre hb
  have hQ1 := hmark z c _ b h.pre hb hQ
  have hS1 := markFree_blocklist z b
  have hprev1 : ((markFree z b).hdr b).prev = lastOr pre c := by
    rw [markFree_hdr, if_pos rfl]; exact hbl.1
  have hnext1 : ∀ v, ((markFree z b).hdr v).next = (z.hdr v).next := by
    intro v; rw [markFree_hdr]; split
    · rename_i e; rw [e]
    · rfl
  have huser1 : ∀ v, v ≠ b → ((markFree z b).hdr v).user = (z.hdr v).user := by
    intro v hv; rw [markFree_hdr, if_neg hv]
  rw [Z_Free_block_eq]
  simp only [hprev1, huser1 _ hPb]
  by_cases hP : (z.hdr (lastOr pre c)).user = 0
  · simp only [hP, if_true]
    obtain ⟨hPc, hPS⟩ := hfree_ne _ hP
    obtain ⟨pre0, hpre0⟩ := lastOr_ne hPc
    generalize lastOr pre c = P at *
    subst hpre0
    have h1' : PreRing (markFree z b) c (pre0 ++ P :: b :: post) lo hi := by
      simpa using h1
    have h2 := absorb_preRing h1' (by rw [hS1]; exact hPS) (by rw [hS1]; exact hb)
    have hQ2 := habs _ c pre0 P b post h1' (by rw [hS1]; exact hPS) (by rw [hS1]; exact hb) hQ1
    have hS2 : (absorb (markFree z b) P b).mainzone_blocklist = z.mainzone_blocklist := by
      rw [absorb_blocklist, hS1]
    have hnext2 : ∀ v, ((absorb (markFree z b) P b).hdr v).next =
        if v = P then firstOr post c else (z.hdr v).next := by
      intro v; rw [absorb_next, hnext1, hnext1, hbl.2.1]
    simp only [hnext2 P, if_true, absorb_user, huser1 _ hNb]
    by_cases hN : (z.hdr (firstOr post c)).user = 0
    · simp only [hN, if_true]
      obtain ⟨hNc, hNS⟩ := hfree_ne _ hN
      obtain ⟨post0, hpost0⟩ := firstOr_ne hNc
      generalize firstOr post c = N at *
      subst hpost0
      exact habs _ c pre0 P N post0 h2 (by rw [hS2]; exact hPS) (by rw [hS2]; exact hNS) hQ2
    · simp only [hN, if_false]
      exact hQ2
  · simp only [hP, if_false]
    simp only [hnext1 b, hbl.2.1, huser1 _ hNb]
    by_cases hN : (z.hdr (firstOr post c)).user = 0
    · simp only [hN, if_true]
      obtain ⟨hNc, hNS⟩ := hfree_ne _ hN
      obtain ⟨post0, hpost0⟩ := firstOr_ne hNc
      generalize firstOr post c = N at *
      subst hpost0
      exact habs _ c pre b N post0 h1 (by rw [hS1]; exact hb) (by rw [hS1]; exact hNS) hQ1
    · simp only [hN, if_false]
      exact hQ1

theorem markFree_tiled {z : Zone} {b lo hi : Nat} (h : Tiled z lo hi) :
    Tiled (markFree z b) lo hi := by
  have hf : ∀ v, ((markFree z b).hdr v).next = (z.hdr v).next ∧
      ((markFree z b).hdr v).prev = (z.hdr v).prev ∧
      ((markFree z b).hdr v).size = (z.hdr v).size := by
    intro v; rw [markFree_hdr]; split
    · rename_i e; rw [e]; exact ⟨rfl, rfl, rfl⟩
    · exact ⟨rfl, rfl, rfl⟩
  unfold Tiled
  rw [markFree_blocklist, (hf _).1, (hf _).2.1, (hf _).2.2]
  exact h

theorem absorb_tiled {z : Zone} {c x y lo hi : Nat} {pre post : List Nat}
    (h : PreRing z c (pre ++ x :: y :: post) lo hi)
    (hx : x ≠ z.mainzone_blocklist) (hy : y ≠ z.mainzone_blocklist) (ht : Tiled z lo hi) :
    Tiled (absorb z x y) lo hi := by
  obtain ⟨t1, t2⟩ := ht
  have hxin : x ∈ c :: (pre ++ x :: y :: post) := by simp
  have hyin : y ∈ c :: (pre ++ x :: y :: post) := by simp
  obtain ⟨-, -, hbx, hby, -⟩ := links_split h.links
  obtain ⟨x16, -, -, xg, -⟩ := hbx.2.2 hx
  have hg := xg hy
  have hxn : (z.hdr x).next = y := hbx.2.1
  have hsz := absorb_size_exact h hx hy
  unfold Tiled
  rw [absorb_blocklist, absorb_next, if_neg (Ne.symm hx), absorb_prev]
  refine ⟨t1, ?_⟩
  by_cases hl : z.mainzone_blocklist = (z.hdr y).next
  · rw [if_pos hl, hsz]
    have hpy : (z.hdr z.mainzone_blocklist).prev = y := by
      rw [hl]; exact h.prev_next hyin
    rw [hpy] at t2
    omega
  · rw [if_neg hl, absorb_size]
    have hne : (z.hdr z.mainzone_blocklist).prev ≠ x := by
      intro e
      have := h.next_prev h.sent
      rw [e, hxn] at this
      exact hy this
    rw [if_neg hne]
    exact t2

theorem Z_Free_block_tiled {z : Zone} {c b lo hi : Nat} {pre post : List Nat}
    (h : Ring z c (pre ++ b :: post) lo hi) (hc : (z.hdr c).user ≠ 0)
    (hb : b ≠ z.mainzone_blocklist) (ht : Tiled z lo hi) : Tiled (Z_Free_block z b) lo hi :=
  Z_Free_block_induct (fun z => Tiled z lo hi)
    (fun _ _ _ _ _ _ hq => markFree_tiled hq)
    (fun _ _ _ _ _ _ hr hx hy hq => absorb_tiled hr hx hy hq) h hc hb ht

theorem split_tiled {z : Zone} {c base sz lo hi : Nat} {pre post : List Nat}
    (h : PreRing z c (pre ++ base :: post) lo hi) (hb : base ≠ z.mainzone_blocklist)
    (hsz16 : sz % 16 = 0) (hszpos : 16 ≤ sz) (ht : Tiled z lo hi) :
    Tiled (Z_Malloc_split z base sz) lo hi := by
  by_cases hex : (z.hdr base).size - sz > MINFRAGMENT
  · obtain ⟨t1, t2⟩ := ht
    have hbin : base ∈ c :: (pre ++ base :: post) := by simp
    obtain ⟨-, -, hbl, -⟩ := links_split1.1 h.links
    obtain ⟨b16, blo, bhi, -, -⟩ := hbl.2.2 hb
    have hex' : (z.hdr base).size > sz + 64 := by unfold MINFRAGMENT at hex; omega
    obtain ⟨a1, a2, a3, a4, a5, a6, a7, a8⟩ :=
      split_arith base sz (z.hdr base).size lo hi hszpos hsz16 b16 hex' blo bhi h.bound
    have hnbS : base + sz / 16 ≠ z.mainzone_blocklist := by
      have := h.outside
      omega
    have hP : (PARAGRAPH_SIZE : Nat) = 16 := rfl
    have hS1 : ¬ z.mainzone_blocklist = base := Ne.symm hb
    have hS2 : ¬ z.mainzone_blocklist = base + sz / 16 := Ne.symm hnbS
    unfold Tiled
    rw [split_blocklist, split_next _ _ _ _ hex, split_prev _ _ _ _ hex]
    simp only [hP, if_neg hS1, if_neg hS2]
    refine ⟨t1, ?_⟩
    by_cases hl : z.mainzone_blocklist = (z.hdr base).next
    · rw [if_pos hl, split_size _ _ _ _ hex]
      simp only [hP, if_neg a3, if_true, a2]
      have hpb : (z.hdr z.mainzone_blocklist).prev = base := by
        rw [hl]; exact h.prev_next hbin
      rw [hpb] at t2
      omega
    · rw [if_neg hl, split_size _ _ _ _ hex]
      have hlin := h.prev_mem h.sent
      have hne : (z.hdr z.mainzone_blocklist).prev ≠ base := by
        intro e
        have := h.next_prev h.sent
        rw [e] at this
        exact hl this.symm
      have hne2 : (z.hdr z.mainzone_blocklist).prev ≠ base + sz / 16 := by
        by_cases hlS : (z.hdr z.mainzone_blocklist).prev = z.mainzone_blocklist
        · rw [hlS]; exact Ne.symm hnbS
        · have hk := h.sep _ hbin _ hlin hb hlS (Ne.symm hne)
          exact split_fresh_aux base sz (z.hdr base).size _ _ hszpos hex' hk
      simp only [hP, if_neg hne, if_neg hne2]
      exact t2
  · rw [split_none _ _ _ hex]
    exact ht

theorem finish_tiled {z1 : Zone} {b sz lo hi : Nat} (tag : Int) (user : Nat)
    (ht : Tiled (Z_Malloc_split z1 b sz) lo hi) :
    Tiled (Z_Malloc_finish z1 b sz tag user) lo hi := by
  unfold Tiled at ht ⊢
  rw [Z_Malloc_finish_blocklist, finish_next, finish_prev, finish_size]
  rw [split_blocklist] at ht
  exact ht

theorem scan_body_tiled {z : Zone} {start lo hi base rover : Nat} {vis rem' : List Nat}
    (h : ScanInv z start lo hi base rover vis (rover :: rem')) (ht : Tiled z lo hi)
    {z' : Zone} {p : Nat × Nat} (hb : Z_Malloc_scan_body z base rover = .ok z' p) :
    Tiled z' lo hi := by
  have hR := h.hring
  obtain ⟨-, -, hrl, -⟩ := links_split1.1 hR.pre.links
  unfold Z_Malloc_scan_body at hb
  by_cases hu : (z.hdr rover).user = 0
  · simp only [hu, ne_eq, not_true_eq_false, if_false] at hb
    injection hb with e1 e2
    exact e1 ▸ ht
  · simp only [ne_eq, hu, not_false_eq_true, if_true] at hb
    by_cases htag : (z.hdr rover).tag < PU_PURGELEVEL
    · simp only [htag, if_true] at hb
      injection hb with e1 e2
      exact e1 ▸ ht
    · simp only [htag, if_false] at hb
      have hrS : rover ≠ z.mainzone_blocklist := by
        intro e
        rw [e, hR.pre.sentTag] at htag
        exact htag (by decide)
      have hid : (z.hdr rover).id = ZONEID := (hrl.2.2 hrS).2.2.2.2 hu
      rw [Z_Free_eq (pointerToSegment_segmentToPointer _) hid] at hb
      simp only [] at hb
      injection hb with e1 e2
      rw [← e1]
      exact Z_Free_block_tiled hR h.hstart hrS ht

theorem scan_tiled (size start lo hi : Nat) (fuel : Nat) :
    ∀ (z : Zone) (base rover : Nat) (vis rem : List Nat),
      ScanInv z start lo hi base rover vis rem → Tiled z lo hi →
      ∀ z', (Z_Malloc_scan size start fuel z base rover).state = some z' →
        Tiled z' lo hi := by
  induction fuel with
  | zero =>
    intro z base rover vis rem _ _ z' hs
    simp [Z_Malloc_scan, Res.state] at hs
  | succ fuel ih =>
    intro z base rover vis rem h ht z' hs
    unfold Z_Malloc_scan at hs
    by_cases hrs : rover = start
    · rw [if_pos hrs] at hs
      simp only [Res.state, Option.some.injEq] at hs
      exact hs ▸ ht
    · rw [if_neg hrs] at hs
      cases rem with
      | nil => exact absurd h.hrover hrs
      | cons r rem' =>
        have hr : rover = r := h.hrover
        subst hr
        obtain ⟨z1, base', rover', vis', rem2, hbody, hinv, -, -⟩ := scan_step h
        have ht1 := scan_body_tiled h ht hbody
        rw [hbody] at hs
        simp only [] at hs
        by_cases hcond : (z1.hdr base').user ≠ 0 ∨ (z1.hdr base').size < size
        · rw [if_pos hcond] at hs
          exact ih z1 base' rover' vis' rem2 hinv ht1 z' hs
        · rw [if_neg hcond] at hs
          simp only [Res.state, Option.some.injEq] at hs
          exact hs ▸ ht1

theorem PurgeFrame_refl (z : Zone) (l : List Nat) : PurgeFrame z z l l :=
  ⟨rfl, fun _ h => h, fun _ => Or.inl rfl, fun _ hv hl => Or.inr ⟨hv, hl, rfl⟩,
    fun v hv _ _ => ⟨hv, Kept_refl z v⟩, fun _ hw hl => ⟨hw, hl, rfl⟩⟩

theorem Levelled_kept {z z' : Zone} {v : Nat} (hk : Kept z z' v) :
    Levelled z' v ↔ Levelled z v := by
  unfold Levelled
  rw [hk.2.1, hk.2.2.1]

theorem PurgeFrame_trans {z z1 z2 : Zone} {l l1 l2 : List Nat}
    (h1 : PurgeFrame z z1 l l1) (h2 : PurgeFrame z1 z2 l1 l2) : PurgeFrame z z2 l l2 := by
  obtain ⟨a1, a2, a3, a4, a5, a6⟩ := h1
  obtain ⟨b1, b2, b3, b4, b5, b6⟩ := h2
  refine ⟨b1.trans a1, fun v hv => b2 v (a2 v hv), ?_, ?_, ?_, ?_⟩
  · intro u
    rcases b3 u with e | ⟨e, w, hw, hl, hu, hgt⟩
    · rcases a3 u with e' | ⟨e', hx⟩
      · exact Or.inl (e.trans e')
      · exact Or.inr ⟨e.trans e', hx⟩
    · obtain ⟨c1, c2, c3⟩ := a6 w hw hl
      exact Or.inr ⟨e, w, c1, c2, c3.trans hu, hgt⟩
  · intro v hv hl
    rcases a4 v hv hl with ⟨c1, c2⟩ | ⟨c1, c2, c3⟩
    · left
      refine ⟨b2 v c1, fun hgt => ?_⟩
      rcases b3 (z.hdr v).user with e | ⟨e, -⟩
      · exact e.trans (c2 hgt)
      · exact e
    · rcases b4 v c1 c2 with ⟨d1, d2⟩ | ⟨d1, d2, d3⟩
      · left
        rw [c3] at d2
        exact ⟨d1, d2⟩
      · exact Or.inr ⟨d1, d2, d3.trans c3⟩
  · intro v hv hu hl
    obtain ⟨c1, c2⟩ := a5 v hv hu hl
    have hu1 : (z1.hdr v).user ≠ 0 := by rw [c2.2.2.1]; exact hu
    have hl1 : ¬ Levelled z1 v := fun e => hl ((Levelled_kept c2).1 e)
    obtain ⟨d1, d2⟩ := b5 v c1 hu1 hl1
    exact ⟨d1, Kept_trans c2 d2⟩
  · intro w hw hl
    obtain ⟨c1, c2, c3⟩ := b6 w hw hl
    obtain ⟨d1, d2, d3⟩ := a6 w c1 c2
    exact ⟨d1, d2, d3.trans c3⟩

/-- Members of the ring after `Z_Free_block` were members before. -/
theorem free_list_sub {c b v : Nat} {pre post : List Nat} (P N : Prop) [Decidable P]
    [Decidable N]
    (hv : v ∈ c :: ((if P then pre else pre ++ [b]) ++ (if N then post.tail else post))) :
    v ∈ c :: (pre ++ b :: post) := by
  simp only [List.mem_cons, List.mem_append] at hv ⊢
  rcases hv with e | e | e
  · exact Or.inl e
  · split at e
    · exact Or.inr (Or.inl e)
    · rcases List.mem_append.1 e with e' | e'
      · exact Or.inr (Or.inl e')
      · exact Or.inr (Or.inr (Or.inl (List.mem_singleton.1 e')))
  · split at e
    · exact Or.inr (Or.inr (Or.inr (List.mem_of_mem_tail e)))
    · exact Or.inr (Or.inr (Or.inr e))

/-- In-use members other than the freed block stay members after `Z_Free_block`. -/
theorem free_list_stay {z : Zone} {c b v : Nat} {pre post : List Nat} (P : Prop) [Decidable P]
    (hv : v ∈ c :: (pre ++ b :: post)) (hvb : v ≠ b) (hu : (z.hdr v).user ≠ 0) :
    v ∈ c :: ((if P then pre else pre ++ [b]) ++
      (if (z.hdr (firstOr post c)).user = 0 then post.tail else post)) := by
  simp only [List.mem_cons, List.mem_append] at hv ⊢
  rcases hv with e | e | e | e
  · exact Or.inl e
  · right; left
    split
    · exact e
    · exact List.mem_append_left _ e
  · exact absurd e hvb
  · right; right
    split
    · rename_i hN
      cases post with
      | nil => exact absurd e (List.not_mem_nil _)
      | cons n post' =>
        simp only [firstOr_cons] at hN
        rcases List.mem_cons.1 e with e' | e'
        · exact absurd (e' ▸ hN) hu
        · exact e'
    · exact e

/-- The frame of one `Z_Free` done by `Z_FreeTags`. -/
theorem PurgeFrame_free {z : Zone} {c b : Nat} {pre post : List Nat} (hl : Levelled z b) :
    PurgeFrame z (Z_Free_block z b) (c :: (pre ++ b :: post))
      (c :: ((if (z.hdr (lastOr pre c)).user = 0 then pre else pre ++ [b]) ++
        (if (z.hdr (firstOr post c)).user = 0 then post.tail else post))) := by
  have hU := Z_Free_block_user z b
  have hkept : ∀ v, v ≠ b → (z.hdr v).user ≠ 0 → Kept z (Z_Free_block z b) v := by
    intro v hvb hu
    obtain ⟨h1, h2, h3⟩ := Z_Free_block_frame z b v hvb hu
    refine ⟨h1, h2, ?_, h3⟩
    rw [hU, if_neg hvb]
  refine ⟨Z_Free_block_blocklist z b, ?_, ?_, ?_, ?_, ?_⟩
  · intro v hv
    rw [hU]
    split
    · rfl
    · exact hv
  · intro u
    rw [Z_Free_block_slot]
    split
    · rename_i hc
      exact Or.inr ⟨rfl, b, by simp, hl, hc.2.symm, hc.2 ▸ hc.1⟩
    · exact Or.inl rfl
  · intro v hv hlv
    by_cases hvb : v = b
    · left
      subst hvb
      refine ⟨by rw [hU, if_pos rfl], fun hgt => ?_⟩
      rw [Z_Free_block_slot, if_pos ⟨hgt, rfl⟩]
    · right
      have hk := hkept v hvb hlv.1
      exact ⟨free_list_stay _ hv hvb hlv.1, (Levelled_kept hk).2 hlv, hk.2.2.1⟩
  · intro v hv hu hnl
    have hvb : v ≠ b := fun e => hnl (e ▸ hl)
    exact ⟨free_list_stay _ hv hvb hu, hkept v hvb hu⟩
  · intro w hw hlw
    have hwb : w ≠ b := by
      intro e
      have := hlw.1
      rw [hU, if_pos e] at this
      exact this rfl
    have hu : (z.hdr w).user ≠ 0 := by
      have := hlw.1
      rwa [hU, if_neg hwb] at this
    have hk := hkept w hwb hu
    exact ⟨free_list_sub _ _ hw, (Levelled_kept hk).1 hlw, hk.2.2.1.symm⟩

/-- The loop of `Z_FreeTags`: started at the block `block` with the blocks `done` behind
it and the blocks `todo` ahead, where `block` is the first of `todo` or the header of a
free block that the last `Z_Free` merged away and whose `next` link names the first of
`todo`, it returns when the fuel exceeds the number of blocks ahead, and then no member
of the list is level-tagged. -/
theorem Z_FreeTags_loop_spec (lo hi : Nat) (fuel : Nat) :
    ∀ (z : Zone) (block : Nat) (done todo : List Nat),
      Ring z z.mainzone_blocklist (done ++ todo) lo hi → Tiled z lo hi →
      (∀ v ∈ done, ¬ Levelled z v) →
      ((block = firstOr todo z.mainzone_blocklist ∧ todo.length < fuel) ∨
        ((z.hdr block).user = 0 ∧ block ≠ z.mainzone_blocklist ∧
          (z.hdr block).next = firstOr todo z.mainzone_blocklist ∧ todo.length + 1 < fuel)) →
      ∃ z' rest', Z_FreeTags_loop fuel z block = .ok z' () ∧
        Ring z' z'.mainzone_blocklist rest' lo hi ∧ Tiled z' lo hi ∧
        (∀ v ∈ rest', ¬ Levelled z' v) ∧
        PurgeFrame z z' (z.mainzone_blocklist :: (done ++ todo))
          (z.mainzone_blocklist :: rest') := by
  induction fuel with
  | zero =>
    intro z block done todo _ _ _ hpos
    rcases hpos with ⟨-, h⟩ | ⟨-, -, -, h⟩ <;> omega
  | succ fuel ih =>
    intro z block done todo hR hT hdone hpos
    unfold Z_FreeTags_loop
    rcases hpos with ⟨hblk, hfuel⟩ | ⟨hfree, hbS, hnext, hfuel⟩
    · cases todo with
      | nil =>
        have hb : block = z.mainzone_blocklist := hblk
        rw [if_pos hb]
        refine ⟨z, done, rfl, ?_, hT, hdone, ?_⟩
        · have := hR
          rwa [List.append_nil] at this
        · rw [List.append_nil]
          exact PurgeFrame_refl _ _
      | cons b todo' =>
        have hb : block = b := hblk
        subst hb
        have hnd := nodup_around hR.pre.nodup
        have hbS : block ≠ z.mainzone_blocklist := Ne.symm hnd.1
        obtain ⟨-, -, hbl, -⟩ := links_split1.1 hR.pre.links
        rw [if_neg hbS]
        simp only []
        have hlen : todo'.length < fuel := by
          simp only [List.length_cons] at hfuel
          omega
        by_cases hfree : (z.hdr block).user = 0
        · rw [if_pos hfree]
          have hR' : Ring z z.mainzone_blocklist ((done ++ [block]) ++ todo') lo hi := by
            rw [append_singleton_append]; exact hR
          have hdone' : ∀ v ∈ done ++ [block], ¬ Levelled z v := by
            intro v hv
            rcases List.mem_append.1 hv with e | e
            · exact hdone v e
            · rw [List.mem_singleton.1 e]
              exact fun hl => hl.1 hfree
          obtain ⟨z', rest', h1, h2, h3, h4, h5⟩ :=
            ih z (z.hdr block).next (done ++ [block]) todo' hR' hT hdone'
              (Or.inl ⟨hbl.2.1, hlen⟩)
          rw [append_singleton_append] at h5
          exact ⟨z', rest', h1, h2, h3, h4, h5⟩
        · rw [if_neg hfree]
          by_cases htag : PU_LEVEL ≤ (z.hdr block).tag ∧ (z.hdr block).tag ≤ PU_PURGELEVEL - 1
          · rw [if_pos htag]
            have hlev : Levelled z block := ⟨hfree, htag⟩
            have hid : (z.hdr block).id = ZONEID := (hbl.2.2 hbS).2.2.2.2 hfree
            rw [Z_Free_eq (pointerToSegment_segmentToPointer _) hid]
            simp only []
            have hR1 := Z_Free_block_ring hR hR.pre.sentUser hbS
            have hT1 := Z_Free_block_tiled hR hR.pre.sentUser hbS hT
            have hF1 := @PurgeFrame_free z z.mainzone_blocklist block done todo' hlev
            have hS1 := Z_Free_block_blocklist z block
            have hU := Z_Free_block_user z block
            have hdone1 : ∀ v ∈ (if (z.hdr (lastOr done z.mainzone_blocklist)).user = 0
                then done else done ++ [block]), ¬ Levelled (Z_Free_block z block) v := by
              intro v hv hl
              have hvin : v ∈ z.mainzone_blocklist ::
                  ((if (z.hdr (lastOr done z.mainzone_blocklist)).user = 0
                    then done else done ++ [block]) ++
                  (if (z.hdr (firstOr todo' z.mainzone_blocklist)).user = 0
                    then todo'.tail else todo')) :=
                List.mem_cons_of_mem _ (List.mem_append_left _ hv)
              obtain ⟨-, c2, -⟩ := hF1.2.2.2.2.2 v hvin hl
              split at hv
              · exact hdone v hv c2
              · rcases List.mem_append.1 hv with e | e
                · exact hdone v e c2
                · have hvb := List.mem_singleton.1 e
                  have := hl.1
                  rw [hU, if_pos hvb] at this
                  exact this rfl
            have hpos1 : ((z.hdr block).next =
                  firstOr (if (z.hdr (firstOr todo' z.mainzone_blocklist)).user = 0
                    then todo'.tail else todo') (Z_Free_block z block).mainzone_blocklist ∧
                (if (z.hdr (firstOr todo' z.mainzone_blocklist)).user = 0
                    then todo'.tail else todo').length < fuel) ∨
                (((Z_Free_block z block).hdr (z.hdr block).next).user = 0 ∧
                  (z.hdr block).next ≠ (Z_Free_block z block).mainzone_blocklist ∧
                  ((Z_Free_block z block).hdr (z.hdr block).next).next =
                    firstOr (if (z.hdr (firstOr todo' z.mainzone_blocklist)).user = 0
                      then todo'.tail else todo') (Z_Free_block z block).mainzone_blocklist ∧
                  (if (z.hdr (firstOr todo' z.mainzone_blocklist)).user = 0
                    then todo'.tail else todo').length + 1 < fuel) := by
              rw [hS1, hbl.2.1]
              by_cases hN : (z.hdr (firstOr todo' z.mainzone_blocklist)).user = 0
              · right
                have hNS : firstOr todo' z.mainzone_blocklist ≠ z.mainzone_blocklist :=
                  fun e => hR.pre.sentUser (e ▸ hN)
                obtain ⟨post0, hpost0⟩ := firstOr_ne hNS
                have hNb : firstOr todo' z.mainzone_blocklist ≠ block :=
                  hnd.2.2.2.2.2.2.2.2.1
                have hNp : firstOr todo' z.mainzone_blocklist ≠ (z.hdr block).prev := by
                  rw [hbl.1]
                  rcases lastOr_mem done z.mainzone_blocklist with e | e
                  · rw [e]; exact hNS
                  · intro e'
                    rw [← e'] at e
                    exact hnd.2.2.2.2.2.2.2.2.2.2 e
                rw [hU, if_neg hNb, Z_Free_block_next _ _ _ hNb hNp, if_pos hN]
                refine ⟨hN, hNS, ?_, ?_⟩
                · generalize firstOr todo' z.mainzone_blocklist = N at *
                  subst hpost0
                  have hl := links_split2.1 hR.pre.links
                  rw [hl.2.2.2.1.2.1]
                  rfl
                · rw [hpost0] at hlen ⊢
                  simp only [List.tail_cons, List.length_cons] at hlen ⊢
                  omega
              · left
                rw [if_neg hN]
                exact ⟨rfl, hlen⟩
            obtain ⟨z', rest', h1, h2, h3, h4, h5⟩ :=
              ih (Z_Free_block z block) (z.hdr block).next _ _ (hS1 ▸ hR1) hT1 hdone1 hpos1
            rw [hS1] at h5
            exact ⟨z', rest', h1, h2, h3, h4, PurgeFrame_trans hF1 h5⟩
          · rw [if_neg htag]
            have hR' : Ring z z.mainzone_blocklist ((done ++ [block]) ++ todo') lo hi := by
              rw [append_singleton_append]; exact hR
            have hdone' : ∀ v ∈ done ++ [block], ¬ Levelled z v := by
              intro v hv
              rcases List.mem_append.1 hv with e | e
              · exact hdone v e
              · rw [List.mem_singleton.1 e]
                exact fun hl => htag hl.2
            obtain ⟨z', rest', h1, h2, h3, h4, h5⟩ :=
              ih z (z.hdr block).next (done ++ [block]) todo' hR' hT hdone'
                (Or.inl ⟨hbl.2.1, hlen⟩)
            rw [append_singleton_append] at h5
            exact ⟨z', rest', h1, h2, h3, h4, h5⟩
    · rw [if_neg hbS]
      simp only []
      rw [if_pos hfree]
      exact ih z (z.hdr block).next done todo hR hT hdone (Or.inl ⟨hnext, by omega⟩)

/-- More fuel does not change a result of the loop of `Z_FreeTags`. -/
theorem Z_FreeTags_loop_mono (fuel : Nat) :
    ∀ (z : Zone) (block : Nat) (z' : Zone) (k : Nat),
      Z_FreeTags_loop fuel z block = .ok z' () →
      Z_FreeTags_loop (fuel + k) z block = .ok z' () := by
  induction fuel with
  | zero => intro z block z' k h; simp [Z_FreeTags_loop] at h
  | succ fuel ih =>
    intro z block z' k h
    rw [show fuel + 1 + k = (fuel + k) + 1 by omega]
    unfold Z_FreeTags_loop at h ⊢
    by_cases hS : block = z.mainzone_blocklist
    · rw [if_pos hS] at h ⊢
      exact h
    · rw [if_neg hS] at h ⊢
      simp only [] at h ⊢
      by_cases hfree : (z.hdr block).user = 0
      · rw [if_pos hfree] at h ⊢
        exact ih _ _ _ k h
      · rw [if_neg hfree] at h ⊢
        by_cases htag : PU_LEVEL ≤ (z.hdr block).tag ∧ (z.hdr block).tag ≤ PU_PURGELEVEL - 1
        · rw [if_pos htag] at h ⊢
          cases hfr : Z_Free z (segmentToPointer (block + 1)) with
          | timeout => rw [hfr] at h; exact absurd h (by simp)
          | fatal e z1 => rw [hfr] at h; exact absurd h (by simp)
          | ok z1 u =>
            rw [hfr] at h
            simp only [] at h ⊢
            exact ih _ _ _ k h
        · rw [if_neg htag] at h ⊢
          exact ih _ _ _ k h

/-- `Z_FreeTags` on a well-formed heap: it returns when the fuel exceeds the number of
blocks, and whenever it returns no member of the list is level-tagged. -/
theorem Z_FreeTags_spec {z : Zone} {lo hi : Nat} {rest : List Nat}
    (hR : Ring z z.mainzone_blocklist rest lo hi) (hT : Tiled z lo hi) :
    (∀ fuel, rest.length < fuel → ∃ z', Z_FreeTags fuel z = .ok z' ()) ∧
    ∀ fuel z', Z_FreeTags fuel z = .ok z' () →
      ∃ rest', Ring z' z'.mainzone_blocklist rest' lo hi ∧ Tiled z' lo hi ∧
        (∀ v ∈ rest', ¬ Levelled z' v) ∧
        PurgeFrame z z' (z.mainzone_blocklist :: rest) (z.mainzone_blocklist :: rest') := by
  have hl := hR.pre.links
  rw [Seg_cons] at hl
  have hnext : (z.hdr z.mainzone_blocklist).next = firstOr rest z.mainzone_blocklist := hl.1.2.1
  have hspec : ∀ fuel, rest.length < fuel →
      ∃ z' rest', Z_FreeTags fuel z = .ok z' () ∧
        Ring z' z'.mainzone_blocklist rest' lo hi ∧ Tiled z' lo hi ∧
        (∀ v ∈ rest', ¬ Levelled z' v) ∧
        PurgeFrame z z' (z.mainzone_blocklist :: rest) (z.mainzone_blocklist :: rest') := by
    intro fuel hf
    have := Z_FreeTags_loop_spec lo hi fuel z (z.hdr z.mainzone_blocklist).next [] rest
      (by simpa using hR) hT (fun v hv => absurd hv (List.not_mem_nil _))
      (Or.inl ⟨hnext, hf⟩)
    simpa [Z_FreeTags] using this
  refine ⟨fun fuel hf => ?_, fun fuel z' hz => ?_⟩
  · obtain ⟨z', -, h, -⟩ := hspec fuel hf
    exact ⟨z', h⟩
  · obtain ⟨z'', rest', h1, h2⟩ := hspec (fuel + (rest.length + 1)) (by omega)
    have h3 := Z_FreeTags_loop_mono fuel z _ z' (rest.length + 1) hz
    have : Z_FreeTags (fuel + (rest.length + 1)) z = .ok z' () := h3
    rw [this] at h1
    injection h1 with e1 e2
    subst e1
    exact ⟨rest', h2⟩

theorem find_tiled {z z1 : Zone} {c lo hi : Nat} {rest : List Nat} {fuel size : Nat}
    (h : Ring z c rest lo hi) (ht : Tiled z lo hi)
    (hs : (Z_Malloc_find fuel z size).state = some z1) : Tiled z1 lo hi := by
  obtain ⟨rest0, -, -, hinv⟩ := scan_init h
  unfold Z_Malloc_find at hs
  exact scan_tiled _ _ lo hi fuel z _ _ [] rest0 hinv ht z1 hs

/-- A successful `Z_Malloc` keeps the heap well formed and reaching from `lo` to `hi`. -/
theorem Z_Malloc_arena {z z' : Zone} {lo hi : Nat} {rest : List Nat} {fuel size : Nat}
    {tag : Int} {user : Nat} {p : FarPtr} (hR : Ring z z.mainzone_blocklist rest lo hi)
    (hT : Tiled z lo hi) (hm : Z_Malloc fuel z size tag user = .ok z' p) :
    z'.mainzone_blocklist = z.mainzone_blocklist ∧
      (∃ rest', Ring z' z'.mainzone_blocklist rest' lo hi) ∧ Tiled z' lo hi := by
  obtain ⟨z1, start, b, pre, post, hf, hok, hz, -⟩ := Z_Malloc_find_inv hR hm
  obtain ⟨h16, hpos⟩ := Z_Malloc_size_facts size
  have hbS : b ≠ z1.mainzone_blocklist := fun e => hok.hring.pre.sentUser (e ▸ hok.hfree)
  have hT1 : Tiled z1 lo hi := find_tiled hR hT (by rw [hf]; rfl)
  have hT2 := split_tiled hok.hring.pre hbS h16 hpos hT1
  have hR' := Z_Malloc_finish_ring tag user hok
  rw [← hz] at hR'
  obtain ⟨rest', hR2, -⟩ := hR'.reopen hR'.pre.sent
  refine ⟨?_, ⟨rest', hR2⟩, hz ▸ finish_tiled tag user hT2⟩
  rw [hz, Z_Malloc_finish_blocklist]
  exact hok.hframe.1

/-- `Z_Free` of an in-use block keeps the heap well formed and reaching from `lo` to `hi`. -/
theorem Z_Free_arena {z z' : Zone} {lo hi b : Nat} {rest : List Nat} {ptr : FarPtr}
    (hR : Ring z z.mainzone_blocklist rest lo hi) (hT : Tiled z lo hi) (hb : InUse z b)
    (hp : pointerToSegment ptr = some (b + 1)) (hf : Z_Free z ptr = .ok z' ()) :
    z'.mainzone_blocklist = z.mainzone_blocklist ∧
      (∃ rest', Ring z' z'.mainzone_blocklist rest' lo hi) ∧ Tiled z' lo hi := by
  obtain ⟨hin, hbS, hbu⟩ := hb
  have hmem := InList_mem hR.pre hin
  have hbr : b ∈ rest := by
    rcases List.mem_cons.1 hmem with e | e
    · exact absurd e hbS
    · exact e
  obtain ⟨hz, hS, rest', hR', -⟩ := Z_Free_ring hR hbr hbu hp hf
  obtain ⟨pre, post, hrest⟩ := List.append_of_mem hbr
  subst hrest
  refine ⟨hS, ⟨rest', hS ▸ hR'⟩, ?_⟩
  rw [hz]
  exact Z_Free_block_tiled hR hR.pre.sentUser hbS hT

/-- What `Z_Init` returns is a well-formed heap of one block reaching over the arena. -/
theorem Z_Init_arena {fuel : Nat} {env : Env} {z : Zone} (hE : EnvOK env)
    (h : Z_Init fuel env = .ok z ()) :
    ∃ a hs, Ring z z.mainzone_blocklist [a] a (a + hs / 16) ∧ Tiled z a (a + hs / 16) ∧
      (z.hdr a).size = hs ∧ hs % 16 = 0 ∧ (z.hdr z.mainzone_blocklist).next = a := by
  obtain ⟨a, n, hs, -, -, -, -, -, -, -, -, haS, hR, -, hsz, -⟩ := Z_Init_facts hE h
  have hl := hR.pre.links
  simp only [Seg_cons, Seg_nil, firstOr_cons, firstOr_nil, lastOr_cons, lastOr_nil,
    and_true] at hl
  obtain ⟨⟨s1, s2, -⟩, ⟨-, -, hb⟩⟩ := hl
  refine ⟨a, hs, hR, ⟨s2, ?_⟩, hsz, ?_, s2⟩
  · rw [s1, hsz]
  · rw [← hsz]; exact (hb haS).1

/-- Every state reached from a well-formed heap reaching from `lo` to `hi` is such a heap. -/
theorem ReachedFrom_arena {z0 z : Zone} {lo hi : Nat} {rest0 : List Nat}
    (hR0 : Ring z0 z0.mainzone_blocklist rest0 lo hi) (hT0 : Tiled z0 lo hi)
    (h : ReachedFrom z0 z) :
    z.mainzone_blocklist = z0.mainzone_blocklist ∧
      (∃ rest, Ring z z.mainzone_blocklist rest lo hi) ∧ Tiled z lo hi := by
  induction h with
  | start => exact ⟨rfl, ⟨rest0, hR0⟩, hT0⟩
  | malloc fuel z size tag user z' p _ hm ih =>
    obtain ⟨i1, ⟨rest, i2⟩, i3⟩ := ih
    obtain ⟨j1, j2, j3⟩ := Z_Malloc_arena i2 i3 hm
    exact ⟨j1.trans i1, j2, j3⟩
  | free z ptr b z' _ hb hp hf ih =>
    obtain ⟨i1, ⟨rest, i2⟩, i3⟩ := ih
    obtain ⟨j1, j2, j3⟩ := Z_Free_arena i2 i3 hb hp hf
    exact ⟨j1.trans i1, j2, j3⟩
  | freeTags fuel z z' _ hf ih =>
    obtain ⟨i1, ⟨rest, i2⟩, i3⟩ := ih
    obtain ⟨rest', j1, j2, -, j4⟩ := (Z_FreeTags_spec i2 i3).2 fuel z' hf
    exact ⟨j4.1.trans i1, ⟨rest', j1⟩, j2⟩

/-- Every reachable heap state is well formed and its blocks reach over the arena. -/
theorem Reachable_arena {z : Zone} (h : Reachable z) :
    ∃ rest lo hi, Ring z z.mainzone_blocklist rest lo hi ∧ Tiled z lo hi := by
  induction h with
  | init fuel env z hE hi =>
    obtain ⟨a, hs, h1, h2, -⟩ := Z_Init_arena hE hi
    exact ⟨_, _, _, h1, h2⟩
  | malloc fuel z size tag user z' p _ hm ih =>
    obtain ⟨rest, lo, hi, i2, i3⟩ := ih
    obtain ⟨-, ⟨rest', j2⟩, j3⟩ := Z_Malloc_arena i2 i3 hm
    exact ⟨rest', lo, hi, j2, j3⟩
  | free z ptr b z' _ hb hp hf ih =>
    obtain ⟨rest, lo, hi, i2, i3⟩ := ih
    obtain ⟨-, ⟨rest', j2⟩, j3⟩ := Z_Free_arena i2 i3 hb hp hf
    exact ⟨rest', lo, hi, j2, j3⟩
  | freeTags fuel z z' _ hf ih =>
    obtain ⟨rest, lo, hi, i2, i3⟩ := ih
    obtain ⟨rest', j1, j2, -, -⟩ := (Z_FreeTags_spec i2 i3).2 fuel z' hf
    exact ⟨rest', lo, hi, j1, j2⟩

theorem exP1_reachable : Reachable exP1 :=
  Reachable.malloc 10 exInit 16 2 0x200 exP1 (segmentToPointer 0x1001) exInit_reachable rfl

theorem exT2_reachable : Reachable exT2 :=
  Reachable.malloc 10 exR1 16 2 0x200 exT2 (segmentToPointer 0x1003) exR1_reachable rfl

theorem exT3_reachable : Reachable exT3 :=
  Reachable.malloc 10 exT2 16 4 0x300 exT3 (segmentToPointer 0x1005) exT2_reachable rfl

theorem exSh_reachable : Reachable exSh :=
  Reachable.malloc 10 exQ 16 2 0x200 exSh (segmentToPointer 0x1003) exQ_reachable rfl

/-- The sentinel is never level-tagged. -/
theorem sentinel_not_levelled {z : Zone} {c lo hi : Nat} {rest : List Nat}
    (h : PreRing z c rest lo hi) : ¬ Levelled z z.mainzone_blocklist := by
  intro hl
  have := hl.2.1
  rw [h.sentTag] at this
  exact absurd this (by decide)

/-- C13. Bulk purge is complete and tolerates list mutation: on every reachable heap
state `Z_FreeTags` returns (given fuel above the number of blocks), and when it has
returned no block of the list is in use with tag `PU_LEVEL` or `PU_LEVSPEC`; every
block that was so has been marked free, and its owner slot holds `NULL`, the owner
being a pointer (a user field above `0x100`; smaller values are not pointers, the
marker 2 of a block without owner among them). -/
theorem C13_purge_complete (z : Zone) (h : Reachable z) :
    (∃ N, ∀ fuel, N ≤ fuel → ∃ z', Z_FreeTags fuel z = .ok z' ()) ∧
    ∀ fuel z', Z_FreeTags fuel z = .ok z' () →
      (∀ v, InList z' v → ¬ Levelled z' v) ∧
      (∀ v, InList z v → Levelled z v →
        (z'.hdr v).user = 0 ∧ (0x100 < (z.hdr v).user → z'.slot (z.hdr v).user = NULL)) := by
  obtain ⟨rest, lo, hi, hR, hT⟩ := Reachable_arena h
  obtain ⟨s1, s2⟩ := Z_FreeTags_spec hR hT
  refine ⟨⟨rest.length + 1, fun fuel hf => s1 fuel (by omega)⟩, fun fuel z' hz => ?_⟩
  obtain ⟨rest', hR', -, hclean, hF⟩ := s2 fuel z' hz
  have hS := hF.1
  have hnl : ∀ v ∈ z.mainzone_blocklist :: rest', ¬ Levelled z' v := by
    intro v hv
    rcases List.mem_cons.1 hv with e | e
    · rw [e, ← hS]; exact sentinel_not_levelled hR'.pre
    · exact hclean v e
  refine ⟨fun v hv => ?_, fun v hv hl => ?_⟩
  · have := (hR'.pre.inList_iff v).1 hv
    rw [hS] at this
    exact hnl v this
  · have hvm := (hR.pre.inList_iff v).1 hv
    rcases hF.2.2.2.1 v hvm hl with hdone | ⟨c1, c2, -⟩
    · exact hdone
    · exact absurd c2 (hnl v c1)

/-- Witness for C13: in `exP1` the level block at `0x1000` is followed by the free block at
`0x1002`, which the `Z_Free` done by `Z_FreeTags` merges away after its address was
captured as the next block to visit. -/
theorem C13_witness :
    Reachable exP1 ∧ Levelled exP1 0x1000 ∧ (exP1.hdr 0x1000).next = 0x1002 ∧
      (exP1.hdr 0x1002).user = 0 ∧ Z_FreeTags 10 exP1 = .ok exP1F () ∧
      (exP1F.hdr 0x1000).size = 655360 ∧
      (exP1F.hdr 0x1000).next = exP1F.mainzone_blocklist ∧
      (∃ N, ∀ fuel, N ≤ fuel → ∃ z', Z_FreeTags fuel exP1 = .ok z' ()) ∧
      (∀ v, InList exP1F v → ¬ Levelled exP1F v) ∧
      (exP1F.hdr 0x1000).user = 0 ∧ exP1F.slot 0x200 = NULL :=
  have h := C13_purge_complete exP1 exP1_reachable
  have hl : Levelled exP1 0x1000 := ⟨by decide, by decide, by decide⟩
  have h2 := (h.2 10 exP1F rfl).2 0x1000 ⟨1, rfl⟩ hl
  ⟨exP1_reachable, hl, by decide, by decide, rfl,
    by decide, by decide,
    h.1, (h.2 10 exP1F rfl).1, h2.1, h2.2 (by decide)⟩

/-- C14 as stated fails: in `exSh` the cache block at `0x1000` and the level block at
`0x1002` record the same owner slot `0x200`, which holds the address of the level block.
`Z_FreeTags` frees the level block and stores `NULL` in that slot, the owner slot of the
cache block, which itself is left in use. -/
theorem C14_counterexample :
    Reachable exSh ∧ InList exSh 0x1000 ∧ (exSh.hdr 0x1000).user = 0x200 ∧
      (exSh.hdr 0x1000).tag = PU_CACHE ∧ Levelled exSh 0x1002 ∧
      (exSh.hdr 0x1002).user = 0x200 ∧ exSh.slot 0x200 = segmentToPointer 0x1003 ∧
      Z_FreeTags 10 exSh = .ok exShF () ∧ (exShF.hdr 0x1000).user = 0x200 ∧
      exShF.slot 0x200 = NULL ∧ exShF.slot 0x200 ≠ exSh.slot 0x200 :=
  ⟨exSh_reachable, ⟨1, rfl⟩, by decide, by decide, ⟨by decide, by decide, by decide⟩,
    by decide, by decide, rfl, by decide, by decide, by decide⟩

/-- C14, amended. Bulk purge selectivity: when `Z_FreeTags` returns on a reachable heap
state, every block that was in use with a tag outside `[PU_LEVEL, PU_LEVSPEC]` is still
in the list, in use, at the same address with the same size, tag and owner; an owner
slot is changed only by storing `NULL` in the slot recorded (owner pointer above
`0x100`) by a block that was in use with tag `PU_LEVEL` or `PU_LEVSPEC`; so the owner
slot of a kept block is untouched unless such a block records the same owner pointer. -/
theorem C14_purge_selective (z : Zone) (h : Reachable z) (fuel : Nat) (z' : Zone)
    (hf : Z_FreeTags fuel z = .ok z' ()) :
    (∀ v, InList z v → (z.hdr v).user ≠ 0 →
      ¬ (PU_LEVEL ≤ (z.hdr v).tag ∧ (z.hdr v).tag ≤ PU_LEVSPEC) →
      InList z' v ∧ (z'.hdr v).user ≠ 0 ∧ (z'.hdr v).size = (z.hdr v).size ∧
        (z'.hdr v).tag = (z.hdr v).tag ∧ (z'.hdr v).user = (z.hdr v).user) ∧
    (∀ u, z'.slot u = z.slot u ∨
      (z'.slot u = NULL ∧ ∃ w, InList z w ∧ Levelled z w ∧ (z.hdr w).user = u ∧ 0x100 < u)) ∧
    (∀ v, InList z v → (z.hdr v).user ≠ 0 →
      ¬ (PU_LEVEL ≤ (z.hdr v).tag ∧ (z.hdr v).tag ≤ PU_LEVSPEC) →
      (∀ w, InList z w → Levelled z w → (z.hdr w).user ≠ (z.hdr v).user) →
      z'.slot (z.hdr v).user = z.slot (z.hdr v).user) := by
  obtain ⟨rest, lo, hi, hR, hT⟩ := Reachable_arena h
  obtain ⟨rest', hR', -, -, hF⟩ := (Z_FreeTags_spec hR hT).2 fuel z' hf
  have hS := hF.1
  have hslot : ∀ u, z'.slot u = z.slot u ∨
      (z'.slot u = NULL ∧ ∃ w, InList z w ∧ Levelled z w ∧ (z.hdr w).user = u ∧ 0x100 < u) := by
    intro u
    rcases hF.2.2.1 u with e | ⟨e, w, hw, hx⟩
    · exact Or.inl e
    · exact Or.inr ⟨e, w, (hR.pre.inList_iff w).2 hw, hx⟩
  refine ⟨fun v hv hu ht => ?_, hslot, fun v hv hu ht hno => ?_⟩
  · have hvm := (hR.pre.inList_iff v).1 hv
    have hnl : ¬ Levelled z v := fun hl => ht hl.2
    obtain ⟨c1, c2⟩ := hF.2.2.2.2.1 v hvm hu hnl
    rw [← hS] at c1
    exact ⟨(hR'.pre.inList_iff v).2 c1, by rw [c2.2.2.1]; exact hu, c2.1, c2.2.1, c2.2.2.1⟩
  · rcases hslot (z.hdr v).user with e | ⟨-, w, hw, hl, hwu, -⟩
    · exact e
    · exact absurd hwu (hno w hw hl)

/-- Witness for C14: `exT3` holds one block each tagged `PU_STATIC` (at `0x1000`),
`PU_LEVEL` (at `0x1002`, owner slot `0x200`) and `PU_CACHE` (at `0x1004`, owner slot
`0x300`); after `Z_FreeTags` only the level block has become free. -/
theorem C14_witness :
    Reachable exT3 ∧ Z_FreeTags 10 exT3 = .ok exT3F () ∧
      (exT3.hdr 0x1000).tag = PU_STATIC ∧ (exT3.hdr 0x1002).tag = PU_LEVEL ∧
      (exT3.hdr 0x1004).tag = PU_CACHE ∧ (exT3F.hdr 0x1002).user = 0 ∧
      (InList exT3F 0x1000 ∧ (exT3F.hdr 0x1000).user ≠ 0 ∧
        (exT3F.hdr 0x1000).size = (exT3.hdr 0x1000).size ∧
        (exT3F.hdr 0x1000).tag = (exT3.hdr 0x1000).tag ∧
        (exT3F.hdr 0x1000).user = (exT3.hdr 0x1000).user) ∧
      (InList exT3F 0x1004 ∧ (exT3F.hdr 0x1004).user ≠ 0 ∧
        (exT3F.hdr 0x1004).size = (exT3.hdr 0x1004).size ∧
        (exT3F.hdr 0x1004).tag = (exT3.hdr 0x1004).tag ∧
        (exT3F.hdr 0x1004).user = (exT3.hdr 0x1004).user) ∧
      exT3F.slot 0x300 = exT3.slot 0x300 ∧ exT3F.slot 0x200 = NULL :=
  have h := C14_purge_selective exT3 exT3_reachable 10 exT3F rfl
  ⟨exT3_reachable, rfl, by decide, by decide, by decide, by decide,
    h.1 0x1000 ⟨1, rfl⟩ (by decide) (by decide),
    h.1 0x1004 ⟨3, rfl⟩ (by decide) (by decide), by decide, by decide⟩

/-- A well-formed heap whose blocks are all free has exactly one block. -/
theorem ring_all_free {z : Zone} {lo hi : Nat} {rest : List Nat}
    (hR : Ring z z.mainzone_blocklist rest lo hi)
    (hfree : ∀ v ∈ rest, (z.hdr v).user = 0) : rest.length ≤ 1 := by
  cases rest with
  | nil => exact Nat.zero_le _
  | cons x r =>
    cases r with
    | nil => exact le_refl _
    | cons y r' =>
      exfalso
      have hl := hR.pre.links
      simp only [Seg_cons, firstOr_cons] at hl
      have hxn : (z.hdr x).next = y := hl.2.1.2.1
      apply hR.naf x (by simp)
      rw [hxn]
      exact ⟨hfree x (by simp), hfree y (by simp)⟩

/-- The queries and `Z_CheckHeap` on a heap of one free block. -/
theorem single_block_queries {z : Zone} {b : Nat} (hb : b ≠ z.mainzone_blocklist)
    (h1 : (z.hdr z.mainzone_blocklist).next = b) (h2 : (z.hdr b).next = z.mainzone_blocklist)
    (hu : (z.hdr b).user = 0) (hs : (z.hdr b).size < 2 ^ 32) :
    (∀ fuel, 1 ≤ fuel → Z_CheckHeap fuel z = .ok z ()) ∧
    (∀ fuel, 2 ≤ fuel → Z_GetTotalFreeMemory fuel z = some (z.hdr b).size ∧
      Z_GetLargestFreeBlockSize fuel z = some (z.hdr b).size) := by
  refine ⟨fun fuel hf => ?_, fun fuel hf => ⟨?_, ?_⟩⟩
  · obtain ⟨k, rfl⟩ : ∃ k, fuel = k + 1 := ⟨fuel - 1, by omega⟩
    unfold Z_CheckHeap Z_CheckHeap_loop
    rw [h1, if_pos h2]
  · obtain ⟨k, rfl⟩ : ∃ k, fuel = k + 1 + 1 := ⟨fuel - 2, by omega⟩
    unfold Z_GetTotalFreeMemory Z_GetTotalFreeMemory_loop
    rw [h1, if_neg hb]
    simp only [hu, if_true, h2]
    unfold Z_GetTotalFreeMemory_loop
    rw [if_pos rfl, Nat.zero_add, Nat.mod_eq_of_lt hs]
  · obtain ⟨k, rfl⟩ : ∃ k, fuel = k + 1 + 1 := ⟨fuel - 2, by omega⟩
    unfold Z_GetLargestFreeBlockSize Z_GetLargestFreeBlockSize_loop
    rw [h1, if_neg hb]
    simp only [h2]
    unfold Z_GetLargestFreeBlockSize_loop
    rw [if_pos rfl]
    by_cases h0 : (z.hdr b).size > 0
    · rw [if_pos ⟨hu, h0⟩]
    · rw [if_neg (fun h => h0 h.2)]
      congr 1
      omega

/-- C15. Full release restores the arena: let `Z_Init` return the state `z0`, whose single
block has size `S`. In every state `z` reached from `z0` by successful `Z_Malloc`
calls, `Z_Free` calls on in-use blocks and `Z_FreeTags` calls in which no block of the
list other than the sentinel is in use, the list holds exactly one block besides the
sentinel, at the place of the block of `z0`, free and of size `S`; `Z_CheckHeap` returns
without an error, and `Z_GetTotalFreeMemory` and `Z_GetLargestFreeBlockSize` return `S`. -/
theorem C15_full_release (env : Env) (hE : EnvOK env) (fuel0 : Nat) (z0 : Zone)
    (h0 : Z_Init fuel0 env = .ok z0 ()) (z : Zone) (hr : ReachedFrom z0 z)
    (hfree : ∀ v, InList z v → v ≠ z.mainzone_blocklist → (z.hdr v).user = 0) :
    ∃ b, b = (z0.hdr z0.mainzone_blocklist).next ∧ b ≠ z.mainzone_blocklist ∧
      (∀ v, InList z v ↔ v = z.mainzone_blocklist ∨ v = b) ∧
      (z.hdr b).user = 0 ∧ (z.hdr b).size = (z0.hdr b).size ∧
      (∀ fuel, 1 ≤ fuel → Z_CheckHeap fuel z = .ok z ()) ∧
      (∀ fuel, 2 ≤ fuel → Z_GetTotalFreeMemory fuel z = some (z0.hdr b).size ∧
        Z_GetLargestFreeBlockSize fuel z = some (z0.hdr b).size) := by
  obtain ⟨a, hs, hR0, hT0, hsz0, hs16, hn0⟩ := Z_Init_arena hE h0
  obtain ⟨hS, ⟨rest, hR⟩, hT⟩ := ReachedFrom_arena hR0 hT0 hr
  have haS : a ≠ z.mainzone_blocklist := by
    have := (@nodup_around z0.mainzone_blocklist a [] [] hR0.pre.nodup).1
    rw [hS]
    exact Ne.symm this
  have hnd := hR.pre.nodup
  have hfr : ∀ v ∈ rest, (z.hdr v).user = 0 := by
    intro v hv
    refine hfree v ((hR.pre.inList_iff v).2 (List.mem_cons_of_mem _ hv)) ?_
    intro e
    rw [List.nodup_cons] at hnd
    exact hnd.1 (e ▸ hv)
  have hlen := ring_all_free hR hfr
  have hl := hR.pre.links
  obtain ⟨t1, t2⟩ := hT
  cases rest with
  | nil =>
    exfalso
    simp only [Seg_cons, Seg_nil, firstOr_nil, lastOr_nil, and_true] at hl
    exact haS (t1.symm.trans hl.2.1)
  | cons b r =>
    cases r with
    | cons y r' => simp at hlen
    | nil =>
      simp only [Seg_cons, Seg_nil, firstOr_cons, firstOr_nil, lastOr_cons, lastOr_nil,
        and_true] at hl
      obtain ⟨⟨s1, s2, -⟩, ⟨b1, b2, hb⟩⟩ := hl
      have hba : b = a := s2.symm.trans t1
      subst hba
      obtain ⟨b16, -, -, -, -⟩ := hb haS
      have hbu := hfr b (by simp)
      have hsize : (z.hdr b).size = (z0.hdr b).size := by
        rw [s1] at t2
        rw [hsz0]
        omega
      have hlt : (z.hdr b).size < 2 ^ 32 := by
        have := hR.pre.bound
        rw [hsize, hsz0]
        omega
      obtain ⟨q1, q2⟩ := single_block_queries haS s2 b2 hbu hlt
      refine ⟨b, hn0.symm, haS, fun v => ?_, hbu, hsize, q1, ?_⟩
      · rw [hR.pre.inList_iff]
        simp
      · rw [← hsize]
        exact q2

theorem exW1_reached : ReachedFrom exInit exW1 :=
  ReachedFrom.malloc 10 exInit 100 1 0 exW1 (segmentToPointer 0x1001) ReachedFrom.start rfl

theorem exW2_reached : ReachedFrom exInit exW2 :=
  ReachedFrom.malloc 10 exW1 200 2 0x200 exW2 (segmentToPointer 0x1009) exW1_reached rfl

theorem exW3_reached : ReachedFrom exInit exW3 :=
  ReachedFrom.free exW2 (segmentToPointer 0x1001) 0x1000 exW3 exW2_reached
    ⟨⟨1, rfl⟩, by decide, by decide⟩ rfl rfl

theorem exW4_reached : ReachedFrom exInit exW4 :=
  ReachedFrom.freeTags 10 exW3 exW4 exW3_reached rfl

/-- The list of `exW4`: the sentinel and the block at `0x1000`. -/
theorem exW4_list (n : Nat) : nthBlock exW4 n = 0x800 ∨ nthBlock exW4 n = 0x1000 := by
  induction n with
  | zero => exact Or.inl rfl
  | succ n ih =>
    show (exW4.hdr (nthBlock exW4 n)).next = 0x800 ∨ (exW4.hdr (nthBlock exW4 n)).next = 0x1000
    rcases ih with e | e
    · rw [e]; exact Or.inr (by decide)
    · rw [e]; exact Or.inl (by decide)

theorem exW4_all_free (v : Nat) (hv : InList exW4 v) (hS : v ≠ exW4.mainzone_blocklist) :
    (exW4.hdr v).user = 0 := by
  obtain ⟨n, rfl⟩ := hv
  rcases exW4_list n with e | e
  · exact absurd e hS
  · rw [e]; decide

/-- Witness for C15: `Z_Init`, `a1 = Z_Malloc(100, PU_STATIC, NULL)`,
`a2 = Z_Malloc(200, PU_LEVEL, &slot)` with `slot == a2`, `Z_Free(a1)`, `Z_FreeTags()`
with `slot == NULL` afterwards; the arena of 655360 bytes is one free block again. -/
theorem C15_witness :
    EnvOK exEnv ∧ Z_Init 1 exEnv = .ok exInit () ∧ ReachedFrom exInit exW4 ∧
      Z_Malloc 10 exInit 100 1 0 = .ok exW1 (segmentToPointer 0x1001) ∧
      Z_Malloc 10 exW1 200 2 0x200 = .ok exW2 (segmentToPointer 0x1009) ∧
      exW2.slot 0x200 = segmentToPointer 0x1009 ∧
      Z_Free exW2 (segmentToPointer 0x1001) = .ok exW3 () ∧
      Z_CheckHeap 10 exW3 = .ok exW3 () ∧
      Z_FreeTags 10 exW3 = .ok exW4 () ∧ exW4.slot 0x200 = NULL ∧
      (exInit.hdr 0x1000).size = 655360 ∧
      ∃ b, b = (exInit.hdr exInit.mainzone_blocklist).next ∧ b ≠ exW4.mainzone_blocklist ∧
        (∀ v, InList exW4 v ↔ v = exW4.mainzone_blocklist ∨ v = b) ∧
        (exW4.hdr b).user = 0 ∧ (exW4.hdr b).size = (exInit.hdr b).size ∧
        (∀ fuel, 1 ≤ fuel → Z_CheckHeap fuel exW4 = .ok exW4 ()) ∧
        (∀ fuel, 2 ≤ fuel → Z_GetTotalFreeMemory fuel exW4 = some (exInit.hdr b).size ∧
          Z_GetLargestFreeBlockSize fuel exW4 = some (exInit.hdr b).size) :=
  ⟨exEnv_ok, rfl, exW4_reached, rfl, rfl, by decide, rfl, rfl, rfl, by decide, by decide,
    C15_full_release exEnv exEnv_ok 1 exInit rfl exW4 exW4_reached exW4_all_free⟩

/-- C24. `Z_Free(NULL)` is a no-op: on every heap state it returns without an error and
leaves the state (block list, every block header, rover, every owner slot) as it was. -/
theorem C24_free_null (z : Zone) :
    Z_Free z NULL = .ok z () ∧ (Z_Free z NULL).err = none ∧
      (Z_Free z NULL).state = some z := by
  have h : Z_Free z NULL = .ok z () := by
    unfold Z_Free
    rw [if_pos rfl]
  exact ⟨h, by rw [h]; rfl, by rw [h]; rfl⟩

theorem finish_rover (z1 : Zone) (b sz : Nat) (tag : Int) (user : Nat) :
    (Z_Malloc_finish z1 b sz tag user).mainzone_rover = ((Z_Malloc_split z1 b sz).hdr b).next := by
  unfold Z_Malloc_finish
  split
  · rw [setSlot_rover, markUsed_rover]
  · rw [markUsed_rover]

/-- C26. After every successful `Z_Malloc` on a reachable heap state the rover designates
the block that follows the newly allocated block `b` in the list: the free fragment
split off at `b + N/16` when a split occurred, the former successor of the selected
region (possibly the sentinel) otherwise. -/
theorem C26_rover_after_alloc (z : Zone) (h : Reachable z) (fuel size : Nat) (tag : Int)
    (user : Nat) (z' : Zone) (p : FarPtr)
    (hm : Z_Malloc fuel z size tag user = .ok z' p) :
    ∃ z1 b, Z_Malloc_find fuel z size = .ok z1 b ∧ p = segmentToPointer (b + 1) ∧
      InList z' b ∧ (z'.hdr b).user ≠ 0 ∧
      z'.mainzone_rover = (z'.hdr b).next ∧ InList z' z'.mainzone_rover ∧
      (z'.hdr z'.mainzone_rover).prev = b ∧
      ((z1.hdr b).size - Z_Malloc_size size > MINFRAGMENT →
        z'.mainzone_rover = b + Z_Malloc_size size / 16 ∧
        (z'.hdr z'.mainzone_rover).user = 0 ∧ ¬ InList z1 z'.mainzone_rover) ∧
      (¬ (z1.hdr b).size - Z_Malloc_size size > MINFRAGMENT →
        z'.mainzone_rover = (z1.hdr b).next) := by
  obtain ⟨rest, lo, hi, hR⟩ := Reachable_WF h
  obtain ⟨z1, start, b, pre, post, hf, hok, hz, hp⟩ := Z_Malloc_find_inv hR hm
  obtain ⟨h16, hpos⟩ := Z_Malloc_size_facts size
  have hR1 := hok.hring
  have hbS : b ≠ z1.mainzone_blocklist := fun e => hR1.pre.sentUser (e ▸ hok.hfree)
  obtain ⟨-, -, hbl, -⟩ := links_split1.1 hR1.pre.links
  obtain ⟨hm16, hlo, hhi, -, -⟩ := hbl.2.2 hbS
  have hR' := Z_Malloc_finish_ring tag user hok
  rw [← hz] at hR'
  have hrov : z'.mainzone_rover = (z'.hdr b).next := by
    rw [hz, finish_rover, finish_next]
  have hbm : b ∈ start :: (pre ++ b ::
      ((if (z1.hdr b).size - Z_Malloc_size size > MINFRAGMENT
        then [b + Z_Malloc_size size / 16] else []) ++ post)) := by simp
  have hu : (z'.hdr b).user ≠ 0 := by
    rw [hz, finish_user, if_pos rfl]
    split
    · rename_i e; exact e
    · decide
  refine ⟨z1, b, hf, hp, (hR'.pre.inList_iff b).2 hbm, hu, hrov, ?_, ?_, fun hex => ?_,
    fun hex => ?_⟩
  · rw [hrov]
    exact (hR'.pre.inList_iff _).2 (hR'.pre.next_mem hbm)
  · rw [hrov]
    exact hR'.pre.prev_next hbm
  · obtain ⟨t1, t2, t3, -⟩ :=
      split_tiles b (Z_Malloc_size size) (z1.hdr b).size lo hi h16 hpos hm16 hok.hbig hlo hhi
        hR1.pre.bound
    have hn : z'.mainzone_rover = b + Z_Malloc_size size / 16 := by
      rw [hrov, hz, finish_next, split_next _ _ _ _ hex, if_pos rfl]; rfl
    rw [hn]
    refine ⟨rfl, ?_, ?_⟩
    · rw [hz, finish_user, if_neg t3, split_user _ _ _ _ hex]
      exact if_pos rfl
    · rw [if_pos hex] at hR'
      have hR2 : Ring z' start (pre ++ b :: (b + Z_Malloc_size size / 16) :: post) lo hi := hR'
      have hnd : (start :: ((pre ++ [b]) ++ (b + Z_Malloc_size size / 16) :: post)).Nodup := by
        have := hR2.pre.nodup
        rwa [append_singleton_append]
      obtain ⟨n1, -, -, n2, n3, -⟩ := nodup_around hnd
      intro hin
      have hmem := (hR1.pre.inList_iff _).1 hin
      rcases List.mem_cons.1 hmem with e | e
      · exact n1 e.symm
      · rcases List.mem_append.1 e with e | e
        · exact n2 (List.mem_append_left _ e)
        · rcases List.mem_cons.1 e with e | e
          · exact t3 e
          · exact n3 e
  · rw [hrov, hz, finish_next, split_none _ _ _ hex]

/-- Witness for C26: `Z_Malloc(112, PU_STATIC, NULL)` right after `Z_Init` leaves the rover
on the free fragment at `0x1008`. -/
theorem C26_witness :
    Reachable exInit ∧ Z_Malloc 10 exInit 112 1 0 = .ok exA (segmentToPointer 0x1001) ∧
      exA.mainzone_rover = 0x1008 ∧ (exA.hdr 0x1000).next = 0x1008 ∧
      ∃ z1 b, Z_Malloc_find 10 exInit 112 = .ok z1 b ∧
        segmentToPointer 0x1001 = segmentToPointer (b + 1) ∧
        InList exA b ∧ (exA.hdr b).user ≠ 0 ∧
        exA.mainzone_rover = (exA.hdr b).next ∧ InList exA exA.mainzone_rover ∧
        (exA.hdr exA.mainzone_rover).prev = b ∧
        ((z1.hdr b).size - Z_Malloc_size 112 > MINFRAGMENT →
          exA.mainzone_rover = b + Z_Malloc_size 112 / 16 ∧
          (exA.hdr exA.mainzone_rover).user = 0 ∧ ¬ InList z1 exA.mainzone_rover) ∧
        (¬ (z1.hdr b).size - Z_Malloc_size 112 > MINFRAGMENT →
          exA.mainzone_rover = (z1.hdr b).next) :=
  ⟨exInit_reachable, rfl, by decide, by decide,
    C26_rover_after_alloc exInit exInit_reachable 10 112 1 0 exA (segmentToPointer 0x1001) rfl⟩

theorem Z_Init_blocklist {fuel : Nat} {env : Env} {z : Zone}
    (h : Z_Init fuel env = .ok z ()) :
    z.mainzone_blocklist = (alignUp 16 env.buffer).linear / 16 := by
  unfold Z_Init at h
  split at h
  · exact absurd h (by simp)
  · simp only [] at h
    unfold Z_Init_setup at h
    split at h
    · injection h with hz
      subst hz
      rfl
    · exact absurd h (by simp)

/-- C28. Arena alignment in `Z_Init`: when `Z_Init` returns, with `n` the paragraph count
of the granted request and `m = halloc(n)` the raw address, `mainzone` is the smallest
multiple of 16 that is at least `m`; the usable size `heapSize` (the size of the one
block, whose header is at `mainzone`) is `16 * n` when `m` is aligned and `16 * n - 16`
otherwise; the usable region lies inside the granted region; and the sentinel header
is at the first 16-byte aligned address of `mainzone_blocklist_buffer`, so that it
lies, with its 16 bytes, inside the 32 bytes of the buffer. -/
theorem C28_init_alignment (env : Env) (hE : EnvOK env) (fuel : Nat) (z : Zone)
    (h : Z_Init fuel env = .ok z ()) :
    ∃ n b, env.halloc n ≠ NULL ∧ (∀ j, n < j → j ≤ 40960 → env.halloc j = NULL) ∧
      z.mainzone.linear % 16 = 0 ∧ (env.halloc n).linear ≤ z.mainzone.linear ∧
      (∀ x, x % 16 = 0 → (env.halloc n).linear ≤ x → z.mainzone.linear ≤ x) ∧
      b * 16 = z.mainzone.linear ∧ (z.hdr z.mainzone_blocklist).next = b ∧
      (z.hdr b).size =
        (if (env.halloc n).linear % 16 = 0 then 16 * n.toNat else 16 * n.toNat - 16) ∧
      z.mainzone.linear + (z.hdr b).size ≤ (env.halloc n).linear + 16 * n.toNat ∧
      (z.mainzone_blocklist * 16) % 16 = 0 ∧
      env.buffer.linear ≤ z.mainzone_blocklist * 16 ∧
      (∀ x, x % 16 = 0 → env.buffer.linear ≤ x → z.mainzone_blocklist * 16 ≤ x) ∧
      z.mainzone_blocklist * 16 + 16 ≤ env.buffer.linear + 32 := by
  obtain ⟨a, n, hs, h1, h2, h3, h4, h5, h6, h7, h8, h9, hR, h10, h11, h12⟩ :=
    Z_Init_facts hE h
  have hS := Z_Init_blocklist h
  have hl := hR.pre.links
  simp only [Seg_cons, Seg_nil, firstOr_cons, firstOr_nil, lastOr_cons, lastOr_nil,
    and_true] at hl
  obtain ⟨⟨-, s2, -⟩, -⟩ := hl
  obtain ⟨-, -, hoff, -⟩ := hE.grant n h1
  have hbuf := hE.buf
  have hmz : alignUp 16 (env.halloc n) =
      ⟨(env.halloc n).seg, (env.halloc n).off + (16 - (env.halloc n).off % 16) % 16⟩ :=
    alignUp_spec 16 _ (by omega) (by omega)
  have hbl : alignUp 16 env.buffer =
      ⟨env.buffer.seg, env.buffer.off + (16 - env.buffer.off % 16) % 16⟩ :=
    alignUp_spec 16 env.buffer (by omega) (by omega)
  have hlin : z.mainzone.linear =
      (env.halloc n).seg * 16 + ((env.halloc n).off + (16 - (env.halloc n).off % 16) % 16) := by
    rw [h6, hmz]; rfl
  have hlin0 : (env.halloc n).linear = (env.halloc n).seg * 16 + (env.halloc n).off := rfl
  have hblin : (alignUp 16 env.buffer).linear =
      env.buffer.seg * 16 + (env.buffer.off + (16 - env.buffer.off % 16) % 16) := by
    rw [hbl]; rfl
  have hblin0 : env.buffer.linear = env.buffer.seg * 16 + env.buffer.off := rfl
  have hsize : (z.hdr a).size =
      (if (env.halloc n).linear % 16 = 0 then 16 * n.toNat else 16 * n.toNat - 16) := by
    rw [h11, h5, hlin0]
    have : ((env.halloc n).seg * 16 + (env.halloc n).off) % 16 = (env.halloc n).off % 16 := by
      omega
    rw [this]
  refine ⟨n, a, h1, h4, ?_, ?_, ?_, h8, s2, hsize, ?_, ?_, ?_, ?_, ?_⟩
  · rw [hlin]; omega
  · rw [hlin, hlin0]; omega
  · intro x hx hmx
    rw [hlin]
    rw [hlin0] at hmx
    omega
  · rw [hsize, hlin, hlin0]
    split <;> omega
  · omega
  · rw [hS, hblin, hblin0]; omega
  · intro x hx hmx
    rw [hS, hblin]
    rw [hblin0] at hmx
    omega
  · rw [hS, hblin, hblin0]; omega

theorem exMis_ok : EnvOK exMis := by
  constructor
  · intro n hn
    have : n = 40960 := by
      by_contra hne
      apply hn
      simp [exMis, hne]
    subst this
    simp [exMis, FarPtr.linear, PARAGRAPH_SIZE]
  · simp [exMis]

/-- Witness for C28: in `exMis` the granted region starts at `1000:0008` and the buffer
at `0800:0004`; `mainzone` becomes `1000:0010`, the block has 655344 bytes, and the
sentinel header is at linear address `0x8010`. -/
theorem C28_witness :
    EnvOK exMis ∧ Z_Init 1 exMis = .ok exMisInit () ∧
      exMisInit.mainzone = ⟨0x1000, 16⟩ ∧ (exMisInit.hdr 0x1001).size = 655344 ∧
      exMisInit.mainzone_blocklist = 0x801 ∧
      ∃ n b, exMis.halloc n ≠ NULL ∧ (∀ j, n < j → j ≤ 40960 → exMis.halloc j = NULL) ∧
      exMisInit.mainzone.linear % 16 = 0 ∧
      (exMis.halloc n).linear ≤ exMisInit.mainzone.linear ∧
      (∀ x, x % 16 = 0 → (exMis.halloc n).linear ≤ x → exMisInit.mainzone.linear ≤ x) ∧
      b * 16 = exMisInit.mainzone.linear ∧
      (exMisInit.hdr exMisInit.mainzone_blocklist).next = b ∧
      (exMisInit.hdr b).size =
        (if (exMis.halloc n).linear % 16 = 0 then 16 * n.toNat else 16 * n.toNat - 16) ∧
      exMisInit.mainzone.linear + (exMisInit.hdr b).size ≤
        (exMis.halloc n).linear + 16 * n.toNat ∧
      (exMisInit.mainzone_blocklist * 16) % 16 = 0 ∧
      exMis.buffer.linear ≤ exMisInit.mainzone_blocklist * 16 ∧
      (∀ x, x % 16 = 0 → exMis.buffer.linear ≤ x → exMisInit.mainzone_blocklist * 16 ≤ x) ∧
      exMisInit.mainzone_blocklist * 16 + 16 ≤ exMis.buffer.linear + 32 :=
  ⟨exMis_ok, rfl, by decide, by decide, by decide,
    C28_init_alignment exMis exMis_ok 1 exMisInit rfl⟩

/-- A free block of a well-formed heap is not its own predecessor. -/
theorem free_ne_prev {z : Zone} {c lo hi v : Nat} {rest : List Nat} (h : Ring z c rest lo hi)
    (hv : v ∈ c :: rest) (hf : (z.hdr v).user = 0) : (z.hdr v).prev ≠ v := by
  intro e
  have h1 := h.pre.next_prev hv
  rw [e] at h1
  apply h.naf v hv
  rw [h1]
  exact ⟨hf, hf⟩

/-- The scan of `Z_Malloc` started at a free block that is large enough selects it at
once and leaves the heap as it is. -/
theorem scan_hit {z : Zone} {size start b fuel : Nat} (hs : b ≠ start)
    (hf : (z.hdr b).user = 0) (hsz : size ≤ (z.hdr b).size) :
    Z_Malloc_scan size start (fuel + 1) z b b = .ok z b := by
  unfold Z_Malloc_scan
  rw [if_neg hs]
  unfold Z_Malloc_scan_body
  have h1 : ¬ ((z.hdr b).user ≠ 0) := fun e => e hf
  rw [if_neg h1]
  simp only []
  have h2 : ¬ ((z.hdr b).user ≠ 0 ∨ (z.hdr b).size < size) := by
    intro e
    rcases e with e | e
    · exact e hf
    · omega
  rw [if_neg h2]

/-- `Z_Malloc` in terms of `Z_Malloc_find`. -/
theorem Z_Malloc_of_find (fuel : Nat) (z : Zone) (size : Nat) (tag : Int) (user : Nat) :
    Z_Malloc fuel z size tag user =
      match Z_Malloc_find fuel z size with
      | .timeout => .timeout
      | .fatal e z' => .fatal e z'
      | .ok z1 base =>
        if user = 0 ∧ tag ≥ (PU_PURGELEVEL : Int) then
          .fatal .ownerRequired (Z_Malloc_split z1 base (Z_Malloc_size size))
        else .ok (Z_Malloc_finish z1 base (Z_Malloc_size size) tag user)
          (segmentToPointer (base + 1)) := by
  unfold Z_Malloc_find
  exact Z_Malloc_eq fuel z size tag user

/-- What a `Z_Malloc` whose scan evicts nothing leaves of the blocks in use. -/
theorem finish_keeps {z : Zone} {lo hi b : Nat} {rest : List Nat} (size : Nat) (tag : Int)
    (user : Nat) (hR : Ring z z.mainzone_blocklist rest lo hi)
    (hb : b ∈ z.mainzone_blocklist :: rest) (hf : (z.hdr b).user = 0)
    (hsz : Z_Malloc_size size ≤ (z.hdr b).size) :
    ∀ v, InList z v → (z.hdr v).user ≠ 0 →
      InList (Z_Malloc_finish z b (Z_Malloc_size size) tag user) v ∧
        Kept z (Z_Malloc_finish z b (Z_Malloc_size size) tag user) v := by
  obtain ⟨h16, hpos⟩ := Z_Malloc_size_facts size
  have hbS : b ≠ z.mainzone_blocklist := fun e => hR.pre.sentUser (e ▸ hf)
  have hbr : b ∈ rest := by
    rcases List.mem_cons.1 hb with e | e
    · exact absurd e hbS
    · exact e
  obtain ⟨pre, post, hrest⟩ := List.append_of_mem hbr
  subst hrest
  have hok : ScanOK z z (z.mainzone_blocklist :: (pre ++ b :: post)) (Z_Malloc_size size)
      z.mainzone_blocklist b pre post lo hi :=
    ⟨hR, hf, hsz, hR.pre.sentUser, Frame_refl _ _⟩
  have hRf := Z_Malloc_finish_ring tag user hok
  intro v hv hu
  have hvm := (hR.pre.inList_iff v).1 hv
  have hvb : v ≠ b := fun e => hu (e ▸ hf)
  obtain ⟨-, hm', hk'⟩ := split_kept hR.pre hbS h16 hpos hvm hvb
  exact ⟨(hRf.pre.inList_iff v).2 hm', Kept_trans hk' (finish_kept _ _ _ _ _ _ hvb)⟩

/-- C29. The scan start backs up over a free predecessor: on a reachable heap state in
which the block `P` before the rover's block is free with size at least the needed
block size, a valid `Z_Malloc` call (an owner given, or a tag below `PU_PURGELEVEL`)
returns, its scan leaves the heap as it is and selects `P`, the address returned is the
payload address of `P`, and every block that was in use is still in the list and in use
with the same size, tag and owner. -/
theorem C29_backs_up (z : Zone) (h : Reachable z) (fuel size : Nat) (tag : Int) (user : Nat)
    (hfuel : 1 ≤ fuel) (hvalid : ¬ (user = 0 ∧ tag ≥ (PU_PURGELEVEL : Int)))
    (hP : (z.hdr (z.hdr z.mainzone_rover).prev).user = 0)
    (hsz : Z_Malloc_size size ≤ (z.hdr (z.hdr z.mainzone_rover).prev).size) :
    Z_Malloc_find fuel z size = .ok z (z.hdr z.mainzone_rover).prev ∧
    ∃ z', Z_Malloc fuel z size tag user =
        .ok z' (segmentToPointer ((z.hdr z.mainzone_rover).prev + 1)) ∧
      (segmentToPointer ((z.hdr z.mainzone_rover).prev + 1)).linear =
        (z.hdr z.mainzone_rover).prev * 16 + 16 ∧
      (z'.hdr (z.hdr z.mainzone_rover).prev).user ≠ 0 ∧
      ∀ v, InList z v → (z.hdr v).user ≠ 0 →
        InList z' v ∧ (z'.hdr v).user = (z.hdr v).user ∧ (z'.hdr v).size = (z.hdr v).size ∧
          (z'.hdr v).tag = (z.hdr v).tag := by
  obtain ⟨rest, lo, hi, hR⟩ := Reachable_WF h
  obtain ⟨h16, hpos⟩ := Z_Malloc_size_facts size
  obtain ⟨k, rfl⟩ : ∃ k, fuel = k + 1 := ⟨fuel - 1, by omega⟩
  have hPin := hR.pre.prev_mem hR.pre.rover
  have hne := free_ne_prev hR hPin hP
  have hfind : Z_Malloc_find (k + 1) z size = .ok z (z.hdr z.mainzone_rover).prev := by
    unfold Z_Malloc_find
    simp only []
    rw [if_pos hP]
    exact scan_hit (Ne.symm hne) hP hsz
  refine ⟨hfind, Z_Malloc_finish z (z.hdr z.mainzone_rover).prev (Z_Malloc_size size) tag user,
    ?_, ?_, ?_, ?_⟩
  · rw [Z_Malloc_of_find, hfind]
    simp only [if_neg hvalid]
  · show ((z.hdr z.mainzone_rover).prev + 1) * 16 + 0 = _
    omega
  · rw [finish_user, if_pos rfl]
    split
    · rename_i e; exact e
    · decide
  · intro v hv hu
    obtain ⟨k1, k2⟩ := finish_keeps size tag user hR hPin hP hsz v hv hu
    exact ⟨k1, k2.2.2.1, k2.1, k2.2.1⟩

/-- The rover after `Z_Free_block`. -/
theorem Z_Free_block_rover {z : Zone} {c b lo hi : Nat} {pre post : List Nat}
    (h : Ring z c (pre ++ b :: post) lo hi) :
    (Z_Free_block z b).mainzone_rover =
      if z.mainzone_rover = b ∧ (z.hdr (lastOr pre c)).user = 0 then lastOr pre c
      else if z.mainzone_rover = firstOr post c ∧ (z.hdr (firstOr post c)).user = 0 then
        (if (z.hdr (lastOr pre c)).user = 0 then lastOr pre c else b)
      else z.mainzone_rover := by
  have hnd := h.pre.nodup
  simp only [List.nodup_cons, List.mem_append, List.mem_cons, List.nodup_append,
    not_or] at hnd
  obtain ⟨⟨hcpre, hcb, hcpost⟩, hndpre, ⟨hbpost, hndpost⟩, hdisj⟩ := hnd
  have hpreb : ∀ v ∈ pre, v ≠ b := fun v hv e => hdisj hv (by simp [e])
  obtain ⟨-, -, hbl, -⟩ := links_split1.1 h.pre.links
  have hPb : lastOr pre c ≠ b := by
    rcases lastOr_mem pre c with e | e
    · rw [e]; exact hcb
    · exact hpreb _ e
  have hNb : firstOr post c ≠ b := by
    rcases firstOr_mem post c with e | e
    · rw [e]; exact hcb
    · intro e'; rw [e'] at e; exact hbpost e
  have hprev1 : ((markFree z b).hdr b).prev = lastOr pre c := by
    rw [markFree_hdr, if_pos rfl]; exact hbl.1
  have hnext1 : ∀ v, ((markFree z b).hdr v).next = (z.hdr v).next := by
    intro v; rw [markFree_hdr]; split
    · rename_i e; rw [e]
    · rfl
  have huser1 : ∀ v, v ≠ b → ((markFree z b).hdr v).user = (z.hdr v).user := by
    intro v hv; rw [markFree_hdr, if_neg hv]
  have hr1 := markFree_rover z b
  rw [Z_Free_block_eq]
  simp only [hprev1, huser1 _ hPb]
  generalize lastOr pre c = P at *
  generalize firstOr post c = N at *
  have hnN : (z.hdr b).next = N := hbl.2.1
  by_cases hP : (z.hdr P).user = 0
  · simp only [hP, if_true, and_true]
    have hnext2 : ((absorb (markFree z b) P b).hdr P).next = N := by
      rw [absorb_next, if_pos rfl, hnext1, hnN]
    simp only [hnext2, absorb_user, huser1 _ hNb]
    by_cases hN : (z.hdr N).user = 0
    · simp only [hN, if_true, and_true, absorb_rover, hr1]
      by_cases e1 : z.mainzone_rover = b
      · simp [e1]
      · have e1' : ¬ b = z.mainzone_rover := fun e => e1 e.symm
        simp only [if_neg e1, if_neg e1']
        by_cases e2 : z.mainzone_rover = N
        · simp [e2]
        · have e2' : ¬ N = z.mainzone_rover := fun e => e2 e.symm
          simp only [if_neg e2, if_neg e2']
    · simp only [hN, if_false, and_false, absorb_rover, hr1]
      by_cases e1 : z.mainzone_rover = b
      · simp [e1]
      · have e1' : ¬ b = z.mainzone_rover := fun e => e1 e.symm
        simp only [if_neg e1, if_neg e1']
  · simp only [hP, if_false, and_false]
    simp only [hnext1 b, hnN, huser1 _ hNb]
    by_cases hN : (z.hdr N).user = 0
    · simp only [hN, if_true, and_true, absorb_rover, hr1]
      by_cases e2 : z.mainzone_rover = N
      · simp [e2]
      · have e2' : ¬ N = z.mainzone_rover := fun e => e2 e.symm
        simp only [if_neg e2, if_neg e2']
    · simp only [hN, if_false, and_false, hr1]

/-- C25. Rover retargeting in `Z_Free`: `Z_Free` of the address of an in-use block `b` of a
reachable heap returns; if the rover designated `b` and `prev(b)` was free, the rover
afterwards designates `prev(b)`, the absorbing block; if the rover designated `next(b)`
and that block was free, the rover afterwards designates the block that absorbed it
(`prev(b)` if that was free, else `b`); in every other case the rover is unchanged. In
all cases the rover designates a block of the list. -/
theorem C25_rover_retarget (z : Zone) (h : Reachable z) (b : Nat) (hb : InUse z b)
    (ptr : FarPtr) (hp : pointerToSegment ptr = some (b + 1)) :
    ∃ z', Z_Free z ptr = .ok z' () ∧ InList z' z'.mainzone_rover ∧
      (z.mainzone_rover = b → (z.hdr (z.hdr b).prev).user = 0 →
        z'.mainzone_rover = (z.hdr b).prev) ∧
      (z.mainzone_rover = (z.hdr b).next → (z.hdr (z.hdr b).next).user = 0 →
        z'.mainzone_rover = Z_Free_target z b) ∧
      (¬ (z.mainzone_rover = b ∧ (z.hdr (z.hdr b).prev).user = 0) →
        ¬ (z.mainzone_rover = (z.hdr b).next ∧ (z.hdr (z.hdr b).next).user = 0) →
        z'.mainzone_rover = z.mainzone_rover) := by
  obtain ⟨rest, lo, hi, hR⟩ := Reachable_WF h
  obtain ⟨hin, hbS, hbu⟩ := hb
  have hmem := InList_mem hR.pre hin
  have hbr : b ∈ rest := by
    rcases List.mem_cons.1 hmem with e | e
    · exact absurd e hbS
    · exact e
  obtain ⟨pre, post, hrest⟩ := List.append_of_mem hbr
  subst hrest
  obtain ⟨-, -, hbl, -⟩ := links_split1.1 hR.pre.links
  have hid : (z.hdr b).id = ZONEID := (hbl.2.2 hbS).2.2.2.2 hbu
  have hR' := Z_Free_block_ring hR hR.pre.sentUser hbS
  have hrov := Z_Free_block_rover hR
  have hNb : firstOr post z.mainzone_blocklist ≠ b :=
    (nodup_around hR.pre.nodup).2.2.2.2.2.2.2.2.1
  refine ⟨Z_Free_block z b, Z_Free_eq hp hid, (hR'.pre.inList_iff _).2 hR'.pre.rover, ?_⟩
  unfold Z_Free_target
  rw [hbl.1, hbl.2.1, hrov]
  refine ⟨fun e1 e2 => ?_, fun e1 e2 => ?_, fun e1 e2 => ?_⟩
  · rw [if_pos ⟨e1, e2⟩]
  · have hne : ¬ (z.mainzone_rover = b ∧
        (z.hdr (lastOr pre z.mainzone_blocklist)).user = 0) :=
      fun e => hNb (e1.symm.trans e.1)
    rw [if_neg hne, if_pos ⟨e1, e2⟩]
  · rw [if_neg e1, if_neg e2]

/-- Witness for C25: in `exS3` the rover designates the free block at `0x1004`, the
successor of the in-use block at `0x1002`, whose predecessor at `0x1000` is free too;
after freeing the block the rover designates `0x1000`. -/
theorem C25_witness :
    Reachable exS3 ∧ InUse exS3 0x1002 ∧ exS3.mainzone_rover = 0x1004 ∧
      (exS3.hdr 0x1002).next = 0x1004 ∧ Z_Free_target exS3 0x1002 = 0x1000 ∧
      exS4.mainzone_rover = 0x1000 ∧
      ∃ z', Z_Free exS3 (segmentToPointer 0x1003) = .ok z' () ∧ InList z' z'.mainzone_rover ∧
        (exS3.mainzone_rover = 0x1002 → (exS3.hdr (exS3.hdr 0x1002).prev).user = 0 →
          z'.mainzone_rover = (exS3.hdr 0x1002).prev) ∧
        (exS3.mainzone_rover = (exS3.hdr 0x1002).next →
          (exS3.hdr (exS3.hdr 0x1002).next).user = 0 →
          z'.mainzone_rover = Z_Free_target exS3 0x1002) ∧
        (¬ (exS3.mainzone_rover = 0x1002 ∧ (exS3.hdr (exS3.hdr 0x1002).prev).user = 0) →
          ¬ (exS3.mainzone_rover = (exS3.hdr 0x1002).next ∧
            (exS3.hdr (exS3.hdr 0x1002).next).user = 0) →
          z'.mainzone_rover = exS3.mainzone_rover) :=
  have hb : InUse exS3 0x1002 := ⟨⟨2, rfl⟩, by decide, by decide⟩
  ⟨exS3_reachable, hb, by decide, by decide, by decide, by decide,
    C25_rover_retarget exS3 exS3_reachable 0x1002 hb (segmentToPointer 0x1003) rfl⟩

theorem exU2_reachable : Reachable exU2 :=
  Reachable.malloc 10 exR1 655312 4 0x200 exU2 (segmentToPointer 0x1003) exR1_reachable rfl

theorem exU3_reachable : Reachable exU3 :=
  Reachable.free exU2 (segmentToPointer 0x1001) 0x1000 exU3 exU2_reachable
    ⟨⟨1, rfl⟩, by decide, by decide⟩ rfl rfl

theorem exU4_reachable : Reachable exU4 :=
  Reachable.malloc 10 exU3 16 1 0 exU4 (segmentToPointer 0x1001) exU3_reachable rfl

theorem exU5_reachable : Reachable exU5 :=
  Reachable.free exU4 (segmentToPointer 0x1001) 0x1000 exU5 exU4_reachable
    ⟨⟨1, rfl⟩, by decide, by decide⟩ rfl rfl

/-- Witness for C29: in `exU5` the rover designates the in-use block at `0x1002` and the
block before it, at `0x1000`, is free with 32 bytes; `Z_Malloc(16, PU_STATIC, NULL)`
needs 32 bytes and returns `0x1001:0000`, the block at `0x1002` staying as it was. -/
theorem C29_witness :
    Reachable exU5 ∧ exU5.mainzone_rover = 0x1002 ∧ (exU5.hdr 0x1002).prev = 0x1000 ∧
      (exU5.hdr 0x1000).user = 0 ∧ (exU5.hdr 0x1000).size = 32 ∧ Z_Malloc_size 16 = 32 ∧
      (Z_Malloc_find 10 exU5 16 = .ok exU5 (exU5.hdr exU5.mainzone_rover).prev ∧
      ∃ z', Z_Malloc 10 exU5 16 1 0 =
          .ok z' (segmentToPointer ((exU5.hdr exU5.mainzone_rover).prev + 1)) ∧
        (segmentToPointer ((exU5.hdr exU5.mainzone_rover).prev + 1)).linear =
          (exU5.hdr exU5.mainzone_rover).prev * 16 + 16 ∧
        (z'.hdr (exU5.hdr exU5.mainzone_rover).prev).user ≠ 0 ∧
        ∀ v, InList exU5 v → (exU5.hdr v).user ≠ 0 →
          InList z' v ∧ (z'.hdr v).user = (exU5.hdr v).user ∧
            (z'.hdr v).size = (exU5.hdr v).size ∧ (z'.hdr v).tag = (exU5.hdr v).tag) :=
  ⟨exU5_reachable, by decide, by decide, by decide, by decide, by decide,
    C29_backs_up exU5 exU5_reachable 10 16 1 0 (by decide) (by decide) (by decide)
      (by decide)⟩

/-- The body of the scan at a free `rover`. -/
theorem scan_body_free {z : Zone} {base rover : Nat} (hf : (z.hdr rover).user = 0) :
    Z_Malloc_scan_body z base rover = .ok z (base, (z.hdr rover).next) := by
  unfold Z_Malloc_scan_body
  have h1 : ¬ ((z.hdr rover).user ≠ 0) := fun e => e hf
  rw [if_neg h1]

/-- The body of the scan at a purgeable `rover` that carries `ZONEID`. -/
theorem scan_body_evict {z : Zone} {base rover : Nat} (hu : (z.hdr rover).user ≠ 0)
    (ht : ¬ (z.hdr rover).tag < PU_PURGELEVEL) (hid : (z.hdr rover).id = ZONEID) :
    Z_Malloc_scan_body z base rover =
      .ok (Z_Free_block z rover)
        (((Z_Free_block z rover).hdr (z.hdr base).prev).next,
          ((Z_Free_block z rover).hdr
            ((Z_Free_block z rover).hdr (z.hdr base).prev).next).next) := by
  unfold Z_Malloc_scan_body
  rw [if_pos hu, if_neg ht]
  simp only []
  rw [Z_Free_eq (pointerToSegment_segmentToPointer _) hid]

/-- Two passes of the scan of `Z_Malloc` from a free block `F` that is too small and is
followed by the purgeable block `C`: the first pass steps over `F`, the second frees `C`
and selects `F`. -/
theorem scan_evict {z : Zone} {size start F C fuel : Nat} (hFs : F ≠ start) (hCs : C ≠ start)
    (hF : (z.hdr F).user = 0) (hFsz : (z.hdr F).size < size) (hn : (z.hdr F).next = C)
    (hCu : (z.hdr C).user ≠ 0) (hCt : ¬ (z.hdr C).tag < PU_PURGELEVEL)
    (hid : (z.hdr C).id = ZONEID)
    (hb1 : ((Z_Free_block z C).hdr (z.hdr F).prev).next = F)
    (hF1 : ((Z_Free_block z C).hdr F).user = 0)
    (hsz1 : size ≤ ((Z_Free_block z C).hdr F).size) :
    Z_Malloc_scan size start (fuel + 2) z F F = .ok (Z_Free_block z C) F := by
  unfold Z_Malloc_scan
  rw [if_neg hFs, scan_body_free hF]
  simp only []
  rw [if_pos (Or.inr hFsz), hn]
  unfold Z_Malloc_scan
  rw [if_neg hCs, scan_body_evict hCu hCt hid]
  simp only []
  rw [hb1]
  have h2 : ¬ (((Z_Free_block z C).hdr F).user ≠ 0 ∨ ((Z_Free_block z C).hdr F).size < size) := by
    intro e
    rcases e with e | e
    · exact e hF1
    · omega
  rw [if_neg h2]

/-- C30. Evict-and-merge during the scan: on a reachable heap state in which the scan
base `F` of `Z_Malloc` (the rover's block, or the block before it when that one is free)
is free with size `a` below the needed size, and is followed by an in-use block `C` of
size `b` with tag at least `PU_PURGELEVEL`, the needed size being at most `a + b`, a
valid `Z_Malloc` call with fuel for two passes frees `C` with `Z_Free` (which stores
`NULL` in its owner slot when the owner pointer is above `0x100`), its scan selects `F`,
then a free block of the list of size `a + b` plus the size of the block after `C` when
that one was free, `C` itself having left the list, and the call returns the payload
address of `F`. -/
theorem C30_evict_and_merge (z : Zone) (h : Reachable z) (fuel size : Nat) (tag : Int)
    (user : Nat) (hfuel : 2 ≤ fuel) (hvalid : ¬ (user = 0 ∧ tag ≥ (PU_PURGELEVEL : Int)))
    (F C : Nat)
    (hbase : (if (z.hdr (z.hdr z.mainzone_rover).prev).user = 0
      then (z.hdr z.mainzone_rover).prev else z.mainzone_rover) = F)
    (hF : (z.hdr F).user = 0) (hn : (z.hdr F).next = C) (hCu : (z.hdr C).user ≠ 0)
    (hCt : PU_PURGELEVEL ≤ (z.hdr C).tag) (ha : (z.hdr F).size < Z_Malloc_size size)
    (hab : Z_Malloc_size size ≤ (z.hdr F).size + (z.hdr C).size) :
    Z_Free z (segmentToPointer (C + 1)) = .ok (Z_Free_block z C) () ∧
    Z_Malloc_find fuel z size = .ok (Z_Free_block z C) F ∧
    ((Z_Free_block z C).hdr F).user = 0 ∧
    ((Z_Free_block z C).hdr F).size = (z.hdr F).size + (z.hdr C).size +
      (if (z.hdr (z.hdr C).next).user = 0 then (z.hdr (z.hdr C).next).size else 0) ∧
    InList (Z_Free_block z C) F ∧ ¬ InList (Z_Free_block z C) C ∧
    (0x100 < (z.hdr C).user → (Z_Free_block z C).slot (z.hdr C).user = NULL) ∧
    ∃ z', Z_Malloc fuel z size tag user = .ok z' (segmentToPointer (F + 1)) ∧
      InList z' F ∧ (z'.hdr F).user ≠ 0 ∧
      (0x100 < (z.hdr C).user → (z.hdr C).user ≠ user → z'.slot (z.hdr C).user = NULL) := by
  obtain ⟨rest, lo, hi, hR⟩ := Reachable_WF h
  obtain ⟨k, rfl⟩ : ∃ k, fuel = k + 2 := ⟨fuel - 2, by omega⟩
  have hFin : F ∈ z.mainzone_blocklist :: rest := by
    rw [← hbase]
    split
    · exact hR.pre.prev_mem hR.pre.rover
    · exact hR.pre.rover
  have hFS : F ≠ z.mainzone_blocklist := fun e => hR.pre.sentUser (e ▸ hF)
  have hCS : C ≠ z.mainzone_blocklist := by
    intro e
    have := hR.pre.sentTag
    rw [← e] at this
    rw [this] at hCt
    exact absurd hCt (by decide)
  have hFr : F ∈ rest := by
    rcases List.mem_cons.1 hFin with e | e
    · exact absurd e hFS
    · exact e
  have hFp := free_ne_prev hR hFin hF
  have hpn := hR.pre.next_prev hFin
  obtain ⟨pre, post, hrest⟩ := List.append_of_mem hFr
  subst hrest
  obtain ⟨-, -, hbl, -⟩ := links_split1.1 hR.pre.links
  have hfo : firstOr post z.mainzone_blocklist = C := hbl.2.1.symm.trans hn
  obtain ⟨post1, hpost⟩ := firstOr_ne (hfo.trans_ne hCS)
  rw [hfo] at hpost
  subst hpost
  have hndF := nodup_around hR.pre.nodup
  have hR2 : Ring z z.mainzone_blocklist ((pre ++ [F]) ++ C :: post1) lo hi := by
    rw [List.append_assoc]; exact hR
  obtain ⟨-, -, hbl2, -⟩ := links_split1.1 hR2.pre.links
  have hid : (z.hdr C).id = ZONEID := (hbl2.2.2 hCS).2.2.2.2 hCu
  have hlast : lastOr (pre ++ [F]) z.mainzone_blocklist = F := by simp
  have hCprev : (z.hdr C).prev = F := hbl2.1.trans hlast
  have hndC := nodup_around hR2.pre.nodup
  have hCpre : C ∉ pre := fun e => hndC.2.2.2.1 (List.mem_append_left _ e)
  have hPC : (z.hdr F).prev ≠ C := by
    rw [hbl.1]
    rcases lastOr_mem pre z.mainzone_blocklist with e | e
    · rw [e]; exact Ne.symm hCS
    · intro e'; rw [e'] at e; exact hCpre e
  have hb1 : ((Z_Free_block z C).hdr (z.hdr F).prev).next = F := by
    rw [Z_Free_block_next z C _ hPC (by rw [hCprev]; exact hFp), hpn]
  have hF1 : ((Z_Free_block z C).hdr F).user = 0 := by
    rw [Z_Free_block_user]; split
    · rfl
    · exact hF
  have hsz := Z_Free_block_size hR2 hR.pre.sentUser hCS
  rw [hlast] at hsz
  simp only [hF, if_true] at hsz
  rw [← hbl2.2.1] at hsz
  have hsz1 : ((Z_Free_block z C).hdr F).size = (z.hdr F).size + (z.hdr C).size +
      (if (z.hdr (z.hdr C).next).user = 0 then (z.hdr (z.hdr C).next).size else 0) := by
    rw [hsz]; omega
  have hfind : Z_Malloc_find (k + 2) z size = .ok (Z_Free_block z C) F := by
    unfold Z_Malloc_find
    simp only []
    rw [hbase]
    exact scan_evict (Ne.symm hFp) (Ne.symm hPC) hF ha hn hCu (by omega) hid hb1 hF1
      (by rw [hsz1]; omega)
  have hR1 := Z_Free_block_ring hR2 hR.pre.sentUser hCS
  rw [hlast] at hR1
  simp only [hF, if_true] at hR1
  rw [← Z_Free_block_blocklist z C] at hR1
  have hmal : Z_Malloc (k + 2) z size tag user =
      .ok (Z_Malloc_finish (Z_Free_block z C) F (Z_Malloc_size size) tag user)
        (segmentToPointer (F + 1)) := by
    rw [Z_Malloc_of_find, hfind]
    simp only [if_neg hvalid]
  refine ⟨Z_Free_eq (pointerToSegment_segmentToPointer _) hid, hfind, hF1, hsz1, ?_, ?_, ?_,
    _, hmal, ?_, ?_, ?_⟩
  · exact (hR1.pre.inList_iff F).2 (by simp)
  · intro e
    have e1 := (hR1.pre.inList_iff C).1 e
    rw [Z_Free_block_blocklist] at e1
    rcases List.mem_cons.1 e1 with e2 | e2
    · exact hCS e2
    · rcases List.mem_append.1 e2 with e3 | e3
      · exact hndC.2.2.2.1 e3
      · apply hndC.2.2.2.2.1
        split at e3
        · exact List.mem_of_mem_tail e3
        · exact e3
  · intro hu
    rw [Z_Free_block_slot, if_pos ⟨hu, rfl⟩]
  · obtain ⟨z1, start, b, pre1, post1, hf1, hok, hz, -⟩ := Z_Malloc_find_inv hR hmal
    rw [hfind] at hf1
    injection hf1 with e1 e2
    subst e1 e2
    have hring := Z_Malloc_finish_ring tag user hok
    exact (hring.pre.inList_iff F).2 (by simp)
  · rw [finish_user, if_pos rfl]
    split
    · rename_i e; exact e
    · decide
  · intro hu hne
    rw [finish_slot, if_neg (fun e => hne e.2), Z_Free_block_slot, if_pos ⟨hu, rfl⟩]

/-- Witness for C30: in `exU5` the scan base is the free block at `0x1000` (32 bytes),
followed by the purgeable block at `0x1002` (655328 bytes, owner slot `0x200`);
`Z_Malloc(64, PU_STATIC, NULL)` needs 80 bytes, evicts that block, nulls slot `0x200`
and returns `0x1001:0000`. -/
theorem C30_witness :
    Reachable exU5 ∧ exU5.mainzone_rover = 0x1002 ∧ (exU5.hdr 0x1000).size = 32 ∧
      (exU5.hdr 0x1002).size = 655328 ∧ (exU5.hdr 0x1002).user = 0x200 ∧
      Z_Malloc_size 64 = 80 ∧
      Z_Malloc 10 exU5 64 1 0 = .ok exU6 (segmentToPointer 0x1001) ∧
      exU6.slot 0x200 = NULL ∧
      (Z_Free exU5 (segmentToPointer (0x1002 + 1)) = .ok (Z_Free_block exU5 0x1002) () ∧
      Z_Malloc_find 10 exU5 64 = .ok (Z_Free_block exU5 0x1002) 0x1000 ∧
      ((Z_Free_block exU5 0x1002).hdr 0x1000).user = 0 ∧
      ((Z_Free_block exU5 0x1002).hdr 0x1000).size =
        (exU5.hdr 0x1000).size + (exU5.hdr 0x1002).size +
          (if (exU5.hdr (exU5.hdr 0x1002).next).user = 0
            then (exU5.hdr (exU5.hdr 0x1002).next).size else 0) ∧
      InList (Z_Free_block exU5 0x1002) 0x1000 ∧ ¬ InList (Z_Free_block exU5 0x1002) 0x1002 ∧
      (0x100 < (exU5.hdr 0x1002).user →
        (Z_Free_block exU5 0x1002).slot (exU5.hdr 0x1002).user = NULL) ∧
      ∃ z', Z_Malloc 10 exU5 64 1 0 = .ok z' (segmentToPointer (0x1000 + 1)) ∧
        InList z' 0x1000 ∧ (z'.hdr 0x1000).user ≠ 0 ∧
        (0x100 < (exU5.hdr 0x1002).user → (exU5.hdr 0x1002).user ≠ 0 →
          z'.slot (exU5.hdr 0x1002).user = NULL)) :=
  ⟨exU5_reachable, by decide, by decide, by decide, by decide, by decide, rfl, by decide,
    C30_evict_and_merge exU5 exU5_reachable 10 64 1 0 (by decide) (by decide) 0x1000 0x1002
      (by decide) (by decide) (by decide) (by decide) (by decide) (by decide) (by decide)⟩

/-- Every ending of `Z_Malloc` on a well-formed heap leaves `mainzone_blocklist` as it is. -/
theorem Z_Malloc_blocklist {z z' : Zone} {c lo hi : Nat} {rest : List Nat} {fuel size : Nat}
    {tag : Int} {user : Nat} (h : Ring z c rest lo hi)
    (hres : (Z_Malloc fuel z size tag user).state = some z') :
    z'.mainzone_blocklist = z.mainzone_blocklist := by
  rcases Z_Malloc_cases h fuel size tag user with
    ⟨e, -⟩ | ⟨z2, start, rest', e, -, -, hF⟩ | ⟨z1, start, b, pre, post, hok, -, -, e⟩ |
    ⟨z1, start, b, pre, post, hok, -, e⟩
  · rw [e] at hres; exact absurd hres (by simp [Res.state])
  · rw [e] at hres
    simp only [Res.state, Option.some.injEq] at hres
    subst hres
    exact hF.1
  · rw [e] at hres
    simp only [Res.state, Option.some.injEq] at hres
    subst hres
    rw [split_blocklist]; exact hok.hframe.1
  · rw [e] at hres
    simp only [Res.state, Option.some.injEq] at hres
    subst hres
    rw [Z_Malloc_finish_blocklist]; exact hok.hframe.1

/-- C21. Sentinel invariant: in every reachable heap state the sentinel has a non-NULL
user field and tag `PU_STATIC`, and its two links name members of the list that link
back to it. Whatever way a `Z_Malloc` call ends, the sentinel is the same block
afterwards with the same size, tag, owner and id (so its scan has not evicted it), and
the block a successful call selects is not the sentinel. `Z_FreeTags` leaves the
sentinel's size, tag, owner and id as they are, and so does `Z_Free` of an in-use block,
whose absorbing block is not the sentinel. -/
theorem C21_sentinel_invariant (z : Zone) (h : Reachable z) :
    (z.hdr z.mainzone_blocklist).user ≠ 0 ∧ (z.hdr z.mainzone_blocklist).tag = PU_STATIC ∧
    InList z (z.hdr z.mainzone_blocklist).next ∧ InList z (z.hdr z.mainzone_blocklist).prev ∧
    (z.hdr (z.hdr z.mainzone_blocklist).next).prev = z.mainzone_blocklist ∧
    (z.hdr (z.hdr z.mainzone_blocklist).prev).next = z.mainzone_blocklist ∧
    (∀ fuel size tag user z', (Z_Malloc fuel z size tag user).state = some z' →
      z'.mainzone_blocklist = z.mainzone_blocklist ∧ InList z' z.mainzone_blocklist ∧
      Kept z z' z.mainzone_blocklist) ∧
    (∀ fuel size tag user z' p, Z_Malloc fuel z size tag user = .ok z' p →
      ∃ z1 b, Z_Malloc_find fuel z size = .ok z1 b ∧ p = segmentToPointer (b + 1) ∧
        b ≠ z.mainzone_blocklist ∧ (z1.hdr b).user = 0 ∧ Kept z z1 z.mainzone_blocklist) ∧
    (∀ fuel z', Z_FreeTags fuel z = .ok z' () →
      z'.mainzone_blocklist = z.mainzone_blocklist ∧ Kept z z' z.mainzone_blocklist) ∧
    (∀ b ptr z', InUse z b → pointerToSegment ptr = some (b + 1) →
      Z_Free z ptr = .ok z' () →
      z'.mainzone_blocklist = z.mainzone_blocklist ∧ Kept z z' z.mainzone_blocklist ∧
      Z_Free_target z b ≠ z.mainzone_blocklist) := by
  obtain ⟨rest, lo, hi, hR, hT⟩ := Reachable_arena h
  have hS : z.mainzone_blocklist ∈ z.mainzone_blocklist :: rest := List.mem_cons_self _ _
  have hu := hR.pre.sentUser
  have ht := hR.pre.sentTag
  have hnp : ¬ PU_PURGELEVEL ≤ (z.hdr z.mainzone_blocklist).tag := by
    rw [ht]; decide
  refine ⟨hu, ht, (hR.pre.inList_iff _).2 (hR.pre.next_mem hS),
    (hR.pre.inList_iff _).2 (hR.pre.prev_mem hS), hR.pre.prev_next hS, hR.pre.next_prev hS,
    ?_, ?_, ?_, ?_⟩
  · intro fuel size tag user z' hres
    have hb := Z_Malloc_blocklist hR hres
    refine ⟨hb, ⟨0, hb⟩, ?_⟩
    rcases Z_Malloc_kept hR hres hS hu with ⟨-, k⟩ | ⟨k, -⟩
    · exact k
    · exact absurd k hnp
  · intro fuel size tag user z' p hm
    obtain ⟨z1, start, b, pre, post, hf, hok, -, hp⟩ := Z_Malloc_find_inv hR hm
    refine ⟨z1, b, hf, hp, ?_, hok.hfree, ?_⟩
    · intro e
      have h1 := hok.hring.pre.sentUser
      rw [hok.hframe.1, ← e] at h1
      exact h1 hok.hfree
    · rcases hok.hframe.2.2 _ hS hu with ⟨-, k⟩ | ⟨k, -⟩
      · exact k
      · exact absurd k hnp
  · intro fuel z' hf
    obtain ⟨rest', -, -, -, hP⟩ := (Z_FreeTags_spec hR hT).2 fuel z' hf
    exact ⟨hP.1, (hP.2.2.2.2.1 _ hS hu (sentinel_not_levelled hR.pre)).2⟩
  · intro b ptr z' hb hp hf
    obtain ⟨hin, hbS, hbu⟩ := hb
    have hmem := InList_mem hR.pre hin
    obtain ⟨p, s, q, h1, -, -, -⟩ := Seg_ring_pair hR.pre.links hmem
    have hid : (z.hdr b).id = ZONEID := (h1.2.2 hbS).2.2.2.2 hbu
    rw [Z_Free_eq hp hid] at hf
    injection hf with hz
    subst hz
    obtain ⟨k1, k2, k3⟩ := Z_Free_block_frame z b _ (Ne.symm hbS) hu
    refine ⟨Z_Free_block_blocklist z b, ⟨k1, k2, ?_, k3⟩, ?_⟩
    · rw [Z_Free_block_user, if_neg (Ne.symm hbS)]
    · unfold Z_Free_target
      split
      · rename_i e
        intro e'
        rw [e'] at e
        exact hu e
      · exact hbS

/-- Witness for C21: the reachable heap `exS3`, whose sentinel is at `0x800`, between the
free block at `0x1000` and the free block at `0x1004`. -/
theorem C21_witness :
    Reachable exS3 ∧ exS3.mainzone_blocklist = 0x800 ∧
    (exS3.hdr 0x800).next = 0x1000 ∧ (exS3.hdr 0x800).prev = 0x1004 ∧
    ((exS3.hdr exS3.mainzone_blocklist).user ≠ 0 ∧
    (exS3.hdr exS3.mainzone_blocklist).tag = PU_STATIC ∧
    InList exS3 (exS3.hdr exS3.mainzone_blocklist).next ∧
    InList exS3 (exS3.hdr exS3.mainzone_blocklist).prev ∧
    (exS3.hdr (exS3.hdr exS3.mainzone_blocklist).next).prev = exS3.mainzone_blocklist ∧
    (exS3.hdr (exS3.hdr exS3.mainzone_blocklist).prev).next = exS3.mainzone_blocklist ∧
    (∀ fuel size tag user z', (Z_Malloc fuel exS3 size tag user).state = some z' →
      z'.mainzone_blocklist = exS3.mainzone_blocklist ∧ InList z' exS3.mainzone_blocklist ∧
      Kept exS3 z' exS3.mainzone_blocklist) ∧
    (∀ fuel size tag user z' p, Z_Malloc fuel exS3 size tag user = .ok z' p →
      ∃ z1 b, Z_Malloc_find fuel exS3 size = .ok z1 b ∧ p = segmentToPointer (b + 1) ∧
        b ≠ exS3.mainzone_blocklist ∧ (z1.hdr b).user = 0 ∧
        Kept exS3 z1 exS3.mainzone_blocklist) ∧
    (∀ fuel z', Z_FreeTags fuel exS3 = .ok z' () →
      z'.mainzone_blocklist = exS3.mainzone_blocklist ∧
      Kept exS3 z' exS3.mainzone_blocklist) ∧
    (∀ b ptr z', InUse exS3 b → pointerToSegment ptr = some (b + 1) →
      Z_Free exS3 ptr = .ok z' () →
      z'.mainzone_blocklist = exS3.mainzone_blocklist ∧
      Kept exS3 z' exS3.mainzone_blocklist ∧
      Z_Free_target exS3 b ≠ exS3.mainzone_blocklist)) :=
  ⟨exS3_reachable, by decide, by decide, by decide,
    C21_sentinel_invariant exS3 exS3_reachable⟩

/-- One pass of the loop of `Z_CheckHeap` at a block that is not the last one and carries
`ZONEID`. -/
theorem checkHeap_step (fuel : Nat) (z : Zone) (b : Nat)
    (hn : (z.hdr b).next ≠ z.mainzone_blocklist) (hid : (z.hdr b).id = ZONEID) :
    Z_CheckHeap_loop (fuel + 1) z b =
      match spec_violation z b with
      | some e => .fatal e z
      | none => Z_CheckHeap_loop fuel z (z.hdr b).next := by
  have hid' : ¬ ((z.hdr b).id ≠ ZONEID) := fun e => e hid
  rw [Z_CheckHeap_loop, if_neg hn, if_neg hid']
  unfold spec_violation
  by_cases h1 : b + (z.hdr b).size / PARAGRAPH_SIZE ≠ (z.hdr b).next
  · simp only [if_pos h1]
  · simp only [if_neg h1]
    by_cases h2 : (z.hdr (z.hdr b).next).prev ≠ b
    · simp only [if_pos h2]
    · simp only [if_neg h2]
      by_cases h3 : (z.hdr b).user = 0 ∧ (z.hdr (z.hdr b).next).user = 0
      · simp only [if_pos h3]
      · simp only [if_neg h3]

/-- The loop of `Z_CheckHeap` from the `n`-th block of the walk, when the walk reaches
the last block after `k` more steps and the blocks before it carry `ZONEID`. -/
theorem checkHeap_loop_spec (z : Zone) : ∀ (k n fuel : Nat),
    (z.hdr (nthBlock z (n + k))).next = z.mainzone_blocklist →
    (∀ j, j < k → (z.hdr (nthBlock z (n + j))).next ≠ z.mainzone_blocklist) →
    (∀ j, j < k → (z.hdr (nthBlock z (n + j))).id = ZONEID) → k < fuel →
    ((∀ j, j < k → spec_violation z (nthBlock z (n + j)) = none) →
      Z_CheckHeap_loop fuel z (nthBlock z n) = .ok z ()) ∧
    (∀ j e, j < k → spec_violation z (nthBlock z (n + j)) = some e →
      (∀ i, i < j → spec_violation z (nthBlock z (n + i)) = none) →
      Z_CheckHeap_loop fuel z (nthBlock z n) = .fatal e z) := by
  intro k
  induction k with
  | zero =>
    intro n fuel hk _ _ hf
    obtain ⟨f, rfl⟩ : ∃ f, fuel = f + 1 := ⟨fuel - 1, by omega⟩
    refine ⟨fun _ => ?_, fun j e hj => absurd hj (Nat.not_lt_zero j)⟩
    rw [Z_CheckHeap_loop]
    exact if_pos hk
  | succ k ih =>
    intro n fuel hk hmin hid hf
    obtain ⟨f, rfl⟩ : ∃ f, fuel = f + 1 := ⟨fuel - 1, by omega⟩
    have hstep := checkHeap_step f z (nthBlock z n) (hmin 0 (Nat.succ_pos k))
      (hid 0 (Nat.succ_pos k))
    have hsh : ∀ j, n + 1 + j = n + (j + 1) := fun j => by omega
    obtain ⟨ih1, ih2⟩ := ih (n + 1) f (by rw [hsh]; exact hk)
      (fun j hj => by rw [hsh]; exact hmin (j + 1) (Nat.succ_lt_succ hj))
      (fun j hj => by rw [hsh]; exact hid (j + 1) (Nat.succ_lt_succ hj)) (by omega)
    refine ⟨fun hall => ?_, fun j e hj hv hbefore => ?_⟩
    · have h0 : spec_violation z (nthBlock z n) = none := hall 0 (Nat.succ_pos k)
      rw [hstep, h0]
      exact ih1 (fun j hj => by rw [hsh]; exact hall (j + 1) (Nat.succ_lt_succ hj))
    · cases j with
      | zero =>
        have h0 : spec_violation z (nthBlock z n) = some e := hv
        rw [hstep, h0]
      | succ j =>
        have h0 : spec_violation z (nthBlock z n) = none := hbefore 0 (Nat.succ_pos j)
        rw [hstep, h0]
        exact ih2 j e (Nat.lt_of_succ_lt_succ hj) (by rw [hsh]; exact hv)
          (fun i hi => by rw [hsh]; exact hbefore (i + 1) (Nat.succ_lt_succ hi))

theorem payload_arith (b sz N n W S lo hi : Nat) (h16 : sz % 16 = 0) (hN : N ≤ sz)
    (hn : n + 16 ≤ N) (hW : W ≤ n) (hlo : lo ≤ b) (hhi : b + sz / 16 ≤ hi)
    (hS : S < lo ∨ hi ≤ S) :
    (b + 1) * 16 + 0 = b * 16 + 16 ∧ (b + 1) * 16 + 0 + n ≤ b * 16 + sz ∧
    (S * 16 + 16 ≤ (b + 1) * 16 + 0 ∨ (b + 1) * 16 + 0 + W ≤ S * 16) := by
  omega

theorem header_arith (b sz v sv N n W : Nat) (h16 : sz % 16 = 0) (hN : N ≤ sz)
    (hn : n + 16 ≤ N) (hW : W ≤ n)
    (hsep : v + sv / 16 ≤ b ∨ b + sz / 16 ≤ v) :
    v * 16 + 16 ≤ (b + 1) * 16 + 0 ∨ (b + 1) * 16 + 0 + W ≤ v * 16 := by
  omega

theorem Z_Malloc_size_ge (n : Nat) : n + 16 ≤ Z_Malloc_size n := by
  unfold Z_Malloc_size PARAGRAPH_SIZE
  omega

/-- The block a successful `Z_Malloc` returns holds the requested bytes in its payload,
and these bytes lie in no header of a block of the list. -/
theorem calloc_range {z : Zone} (h : Reachable z) {fuel n : Nat} {tag : Int} {user : Nat}
    {z' : Zone} {p : FarPtr} (hm : Z_Malloc fuel z n tag user = .ok z' p) (W : Nat)
    (hW : W ≤ n) :
    1 ≤ p.seg ∧ p.off = 0 ∧ InList z' (p.seg - 1) ∧ p.linear = (p.seg - 1) * 16 + 16 ∧
    p.linear + n ≤ (p.seg - 1) * 16 + (z'.hdr (p.seg - 1)).size ∧
    ∀ v, InList z' v → v * 16 + 16 ≤ p.linear ∨ p.linear + W ≤ v * 16 := by
  obtain ⟨rest, lo, hi, hR⟩ := Reachable_WF h
  obtain ⟨z1, start, b, pre, post, hok, -, hz, hp⟩ := Z_Malloc_ok_inv hR hm
  have hR' := Z_Malloc_finish_ring tag user hok
  rw [← hz] at hR'
  have hbS1 : b ≠ z1.mainzone_blocklist := fun e => hok.hring.pre.sentUser (e ▸ hok.hfree)
  have hbl' : z'.mainzone_blocklist = z1.mainzone_blocklist := by
    rw [hz, Z_Malloc_finish_blocklist]
  have hbS : b ≠ z'.mainzone_blocklist := by rw [hbl']; exact hbS1
  obtain ⟨-, -, hbl, -⟩ := links_split1.1 hR'.pre.links
  obtain ⟨h16, hlo, hhi, -, -⟩ := hbl.2.2 hbS
  obtain ⟨-, -, hbl1, -⟩ := links_split1.1 hok.hring.pre.links
  obtain ⟨h16a, -, -, -, -⟩ := hbl1.2.2 hbS1
  have hbd := hok.hring.pre.bound
  have hbig := hok.hbig
  obtain ⟨-, hlo1, hhi1, -, -⟩ := hbl1.2.2 hbS1
  have hN : Z_Malloc_size n ≤ (z'.hdr b).size := by
    rw [hz, finish_size]
    by_cases hex : (z1.hdr b).size - Z_Malloc_size n > MINFRAGMENT
    · rw [split_size _ _ _ _ hex, if_pos rfl]
      have : Z_Malloc_size n % 2 ^ 24 = Z_Malloc_size n :=
        Nat.mod_eq_of_lt (by omega)
      rw [this]
    · rw [split_none _ _ _ hex]
      exact hbig
  have hbm : b ∈ start :: (pre ++ b ::
      ((if (z1.hdr b).size - Z_Malloc_size n > MINFRAGMENT
        then [b + Z_Malloc_size n / 16] else []) ++ post)) := by simp
  have hSm := hR'.pre.sent
  have hseg : p.seg - 1 = b := by rw [hp]; rfl
  have hlin : p.linear = (b + 1) * 16 + 0 := by rw [hp]; rfl
  have hn := Z_Malloc_size_ge n
  have hout := hR'.pre.outside
  obtain ⟨a1, a2, a3⟩ := payload_arith b (z'.hdr b).size (Z_Malloc_size n) n W
    z'.mainzone_blocklist lo hi h16 hN hn hW hlo hhi hout
  rw [hseg, hlin]
  refine ⟨by rw [hp]; exact Nat.succ_le_succ (Nat.zero_le _), by rw [hp]; rfl,
    (hR'.pre.inList_iff b).2 hbm, a1, a2, ?_⟩
  intro v hv
  have hvm := (hR'.pre.inList_iff v).1 hv
  by_cases hvS : v = z'.mainzone_blocklist
  · rw [hvS]; exact a3
  · by_cases hvb : v = b
    · rw [hvb]; left; omega
    · exact header_arith b (z'.hdr b).size v (z'.hdr v).size (Z_Malloc_size n) n W h16 hN hn
        hW (hR'.pre.sep v hvm b hbm hvS hbS hvb)

theorem memset_zero (m : Nat → Nat) (s : FarPtr) (n a : Nat) (h1 : s.linear ≤ a)
    (h2 : a < s.linear + n) : memset m s 0 n a = 0 := by
  unfold memset
  exact if_pos ⟨h1, h2⟩

theorem memset_keeps (m : Nat → Nat) (s : FarPtr) (c n a : Nat)
    (h : a < s.linear ∨ s.linear + n ≤ a) : memset m s c n a = m a := by
  unfold memset
  exact if_neg (by omega)

/-- A successful `Z_Malloc` followed by the zeroing of `w` bytes, `w` at most the request. -/
theorem calloc_filled {z : Zone} (h : Reachable z) {fuel n : Nat} {tag : Int}
    {z' : Zone} {p : FarPtr} (hm : Z_Malloc fuel z n tag 0 = .ok z' p) (m : Nat → Nat)
    (w : Nat) (hw : w ≤ n) : ZeroFilled m n w z' p (memset m p 0 w) := by
  obtain ⟨a1, a2, a3, a4, a5, a6⟩ := calloc_range h hm w hw
  exact ⟨a1, a2, a3, a4, a5, hw, fun a h1 h2 => memset_zero m p w a h1 h2,
    fun a ha => memset_keeps m p 0 w a ha, a6⟩

/-- C27 as stated fails for a 16-bit `size_t`: `Z_CallocLevel(65536)` right after `Z_Init`
returns `0x1001:0000`, the count 65536 passed to `memset` is converted to 0, and the
first byte of the payload, at linear address `0x10010`, keeps its value `0xFF`. -/
theorem C27_counterexample :
    Reachable exInit ∧
      (Z_Malloc 10 exInit 65536 PU_LEVEL 0).val = some (segmentToPointer 0x1001) ∧
      (Z_CallocLevel 16 10 exInit (fun _ => 0xFF) 65536).val.map Prod.fst =
        some (segmentToPointer 0x1001) ∧
      (segmentToPointer 0x1001).linear = 0x10010 ∧ 65536 % 2 ^ 16 = 0 ∧
      (Z_CallocLevel 16 10 exInit (fun _ => 0xFF) 65536).byteD 0x10010 0 = 0xFF ∧
      (Z_CallocLevSpec 16 10 exInit (fun _ => 0xFF) 65536).byteD 0x10010 0 = 0xFF :=
  ⟨exInit_reachable, by decide, by decide, by decide, by decide, by decide, by decide⟩

/-- C27. The zero-filled variants are thin wrappers: on a reachable heap state,
`Z_CallocLevel(n)` (resp. `Z_CallocLevSpec(n)`) ends as `Z_Malloc(n, PU_LEVEL, NULL)`
(resp. `Z_Malloc(n, PU_LEVSPEC, NULL)`) does, with the same heap state and the same
error; when that call returns, the wrapper returns the same address, the zeroing sets
the first `n mod 2 ^ sizeBits` bytes of the payload to zero (`sizeBits` being the width
of `size_t`), which are the first `n` bytes when `n < 2 ^ sizeBits`, and it writes no
byte outside these, which lie in the payload of the returned block and in no header of
a block of the list. -/
theorem C27_calloc_wrappers (sizeBits : Nat) (z : Zone) (h : Reachable z) (m : Nat → Nat)
    (fuel n : Nat) :
    ((Z_CallocLevel sizeBits fuel z m n).state = (Z_Malloc fuel z n PU_LEVEL 0).state ∧
      (Z_CallocLevel sizeBits fuel z m n).err = (Z_Malloc fuel z n PU_LEVEL 0).err ∧
      ∀ z' p, Z_Malloc fuel z n PU_LEVEL 0 = .ok z' p →
        Z_CallocLevel sizeBits fuel z m n =
          .ok z' (p, memset m p 0 (n % 2 ^ sizeBits)) ∧
        ZeroFilled m n (n % 2 ^ sizeBits) z' p (memset m p 0 (n % 2 ^ sizeBits)) ∧
        (n < 2 ^ sizeBits → ∀ a, p.linear ≤ a → a < p.linear + n →
          memset m p 0 (n % 2 ^ sizeBits) a = 0)) ∧
    ((Z_CallocLevSpec sizeBits fuel z m n).state = (Z_Malloc fuel z n PU_LEVSPEC 0).state ∧
      (Z_CallocLevSpec sizeBits fuel z m n).err = (Z_Malloc fuel z n PU_LEVSPEC 0).err ∧
      ∀ z' p, Z_Malloc fuel z n PU_LEVSPEC 0 = .ok z' p →
        Z_CallocLevSpec sizeBits fuel z m n =
          .ok z' (p, memset m p 0 (n % 2 ^ sizeBits)) ∧
        ZeroFilled m n (n % 2 ^ sizeBits) z' p (memset m p 0 (n % 2 ^ sizeBits)) ∧
        (n < 2 ^ sizeBits → ∀ a, p.linear ≤ a → a < p.linear + n →
          memset m p 0 (n % 2 ^ sizeBits) a = 0)) := by
  have hw : n % 2 ^ sizeBits ≤ n := Nat.mod_le _ _
  refine ⟨⟨?_, ?_, fun z' p hm => ⟨?_, calloc_filled h hm m _ hw, fun hn a h1 h2 => ?_⟩⟩,
    ⟨?_, ?_, fun z' p hm => ⟨?_, calloc_filled h hm m _ hw, fun hn a h1 h2 => ?_⟩⟩⟩
  · unfold Z_CallocLevel
    cases Z_Malloc fuel z n PU_LEVEL 0 <;> rfl
  · unfold Z_CallocLevel
    cases Z_Malloc fuel z n PU_LEVEL 0 <;> rfl
  · unfold Z_CallocLevel
    rw [hm]
  · rw [Nat.mod_eq_of_lt hn]
    exact memset_zero m p n a h1 h2
  · unfold Z_CallocLevSpec
    cases Z_Malloc fuel z n PU_LEVSPEC 0 <;> rfl
  · unfold Z_CallocLevSpec
    cases Z_Malloc fuel z n PU_LEVSPEC 0 <;> rfl
  · unfold Z_CallocLevSpec
    rw [hm]
  · rw [Nat.mod_eq_of_lt hn]
    exact memset_zero m p n a h1 h2

/-- Witness for C27: `Z_CallocLevel(100)` and `Z_CallocLevSpec(100)` right after `Z_Init`,
with a 16-bit `size_t` and a memory of bytes `0xFF`: the block at `0x1000` is returned
and the byte at `0x10010` is zero. -/
theorem C27_witness :
    Reachable exInit ∧
    (Z_CallocLevel 16 10 exInit (fun _ => 0xFF) 100).val.map Prod.fst =
      some (segmentToPointer 0x1001) ∧
    (Z_CallocLevel 16 10 exInit (fun _ => 0xFF) 100).byteD 0x10010 1 = 0 ∧
    (Z_CallocLevel 16 10 exInit (fun _ => 0xFF) 100).byteD 0x10074 1 = 0xFF ∧
    (((Z_CallocLevel 16 10 exInit (fun _ => 0xFF) 100).state =
        (Z_Malloc 10 exInit 100 PU_LEVEL 0).state ∧
      (Z_CallocLevel 16 10 exInit (fun _ => 0xFF) 100).err =
        (Z_Malloc 10 exInit 100 PU_LEVEL 0).err ∧
      ∀ z' p, Z_Malloc 10 exInit 100 PU_LEVEL 0 = .ok z' p →
        Z_CallocLevel 16 10 exInit (fun _ => 0xFF) 100 =
          .ok z' (p, memset (fun _ => 0xFF) p 0 (100 % 2 ^ 16)) ∧
        ZeroFilled (fun _ => 0xFF) 100 (100 % 2 ^ 16) z' p
          (memset (fun _ => 0xFF) p 0 (100 % 2 ^ 16)) ∧
        (100 < 2 ^ 16 → ∀ a, p.linear ≤ a → a < p.linear + 100 →
          memset (fun _ => 0xFF) p 0 (100 % 2 ^ 16) a = 0)) ∧
    ((Z_CallocLevSpec 16 10 exInit (fun _ => 0xFF) 100).state =
        (Z_Malloc 10 exInit 100 PU_LEVSPEC 0).state ∧
      (Z_CallocLevSpec 16 10 exInit (fun _ => 0xFF) 100).err =
        (Z_Malloc 10 exInit 100 PU_LEVSPEC 0).err ∧
      ∀ z' p, Z_Malloc 10 exInit 100 PU_LEVSPEC 0 = .ok z' p →
        Z_CallocLevSpec 16 10 exInit (fun _ => 0xFF) 100 =
          .ok z' (p, memset (fun _ => 0xFF) p 0 (100 % 2 ^ 16)) ∧
        ZeroFilled (fun _ => 0xFF) 100 (100 % 2 ^ 16) z' p
          (memset (fun _ => 0xFF) p 0 (100 % 2 ^ 16)) ∧
        (100 < 2 ^ 16 → ∀ a, p.linear ≤ a → a < p.linear + 100 →
          memset (fun _ => 0xFF) p 0 (100 % 2 ^ 16) a = 0))) :=
  ⟨exInit_reachable, by decide, by decide, by decide,
    C27_calloc_wrappers 16 exInit exInit_reachable (fun _ => 0xFF) 10 100⟩

/-- What holds before a pass of the scan of `Z_Malloc` and is kept by `Z_Free_block` on a
well-formed ring, holds after the pass. -/
theorem scan_body_induct (Q : Zone → Prop) {lo hi : Nat}
    (hstep : ∀ (z : Zone) (c b : Nat) (pre post : List Nat),
      Ring z c (pre ++ b :: post) lo hi → (z.hdr c).user ≠ 0 → b ≠ z.mainzone_blocklist →
      Q z → Q (Z_Free_block z b))
    {z : Zone} {start base rover : Nat} {vis rem' : List Nat}
    (h : ScanInv z start lo hi base rover vis (rover :: rem')) (ht : Q z)
    {z' : Zone} {p : Nat × Nat} (hb : Z_Malloc_scan_body z base rover = .ok z' p) :
    Q z' := by
  have hR := h.hring
  obtain ⟨-, -, hrl, -⟩ := links_split1.1 hR.pre.links
  unfold Z_Malloc_scan_body at hb
  by_cases hu : (z.hdr rover).user = 0
  · simp only [hu, ne_eq, not_true_eq_false, if_false] at hb
    injection hb with e1 e2
    exact e1 ▸ ht
  · simp only [ne_eq, hu, not_false_eq_true, if_true] at hb
    by_cases htag : (z.hdr rover).tag < PU_PURGELEVEL
    · simp only [htag, if_true] at hb
      injection hb with e1 e2
      exact e1 ▸ ht
    · simp only [htag, if_false] at hb
      have hrS : rover ≠ z.mainzone_blocklist := by
        intro e
        rw [e, hR.pre.sentTag] at htag
        exact htag (by decide)
      have hid : (z.hdr rover).id = ZONEID := (hrl.2.2 hrS).2.2.2.2 hu
      rw [Z_Free_eq (pointerToSegment_segmentToPointer _) hid] at hb
      simp only [] at hb
      injection hb with e1 e2
      rw [← e1]
      exact hstep _ _ _ _ _ hR h.hstart hrS ht

/-- What holds before the scan of `Z_Malloc` and is kept by `Z_Free_block` on a
well-formed ring, holds in the state the scan ends in. -/
theorem scan_induct (Q : Zone → Prop) {lo hi : Nat}
    (hstep : ∀ (z : Zone) (c b : Nat) (pre post : List Nat),
      Ring z c (pre ++ b :: post) lo hi → (z.hdr c).user ≠ 0 → b ≠ z.mainzone_blocklist →
      Q z → Q (Z_Free_block z b))
    (size start : Nat) (fuel : Nat) :
    ∀ (z : Zone) (base rover : Nat) (vis rem : List Nat),
      ScanInv z start lo hi base rover vis rem → Q z →
      ∀ z', (Z_Malloc_scan size start fuel z base rover).state = some z' →
        Q z' := by
  induction fuel with
  | zero =>
    intro z base rover vis rem _ _ z' hs
    simp [Z_Malloc_scan, Res.state] at hs
  | succ fuel ih =>
    intro z base rover vis rem h ht z' hs
    unfold Z_Malloc_scan at hs
    by_cases hrs : rover = start
    · rw [if_pos hrs] at hs
      simp only [Res.state, Option.some.injEq] at hs
      exact hs ▸ ht
    · rw [if_neg hrs] at hs
      cases rem with
      | nil => exact absurd h.hrover hrs
      | cons r rem' =>
        have hr : rover = r := h.hrover
        subst hr
        obtain ⟨z1, base', rover', vis', rem2, hbody, hinv, -, -⟩ := scan_step h
        have ht1 := scan_body_induct Q hstep h ht hbody
        rw [hbody] at hs
        simp only [] at hs
        by_cases hcond : (z1.hdr base').user ≠ 0 ∨ (z1.hdr base').size < size
        · rw [if_pos hcond] at hs
          exact ih z1 base' rover' vis' rem2 hinv ht1 z' hs
        · rw [if_neg hcond] at hs
          simp only [Res.state, Option.some.injEq] at hs
          exact hs ▸ ht1

theorem find_induct (Q : Zone → Prop) {lo hi : Nat}
    (hstep : ∀ (z : Zone) (c b : Nat) (pre post : List Nat),
      Ring z c (pre ++ b :: post) lo hi → (z.hdr c).user ≠ 0 → b ≠ z.mainzone_blocklist →
      Q z → Q (Z_Free_block z b))
    {z z1 : Zone} {c : Nat} {rest : List Nat} {fuel size : Nat}
    (h : Ring z c rest lo hi) (ht : Q z)
    (hs : (Z_Malloc_find fuel z size).state = some z1) : Q z1 := by
  obtain ⟨rest0, -, -, hinv⟩ := scan_init h
  unfold Z_Malloc_find at hs
  exact scan_induct Q hstep _ _ fuel z _ _ [] rest0 hinv ht z1 hs

/-- The loop of `Z_FreeTags` on a well-formed heap returns when the fuel exceeds the number
of blocks ahead, and what held before and is kept by `Z_Free_block` holds afterwards. -/
theorem Z_FreeTags_loop_induct (Q : Zone → Prop) (lo hi : Nat)
    (hstep : ∀ (z : Zone) (c b : Nat) (pre post : List Nat),
      Ring z c (pre ++ b :: post) lo hi → (z.hdr c).user ≠ 0 → b ≠ z.mainzone_blocklist →
      Q z → Q (Z_Free_block z b))
    (fuel : Nat) :
    ∀ (z : Zone) (block : Nat) (done todo : List Nat),
      Ring z z.mainzone_blocklist (done ++ todo) lo hi → Q z →
      (∀ v ∈ done, ¬ Levelled z v) →
      ((block = firstOr todo z.mainzone_blocklist ∧ todo.length < fuel) ∨
        ((z.hdr block).user = 0 ∧ block ≠ z.mainzone_blocklist ∧
          (z.hdr block).next = firstOr todo z.mainzone_blocklist ∧ todo.length + 1 < fuel)) →
      ∃ z' rest', Z_FreeTags_loop fuel z block = .ok z' () ∧
        Ring z' z'.mainzone_blocklist rest' lo hi ∧ Q z' ∧
        (∀ v ∈ rest', ¬ Levelled z' v) ∧
        PurgeFrame z z' (z.mainzone_blocklist :: (done ++ todo))
          (z.mainzone_blocklist :: rest') := by
  induction fuel with
  | zero =>
    intro z block done todo _ _ _ hpos
    rcases hpos with ⟨-, h⟩ | ⟨-, -, -, h⟩ <;> omega
  | succ fuel ih =>
    intro z block done todo hR hT hdone hpos
    unfold Z_FreeTags_loop
    rcases hpos with ⟨hblk, hfuel⟩ | ⟨hfree, hbS, hnext, hfuel⟩
    · cases todo with
      | nil =>
        have hb : block = z.mainzone_blocklist := hblk
        rw [if_pos hb]
        refine ⟨z, done, rfl, ?_, hT, hdone, ?_⟩
        · have := hR
          rwa [List.append_nil] at this
        · rw [List.append_nil]
          exact PurgeFrame_refl _ _
      | cons b todo' =>
        have hb : block = b := hblk
        subst hb
        have hnd := nodup_around hR.pre.nodup
        have hbS : block ≠ z.mainzone_blocklist := Ne.symm hnd.1
        obtain ⟨-, -, hbl, -⟩ := links_split1.1 hR.pre.links
        rw [if_neg hbS]
        simp only []
        have hlen : todo'.length < fuel := by
          simp only [List.length_cons] at hfuel
          omega
        by_cases hfree : (z.hdr block).user = 0
        · rw [if_pos hfree]
          have hR' : Ring z z.mainzone_blocklist ((done ++ [block]) ++ todo') lo hi := by
            rw [append_singleton_append]; exact hR
          have hdone' : ∀ v ∈ done ++ [block], ¬ Levelled z v := by
            intro v hv
            rcases List.mem_append.1 hv with e | e
            · exact hdone v e
            · rw [List.mem_singleton.1 e]
              exact fun hl => hl.1 hfree
          obtain ⟨z', rest', h1, h2, h3, h4, h5⟩ :=
            ih z (z.hdr block).next (done ++ [block]) todo' hR' hT hdone'
              (Or.inl ⟨hbl.2.1, hlen⟩)
          rw [append_singleton_append] at h5
          exact ⟨z', rest', h1, h2, h3, h4, h5⟩
        · rw [if_neg hfree]
          by_cases htag : PU_LEVEL ≤ (z.hdr block).tag ∧ (z.hdr block).tag ≤ PU_PURGELEVEL - 1
          · rw [if_pos htag]
            have hlev : Levelled z block := ⟨hfree, htag⟩
            have hid : (z.hdr block).id = ZONEID := (hbl.2.2 hbS).2.2.2.2 hfree
            rw [Z_Free_eq (pointerToSegment_segmentToPointer _) hid]
            simp only []
            have hR1 := Z_Free_block_ring hR hR.pre.sentUser hbS
            have hT1 := hstep _ _ _ _ _ hR hR.pre.sentUser hbS hT
            have hF1 := @PurgeFrame_free z z.mainzone_blocklist block done todo' hlev
            have hS1 := Z_Free_block_blocklist z block
            have hU := Z_Free_block_user z block
            have hdone1 : ∀ v ∈ (if (z.hdr (lastOr done z.mainzone_blocklist)).user = 0
                then done else done ++ [block]), ¬ Levelled (Z_Free_block z block) v := by
              intro v hv hl
              have hvin : v ∈ z.mainzone_blocklist ::
                  ((if (z.hdr (lastOr done z.mainzone_blocklist)).user = 0
                    then done else done ++ [block]) ++
                  (if (z.hdr (firstOr todo' z.mainzone_blocklist)).user = 0
                    then todo'.tail else todo')) :=
                List.mem_cons_of_mem _ (List.mem_append_left _ hv)
              obtain ⟨-, c2, -⟩ := hF1.2.2.2.2.2 v hvin hl
              split at hv
              · exact hdone v hv c2
              · rcases List.mem_append.1 hv with e | e
                · exact hdone v e c2
                · have hvb := List.mem_singleton.1 e
                  have := hl.1
                  rw [hU, if_pos hvb] at this
                  exact this rfl
            have hpos1 : ((z.hdr block).next =
                  firstOr (if (z.hdr (firstOr todo' z.mainzone_blocklist)).user = 0
                    then todo'.tail else todo') (Z_Free_block z block).mainzone_blocklist ∧
                (if (z.hdr (firstOr todo' z.mainzone_blocklist)).user = 0
                    then todo'.tail else todo').length < fuel) ∨
                (((Z_Free_block z block).hdr (z.hdr block).next).user = 0 ∧
                  (z.hdr block).next ≠ (Z_Free_block z block).mainzone_blocklist ∧
                  ((Z_Free_block z block).hdr (z.hdr block).next).next =
                    firstOr (if (z.hdr (firstOr todo' z.mainzone_blocklist)).user = 0
                      then todo'.tail else todo') (Z_Free_block z block).mainzone_blocklist ∧
                  (if (z.hdr (firstOr todo' z.mainzone_blocklist)).user = 0
                    then todo'.tail else todo').length + 1 < fuel) := by
              rw [hS1, hbl.2.1]
              by_cases hN : (z.hdr (firstOr todo' z.mainzone_blocklist)).user = 0
              · right
                have hNS : firstOr todo' z.mainzone_blocklist ≠ z.mainzone_blocklist :=
                  fun e => hR.pre.sentUser (e ▸ hN)
                obtain ⟨post0, hpost0⟩ := firstOr_ne hNS
                have hNb : firstOr todo' z.mainzone_blocklist ≠ block :=
                  hnd.2.2.2.2.2.2.2.2.1
                have hNp : firstOr todo' z.mainzone_blocklist ≠ (z.hdr block).prev := by
                  rw [hbl.1]
                  rcases lastOr_mem done z.mainzone_blocklist with e | e
                  · rw [e]; exact hNS
                  · intro e'
                    rw [← e'] at e
                    exact hnd.2.2.2.2.2.2.2.2.2.2 e
                rw [hU, if_neg hNb, Z_Free_block_next _ _ _ hNb hNp, if_pos hN]
                refine ⟨hN, hNS, ?_, ?_⟩
                · generalize firstOr todo' z.mainzone_blocklist = N at *
                  subst hpost0
                  have hl := links_split2.1 hR.pre.links
                  rw [hl.2.2.2.1.2.1]
                  rfl
                · rw [hpost0] at hlen ⊢
                  simp only [List.tail_cons, List.length_cons] at hlen ⊢
                  omega
              · left
                rw [if_neg hN]
                exact ⟨rfl, hlen⟩
            obtain ⟨z', rest', h1, h2, h3, h4, h5⟩ :=
              ih (Z_Free_block z block) (z.hdr block).next _ _ (hS1 ▸ hR1) hT1 hdone1 hpos1
            rw [hS1] at h5
            exact ⟨z', rest', h1, h2, h3, h4, PurgeFrame_trans hF1 h5⟩
          · rw [if_neg htag]
            have hR' : Ring z z.mainzone_blocklist ((done ++ [block]) ++ todo') lo hi := by
              rw [append_singleton_append]; exact hR
            have hdone' : ∀ v ∈ done ++ [block], ¬ Levelled z v := by
              intro v hv
              rcases List.mem_append.1 hv with e | e
              · exact hdone v e
              · rw [List.mem_singleton.1 e]
                exact fun hl => htag hl.2
            obtain ⟨z', rest', h1, h2, h3, h4, h5⟩ :=
              ih z (z.hdr block).next (done ++ [block]) todo' hR' hT hdone'
                (Or.inl ⟨hbl.2.1, hlen⟩)
            rw [append_singleton_append] at h5
            exact ⟨z', rest', h1, h2, h3, h4, h5⟩
    · rw [if_neg hbS]
      simp only []
      rw [if_pos hfree]
      exact ih z (z.hdr block).next done todo hR hT hdone (Or.inl ⟨hnext, by omega⟩)

/-- The retry loop of `Z_Init` returns the first request that `halloc` grants. -/
theorem Z_Init_halloc_exact {halloc : Int → FarPtr} (n : Int) (hn : halloc n ≠ NULL) :
    ∀ (fuel : Nat) (n0 : Int), n ≤ n0 → (n0 - n).toNat < fuel →
      (∀ j, n < j → j ≤ n0 → halloc j = NULL) →
      Z_Init_halloc halloc fuel n0 = some (halloc n, n - 1) := by
  intro fuel
  induction fuel with
  | zero => intro n0 _ h; omega
  | succ fuel ih =>
    intro n0 h1 h2 h3
    unfold Z_Init_halloc
    simp only []
    by_cases e : n = n0
    · subst e
      rw [if_neg hn]
    · have hnull : halloc n0 = NULL := h3 n0 (by omega) (le_refl _)
      rw [if_pos hnull]
      exact ih _ (by omega) (by omega) (fun j hj1 hj2 => h3 j hj1 (by omega))

theorem exDeg_ok : EnvOK exDeg := by
  refine ⟨fun n hn => ?_, by decide⟩
  have h1 : n = 1 := by
    by_contra hne
    apply hn
    show (if n = 1 then (⟨0x1000, 8⟩ : FarPtr) else NULL) = NULL
    rw [if_neg hne]
  subst h1
  decide

theorem exDeg_init : Z_Init 40960 exDeg = .ok exDegInit () := by
  have hh : Z_Init_halloc exDeg.halloc 40960 (640 * 1024 / 16) =
      some (exDeg.halloc 1, 1 - 1) := by
    apply Z_Init_halloc_exact 1 (by decide) 40960 _ (by decide) (by decide)
    intro j hj1 hj2
    show (if j = 1 then (⟨0x1000, 8⟩ : FarPtr) else NULL) = NULL
    rw [if_neg (by omega)]
  unfold Z_Init
  rw [hh]
  rfl

theorem exDegInit_reachable : Reachable exDegInit :=
  Reachable.init 40960 exDeg exDegInit exDeg_ok exDeg_init

theorem markFree_lastPos {z : Zone} {b : Nat} (h : LastPos z) : LastPos (markFree z b) := by
  have hf : ∀ v, ((markFree z b).hdr v).prev = (z.hdr v).prev ∧
      ((markFree z b).hdr v).size = (z.hdr v).size := by
    intro v; rw [markFree_hdr]; split
    · rename_i e; rw [e]; exact ⟨rfl, rfl⟩
    · exact ⟨rfl, rfl⟩
  unfold LastPos
  rw [markFree_blocklist, (hf _).1, (hf _).2]
  exact h

theorem absorb_lastPos {z : Zone} {c x y lo hi : Nat} {pre post : List Nat}
    (h : PreRing z c (pre ++ x :: y :: post) lo hi)
    (hx : x ≠ z.mainzone_blocklist) (hy : y ≠ z.mainzone_blocklist) (hp : LastPos z) :
    LastPos (absorb z x y) := by
  have hyin : y ∈ c :: (pre ++ x :: y :: post) := by simp
  obtain ⟨-, -, hbx, -, -⟩ := links_split h.links
  have hxn : (z.hdr x).next = y := hbx.2.1
  have hsz := absorb_size_exact h hx hy
  unfold LastPos at hp ⊢
  rw [absorb_blocklist, absorb_prev]
  by_cases hl : z.mainzone_blocklist = (z.hdr y).next
  · rw [if_pos hl, hsz]
    have hpy : (z.hdr z.mainzone_blocklist).prev = y := by
      rw [hl]; exact h.prev_next hyin
    rw [hpy] at hp
    omega
  · rw [if_neg hl, absorb_size]
    have hne : (z.hdr z.mainzone_blocklist).prev ≠ x := by
      intro e
      have := h.next_prev h.sent
      rw [e, hxn] at this
      exact hy this
    rw [if_neg hne]
    exact hp

theorem Z_Free_block_lastPos {z : Zone} {c b lo hi : Nat} {pre post : List Nat}
    (h : Ring z c (pre ++ b :: post) lo hi) (hc : (z.hdr c).user ≠ 0)
    (hb : b ≠ z.mainzone_blocklist) (hp : LastPos z) : LastPos (Z_Free_block z b) :=
  Z_Free_block_induct (fun z => LastPos z)
    (fun _ _ _ _ _ _ hq => markFree_lastPos hq)
    (fun _ _ _ _ _ _ hr hx hy hq => absorb_lastPos hr hx hy hq) h hc hb hp

theorem split_lastPos {z : Zone} {c base sz lo hi : Nat} {pre post : List Nat}
    (h : PreRing z c (pre ++ base :: post) lo hi) (hb : base ≠ z.mainzone_blocklist)
    (hsz16 : sz % 16 = 0) (hszpos : 16 ≤ sz) (hp : LastPos z) :
    LastPos (Z_Malloc_split z base sz) := by
  by_cases hex : (z.hdr base).size - sz > MINFRAGMENT
  · have hbin : base ∈ c :: (pre ++ base :: post) := by simp
    obtain ⟨-, -, hbl, -⟩ := links_split1.1 h.links
    obtain ⟨b16, blo, bhi, -, -⟩ := hbl.2.2 hb
    have hex' : (z.hdr base).size > sz + 64 := by unfold MINFRAGMENT at hex; omega
    obtain ⟨a1, a2, a3, a4, a5, a6, a7, a8⟩ :=
      split_arith base sz (z.hdr base).size lo hi hszpos hsz16 b16 hex' blo bhi h.bound
    have hnbS : base + sz / 16 ≠ z.mainzone_blocklist := by
      have := h.outside
      omega
    have hP : (PARAGRAPH_SIZE : Nat) = 16 := rfl
    have hS2 : ¬ z.mainzone_blocklist = base + sz / 16 := Ne.symm hnbS
    unfold LastPos at hp ⊢
    rw [split_blocklist, split_prev _ _ _ _ hex]
    simp only [hP, if_neg hS2]
    by_cases hl : z.mainzone_blocklist = (z.hdr base).next
    · rw [if_pos hl, split_size _ _ _ _ hex]
      simp only [hP, if_neg a3, if_true, a2]
      omega
    · rw [if_neg hl, split_size _ _ _ _ hex]
      have hlin := h.prev_mem h.sent
      have hne : (z.hdr z.mainzone_blocklist).prev ≠ base := by
        intro e
        have := h.next_prev h.sent
        rw [e] at this
        exact hl this.symm
      have hne2 : (z.hdr z.mainzone_blocklist).prev ≠ base + sz / 16 := by
        by_cases hlS : (z.hdr z.mainzone_blocklist).prev = z.mainzone_blocklist
        · rw [hlS]; exact Ne.symm hnbS
        · have hk := h.sep _ hbin _ hlin hb hlS (Ne.symm hne)
          exact split_fresh_aux base sz (z.hdr base).size _ _ hszpos hex' hk
      simp only [hP, if_neg hne, if_neg hne2]
      exact hp
  · rw [split_none _ _ _ hex]
    exact hp

theorem finish_lastPos {z1 : Zone} {b sz : Nat} (tag : Int) (user : Nat)
    (hp : LastPos (Z_Malloc_split z1 b sz)) : LastPos (Z_Malloc_finish z1 b sz tag user) := by
  unfold LastPos at hp ⊢
  rw [Z_Malloc_finish_blocklist, finish_prev, finish_size]
  rw [split_blocklist] at hp
  exact hp

/-- Every state reached from a well-formed heap whose last block has at least 16 bytes
is such a heap. -/
theorem ReachedFrom_lastPos {z0 z : Zone} {lo hi : Nat} {rest0 : List Nat}
    (hR0 : Ring z0 z0.mainzone_blocklist rest0 lo hi) (hT0 : Tiled z0 lo hi)
    (hP0 : LastPos z0) (h : ReachedFrom z0 z) : LastPos z := by
  have hstep : ∀ (z : Zone) (c b : Nat) (pre post : List Nat),
      Ring z c (pre ++ b :: post) lo hi → (z.hdr c).user ≠ 0 → b ≠ z.mainzone_blocklist →
      LastPos z → LastPos (Z_Free_block z b) :=
    fun _ _ _ _ _ hr hc hb hq => Z_Free_block_lastPos hr hc hb hq
  induction h with
  | start => exact hP0
  | malloc fuel z size tag user z' p hz hm ih =>
    obtain ⟨-, ⟨rest, hR⟩, -⟩ := ReachedFrom_arena hR0 hT0 hz
    obtain ⟨z1, start, b, pre, post, hf, hok, hz', -⟩ := Z_Malloc_find_inv hR hm
    obtain ⟨h16, hpos⟩ := Z_Malloc_size_facts size
    have hbS : b ≠ z1.mainzone_blocklist := fun e => hok.hring.pre.sentUser (e ▸ hok.hfree)
    have hP1 : LastPos z1 := find_induct (fun z => LastPos z) hstep hR ih (by rw [hf]; rfl)
    rw [hz']
    exact finish_lastPos tag user (split_lastPos hok.hring.pre hbS h16 hpos hP1)
  | free z ptr b z' hz hb hp hf ih =>
    obtain ⟨-, ⟨rest, hR⟩, -⟩ := ReachedFrom_arena hR0 hT0 hz
    obtain ⟨hin, hbS, hbu⟩ := hb
    have hmem := InList_mem hR.pre hin
    have hbr : b ∈ rest := by
      rcases List.mem_cons.1 hmem with e | e
      · exact absurd e hbS
      · exact e
    obtain ⟨hz', -, -⟩ := Z_Free_ring hR hbr hbu hp hf
    obtain ⟨pre, post, hrest⟩ := List.append_of_mem hbr
    subst hrest
    rw [hz']
    exact Z_Free_block_lastPos hR hR.pre.sentUser hbS ih
  | freeTags fuel z z' hz hf ih =>
    obtain ⟨-, ⟨rest, hR⟩, -⟩ := ReachedFrom_arena hR0 hT0 hz
    have hl := hR.pre.links
    rw [Seg_cons] at hl
    have hnext : (z.hdr z.mainzone_blocklist).next = firstOr rest z.mainzone_blocklist :=
      hl.1.2.1
    obtain ⟨z'', rest', h1, -, h2, -⟩ :=
      Z_FreeTags_loop_induct (fun z => LastPos z) lo hi hstep (fuel + (rest.length + 1)) z
        (z.hdr z.mainzone_blocklist).next [] rest (by simpa using hR) ih
        (fun v hv => absurd hv (List.not_mem_nil _)) (Or.inl ⟨hnext, by omega⟩)
    have h3 := Z_FreeTags_loop_mono fuel z _ z' (rest.length + 1) hf
    rw [h3] at h1
    injection h1 with e1 e2
    rw [e1]
    exact h2

/-- In a well-formed heap whose last block has at least 16 bytes, every block of the list
other than the sentinel has a size that is a multiple of 16 and at least 16. -/
theorem ring_sizes {z : Zone} {lo hi : Nat} {rest : List Nat}
    (hR : Ring z z.mainzone_blocklist rest lo hi) {b : Nat} (hb : InList z b)
    (hbS : b ≠ z.mainzone_blocklist) :
    (z.hdr b).size % 16 = 0 ∧ (LastPos z → 16 ≤ (z.hdr b).size) := by
  have hmem := InList_mem hR.pre hb
  have hbr : b ∈ rest := by
    rcases List.mem_cons.1 hmem with e | e
    · exact absurd e hbS
    · exact e
  obtain ⟨pre, post, hrest⟩ := List.append_of_mem hbr
  subst hrest
  obtain ⟨-, -, hbl, -⟩ := links_split1.1 hR.pre.links
  obtain ⟨h16, -, -, hgap, -⟩ := hbl.2.2 hbS
  refine ⟨h16, fun hp => ?_⟩
  by_cases hn : firstOr post z.mainzone_blocklist = z.mainzone_blocklist
  · have hlast : (z.hdr z.mainzone_blocklist).prev = b := by
      have := hR.pre.prev_next hmem
      rw [hbl.2.1, hn] at this
      exact this
    unfold LastPos at hp
    rw [hlast] at hp
    exact hp
  · have hg := hgap hn
    have hne : firstOr post z.mainzone_blocklist ≠ b :=
      (nodup_around hR.pre.nodup).2.2.2.2.2.2.2.2.1
    omega

/-- C22 as stated fails: in the environment `exDeg`, where `halloc` grants one paragraph
at an unaligned address, `Z_Init` returns a heap whose one block, at `0x1001`, has the
size 16 - 16 = 0, which is not positive. -/
theorem C22_counterexample :
    EnvOK exDeg ∧ Z_Init 40960 exDeg = .ok exDegInit () ∧ Reachable exDegInit ∧
      InList exDegInit 0x1001 ∧ 0x1001 ≠ exDegInit.mainzone_blocklist ∧
      (exDegInit.hdr 0x1001).size = 0 ∧ ¬ 0 < (exDegInit.hdr 0x1001).size :=
  ⟨exDeg_ok, exDeg_init, exDegInit_reachable, ⟨1, rfl⟩, by decide, by decide, by decide⟩

/-- C22. In every heap state reached from a `Z_Init` by successful `Z_Malloc` calls, `Z_Free`
calls on in-use blocks and `Z_FreeTags` calls, the size field of every block of the
list other than the sentinel is a multiple of 16, and it is positive (at least 16) when
the block `Z_Init` set up had at least 16 bytes. -/
theorem C22_size_multiple (env : Env) (hE : EnvOK env) (fuel0 : Nat) (z0 : Zone)
    (hi : Z_Init fuel0 env = .ok z0 ()) (z : Zone) (h : ReachedFrom z0 z) (b : Nat)
    (hb : InList z b) (hbS : b ≠ z.mainzone_blocklist) :
    (z.hdr b).size % 16 = 0 ∧
    (16 ≤ (z0.hdr (z0.hdr z0.mainzone_blocklist).next).size →
      0 < (z.hdr b).size ∧ 16 ≤ (z.hdr b).size) := by
  obtain ⟨a, hs, hR0, hT0, -, -, hnext⟩ := Z_Init_arena hE hi
  obtain ⟨-, ⟨rest, hR⟩, -⟩ := ReachedFrom_arena hR0 hT0 h
  obtain ⟨h16, hpos⟩ := ring_sizes hR hb hbS
  refine ⟨h16, fun h0 => ?_⟩
  have hprev : (z0.hdr z0.mainzone_blocklist).prev = a := by
    have hl := hR0.pre.links
    simp only [Seg_cons, Seg_nil, firstOr_cons, firstOr_nil, lastOr_cons, lastOr_nil,
      and_true] at hl
    exact hl.1.1
  have hP0 : LastPos z0 := by
    unfold LastPos
    rw [hprev, ← hnext]
    exact h0
  have := hpos (ReachedFrom_lastPos hR0 hT0 hP0 h)
  exact ⟨by omega, this⟩

/-- Witness for C22: the heap `exW3`, reached from `exInit`, whose first block had 655360
bytes; its block at `0x1008` has 224 bytes. -/
theorem C22_witness :
    EnvOK exEnv ∧ Z_Init 1 exEnv = .ok exInit () ∧ ReachedFrom exInit exW3 ∧
      InList exW3 0x1008 ∧ 0x1008 ≠ exW3.mainzone_blocklist ∧
      (exW3.hdr 0x1008).size = 224 ∧
      16 ≤ (exInit.hdr (exInit.hdr exInit.mainzone_blocklist).next).size ∧
      ((exW3.hdr 0x1008).size % 16 = 0 ∧
      (16 ≤ (exInit.hdr (exInit.hdr exInit.mainzone_blocklist).next).size →
        0 < (exW3.hdr 0x1008).size ∧ 16 ≤ (exW3.hdr 0x1008).size)) :=
  ⟨exEnv_ok, rfl, exW3_reached, ⟨2, rfl⟩, by decide, by decide, by decide,
    C22_size_multiple exEnv exEnv_ok 1 exInit rfl exW3 exW3_reached 0x1008 ⟨2, rfl⟩
      (by decide)⟩

/-- C32. `S_SoundIsPlaying(cnum)` returns true if and only if channel `cnum` has a sound
assigned and its `tickend` stamp is strictly less than `gametic`, both taken as signed
32-bit values; it returns false for every channel with no sound assigned. The
comparison does not account for wraparound: in `exSnd`, where `tickend` is `0x7FFFFFFF`
and the counter has stepped on by one tick to `0x80000000`, the result is false. -/
theorem C32_sound_is_playing (g : globals_t) (cnum : Nat) :
    (S_SoundIsPlaying g cnum = true ↔
      (g.channels cnum).sfxinfo ≠ 0 ∧
        toInt32 (g.channels cnum).tickend < toInt32 g.gametic) ∧
    ((g.channels cnum).sfxinfo = 0 → S_SoundIsPlaying g cnum = false) ∧
    (exSnd.channels 0).sfxinfo ≠ 0 ∧
    (exSnd.gametic + 2 ^ 32 - (exSnd.channels 0).tickend) % 2 ^ 32 = 1 ∧
    toInt32 (exSnd.channels 0).tickend = 2147483647 ∧
    toInt32 exSnd.gametic = -2147483648 ∧
    S_SoundIsPlaying exSnd 0 = false := by
  refine ⟨?_, ?_, by decide, by decide, by decide, by decide, by decide⟩
  · unfold S_SoundIsPlaying
    by_cases h : (g.channels cnum).sfxinfo ≠ 0
    · simp [h]
    · simp [h]
  · intro h
    unfold S_SoundIsPlaying
    simp [h]

/-- Walking the `next` links along a well-linked segment meets its members in order, then
the block after it. -/
theorem nthBlock_seg {z : Zone} {lo hi : Nat} (l : List Nat) :
    ∀ (p n k : Nat), Seg (BlockOK z lo hi) p l n → nthBlock z k = firstOr l n →
      ∀ i, i ≤ l.length → nthBlock z (k + i) = l.getD i n := by
  induction l with
  | nil =>
    intro p n k _ hk i hi
    have : i = 0 := by simpa using hi
    subst this
    simpa using hk
  | cons a l ih =>
    intro p n k hs hk i hi
    rw [Seg_cons] at hs
    cases i with
    | zero => simpa using hk
    | succ i =>
      have hk1 : nthBlock z (k + 1) = firstOr l n := by
        show (z.hdr (nthBlock z k)).next = firstOr l n
        rw [hk]
        exact hs.1.2.1
      have := ih a n (k + 1) hs.2 hk1 i (by simpa using hi)
      rw [List.getD_cons_succ, ← this]
      congr 1
      omega

/-- The walk from the sentinel of a well-formed heap meets the members of the ring in
order and is back at the sentinel after as many steps as there are members. -/
theorem nthBlock_ring {z : Zone} {lo hi : Nat} {rest : List Nat}
    (h : PreRing z z.mainzone_blocklist rest lo hi) :
    (∀ i, i ≤ rest.length →
      nthBlock z i = (z.mainzone_blocklist :: rest).getD i z.mainzone_blocklist) ∧
    nthBlock z (rest.length + 1) = z.mainzone_blocklist := by
  have hs := nthBlock_seg _ _ _ 0 h.links rfl
  refine ⟨fun i hi => ?_, ?_⟩
  · have := hs i (by simp; omega)
    rwa [Nat.zero_add] at this
  · have := hs (rest.length + 1) (by simp)
    rw [Nat.zero_add] at this
    rw [this, List.getD_cons_succ]
    exact List.getD_eq_default _ _ (le_refl _)

/-- C35. Link symmetry: in every reachable heap state, for every block `b` of the list,
the sentinel included, `prev(next(b)) = b` and `next(prev(b)) = b`, both neighbours
being blocks of the list; and the list is a single cycle through the sentinel: the walk
along the `next` links from the sentinel is back at the sentinel after `n` steps, the
`n` blocks met on the way are pairwise distinct, and they are all the blocks of the
list. -/
theorem C35_link_symmetry (z : Zone) (h : Reachable z) :
    (∀ b, InList z b →
      (z.hdr (z.hdr b).next).prev = b ∧ (z.hdr (z.hdr b).prev).next = b ∧
      InList z (z.hdr b).next ∧ InList z (z.hdr b).prev) ∧
    ∃ n, 0 < n ∧ nthBlock z n = z.mainzone_blocklist ∧
      (∀ i j, i < n → j < n → nthBlock z i = nthBlock z j → i = j) ∧
      (∀ b, InList z b → ∃ i, i < n ∧ nthBlock z i = b) := by
  obtain ⟨rest, lo, hi, hR⟩ := Reachable_WF h
  obtain ⟨hget, hback⟩ := nthBlock_ring hR.pre
  refine ⟨fun b hb => ?_, rest.length + 1, Nat.succ_pos _, hback, ?_, ?_⟩
  · have hm := InList_mem hR.pre hb
    exact ⟨hR.pre.prev_next hm, hR.pre.next_prev hm,
      (hR.pre.inList_iff _).2 (hR.pre.next_mem hm), (hR.pre.inList_iff _).2 (hR.pre.prev_mem hm)⟩
  · intro i j hi hj e
    have hi' : i < (z.mainzone_blocklist :: rest).length := by simpa using hi
    have hj' : j < (z.mainzone_blocklist :: rest).length := by simpa using hj
    rw [hget i (by omega), hget j (by omega), List.getD_eq_getElem _ _ hi',
      List.getD_eq_getElem _ _ hj'] at e
    exact (List.Nodup.getElem_inj_iff hR.pre.nodup).1 e
  · intro b hb
    have hm := InList_mem hR.pre hb
    obtain ⟨i, hi, e⟩ := List.getElem_of_mem hm
    refine ⟨i, by simpa using hi, ?_⟩
    rw [hget i (by simp at hi; omega), List.getD_eq_getElem _ _ hi]
    exact e

/-- Witness for C35: the reachable heap `exS3`, whose cycle is the sentinel `0x800` and
the blocks at `0x1000`, `0x1002` and `0x1004`. -/
theorem C35_witness :
    Reachable exS3 ∧ nthBlock exS3 1 = 0x1000 ∧ nthBlock exS3 2 = 0x1002 ∧
    nthBlock exS3 3 = 0x1004 ∧ nthBlock exS3 4 = 0x800 ∧
    ((∀ b, InList exS3 b →
      (exS3.hdr (exS3.hdr b).next).prev = b ∧ (exS3.hdr (exS3.hdr b).prev).next = b ∧
      InList exS3 (exS3.hdr b).next ∧ InList exS3 (exS3.hdr b).prev) ∧
    ∃ n, 0 < n ∧ nthBlock exS3 n = exS3.mainzone_blocklist ∧
      (∀ i j, i < n → j < n → nthBlock exS3 i = nthBlock exS3 j → i = j) ∧
      (∀ b, InList exS3 b → ∃ i, i < n ∧ nthBlock exS3 i = b)) :=
  ⟨exS3_reachable, by decide, by decide, by decide, by decide,
    C35_link_symmetry exS3 exS3_reachable⟩

/-- C36. Rover validity: after `Z_Init`, and in every reachable heap state, so after every
successful `Z_Malloc`, every `Z_Free` of an in-use block and every `Z_FreeTags`,
`mainzone_rover` designates a block that is a member of the block list, whose
neighbours link back to it; after a `Z_Free` it designates neither the freed block when
that one was absorbed by a free predecessor, nor the successor when that one was free
and so absorbed. -/
theorem C36_rover_valid (z : Zone) (h : Reachable z) :
    (InList z z.mainzone_rover ∧
      (z.hdr (z.hdr z.mainzone_rover).next).prev = z.mainzone_rover ∧
      (z.hdr (z.hdr z.mainzone_rover).prev).next = z.mainzone_rover) ∧
    (∀ fuel size tag user z' p, Z_Malloc fuel z size tag user = .ok z' p →
      InList z' z'.mainzone_rover) ∧
    (∀ b ptr z', InUse z b → pointerToSegment ptr = some (b + 1) →
      Z_Free z ptr = .ok z' () → InList z' z'.mainzone_rover ∧
      ((z.hdr (z.hdr b).prev).user = 0 → z'.mainzone_rover ≠ b) ∧
      ((z.hdr (z.hdr b).next).user = 0 → z'.mainzone_rover ≠ (z.hdr b).next)) ∧
    (∀ fuel z', Z_FreeTags fuel z = .ok z' () → InList z' z'.mainzone_rover) ∧
    (∀ fuel env z0, EnvOK env → Z_Init fuel env = .ok z0 () →
      InList z0 z0.mainzone_rover) := by
  have key : ∀ z1, Reachable z1 → InList z1 z1.mainzone_rover := by
    intro z1 h1
    obtain ⟨rest, lo, hi, hR⟩ := Reachable_WF h1
    exact (hR.pre.inList_iff _).2 hR.pre.rover
  obtain ⟨rest, lo, hi, hR⟩ := Reachable_WF h
  refine ⟨⟨key z h, hR.pre.prev_next hR.pre.rover, hR.pre.next_prev hR.pre.rover⟩,
    fun fuel size tag user z' p hm => key z' (Reachable.malloc fuel z size tag user z' p h hm),
    fun b ptr z' hb hp hf => ⟨key z' (Reachable.free z ptr b z' h hb hp hf), ?_⟩,
    fun fuel z' hf => key z' (Reachable.freeTags fuel z z' h hf),
    fun fuel env z0 hE hi => key z0 (Reachable.init fuel env z0 hE hi)⟩
  obtain ⟨hin, hbS, hbu⟩ := hb
  have hmem := InList_mem hR.pre hin
  have hbr : b ∈ rest := by
    rcases List.mem_cons.1 hmem with e | e
    · exact absurd e hbS
    · exact e
  obtain ⟨pre, post, hrest⟩ := List.append_of_mem hbr
  subst hrest
  obtain ⟨-, -, hbl, -⟩ := links_split1.1 hR.pre.links
  have hid : (z.hdr b).id = ZONEID := (hbl.2.2 hbS).2.2.2.2 hbu
  rw [Z_Free_eq hp hid] at hf
  injection hf with hz
  subst hz
  have hrov := Z_Free_block_rover hR
  have hnd := nodup_around hR.pre.nodup
  have hNb : firstOr post z.mainzone_blocklist ≠ b := hnd.2.2.2.2.2.2.2.2.1
  have hPb : lastOr pre z.mainzone_blocklist ≠ b := hnd.2.2.2.2.2.2.2.2.2.1
  have hPN : (z.hdr (lastOr pre z.mainzone_blocklist)).user = 0 →
      lastOr pre z.mainzone_blocklist ≠ firstOr post z.mainzone_blocklist := by
    intro hP e
    have hPS : lastOr pre z.mainzone_blocklist ≠ z.mainzone_blocklist :=
      fun e' => hR.pre.sentUser (e' ▸ hP)
    rcases lastOr_mem pre z.mainzone_blocklist with e1 | e1
    · exact hPS e1
    · rw [e] at e1
      exact hnd.2.2.2.2.2.2.2.2.2.2 e1
  rw [hbl.1, hbl.2.1, hrov]
  refine ⟨fun hP => ?_, fun hN => ?_⟩
  · by_cases c1 : z.mainzone_rover = b ∧ (z.hdr (lastOr pre z.mainzone_blocklist)).user = 0
    · rw [if_pos c1]; exact hPb
    · rw [if_neg c1]
      by_cases c2 : z.mainzone_rover = firstOr post z.mainzone_blocklist ∧
          (z.hdr (firstOr post z.mainzone_blocklist)).user = 0
      · rw [if_pos c2, if_pos hP]; exact hPb
      · rw [if_neg c2]
        exact fun e => c1 ⟨e, hP⟩
  · by_cases c1 : z.mainzone_rover = b ∧ (z.hdr (lastOr pre z.mainzone_blocklist)).user = 0
    · rw [if_pos c1]; exact hPN c1.2
    · rw [if_neg c1]
      by_cases c2 : z.mainzone_rover = firstOr post z.mainzone_blocklist ∧
          (z.hdr (firstOr post z.mainzone_blocklist)).user = 0
      · rw [if_pos c2]
        by_cases hP : (z.hdr (lastOr pre z.mainzone_blocklist)).user = 0
        · rw [if_pos hP]; exact hPN hP
        · rw [if_neg hP]; exact Ne.symm hNb
      · rw [if_neg c2]
        exact fun e => c2 ⟨e, hN⟩

/-- Witness for C36: in `exS3` the rover designates the block at `0x1004`; after `Z_Free`
of the block at `0x1002`, which absorbs it into the block at `0x1000`, the rover
designates `0x1000`. -/
theorem C36_witness :
    Reachable exS3 ∧ exS3.mainzone_rover = 0x1004 ∧ exS4.mainzone_rover = 0x1000 ∧
    InList exS4 0x1000 ∧
    ((InList exS3 exS3.mainzone_rover ∧
      (exS3.hdr (exS3.hdr exS3.mainzone_rover).next).prev = exS3.mainzone_rover ∧
      (exS3.hdr (exS3.hdr exS3.mainzone_rover).prev).next = exS3.mainzone_rover) ∧
    (∀ fuel size tag user z' p, Z_Malloc fuel exS3 size tag user = .ok z' p →
      InList z' z'.mainzone_rover) ∧
    (∀ b ptr z', InUse exS3 b → pointerToSegment ptr = some (b + 1) →
      Z_Free exS3 ptr = .ok z' () → InList z' z'.mainzone_rover ∧
      ((exS3.hdr (exS3.hdr b).prev).user = 0 → z'.mainzone_rover ≠ b) ∧
      ((exS3.hdr (exS3.hdr b).next).user = 0 → z'.mainzone_rover ≠ (exS3.hdr b).next)) ∧
    (∀ fuel z', Z_FreeTags fuel exS3 = .ok z' () → InList z' z'.mainzone_rover) ∧
    (∀ fuel env z0, EnvOK env → Z_Init fuel env = .ok z0 () →
      InList z0 z0.mainzone_rover)) :=
  ⟨exS3_reachable, by decide, by decide, ⟨1, rfl⟩, C36_rover_valid exS3 exS3_reachable⟩

theorem markFree_mainzone (z : Zone) (b : Nat) : (markFree z b).mainzone = z.mainzone := by
  unfold markFree
  simp only [setTag_mainzone, setUser_mainzone]
  split <;> rfl

theorem absorb_mainzone (z : Zone) (x y : Nat) : (absorb z x y).mainzone = z.mainzone := by
  unfold absorb
  simp only []
  split
  · show (Zone.setRover _ _).mainzone = _
    unfold Zone.setRover
    simp only [setPrev_mainzone, setNext_mainzone, setSize_mainzone]
  · simp only [setPrev_mainzone, setNext_mainzone, setSize_mainzone]

theorem Z_Free_block_mainzone (z : Zone) (b : Nat) :
    (Z_Free_block z b).mainzone = z.mainzone := by
  rw [Z_Free_block_eq]
  simp only []
  split <;> split <;> simp only [absorb_mainzone, markFree_mainzone]

theorem absorb_hdr_other (z : Zone) (x y v : Nat) (h1 : v ≠ x) (h2 : v ≠ (z.hdr y).next) :
    (absorb z x y).hdr v = z.hdr v := by
  have e : (absorb z x y).hdr =
      (((z.setSize x ((z.hdr x).size + (z.hdr y).size)).setNext x
        ((z.setSize x ((z.hdr x).size + (z.hdr y).size)).hdr y).next).setPrev
        ((((z.setSize x ((z.hdr x).size + (z.hdr y).size)).setNext x
        ((z.setSize x ((z.hdr x).size + (z.hdr y).size)).hdr y).next)).hdr x).next x).hdr := by
    unfold absorb
    simp only []
    split <;> rfl
  rw [e, setPrev_hdr_ne _ _ _ _ (by simpa using h2), setNext_hdr_ne _ _ _ _ h1,
    setSize_hdr_ne _ _ _ _ h1]

/-- The stores of `Z_Free_block` into headers go to the block, its two neighbours and the
successor of its successor. -/
theorem Z_Free_block_hdr_other (z : Zone) (b v : Nat) (h1 : v ≠ b) (h2 : v ≠ (z.hdr b).prev)
    (h3 : v ≠ (z.hdr b).next) (h4 : v ≠ (z.hdr (z.hdr b).next).next) :
    (Z_Free_block z b).hdr v = z.hdr v := by
  have hm : ∀ w, w ≠ b → (markFree z b).hdr w = z.hdr w := by
    intro w hw; rw [markFree_hdr, if_neg hw]
  have hnext1 : ∀ w, ((markFree z b).hdr w).next = (z.hdr w).next := by
    intro w; rw [markFree_hdr]; split
    · rename_i e; rw [e]
    · rfl
  have hprev1 : ((markFree z b).hdr b).prev = (z.hdr b).prev := by
    rw [markFree_hdr, if_pos rfl]
  rw [Z_Free_block_eq]
  simp only [hprev1]
  by_cases hP : ((markFree z b).hdr (z.hdr b).prev).user = 0
  · simp only [hP, if_true]
    have hn2 : ((absorb (markFree z b) (z.hdr b).prev b).hdr (z.hdr b).prev).next =
        (z.hdr b).next := by
      rw [absorb_next, if_pos rfl, hnext1]
    have h2' : v ≠ ((markFree z b).hdr b).next := by rw [hnext1]; exact h3
    rw [hn2]
    split
    · have hnn : v ≠ ((absorb (markFree z b) (z.hdr b).prev b).hdr (z.hdr b).next).next := by
        rw [absorb_next, hnext1, hnext1]
        split
        · exact h3
        · exact h4
      rw [absorb_hdr_other _ _ _ _ h2 hnn, absorb_hdr_other _ _ _ _ h2 h2', hm v h1]
    · rw [absorb_hdr_other _ _ _ _ h2 h2', hm v h1]
  · simp only [hP, if_false]
    rw [hnext1]
    split
    · have hnn : v ≠ ((markFree z b).hdr (z.hdr b).next).next := by
        rw [hnext1]; exact h4
      rw [absorb_hdr_other _ _ _ _ h1 hnn, hm v h1]
    · exact hm v h1

/-- C31. `Z_Free` of an in-use block of a reachable heap returns, and it writes `NULL`
through the recorded owner exactly when the block's user field is greater than `0x100`:
afterwards every owner slot holds what it held before, except that the slot at the
user field holds `NULL` when the user field is above `0x100`. For a block allocated
without an owner, whose user field is the marker 2, no slot is changed. In every case
`mainzone`, `mainzone_blocklist` and every paragraph that is not the header of a block
of the list are as before: beside the owner slot the call stores only into block
headers and `mainzone_rover`. A block that `Z_Malloc` returns for the owner
`NULL` has the user field 2, and for an owner `user` the user field `user`. -/
theorem C31_owner_write (z : Zone) (h : Reachable z) (b : Nat) (hb : InUse z b)
    (ptr : FarPtr) (hp : pointerToSegment ptr = some (b + 1)) :
    (∃ z', Z_Free z ptr = .ok z' () ∧
      (∀ u, z'.slot u =
        if 0x100 < (z.hdr b).user ∧ u = (z.hdr b).user then NULL else z.slot u) ∧
      (0x100 < (z.hdr b).user → z'.slot (z.hdr b).user = NULL) ∧
      (¬ 0x100 < (z.hdr b).user → ∀ u, z'.slot u = z.slot u) ∧
      ((z.hdr b).user = 2 → ∀ u, z'.slot u = z.slot u) ∧
      z'.mainzone = z.mainzone ∧ z'.mainzone_blocklist = z.mainzone_blocklist ∧
      (∀ v, ¬ InList z v → z'.hdr v = z.hdr v)) ∧
    (∀ fuel size tag user z1 p, Z_Malloc fuel z size tag user = .ok z1 p →
      1 ≤ p.seg ∧ (user = 0 → (z1.hdr (p.seg - 1)).user = 2) ∧
      (user ≠ 0 → (z1.hdr (p.seg - 1)).user = user)) := by
  obtain ⟨rest, lo, hi, hR⟩ := Reachable_WF h
  obtain ⟨hin, hbS, hbu⟩ := hb
  have hmem := InList_mem hR.pre hin
  obtain ⟨p, s, q, h1, -, -, -⟩ := Seg_ring_pair hR.pre.links hmem
  have hid : (z.hdr b).id = ZONEID := (h1.2.2 hbS).2.2.2.2 hbu
  have hslot := Z_Free_block_slot z b
  refine ⟨⟨Z_Free_block z b, Z_Free_eq hp hid, hslot, fun hu => ?_, fun hu u => ?_,
    fun hu u => ?_, Z_Free_block_mainzone z b, Z_Free_block_blocklist z b, fun v hv => ?_⟩,
    ?_⟩
  · rw [hslot, if_pos ⟨hu, rfl⟩]
  · rw [hslot, if_neg (fun e => hu e.1)]
  · rw [hslot, if_neg]
    rw [hu]
    exact fun e => absurd e.1 (by decide)
  · have hnm := hR.pre.next_mem hmem
    apply Z_Free_block_hdr_other
    · exact fun e => hv (e ▸ hin)
    · exact fun e => hv ((hR.pre.inList_iff _).2 (e ▸ hR.pre.prev_mem hmem))
    · exact fun e => hv ((hR.pre.inList_iff _).2 (e ▸ hnm))
    · exact fun e => hv ((hR.pre.inList_iff _).2 (e ▸ hR.pre.next_mem hnm))
  · intro fuel size tag user z1 p hm
    obtain ⟨z2, b2, -, hz, hp2⟩ := Z_Malloc_ok_eq hm
    subst hz hp2
    have hseg : (segmentToPointer (b2 + 1)).seg - 1 = b2 := rfl
    rw [hseg, finish_user, if_pos rfl]
    refine ⟨Nat.succ_le_succ (Nat.zero_le _), fun hu => ?_, fun hu => ?_⟩
    · rw [if_neg (fun e => e hu)]
    · rw [if_pos hu]

/-- Witness for C31: the block at `0x1002` of `exS3` was allocated without an owner and
has the user field 2; the block at `0x1002` of `exR5` has the owner slot `0x200`, which
holds `NULL` after `Z_Free`. -/
theorem C31_witness :
    Reachable exS3 ∧ InUse exS3 0x1002 ∧ (exS3.hdr 0x1002).user = 2 ∧
    Reachable exR5 ∧ InUse exR5 0x1002 ∧ (exR5.hdr 0x1002).user = 0x200 ∧
    exR5.slot 0x200 = segmentToPointer 0x1003 ∧
    (∃ z', Z_Free exS3 (segmentToPointer 0x1003) = .ok z' () ∧
      (∀ u, z'.slot u =
        if 0x100 < (exS3.hdr 0x1002).user ∧ u = (exS3.hdr 0x1002).user then NULL
        else exS3.slot u) ∧
      (0x100 < (exS3.hdr 0x1002).user → z'.slot (exS3.hdr 0x1002).user = NULL) ∧
      (¬ 0x100 < (exS3.hdr 0x1002).user → ∀ u, z'.slot u = exS3.slot u) ∧
      ((exS3.hdr 0x1002).user = 2 → ∀ u, z'.slot u = exS3.slot u) ∧
      z'.mainzone = exS3.mainzone ∧ z'.mainzone_blocklist = exS3.mainzone_blocklist ∧
      (∀ v, ¬ InList exS3 v → z'.hdr v = exS3.hdr v)) ∧
    (∃ z', Z_Free exR5 (segmentToPointer 0x1003) = .ok z' () ∧
      (∀ u, z'.slot u =
        if 0x100 < (exR5.hdr 0x1002).user ∧ u = (exR5.hdr 0x1002).user then NULL
        else exR5.slot u) ∧
      (0x100 < (exR5.hdr 0x1002).user → z'.slot (exR5.hdr 0x1002).user = NULL) ∧
      (¬ 0x100 < (exR5.hdr 0x1002).user → ∀ u, z'.slot u = exR5.slot u) ∧
      ((exR5.hdr 0x1002).user = 2 → ∀ u, z'.slot u = exR5.slot u) ∧
      z'.mainzone = exR5.mainzone ∧ z'.mainzone_blocklist = exR5.mainzone_blocklist ∧
      (∀ v, ¬ InList exR5 v → z'.hdr v = exR5.hdr v)) :=
  have hb : InUse exS3 0x1002 := ⟨⟨2, rfl⟩, by decide, by decide⟩
  have hc : InUse exR5 0x1002 := ⟨⟨2, rfl⟩, by decide, by decide⟩
  ⟨exS3_reachable, hb, by decide, exR5_reachable, hc, by decide, by decide,
    (C31_owner_write exS3 exS3_reachable 0x1002 hb (segmentToPointer 0x1003) rfl).1,
    (C31_owner_write exR5 exR5_reachable 0x1002 hc (segmentToPointer 0x1003) rfl).1⟩

/-- More fuel does not change a result of the scan of `Z_Malloc`. -/
theorem scan_mono (size start : Nat) (fuel : Nat) :
    ∀ (z : Zone) (base rover : Nat) (k : Nat),
      Z_Malloc_scan size start fuel z base rover ≠ .timeout →
      Z_Malloc_scan size start (fuel + k) z base rover =
        Z_Malloc_scan size start fuel z base rover := by
  induction fuel with
  | zero => intro z base rover k h; exact absurd rfl h
  | succ fuel ih =>
    intro z base rover k h
    rw [show fuel + 1 + k = (fuel + k) + 1 by omega]
    unfold Z_Malloc_scan at h ⊢
    by_cases hrs : rover = start
    · simp only [if_pos hrs]
    · simp only [if_neg hrs] at h ⊢
      cases hb : Z_Malloc_scan_body z base rover with
      | timeout => rfl
      | fatal e z1 => rfl
      | ok z1 p =>
        obtain ⟨base', rover'⟩ := p
        rw [hb] at h
        simp only [] at h ⊢
        by_cases hc : (z1.hdr base').user ≠ 0 ∨ (z1.hdr base').size < size
        · simp only [if_pos hc] at h ⊢
          exact ih _ _ _ k h
        · simp only [if_neg hc]

/-- More fuel does not change a result of `Z_Malloc`. -/
theorem Z_Malloc_mono (fuel : Nat) (z : Zone) (size : Nat) (tag : Int) (user : Nat) (k : Nat)
    (h : Z_Malloc fuel z size tag user ≠ .timeout) :
    Z_Malloc (fuel + k) z size tag user = Z_Malloc fuel z size tag user := by
  rw [Z_Malloc_eq] at h
  rw [Z_Malloc_eq, Z_Malloc_eq fuel]
  have hs : Z_Malloc_scan (Z_Malloc_size size)
      (z.hdr (if (z.hdr (z.hdr z.mainzone_rover).prev).user = 0
        then (z.hdr z.mainzone_rover).prev else z.mainzone_rover)).prev fuel z
      (if (z.hdr (z.hdr z.mainzone_rover).prev).user = 0
        then (z.hdr z.mainzone_rover).prev else z.mainzone_rover)
      (if (z.hdr (z.hdr z.mainzone_rover).prev).user = 0
        then (z.hdr z.mainzone_rover).prev else z.mainzone_rover) ≠ .timeout := by
    intro e
    rw [e] at h
    exact h rfl
  rw [scan_mono _ _ _ _ _ _ k hs]

/-- C38. `Z_Malloc` terminates: on every reachable heap state, with `N` the number of
blocks of the list, the sentinel included, the scan of `Z_Malloc` started for any needed
size has ended before `N` passes, and for every argument triple `Z_Malloc` with fuel
for `N` passes or more ends, by returning a block or by raising a fatal error, and
ends the same way whatever the fuel. -/
theorem C38_malloc_terminates (z : Zone) (h : Reachable z) :
    ∃ N, 0 < N ∧ nthBlock z N = z.mainzone_blocklist ∧
      (∀ i, 0 < i → i < N → nthBlock z i ≠ z.mainzone_blocklist) ∧
      (∀ needed fuel, N ≤ fuel →
        Z_Malloc_scan needed
          (z.hdr (if (z.hdr (z.hdr z.mainzone_rover).prev).user = 0
            then (z.hdr z.mainzone_rover).prev else z.mainzone_rover)).prev fuel z
          (if (z.hdr (z.hdr z.mainzone_rover).prev).user = 0
            then (z.hdr z.mainzone_rover).prev else z.mainzone_rover)
          (if (z.hdr (z.hdr z.mainzone_rover).prev).user = 0
            then (z.hdr z.mainzone_rover).prev else z.mainzone_rover) ≠ .timeout) ∧
      ∀ size tag user fuel, N ≤ fuel →
        Z_Malloc fuel z size tag user ≠ .timeout ∧
        Z_Malloc fuel z size tag user = Z_Malloc N z size tag user ∧
        ((∃ z' p, Z_Malloc fuel z size tag user = .ok z' p) ∨
          (∃ e z', Z_Malloc fuel z size tag user = .fatal e z')) := by
  obtain ⟨rest, lo, hi, hR⟩ := Reachable_WF h
  obtain ⟨hget, hback⟩ := nthBlock_ring hR.pre
  have hnt : ∀ size tag user fuel, rest.length + 1 ≤ fuel →
      Z_Malloc fuel z size tag user ≠ .timeout := by
    intro size tag user fuel hf e
    rcases Z_Malloc_cases hR fuel size tag user with
      ⟨-, e1⟩ | ⟨z2, start, rest', e1, -⟩ | ⟨z1, start, b, pre, post, -, -, -, e1⟩ |
      ⟨z1, start, b, pre, post, -, -, e1⟩
    · omega
    · rw [e1] at e; exact absurd e (by simp)
    · rw [e1] at e; exact absurd e (by simp)
    · rw [e1] at e; exact absurd e (by simp)
  refine ⟨rest.length + 1, Nat.succ_pos _, hback, ?_, ?_, ?_⟩
  · intro i h0 hi e
    have h1 : i < (z.mainzone_blocklist :: rest).length := by simpa using hi
    have h2 : 0 < (z.mainzone_blocklist :: rest).length := by simp
    rw [hget i (by omega), List.getD_eq_getElem _ _ h1] at e
    have e0 : (z.mainzone_blocklist :: rest)[0] = z.mainzone_blocklist := rfl
    rw [← e0] at e
    have := (List.Nodup.getElem_inj_iff hR.pre.nodup).1 e
    omega
  · intro needed fuel hf e
    obtain ⟨rest0, -, hlen, hinv⟩ := scan_init hR
    have hspec := scan_spec needed _ lo hi fuel z _ _ [] rest0 hinv
    rw [e] at hspec
    have : fuel ≤ rest0.length := hspec
    omega
  · intro size tag user fuel hf
    have h1 := hnt size tag user fuel hf
    have h2 := hnt size tag user (rest.length + 1) (le_refl _)
    refine ⟨h1, ?_, ?_⟩
    · have := Z_Malloc_mono (rest.length + 1) z size tag user (fuel - (rest.length + 1)) h2
      rw [← this]
      congr 1
      omega
    · cases hres : Z_Malloc fuel z size tag user with
      | timeout => exact absurd hres h1
      | ok z' p => exact Or.inl ⟨z', p, rfl⟩
      | fatal e z' => exact Or.inr ⟨e, z', rfl⟩

/-- Witness for C38: the list of `exS3` has 4 blocks, the sentinel included. -/
theorem C38_witness :
    Reachable exS3 ∧ nthBlock exS3 4 = exS3.mainzone_blocklist ∧
    Z_Malloc 4 exS3 16 1 0 = Z_Malloc 10 exS3 16 1 0 ∧
    (Z_Malloc 4 exS3 16 1 0).val = some (segmentToPointer 0x1005) ∧
    (Z_Malloc 4 exS3 700000 1 0).err = some ZErr.allocFailed ∧
    ∃ N, 0 < N ∧ nthBlock exS3 N = exS3.mainzone_blocklist ∧
      (∀ i, 0 < i → i < N → nthBlock exS3 i ≠ exS3.mainzone_blocklist) ∧
      (∀ needed fuel, N ≤ fuel →
        Z_Malloc_scan needed
          (exS3.hdr (if (exS3.hdr (exS3.hdr exS3.mainzone_rover).prev).user = 0
            then (exS3.hdr exS3.mainzone_rover).prev else exS3.mainzone_rover)).prev fuel exS3
          (if (exS3.hdr (exS3.hdr exS3.mainzone_rover).prev).user = 0
            then (exS3.hdr exS3.mainzone_rover).prev else exS3.mainzone_rover)
          (if (exS3.hdr (exS3.hdr exS3.mainzone_rover).prev).user = 0
            then (exS3.hdr exS3.mainzone_rover).prev else exS3.mainzone_rover) ≠ .timeout) ∧
      ∀ size tag user fuel, N ≤ fuel →
        Z_Malloc fuel exS3 size tag user ≠ .timeout ∧
        Z_Malloc fuel exS3 size tag user = Z_Malloc N exS3 size tag user ∧
        ((∃ z' p, Z_Malloc fuel exS3 size tag user = .ok z' p) ∨
          (∃ e z', Z_Malloc fuel exS3 size tag user = .fatal e z')) :=
  ⟨exS3_reachable, by decide, rfl, by decide, by decide,
    C38_malloc_terminates exS3 exS3_reachable⟩

theorem free_list_sublist (pre post : List Nat) (b : Nat) (p q : Prop) [Decidable p]
    [Decidable q] :
    List.Sublist ((if p then pre else pre ++ [b]) ++ (if q then post.tail else post))
      (pre ++ b :: post) := by
  have h2 : List.Sublist (if q then post.tail else post) post := by
    split
    · exact List.tail_sublist post
    · exact List.Sublist.refl post
  by_cases hp : p
  · rw [if_pos hp]
    exact List.Sublist.append (List.Sublist.refl pre) (List.Sublist.cons b h2)
  · rw [if_neg hp, List.append_assoc]
    exact List.Sublist.append (List.Sublist.refl pre)
      (List.Sublist.cons₂ b h2)

/-- C39. Frame of `Z_Free`: `Z_Free` of the address of an in-use block `b` of a reachable
heap returns; the blocks of the list afterwards, in the order of the walk, are a
sublist of the blocks before, so no block has moved or changed places; every other
block that was in use is still in the list, with the same size, tag, user field and
id; and every owner slot other than the one at the user field of `b` holds what it held
before. -/
theorem C39_free_frame (z : Zone) (h : Reachable z) (b : Nat) (hb : InUse z b)
    (ptr : FarPtr) (hp : pointerToSegment ptr = some (b + 1)) :
    ∃ z' rest rest', Z_Free z ptr = .ok z' () ∧
      z'.mainzone_blocklist = z.mainzone_blocklist ∧
      (∀ i, i ≤ rest.length →
        nthBlock z i = (z.mainzone_blocklist :: rest).getD i z.mainzone_blocklist) ∧
      nthBlock z (rest.length + 1) = z.mainzone_blocklist ∧
      (∀ i, i ≤ rest'.length →
        nthBlock z' i = (z.mainzone_blocklist :: rest').getD i z.mainzone_blocklist) ∧
      nthBlock z' (rest'.length + 1) = z.mainzone_blocklist ∧
      List.Sublist rest' rest ∧
      (∀ v, InList z v → v ≠ b → (z.hdr v).user ≠ 0 →
        InList z' v ∧ (z'.hdr v).size = (z.hdr v).size ∧ (z'.hdr v).tag = (z.hdr v).tag ∧
          (z'.hdr v).user = (z.hdr v).user ∧ (z'.hdr v).id = (z.hdr v).id) ∧
      (∀ u, u ≠ (z.hdr b).user → z'.slot u = z.slot u) := by
  obtain ⟨rest, lo, hi, hR⟩ := Reachable_WF h
  obtain ⟨hin, hbS, hbu⟩ := hb
  have hmem := InList_mem hR.pre hin
  have hbr : b ∈ rest := by
    rcases List.mem_cons.1 hmem with e | e
    · exact absurd e hbS
    · exact e
  obtain ⟨pre, post, hrest⟩ := List.append_of_mem hbr
  subst hrest
  obtain ⟨-, -, hbl, -⟩ := links_split1.1 hR.pre.links
  have hid : (z.hdr b).id = ZONEID := (hbl.2.2 hbS).2.2.2.2 hbu
  have hR' := Z_Free_block_ring hR hR.pre.sentUser hbS
  have hS := Z_Free_block_blocklist z b
  have hR2 : Ring (Z_Free_block z b) (Z_Free_block z b).mainzone_blocklist
      ((if (z.hdr (lastOr pre z.mainzone_blocklist)).user = 0 then pre else pre ++ [b]) ++
        (if (z.hdr (firstOr post z.mainzone_blocklist)).user = 0 then post.tail else post))
      lo hi := by
    rw [hS]; exact hR'
  obtain ⟨g1, g2⟩ := nthBlock_ring hR.pre
  obtain ⟨g3, g4⟩ := nthBlock_ring hR2.pre
  rw [hS] at g3 g4
  refine ⟨Z_Free_block z b, pre ++ b :: post, _, Z_Free_eq hp hid, hS, g1, g2, g3, g4,
    free_list_sublist pre post b _ _, fun v hv hvb hu => ?_, fun u hu => ?_⟩
  · have hvm := InList_mem hR.pre hv
    obtain ⟨k1, k2, k3⟩ := Z_Free_block_frame z b v hvb hu
    refine ⟨(hR'.pre.inList_iff v).2 ?_, k1, k2, ?_, k3⟩
    · rcases List.mem_cons.1 hvm with e | e
      · rw [e]; exact List.mem_cons_self _ _
      · apply List.mem_cons_of_mem
        rcases List.mem_append.1 e with e1 | e1
        · apply List.mem_append_left
          split
          · exact e1
          · exact List.mem_append_left _ e1
        · rcases List.mem_cons.1 e1 with e2 | e2
          · exact absurd e2 hvb
          · apply List.mem_append_right
            split
            · rename_i hN
              cases post with
              | nil => exact absurd e2 (List.not_mem_nil _)
              | cons n post1 =>
                rcases List.mem_cons.1 e2 with e3 | e3
                · exact absurd (e3 ▸ hN) hu
                · exact e3
            · exact e2
    · rw [Z_Free_block_user, if_neg hvb]
  · rw [Z_Free_block_slot, if_neg (fun e => hu e.2)]

/-- Witness for C39: `Z_Free` of the block at `0x1000` of `exR4`, whose list holds three more
blocks in use, at `0x1002`, `0x1042` and `0x1044`. -/
theorem C39_witness :
    Reachable exR4 ∧ InUse exR4 0x1000 ∧
    ∃ z' rest rest', Z_Free exR4 (segmentToPointer 0x1001) = .ok z' () ∧
      z'.mainzone_blocklist = exR4.mainzone_blocklist ∧
      (∀ i, i ≤ rest.length →
        nthBlock exR4 i = (exR4.mainzone_blocklist :: rest).getD i exR4.mainzone_blocklist) ∧
      nthBlock exR4 (rest.length + 1) = exR4.mainzone_blocklist ∧
      (∀ i, i ≤ rest'.length →
        nthBlock z' i = (exR4.mainzone_blocklist :: rest').getD i exR4.mainzone_blocklist) ∧
      nthBlock z' (rest'.length + 1) = exR4.mainzone_blocklist ∧
      List.Sublist rest' rest ∧
      (∀ v, InList exR4 v → v ≠ 0x1000 → (exR4.hdr v).user ≠ 0 →
        InList z' v ∧ (z'.hdr v).size = (exR4.hdr v).size ∧
          (z'.hdr v).tag = (exR4.hdr v).tag ∧
          (z'.hdr v).user = (exR4.hdr v).user ∧ (z'.hdr v).id = (exR4.hdr v).id) ∧
      (∀ u, u ≠ (exR4.hdr 0x1000).user → z'.slot u = exR4.slot u) :=
  have hb : InUse exR4 0x1000 := ⟨⟨1, rfl⟩, by decide, by decide⟩
  ⟨exR4_reachable, hb,
    C39_free_frame exR4 exR4_reachable 0x1000 hb (segmentToPointer 0x1001) rfl⟩

theorem disjoint_arith (v w sv sw : Nat) (hv : sv % 16 = 0) (hw : sw % 16 = 0)
    (h : v + sv / 16 ≤ w ∨ w + sw / 16 ≤ v) :
    v * 16 + sv ≤ w * 16 ∨ w * 16 + sw ≤ v * 16 := by
  omega

theorem sentinel_arith (v sv S lo hi : Nat) (hv : sv % 16 = 0) (hlo : lo ≤ v)
    (hhi : v + sv / 16 ≤ hi) (hS : S < lo ∨ hi ≤ S) :
    S * 16 + 16 ≤ v * 16 ∨ v * 16 + sv ≤ S * 16 := by
  omega

/-- In a well-formed heap the byte ranges of two distinct blocks other than the sentinel
are disjoint, and disjoint from the 16 bytes of the sentinel header. -/
theorem ring_disjoint {z : Zone} {lo hi : Nat} {rest : List Nat}
    (hR : Ring z z.mainzone_blocklist rest lo hi) :
    (∀ v w, InList z v → InList z w → v ≠ z.mainzone_blocklist →
      w ≠ z.mainzone_blocklist → v ≠ w →
      v * 16 + (z.hdr v).size ≤ w * 16 ∨ w * 16 + (z.hdr w).size ≤ v * 16) ∧
    (∀ v, InList z v → v ≠ z.mainzone_blocklist →
      z.mainzone_blocklist * 16 + 16 ≤ v * 16 ∨
        v * 16 + (z.hdr v).size ≤ z.mainzone_blocklist * 16) := by
  have hb16 : ∀ v, InList z v → v ≠ z.mainzone_blocklist →
      (z.hdr v).size % 16 = 0 ∧ lo ≤ v ∧ v + (z.hdr v).size / 16 ≤ hi := by
    intro v hv hvS
    obtain ⟨p, s, q, h1, -, -, -⟩ := Seg_ring_pair hR.pre.links (InList_mem hR.pre hv)
    obtain ⟨a1, a2, a3, -, -⟩ := h1.2.2 hvS
    exact ⟨a1, a2, a3⟩
  refine ⟨fun v w hv hw hvS hwS hne => ?_, fun v hv hvS => ?_⟩
  · exact disjoint_arith v w _ _ (hb16 v hv hvS).1 (hb16 w hw hwS).1
      (hR.pre.sep v (InList_mem hR.pre hv) w (InList_mem hR.pre hw) hvS hwS hne)
  · obtain ⟨a1, a2, a3⟩ := hb16 v hv hvS
    exact sentinel_arith v _ _ lo hi a1 a2 a3 hR.pre.outside

/-- The body of the scan at a block in use whose tag is below `PU_PURGELEVEL`. -/
theorem scan_body_protected {z : Zone} {base rover : Nat} (hu : (z.hdr rover).user ≠ 0)
    (ht : (z.hdr rover).tag < PU_PURGELEVEL) :
    Z_Malloc_scan_body z base rover = .ok z ((z.hdr rover).next, (z.hdr rover).next) := by
  unfold Z_Malloc_scan_body
  rw [if_pos hu, if_pos ht]

/-- On a heap without purgeable blocks the scan of `Z_Malloc` leaves the state as it is. -/
theorem scan_no_evict (size start lo hi : Nat) (fuel : Nat) :
    ∀ (z : Zone) (base rover : Nat) (vis rem : List Nat),
      ScanInv z start lo hi base rover vis rem →
      (∀ v, InList z v → (z.hdr v).user ≠ 0 → (z.hdr v).tag < PU_PURGELEVEL) →
      ∀ z', (Z_Malloc_scan size start fuel z base rover).state = some z' → z' = z := by
  induction fuel with
  | zero =>
    intro z base rover vis rem _ _ z' hs
    simp [Z_Malloc_scan, Res.state] at hs
  | succ fuel ih =>
    intro z base rover vis rem h hprot z' hs
    unfold Z_Malloc_scan at hs
    by_cases hrs : rover = start
    · rw [if_pos hrs] at hs
      simp only [Res.state, Option.some.injEq] at hs
      exact hs.symm
    · rw [if_neg hrs] at hs
      cases rem with
      | nil => exact absurd h.hrover hrs
      | cons r rem' =>
        have hr : rover = r := h.hrover
        subst hr
        obtain ⟨z1, base', rover', vis', rem2, hbody, hinv, -, -⟩ := scan_step h
        have hrin : InList z rover := (h.hring.pre.inList_iff rover).2 (by simp)
        have hz1 : z1 = z := by
          by_cases hu : (z.hdr rover).user = 0
          · rw [scan_body_free hu] at hbody
            injection hbody with e1 e2
            exact e1.symm
          · rw [scan_body_protected hu (hprot rover hrin hu)] at hbody
            injection hbody with e1 e2
            exact e1.symm
        subst hz1
        rw [hbody] at hs
        simp only [] at hs
        by_cases hcond : (z1.hdr base').user ≠ 0 ∨ (z1.hdr base').size < size
        · rw [if_pos hcond] at hs
          exact ih z1 base' rover' vis' rem2 hinv hprot z' hs
        · rw [if_neg hcond] at hs
          simp only [Res.state, Option.some.injEq] at hs
          exact hs.symm

theorem find_no_evict {z z1 : Zone} {c lo hi : Nat} {rest : List Nat} {fuel size : Nat}
    (h : Ring z c rest lo hi)
    (hprot : ∀ v, InList z v → (z.hdr v).user ≠ 0 → (z.hdr v).tag < PU_PURGELEVEL)
    (hs : (Z_Malloc_find fuel z size).state = some z1) : z1 = z := by
  obtain ⟨rest0, -, -, hinv⟩ := scan_init h
  unfold Z_Malloc_find at hs
  exact scan_no_evict _ _ lo hi fuel z _ _ [] rest0 hinv hprot z1 hs

theorem Unpurgeable_below {z : Zone} (h : Unpurgeable z) :
    ∀ v, InList z v → (z.hdr v).user ≠ 0 → (z.hdr v).tag < PU_PURGELEVEL := by
  intro v hv hu
  rcases h v hv hu with e | e | e <;> rw [e] <;> decide

/-- On a heap without purgeable blocks a call of `Z_Malloc` that is not a contract
violation evicts nothing, however it ends. -/
theorem Z_Malloc_noEvict {z : Zone} {lo hi : Nat} {rest : List Nat}
    (hR : Ring z z.mainzone_blocklist rest lo hi) (hU : Unpurgeable z) (fuel size : Nat)
    (tag : Int) (user : Nat) (hvalid : ¬ (user = 0 ∧ tag ≥ (PU_PURGELEVEL : Int))) :
    NoEvict z user (Z_Malloc fuel z size tag user) := by
  have hfind : ∀ z1, (Z_Malloc_find fuel z size).state = some z1 → z1 = z :=
    fun z1 => find_no_evict hR (Unpurgeable_below hU)
  rw [Z_Malloc_of_find]
  cases hf : Z_Malloc_find fuel z size with
  | timeout =>
    exact ⟨by simp [Res.err], fun z' hs => absurd hs (by simp [Res.state])⟩
  | fatal e z1 =>
    have hz := hfind z1 (by rw [hf]; rfl)
    subst hz
    have he : e = ZErr.allocFailed := by
      obtain ⟨rest0, -, -, hinv⟩ := scan_init hR
      have hspec := scan_spec (Z_Malloc_size size) _ lo hi fuel z1 _ _ [] rest0 hinv
      unfold Z_Malloc_find at hf
      simp only [] at hf
      rw [hf] at hspec
      exact hspec.1
    subst he
    refine ⟨by simp [Res.err], fun z' hs => ?_⟩
    simp only [Res.state, Option.some.injEq] at hs
    subst hs
    exact ⟨fun v hv _ => ⟨hv, Kept_refl _ _⟩, fun _ _ => rfl⟩
  | ok z1 b =>
    have hz := hfind z1 (by rw [hf]; rfl)
    subst hz
    simp only [if_neg hvalid]
    refine ⟨by simp [Res.err], fun z' hs => ?_⟩
    simp only [Res.state, Option.some.injEq] at hs
    subst hs
    obtain ⟨rest0, -, -, hinv⟩ := scan_init hR
    have hspec := scan_spec (Z_Malloc_size size) _ lo hi fuel z1 _ _ [] rest0 hinv
    unfold Z_Malloc_find at hf
    simp only [] at hf
    rw [hf] at hspec
    obtain ⟨hfree, hbig, -, pre, post, hring, -⟩ := hspec
    have hbin : b ∈ z1.mainzone_blocklist :: rest :=
      InList_mem hR.pre ((hring.pre.inList_iff b).2 (by simp))
    refine ⟨finish_keeps size tag user hR hbin hfree hbig, fun u hu => ?_⟩
    rw [finish_slot, if_neg hu]

/-- A successful `Z_Malloc` with a tag from `PU_STATIC` to `PU_LEVSPEC` on a heap without
purgeable blocks gives a heap without purgeable blocks. -/
theorem Z_Malloc_unpurgeable {z z' : Zone} {lo hi : Nat} {rest : List Nat}
    (hR : Ring z z.mainzone_blocklist rest lo hi) (hU : Unpurgeable z) {fuel size : Nat}
    {tag : Int} {user : Nat} {p : FarPtr} (ht : tag = 1 ∨ tag = 2 ∨ tag = 3)
    (hm : Z_Malloc fuel z size tag user = .ok z' p) : Unpurgeable z' := by
  obtain ⟨z1, start, b, pre, post, hf, hok, hz, -⟩ := Z_Malloc_find_inv hR hm
  have hz1 : z1 = z := find_no_evict hR (Unpurgeable_below hU) (by rw [hf]; rfl)
  subst hz1
  obtain ⟨h16, hpos⟩ := Z_Malloc_size_facts size
  have hbS : b ≠ z1.mainzone_blocklist := fun e => hok.hring.pre.sentUser (e ▸ hok.hfree)
  have hRf := Z_Malloc_finish_ring tag user hok
  rw [← hz] at hRf
  intro v hv hu
  have hvm := (hRf.pre.inList_iff v).1 hv
  by_cases hvb : v = b
  · rw [hz, hvb, finish_tag, if_pos rfl]
    rcases ht with e | e | e <;> rw [e]
    · left; rfl
    · right; left; rfl
    · right; right; rfl
  · rw [hz, finish_user, if_neg hvb] at hu
    rw [hz, finish_tag, if_neg hvb]
    by_cases hex : (z1.hdr b).size - Z_Malloc_size size > MINFRAGMENT
    · rw [split_user _ _ _ _ hex] at hu
      rw [split_tag _ _ _ _ hex]
      by_cases hvn : v = b + Z_Malloc_size size / PARAGRAPH_SIZE
      · rw [if_pos hvn] at hu; exact absurd rfl hu
      · rw [if_neg hvn] at hu ⊢
        rw [if_pos hex] at hvm
        have hvo : v ∈ start :: (pre ++ b :: post) := by
          simp only [List.mem_cons, List.mem_append, List.singleton_append] at hvm ⊢
          have hP : (PARAGRAPH_SIZE : Nat) = 16 := rfl
          rw [hP] at hvn
          tauto
        exact hU v ((hok.hring.pre.inList_iff v).2 hvo) hu
    · rw [split_none _ _ _ hex] at hu ⊢
      rw [if_neg hex] at hvm
      exact hU v ((hok.hring.pre.inList_iff v).2 (by simpa using hvm)) hu

theorem Z_Free_block_unpurgeable {z : Zone} {c b lo hi : Nat} {pre post : List Nat}
    (h : Ring z c (pre ++ b :: post) lo hi) (hc : (z.hdr c).user ≠ 0)
    (hb : b ≠ z.mainzone_blocklist) (hU : Unpurgeable z) : Unpurgeable (Z_Free_block z b) := by
  have hR' := Z_Free_block_ring h hc hb
  intro v hv hu
  rw [Z_Free_block_user] at hu
  by_cases hvb : v = b
  · rw [if_pos hvb] at hu; exact absurd rfl hu
  · rw [if_neg hvb] at hu
    have hvm := (hR'.pre.inList_iff v).1 hv
    have hvo : v ∈ c :: (pre ++ b :: post) := by
      rcases List.mem_cons.1 hvm with e | e
      · rw [e]; exact List.mem_cons_self _ _
      · exact List.mem_cons_of_mem _ ((free_list_sublist pre post b _ _).subset e)
    rw [(Z_Free_block_frame z b v hvb hu).2.1]
    exact hU v ((h.pre.inList_iff v).2 hvo) hu

theorem callocLevSpec_ok {sizeBits fuel : Nat} {z : Zone} {m : Nat → Nat} {size : Nat}
    {z' : Zone} {r : FarPtr × (Nat → Nat)}
    (h : Z_CallocLevSpec sizeBits fuel z m size = .ok z' r) :
    Z_Malloc fuel z size PU_LEVSPEC 0 = .ok z' r.1 := by
  unfold Z_CallocLevSpec at h
  cases hm : Z_Malloc fuel z size PU_LEVSPEC 0 with
  | timeout => rw [hm] at h; exact absurd h (by simp)
  | fatal e z1 => rw [hm] at h; exact absurd h (by simp)
  | ok z1 p =>
    rw [hm] at h
    simp only [] at h
    injection h with e1 e2
    rw [← e1, ← e2]

theorem callocLevel_ok {sizeBits fuel : Nat} {z : Zone} {m : Nat → Nat} {size : Nat}
    {z' : Zone} {r : FarPtr × (Nat → Nat)}
    (h : Z_CallocLevel sizeBits fuel z m size = .ok z' r) :
    Z_Malloc fuel z size PU_LEVEL 0 = .ok z' r.1 := by
  unfold Z_CallocLevel at h
  cases hm : Z_Malloc fuel z size PU_LEVEL 0 with
  | timeout => rw [hm] at h; exact absurd h (by simp)
  | fatal e z1 => rw [hm] at h; exact absurd h (by simp)
  | ok z1 p =>
    rw [hm] at h
    simp only [] at h
    injection h with e1 e2
    rw [← e1, ← e2]

theorem NoEvict_congr {α β : Type} {z : Zone} {user : Nat} {r : Res α} {r' : Res β}
    (h : NoEvict z user r) (he : r'.err = r.err) (hs : r'.state = r.state) :
    NoEvict z user r' := by
  unfold NoEvict at h ⊢
  rw [he, hs]
  exact h

/-- Every state reached through the exported operations is reachable and holds no
purgeable block. -/
theorem PublicReached_unpurgeable {z : Zone} (h : PublicReached z) :
    Reachable z ∧ Unpurgeable z := by
  induction h with
  | init fuel env z hE hi =>
    have hr := Reachable.init fuel env z hE hi
    refine ⟨hr, ?_⟩
    obtain ⟨a, n, hs, -, -, -, -, -, -, -, -, haS, hR, hfree, -, -⟩ := Z_Init_facts hE hi
    intro v hv hu
    have hvm := InList_mem hR.pre hv
    rcases List.mem_cons.1 hvm with e | e
    · rw [e]; exact Or.inl hR.pre.sentTag
    · rw [List.mem_singleton.1 e] at hu
      exact absurd hfree hu
  | mallocStatic fuel z size z' p _ hm ih =>
    obtain ⟨hr, hU⟩ := ih
    obtain ⟨rest, lo, hi, hR⟩ := Reachable_WF hr
    exact ⟨Reachable.malloc fuel z size PU_STATIC 0 z' p hr hm,
      Z_Malloc_unpurgeable hR hU (Or.inl rfl) hm⟩
  | mallocLevel fuel z size user z' p _ hm ih =>
    obtain ⟨hr, hU⟩ := ih
    obtain ⟨rest, lo, hi, hR⟩ := Reachable_WF hr
    exact ⟨Reachable.malloc fuel z size PU_LEVEL user z' p hr hm,
      Z_Malloc_unpurgeable hR hU (Or.inr (Or.inl rfl)) hm⟩
  | callocLevSpec sizeBits fuel z m size z' r _ hm ih =>
    obtain ⟨hr, hU⟩ := ih
    obtain ⟨rest, lo, hi, hR⟩ := Reachable_WF hr
    have hm' := callocLevSpec_ok hm
    exact ⟨Reachable.malloc fuel z size PU_LEVSPEC 0 z' r.1 hr hm',
      Z_Malloc_unpurgeable hR hU (Or.inr (Or.inr rfl)) hm'⟩
  | callocLevel sizeBits fuel z m size z' r _ hm ih =>
    obtain ⟨hr, hU⟩ := ih
    obtain ⟨rest, lo, hi, hR⟩ := Reachable_WF hr
    have hm' := callocLevel_ok hm
    exact ⟨Reachable.malloc fuel z size PU_LEVEL 0 z' r.1 hr hm',
      Z_Malloc_unpurgeable hR hU (Or.inr (Or.inl rfl)) hm'⟩
  | free z ptr b z' _ hb hp hf ih =>
    obtain ⟨hr, hU⟩ := ih
    refine ⟨Reachable.free z ptr b z' hr hb hp hf, ?_⟩
    obtain ⟨rest, lo, hi, hR⟩ := Reachable_WF hr
    obtain ⟨hin, hbS, hbu⟩ := hb
    have hmem := InList_mem hR.pre hin
    have hbr : b ∈ rest := by
      rcases List.mem_cons.1 hmem with e | e
      · exact absurd e hbS
      · exact e
    obtain ⟨hz', -, -⟩ := Z_Free_ring hR hbr hbu hp hf
    obtain ⟨pre, post, hrest⟩ := List.append_of_mem hbr
    subst hrest
    rw [hz']
    exact Z_Free_block_unpurgeable hR hR.pre.sentUser hbS hU
  | freeTags fuel z z' _ hf ih =>
    obtain ⟨hr, hU⟩ := ih
    refine ⟨Reachable.freeTags fuel z z' hr hf, ?_⟩
    obtain ⟨rest, lo, hi, hR⟩ := Reachable_WF hr
    have hl := hR.pre.links
    rw [Seg_cons] at hl
    have hnext : (z.hdr z.mainzone_blocklist).next = firstOr rest z.mainzone_blocklist :=
      hl.1.2.1
    obtain ⟨z'', rest', h1, -, h2, -⟩ :=
      Z_FreeTags_loop_induct (fun z => Unpurgeable z) lo hi
        (fun _ _ _ _ _ hr hc hb hq => Z_Free_block_unpurgeable hr hc hb hq)
        (fuel + (rest.length + 1)) z
        (z.hdr z.mainzone_blocklist).next [] rest (by simpa using hR) hU
        (fun v hv => absurd hv (List.not_mem_nil _)) (Or.inl ⟨hnext, by omega⟩)
    have h3 := Z_FreeTags_loop_mono fuel z _ z' (rest.length + 1) hf
    rw [h3] at h1
    injection h1 with e1 e2
    rw [e1]
    exact h2

/-- C40. No purgeable block through the public interface: in every heap state reached
from `Z_Init` through the exported operations, every block in use of the list has the
tag `PU_STATIC`, `PU_LEVEL` or `PU_LEVSPEC`; hence a call of `Z_MallocStatic`,
`Z_MallocLevel`, `Z_CallocLevel` or `Z_CallocLevSpec` on such a state, however it ends,
has evicted no block and nulled no owner slot (the scan leaves the state as it is), and
does not raise the owner-required error. -/
theorem C40_public_interface (z : Zone) (h : PublicReached z) :
    (∀ v, InList z v → v ≠ z.mainzone_blocklist → (z.hdr v).user ≠ 0 →
      (z.hdr v).tag = PU_STATIC ∨ (z.hdr v).tag = PU_LEVEL ∨ (z.hdr v).tag = PU_LEVSPEC) ∧
    (∀ fuel size z1, (Z_Malloc_find fuel z size).state = some z1 → z1 = z) ∧
    (∀ fuel size, NoEvict z 0 (Z_MallocStatic fuel z size)) ∧
    (∀ fuel size user, NoEvict z user (Z_MallocLevel fuel z size user)) ∧
    (∀ sizeBits fuel m size, NoEvict z 0 (Z_CallocLevSpec sizeBits fuel z m size)) ∧
    (∀ sizeBits fuel m size, NoEvict z 0 (Z_CallocLevel sizeBits fuel z m size)) := by
  obtain ⟨hr, hU⟩ := PublicReached_unpurgeable h
  obtain ⟨rest, lo, hi, hR⟩ := Reachable_WF hr
  have hM : ∀ fuel size (tag : Int) user, tag < (PU_PURGELEVEL : Int) →
      NoEvict z user (Z_Malloc fuel z size tag user) :=
    fun fuel size tag user ht =>
      Z_Malloc_noEvict hR hU fuel size tag user (fun e => absurd e.2 (not_le.2 ht))
  refine ⟨fun v hv _ hu => hU v hv hu,
    fun fuel size z1 hs => find_no_evict hR (Unpurgeable_below hU) hs,
    fun fuel size => hM fuel size PU_STATIC 0 (by decide),
    fun fuel size user => hM fuel size PU_LEVEL user (by decide),
    fun sizeBits fuel m size => ?_, fun sizeBits fuel m size => ?_⟩
  · refine NoEvict_congr (hM fuel size PU_LEVSPEC 0 (by decide)) ?_ ?_
    · unfold Z_CallocLevSpec
      cases Z_Malloc fuel z size PU_LEVSPEC 0 <;> rfl
    · unfold Z_CallocLevSpec
      cases Z_Malloc fuel z size PU_LEVSPEC 0 <;> rfl
  · refine NoEvict_congr (hM fuel size PU_LEVEL 0 (by decide)) ?_ ?_
    · unfold Z_CallocLevel
      cases Z_Malloc fuel z size PU_LEVEL 0 <;> rfl
    · unfold Z_CallocLevel
      cases Z_Malloc fuel z size PU_LEVEL 0 <;> rfl

theorem exW3_public : PublicReached exW3 :=
  PublicReached.free exW2 (segmentToPointer 0x1001) 0x1000 exW3
    (PublicReached.mallocLevel 10 exW1 200 0x200 exW2 (segmentToPointer 0x1009)
      (PublicReached.mallocStatic 10 exInit 100 exW1 (segmentToPointer 0x1001)
        (PublicReached.init 1 exEnv exInit exEnv_ok rfl) rfl) rfl)
    ⟨⟨1, rfl⟩, by decide, by decide⟩ rfl rfl

/-- Witness for C40: the heap `exW3`, reached by `Z_Init`, `Z_MallocStatic(100)`,
`Z_MallocLevel(200, 0x200)` and `Z_Free` of the first block; its block in use, at
`0x1008`, has the tag `PU_LEVEL`. -/
theorem C40_witness :
    PublicReached exW3 ∧ (exW3.hdr 0x1008).user = 0x200 ∧ (exW3.hdr 0x1008).tag = PU_LEVEL ∧
    ((∀ v, InList exW3 v → v ≠ exW3.mainzone_blocklist → (exW3.hdr v).user ≠ 0 →
      (exW3.hdr v).tag = PU_STATIC ∨ (exW3.hdr v).tag = PU_LEVEL ∨
        (exW3.hdr v).tag = PU_LEVSPEC) ∧
    (∀ fuel size z1, (Z_Malloc_find fuel exW3 size).state = some z1 → z1 = exW3) ∧
    (∀ fuel size, NoEvict exW3 0 (Z_MallocStatic fuel exW3 size)) ∧
    (∀ fuel size user, NoEvict exW3 user (Z_MallocLevel fuel exW3 size user)) ∧
    (∀ sizeBits fuel m size, NoEvict exW3 0 (Z_CallocLevSpec sizeBits fuel exW3 m size)) ∧
    (∀ sizeBits fuel m size, NoEvict exW3 0 (Z_CallocLevel sizeBits fuel exW3 m size))) :=
  ⟨exW3_public, by decide, by decide, C40_public_interface exW3 exW3_public⟩

theorem seg_sum_arith (a sa b : Nat) (h16 : sa % 16 = 0) (hg : a + sa / 16 = b) :
    a * 16 + sa = b * 16 := by
  omega

/-- Along a well-linked segment without the sentinel the sizes add up from the start of
the first block to the end of the last one. -/
theorem seg_sum {z : Zone} {lo hi : Nat} (l : List Nat) :
    ∀ (p n a : Nat), Seg (BlockOK z lo hi) p (a :: l) n →
      (∀ v ∈ a :: l, v ≠ z.mainzone_blocklist) →
      a * 16 + sizeSum z (a :: l) =
        lastOr l a * 16 + (z.hdr (lastOr l a)).size := by
  induction l with
  | nil =>
    intro p n a _ _
    simp [sizeSum]
  | cons b l ih =>
    intro p n a hs hS
    rw [Seg_cons] at hs
    have haS := hS a (List.mem_cons_self _ _)
    have hbS := hS b (List.mem_cons_of_mem _ (List.mem_cons_self _ _))
    obtain ⟨h16, -, -, hg, -⟩ := hs.1.2.2 haS
    have hg' : a + (z.hdr a).size / 16 = b := hg hbS
    have := ih a n b hs.2 (fun v hv => hS v (List.mem_cons_of_mem _ hv))
    have e := seg_sum_arith a _ b h16 hg'
    rw [lastOr_cons]
    show a * 16 + ((z.hdr a).size + sizeSum z (b :: l)) = _
    omega

theorem tiled_arith (lo hi s p sp : Nat) (h16 : sp % 16 = 0) (ht : p + sp / 16 = hi)
    (hs : lo * 16 + s = p * 16 + sp) : lo * 16 + s = hi * 16 := by
  omega

/-- In a well-formed heap whose blocks reach from `lo` to `hi` the sizes of the blocks
other than the sentinel add up to the bytes between `lo` and `hi`. -/
theorem ring_sum {z : Zone} {lo hi : Nat} {rest : List Nat}
    (hR : Ring z z.mainzone_blocklist rest lo hi) (hT : Tiled z lo hi) :
    lo * 16 + sizeSum z rest = hi * 16 := by
  obtain ⟨t1, t2⟩ := hT
  have hl := hR.pre.links
  rw [Seg_cons] at hl
  cases rest with
  | nil =>
    simp only [firstOr_nil, lastOr_nil] at hl
    rw [hl.1.2.1] at t1
    rw [hl.1.1] at t2
    have := hR.pre.outside
    show lo * 16 + 0 = hi * 16
    omega
  | cons a l =>
    have hnd := hR.pre.nodup
    have hS : ∀ v ∈ a :: l, v ≠ z.mainzone_blocklist := by
      intro v hv e
      rw [List.nodup_cons] at hnd
      exact hnd.1 (e ▸ hv)
    have hsum := seg_sum l _ _ a hl.2 hS
    have hfirst : (z.hdr z.mainzone_blocklist).next = a := hl.1.2.1
    have hlast : (z.hdr z.mainzone_blocklist).prev = lastOr l a := hl.1.1
    rw [hfirst] at t1
    rw [hlast] at t2
    have hlm : lastOr l a ∈ z.mainzone_blocklist :: a :: l := by
      apply List.mem_cons_of_mem
      rcases lastOr_mem l a with e | e
      · rw [e]; exact List.mem_cons_self _ _
      · exact List.mem_cons_of_mem _ e
    obtain ⟨p, s, q, h1, -, -, -⟩ := Seg_ring_pair hR.pre.links hlm
    have hlS : lastOr l a ≠ z.mainzone_blocklist := by
      rcases lastOr_mem l a with e | e
      · rw [e]; exact hS a (List.mem_cons_self _ _)
      · exact hS _ (List.mem_cons_of_mem _ e)
    have h16 := (h1.2.2 hlS).1
    rw [← t1]
    exact tiled_arith a hi _ _ _ h16 t2 hsum

theorem sizeSum_le (z : Zone) (l : List Nat) (v : Nat) (hv : v ∈ l) :
    (z.hdr v).size ≤ sizeSum z l := by
  induction l with
  | nil => exact absurd hv (List.not_mem_nil _)
  | cons a l ih =>
    show _ ≤ (z.hdr a).size + sizeSum z l
    rcases List.mem_cons.1 hv with e | e
    · rw [e]; omega
    · have := ih e; omega

theorem heap_arith (a hs s : Nat) (h16 : hs % 16 = 0)
    (h : a * 16 + s = (a + hs / 16) * 16) : s = hs := by
  omega

theorem init_size_bound (n : Int) (hs : Nat) (off : Nat) (h1 : 1 ≤ n) (h2 : n ≤ 40960)
    (h : hs = (if off % 16 = 0 then 16 * n.toNat else 16 * n.toNat - 16)) :
    hs ≤ 655360 := by
  split at h <;> omega

/-- C37. Size conservation: in every heap state reached from a `Z_Init`, the size fields
of the blocks of the list other than the sentinel add up to the usable arena size
`heapSize` that `Z_Init` stored in its one block, which is at most 655360 and so below
`2 ^ 24`; every size field is at most `heapSize`. The stores into the 24-bit size field
do not truncate: after a `Z_Free` the absorbing block has the plain sum of the sizes
merged, and after a successful `Z_Malloc` the allocated block has the needed size and
the fragment split off has the plain difference, or the block keeps its size. -/
theorem C37_size_conservation (env : Env) (hE : EnvOK env) (fuel0 : Nat) (z0 : Zone)
    (hi : Z_Init fuel0 env = .ok z0 ()) (z : Zone) (h : ReachedFrom z0 z) :
    (z0.hdr (z0.hdr z0.mainzone_blocklist).next).size ≤ 655360 ∧
    (∃ rest, (z.mainzone_blocklist :: rest).Nodup ∧
      (∀ v, InList z v ↔ v ∈ z.mainzone_blocklist :: rest) ∧
      sizeSum z rest = (z0.hdr (z0.hdr z0.mainzone_blocklist).next).size) ∧
    (∀ v, InList z v → v ≠ z.mainzone_blocklist →
      (z.hdr v).size ≤ (z0.hdr (z0.hdr z0.mainzone_blocklist).next).size) ∧
    (∀ b ptr z', InUse z b → pointerToSegment ptr = some (b + 1) →
      Z_Free z ptr = .ok z' () →
      (z'.hdr (Z_Free_target z b)).size =
        (z.hdr b).size +
          (if (z.hdr (z.hdr b).prev).user = 0 then (z.hdr (z.hdr b).prev).size else 0) +
          (if (z.hdr (z.hdr b).next).user = 0 then (z.hdr (z.hdr b).next).size else 0)) ∧
    (∀ fuel size tag user z' p, Z_Malloc fuel z size tag user = .ok z' p →
      ∃ z1 b, Z_Malloc_find fuel z size = .ok z1 b ∧ p = segmentToPointer (b + 1) ∧
        Z_Malloc_size size ≤ (z1.hdr b).size ∧ (z1.hdr b).size < 2 ^ 24 ∧
        ((z1.hdr b).size - Z_Malloc_size size > MINFRAGMENT →
          (z'.hdr b).size = Z_Malloc_size size ∧
          (z'.hdr (b + Z_Malloc_size size / 16)).size =
            (z1.hdr b).size - Z_Malloc_size size) ∧
        (¬ (z1.hdr b).size - Z_Malloc_size size > MINFRAGMENT →
          (z'.hdr b).size = (z1.hdr b).size)) := by
  obtain ⟨a, hs, hR0, hT0, hsz0, hs16, hn0⟩ := Z_Init_arena hE hi
  rw [hn0, hsz0]
  have hbound : hs ≤ 655360 := by
    obtain ⟨a', n, hs', -, k1, k2, -, k3, -, -, -, -, hR0', -, hsz', -⟩ := Z_Init_facts hE hi
    have hl := hR0'.pre.links
    simp only [Seg_cons, Seg_nil, firstOr_cons, firstOr_nil, lastOr_cons, lastOr_nil,
      and_true] at hl
    have ea : a' = a := hl.1.2.1.symm.trans hn0
    rw [ea, hsz0] at hsz'
    rw [hsz']
    exact init_size_bound n hs' _ k1 k2 k3
  have hsum : ∀ z1, ReachedFrom z0 z1 → ∃ rest, (z1.mainzone_blocklist :: rest).Nodup ∧
      (∀ v, InList z1 v ↔ v ∈ z1.mainzone_blocklist :: rest) ∧ sizeSum z1 rest = hs := by
    intro z1 h1
    obtain ⟨-, ⟨rest, hR⟩, hT⟩ := ReachedFrom_arena hR0 hT0 h1
    exact ⟨rest, hR.pre.nodup, hR.pre.inList_iff, heap_arith a hs _ hs16 (ring_sum hR hT)⟩
  obtain ⟨-, ⟨rest, hR⟩, hT⟩ := ReachedFrom_arena hR0 hT0 h
  refine ⟨hbound, hsum z h, fun v hv hvS => ?_, fun b ptr z' hb hp hf => ?_,
    fun fuel size tag user z' p hm => ?_⟩
  · obtain ⟨rest1, -, hm1, hs1⟩ := hsum z h
    have hvm := (hm1 v).1 hv
    rcases List.mem_cons.1 hvm with e | e
    · exact absurd e hvS
    · rw [← hs1]; exact sizeSum_le z rest1 v e
  · obtain ⟨hin, hbS, hbu⟩ := hb
    have hmem := InList_mem hR.pre hin
    have hbr : b ∈ rest := by
      rcases List.mem_cons.1 hmem with e | e
      · exact absurd e hbS
      · exact e
    obtain ⟨hz', -, -⟩ := Z_Free_ring hR hbr hbu hp hf
    obtain ⟨pre, post, hrest⟩ := List.append_of_mem hbr
    subst hrest
    obtain ⟨-, -, hbl, -⟩ := links_split1.1 hR.pre.links
    have hsz := Z_Free_block_size hR hR.pre.sentUser hbS
    unfold Z_Free_target
    rw [hz', hbl.1, hbl.2.1]
    exact hsz
  · obtain ⟨z1, start, b, pre, post, hf, hok, hz, hp⟩ := Z_Malloc_find_inv hR hm
    obtain ⟨h16, hpos⟩ := Z_Malloc_size_facts size
    have hR1 := hok.hring
    have hbS : b ≠ z1.mainzone_blocklist := fun e => hR1.pre.sentUser (e ▸ hok.hfree)
    obtain ⟨-, -, hbl, -⟩ := links_split1.1 hR1.pre.links
    obtain ⟨hm16, hlo, hhi, -, -⟩ := hbl.2.2 hbS
    obtain ⟨t1, t2, t3, -, -, -⟩ :=
      split_tiles b (Z_Malloc_size size) (z1.hdr b).size _ _ h16 hpos hm16 hok.hbig hlo hhi
        hR1.pre.bound
    have hlt : (z1.hdr b).size < 2 ^ 24 := by
      have := hR1.pre.bound
      omega
    refine ⟨z1, b, hf, hp, hok.hbig, hlt, fun hex => ⟨?_, ?_⟩, fun hex => ?_⟩
    · rw [hz, finish_size, split_size _ _ _ _ hex, if_pos rfl, t1]
    · rw [hz, finish_size, split_size _ _ _ _ hex, if_neg t3]
      exact (if_pos rfl).trans t2
    · rw [hz, finish_size, split_none _ _ _ hex]

/-- Witness for C37: the heap `exW3`, reached from `exInit`, whose arena has 655360 bytes;
its three blocks have 128, 224 and 655008 bytes. -/
theorem C37_witness :
    EnvOK exEnv ∧ Z_Init 1 exEnv = .ok exInit () ∧ ReachedFrom exInit exW3 ∧
    (exInit.hdr (exInit.hdr exInit.mainzone_blocklist).next).size = 655360 ∧
    sizeSum exW3 [0x1000, 0x1008, 0x1016] = 655360 ∧
    ((exInit.hdr (exInit.hdr exInit.mainzone_blocklist).next).size ≤ 655360 ∧
    (∃ rest, (exW3.mainzone_blocklist :: rest).Nodup ∧
      (∀ v, InList exW3 v ↔ v ∈ exW3.mainzone_blocklist :: rest) ∧
      sizeSum exW3 rest = (exInit.hdr (exInit.hdr exInit.mainzone_blocklist).next).size) ∧
    (∀ v, InList exW3 v → v ≠ exW3.mainzone_blocklist →
      (exW3.hdr v).size ≤ (exInit.hdr (exInit.hdr exInit.mainzone_blocklist).next).size) ∧
    (∀ b ptr z', InUse exW3 b → pointerToSegment ptr = some (b + 1) →
      Z_Free exW3 ptr = .ok z' () →
      (z'.hdr (Z_Free_target exW3 b)).size =
        (exW3.hdr b).size +
          (if (exW3.hdr (exW3.hdr b).prev).user = 0 then (exW3.hdr (exW3.hdr b).prev).size
            else 0) +
          (if (exW3.hdr (exW3.hdr b).next).user = 0 then (exW3.hdr (exW3.hdr b).next).size
            else 0)) ∧
    (∀ fuel size tag user z' p, Z_Malloc fuel exW3 size tag user = .ok z' p →
      ∃ z1 b, Z_Malloc_find fuel exW3 size = .ok z1 b ∧ p = segmentToPointer (b + 1) ∧
        Z_Malloc_size size ≤ (z1.hdr b).size ∧ (z1.hdr b).size < 2 ^ 24 ∧
        ((z1.hdr b).size - Z_Malloc_size size > MINFRAGMENT →
          (z'.hdr b).size = Z_Malloc_size size ∧
          (z'.hdr (b + Z_Malloc_size size / 16)).size =
            (z1.hdr b).size - Z_Malloc_size size) ∧
        (¬ (z1.hdr b).size - Z_Malloc_size size > MINFRAGMENT →
          (z'.hdr b).size = (z1.hdr b).size))) :=
  ⟨exEnv_ok, rfl, exW3_reached, by decide, by decide,
    C37_size_conservation exEnv exEnv_ok 1 exInit rfl exW3 exW3_reached⟩

/-- One pass of the scan of `Z_Malloc` keeps the loop invariant; the pass either leaves the
state as it is and steps over the rover, or frees the rover, and then the base is the
block that absorbed it. -/
theorem scan_step_shape {z : Zone} {start lo hi base rover : Nat} {vis rem' : List Nat}
    (h : ScanInv z start lo hi base rover vis (rover :: rem')) :
    ∃ z' base' rover' vis' rem2,
      Z_Malloc_scan_body z base rover = .ok z' (base', rover') ∧
      ScanInv z' start lo hi base' rover' vis' rem2 ∧ rem2.length ≤ rem'.length ∧
      Frame z z' (start :: (vis ++ rover :: rem')) (start :: (vis' ++ rem2)) ∧
      ((z' = z ∧ rem2 = rem' ∧ ((z.hdr rover).user = 0 → base' = rover)) ∨
        ((z.hdr rover).user ≠ 0 ∧ rover ≠ z.mainzone_blocklist ∧ z' = Z_Free_block z rover ∧
          base' = (if (z.hdr (lastOr vis start)).user = 0 then lastOr vis start else rover) ∧
          rem2 = (if (z.hdr (firstOr rem' start)).user = 0 then rem'.tail else rem'))) := by
  have hR := h.hring
  obtain ⟨-, -, hrl, -⟩ := links_split1.1 hR.pre.links
  have hrin : rover ∈ start :: (vis ++ rover :: rem') := by simp
  have hnd := hR.pre.nodup
  obtain ⟨hsr, -, -, -, -, -, -, -, -, -, -⟩ := nodup_around hnd
  unfold Z_Malloc_scan_body
  by_cases hu : (z.hdr rover).user = 0
  · -- a free block: move on
    simp only [hu, ne_eq, not_true_eq_false, if_false]
    have hb : base = rover := by
      rcases h.hbase with ⟨e, -⟩ | ⟨vis0, e, hf⟩
      · exact e
      · exfalso
        subst e
        have hR' := hR
        rw [List.append_assoc] at hR'
        have hl := links_split2.1 hR'.pre.links
        have hbin : base ∈ start :: (vis0 ++ [base] ++ rover :: rem') := by simp
        have := hR.naf base hbin
        rw [show (z.hdr base).next = rover from hl.2.2.1.2.1] at this
        exact this ⟨hf, hu⟩
    refine ⟨z, base, (z.hdr rover).next, vis ++ [rover], rem', rfl, ⟨?_, h.hstart, hrl.2.1, ?_⟩,
      le_refl _, ?_, ?_⟩
    · rw [append_singleton_append]; exact hR
    · exact Or.inr ⟨vis, by rw [hb], by rw [hb]; exact hu⟩
    · rw [append_singleton_append]; exact Frame_refl _ _
    · exact Or.inl ⟨rfl, rfl, fun _ => hb⟩
  · simp only [ne_eq, hu, not_false_eq_true, if_true]
    by_cases htag : (z.hdr rover).tag < PU_PURGELEVEL
    · -- a protected block: move base past it
      simp only [htag, if_true]
      refine ⟨z, (z.hdr rover).next, (z.hdr rover).next, vis ++ [rover], rem', rfl,
        ⟨?_, h.hstart, hrl.2.1, ?_⟩, le_refl _, ?_, ?_⟩
      · rw [append_singleton_append]; exact hR
      · left
        refine ⟨rfl, ?_⟩
        rw [lastOr_append_cons]; exact hu
      · rw [append_singleton_append]; exact Frame_refl _ _
      · exact Or.inl ⟨rfl, rfl, fun e => e.elim⟩
    · -- a purgeable block: free it
      simp only [htag, if_false]
      have hrS : rover ≠ z.mainzone_blocklist := by
        intro e
        rw [e, hR.pre.sentTag] at htag
        exact htag (by decide)
      have hid : (z.hdr rover).id = ZONEID := (hrl.2.2 hrS).2.2.2.2 hu
      rw [Z_Free_eq (pointerToSegment_segmentToPointer _) hid]
      simp only []
      have hR' := Z_Free_block_ring hR h.hstart hrS
      have hF := @Frame_free z start rover vis rem' (le_of_not_lt htag)
      have hU := Z_Free_block_user z rover
      have hstart' : ((Z_Free_block z rover).hdr start).user ≠ 0 := by
        rw [hU, if_neg hsr]; exact h.hstart
      have hlen : (if (z.hdr (firstOr rem' start)).user = 0 then rem'.tail else rem').length
          ≤ rem'.length := by
        split
        · simp
        · exact le_refl _
      rcases h.hbase with ⟨e, hP⟩ | ⟨vis0, e, hf⟩
      · -- base is the rover itself
        subst e
        rw [if_neg hP] at hR' hF
        have hl := links_split1.1 (by
          have := hR'.pre.links
          rw [append_singleton_append] at this
          exact this)
        have hbl := hl.2.2.1
        have hin' : base ∈ start :: (vis ++ [base] ++
            (if (z.hdr (firstOr rem' start)).user = 0 then rem'.tail else rem')) := by simp
        have hnp := hR'.pre.next_prev hin'
        rw [hbl.1] at hnp
        rw [hrl.1, hnp, hbl.2.1]
        refine ⟨_, _, _, vis ++ [base], _, rfl, ⟨hR', hstart', rfl, ?_⟩, hlen, hF, ?_⟩
        · exact Or.inr ⟨vis, rfl, by rw [hU, if_pos rfl]⟩
        · exact Or.inr ⟨trivial, hrS, rfl, by rw [if_neg hP], rfl⟩
      · -- base is the free block before the rover
        subst e
        have hPe : lastOr (vis0 ++ [base]) start = base := by simp
        rw [hPe, if_pos hf] at hR' hF
        have hbr : base ≠ rover := fun e => hu (e ▸ hf)
        have hl := links_split1.1 (by
          have := hR'.pre.links
          rw [append_singleton_append] at this
          exact this)
        have hbl := hl.2.2.1
        have hin' : base ∈ start :: (vis0 ++ [base] ++
            (if (z.hdr (firstOr rem' start)).user = 0 then rem'.tail else rem')) := by simp
        have hnp := hR'.pre.next_prev hin'
        rw [hbl.1] at hnp
        have hold := links_split2.1 (by
          have := hR.pre.links
          rw [List.append_assoc] at this
          exact this)
        have hprev : (z.hdr base).prev = lastOr vis0 start := hold.2.2.1.1
        rw [hprev, hnp, hbl.2.1]
        refine ⟨_, _, _, vis0 ++ [base], _, rfl, ⟨hR', hstart', rfl, ?_⟩, hlen, hF, ?_⟩
        · exact Or.inr ⟨vis0, rfl, by rw [hU, if_neg hbr]; exact hf⟩
        · exact Or.inr ⟨trivial, hrS, rfl, by rw [hPe, if_pos hf], rfl⟩

/-- `Z_Free_block` stores into the size field of the block or of its predecessor only. -/
theorem Z_Free_block_size_other (z : Zone) (b v : Nat) (h1 : v ≠ b)
    (h2 : v ≠ (z.hdr b).prev) :
    ((Z_Free_block z b).hdr v).size = (z.hdr v).size := by
  have hm : ∀ w, ((markFree z b).hdr w).size = (z.hdr w).size := by
    intro w; rw [markFree_hdr]; split
    · rename_i e; rw [e]
    · rfl
  have hprev1 : ((markFree z b).hdr b).prev = (z.hdr b).prev := by
    rw [markFree_hdr, if_pos rfl]
  rw [Z_Free_block_eq]
  simp only [hprev1]
  by_cases hP : ((markFree z b).hdr (z.hdr b).prev).user = 0
  · simp only [hP, if_true]
    split
    · rw [absorb_size, if_neg h2, absorb_size, if_neg h2, hm]
    · rw [absorb_size, if_neg h2, hm]
  · simp only [hP, if_false]
    split
    · rw [absorb_size, if_neg h1, hm]
    · exact hm v

theorem size_ge_arith (n a b c : Nat) (h : n ≤ c) : n ≤ a + b + c := by
  omega

/-- Completeness of the scan: when a free block of the needed size lies ahead of the
rover and the fuel exceeds the number of blocks ahead, the scan selects a block. -/
theorem scan_complete (size start lo hi : Nat) (fuel : Nat) :
    ∀ (z : Zone) (base rover : Nat) (vis rem : List Nat),
      ScanInv z start lo hi base rover vis rem →
      (∃ v, v ∈ rem ∧ (z.hdr v).user = 0 ∧ size ≤ (z.hdr v).size) →
      rem.length < fuel →
      ∃ z' b, Z_Malloc_scan size start fuel z base rover = .ok z' b := by
  induction fuel with
  | zero => intro z base rover vis rem _ _ hf; omega
  | succ fuel ih =>
    intro z base rover vis rem h hex hf
    obtain ⟨v0, hv0, hfree0, hbig0⟩ := hex
    cases rem with
    | nil => exact absurd hv0 (List.not_mem_nil _)
    | cons r rem' =>
      have hr : rover = r := h.hrover
      subst hr
      have hR := h.hring
      have hnd := nodup_around hR.pre.nodup
      have hrs : rover ≠ start := Ne.symm hnd.1
      obtain ⟨-, -, hrl, -⟩ := links_split1.1 hR.pre.links
      obtain ⟨z1, base', rover', vis', rem2, hbody, hinv, hlen, -, hshape⟩ :=
        scan_step_shape h
      unfold Z_Malloc_scan
      rw [if_neg hrs, hbody]
      simp only []
      by_cases hcond : (z1.hdr base').user ≠ 0 ∨ (z1.hdr base').size < size
      · rw [if_pos hcond]
        have hlen' : rem2.length < fuel := by
          simp only [List.length_cons] at hf
          omega
        refine ih z1 base' rover' vis' rem2 hinv ?_ hlen'
        rcases hshape with ⟨e1, e2, e3⟩ | ⟨hu, hrS, e1, e2, e3⟩
        · subst e1 e2
          rcases List.mem_cons.1 hv0 with e | e
          · exfalso
            rw [e] at hfree0 hbig0
            rw [e3 hfree0] at hcond
            rcases hcond with c | c
            · exact c hfree0
            · omega
          · exact ⟨v0, e, hfree0, hbig0⟩
        · have hv0' : v0 ∈ rem' := by
            rcases List.mem_cons.1 hv0 with e | e
            · exact absurd (e ▸ hfree0) hu
            · exact e
          have hv0r : v0 ≠ rover := fun e => hnd.2.2.2.2.1 (e ▸ hv0')
          have hv0P : v0 ≠ (z.hdr rover).prev := by
            rw [hrl.1]
            rcases lastOr_mem vis start with e | e
            · rw [e]
              exact fun e' => hnd.2.2.1 (e' ▸ hv0')
            · exact fun e' => hnd.2.2.2.2.2.1 _ e (e' ▸ hv0')
          have hkeep : (z1.hdr v0).user = 0 ∧ size ≤ (z1.hdr v0).size := by
            rw [e1, Z_Free_block_user, if_neg hv0r, Z_Free_block_size_other z rover v0 hv0r hv0P]
            exact ⟨hfree0, hbig0⟩
          by_cases hN : (z.hdr (firstOr rem' start)).user = 0
          · rw [if_pos hN] at e3
            cases rem' with
            | nil => exact absurd hv0' (List.not_mem_nil _)
            | cons n rem3 =>
              simp only [firstOr_cons] at hN
              simp only [List.tail_cons] at e3
              rcases List.mem_cons.1 hv0' with e | e
              · exfalso
                have hsz := Z_Free_block_size hR h.hstart hrS
                simp only [firstOr_cons, hN, if_true] at hsz
                rw [← e2, ← e1] at hsz
                have hub : (z1.hdr base').user = 0 := by
                  rw [e1, e2, Z_Free_block_user]
                  by_cases hP : (z.hdr (lastOr vis start)).user = 0
                  · rw [if_pos hP]
                    split
                    · rfl
                    · exact hP
                  · rw [if_neg hP, if_pos rfl]
                rcases hcond with c | c
                · exact c hub
                · rw [e] at hbig0
                  have := size_ge_arith size (z.hdr rover).size
                    (if (z.hdr (lastOr vis start)).user = 0 then (z.hdr (lastOr vis start)).size
                      else 0) (z.hdr n).size hbig0
                  omega
              · rw [e3]
                exact ⟨v0, e, hkeep⟩
          · rw [if_neg hN] at e3
            rw [e3]
            exact ⟨v0, hv0', hkeep⟩
      · rw [if_neg hcond]
        exact ⟨z1, base', rfl⟩

/-- C33. Completeness of the scan: on a reachable heap state, with `N` the number of blocks
of the list, the sentinel included, a valid request (an owner given, or a tag below
`PU_PURGELEVEL`) returns successfully, for every fuel from `N` on, whenever the list
holds a free block whose size is at least the needed block size; and when a valid
request raises the exhaustion error, every free block of the list before the call was
smaller than the needed block size. -/
theorem C33_scan_complete (z : Zone) (h : Reachable z) (size : Nat) (tag : Int) (user : Nat)
    (hvalid : ¬ (user = 0 ∧ tag ≥ (PU_PURGELEVEL : Int))) :
    ∃ N, 0 < N ∧ nthBlock z N = z.mainzone_blocklist ∧
      (∀ F, InList z F → (z.hdr F).user = 0 → Z_Malloc_size size ≤ (z.hdr F).size →
        ∀ fuel, N ≤ fuel → ∃ z' p, Z_Malloc fuel z size tag user = .ok z' p) ∧
      (∀ fuel z', Z_Malloc fuel z size tag user = .fatal .allocFailed z' →
        ∀ F, InList z F → (z.hdr F).user = 0 → (z.hdr F).size < Z_Malloc_size size) := by
  obtain ⟨rest, lo, hi, hR⟩ := Reachable_WF h
  obtain ⟨-, hback⟩ := nthBlock_ring hR.pre
  have hok : ∀ F, InList z F → (z.hdr F).user = 0 → Z_Malloc_size size ≤ (z.hdr F).size →
      ∀ fuel, rest.length + 1 ≤ fuel → ∃ z' p, Z_Malloc fuel z size tag user = .ok z' p := by
    intro F hF hfree hbig fuel hfuel
    obtain ⟨rest0, hmem, hlen, hinv⟩ := scan_init hR
    have hFm := (hmem F).2 (InList_mem hR.pre hF)
    have hFr : F ∈ rest0 := by
      rcases List.mem_cons.1 hFm with e | e
      · exact absurd (e ▸ hfree) hinv.hstart
      · exact e
    obtain ⟨z1, b, hs⟩ := scan_complete (Z_Malloc_size size) _ lo hi fuel z _ _ [] rest0 hinv
      ⟨F, hFr, hfree, hbig⟩ (by omega)
    rw [Z_Malloc_eq, hs]
    simp only [if_neg hvalid]
    exact ⟨_, _, rfl⟩
  refine ⟨rest.length + 1, Nat.succ_pos _, hback, hok, fun fuel z' hfail F hF hfree => ?_⟩
  by_contra hbig
  obtain ⟨z2, p, hs⟩ := hok F hF hfree (by omega) (fuel + (rest.length + 1)) (by omega)
  have hmono := Z_Malloc_mono fuel z size tag user (rest.length + 1)
    (by rw [hfail]; exact fun e => by cases e)
  rw [hmono, hfail] at hs
  cases hs

/-- Witness for C33: in `exS3` the free block at `0x1000` has 32 bytes, the size needed for
`Z_Malloc(16, PU_STATIC, NULL)`, which returns; `Z_Malloc(700000, PU_STATIC, NULL)` raises
the exhaustion error. -/
theorem C33_witness :
    Reachable exS3 ∧ InList exS3 0x1000 ∧ (exS3.hdr 0x1000).user = 0 ∧
    Z_Malloc_size 16 ≤ (exS3.hdr 0x1000).size ∧
    (Z_Malloc 4 exS3 16 1 0).val = some (segmentToPointer 0x1005) ∧
    (Z_Malloc 4 exS3 700000 1 0).err = some ZErr.allocFailed ∧
    (∃ N, 0 < N ∧ nthBlock exS3 N = exS3.mainzone_blocklist ∧
      (∀ F, InList exS3 F → (exS3.hdr F).user = 0 → Z_Malloc_size 16 ≤ (exS3.hdr F).size →
        ∀ fuel, N ≤ fuel → ∃ z' p, Z_Malloc fuel exS3 16 1 0 = .ok z' p) ∧
      (∀ fuel z', Z_Malloc fuel exS3 16 1 0 = .fatal .allocFailed z' →
        ∀ F, InList exS3 F → (exS3.hdr F).user = 0 →
          (exS3.hdr F).size < Z_Malloc_size 16)) :=
  ⟨exS3_reachable, ⟨1, rfl⟩, by decide, by decide, by decide, by decide,
    C33_scan_complete exS3 exS3_reachable 16 1 0 (by decide)⟩

/-- One pass of the loop of `Z_CheckHeap` at a block that is not the last one. -/
theorem checkHeap_step_any (fuel : Nat) (z : Zone) (b : Nat)
    (hn : (z.hdr b).next ≠ z.mainzone_blocklist) :
    Z_CheckHeap_loop (fuel + 1) z b =
      if (z.hdr b).id ≠ ZONEID then .fatal .checkId z
      else
        match spec_violation z b with
        | some e => .fatal e z
        | none => Z_CheckHeap_loop fuel z (z.hdr b).next := by
  by_cases hid : (z.hdr b).id ≠ ZONEID
  · rw [Z_CheckHeap_loop, if_neg hn, if_pos hid, if_pos hid]
  · rw [if_neg hid]
    exact checkHeap_step fuel z b hn (not_not.1 hid)

/-- The loop of `Z_CheckHeap` from the `n`-th block of the walk, when the block `j` steps
further on is the first one that violates a structural condition and no block up to it
is the last one: a fatal error is raised, that of the violation when the blocks up to
it carry `ZONEID`. -/
theorem checkHeap_loop_detect (z : Zone) (e : ZErr) : ∀ (j n fuel : Nat), j < fuel →
    (∀ i, i ≤ j → (z.hdr (nthBlock z (n + i))).next ≠ z.mainzone_blocklist) →
    (∀ i, i < j → spec_violation z (nthBlock z (n + i)) = none) →
    spec_violation z (nthBlock z (n + j)) = some e →
    (∃ e', Z_CheckHeap_loop fuel z (nthBlock z n) = .fatal e' z) ∧
    ((∀ i, i ≤ j → (z.hdr (nthBlock z (n + i))).id = ZONEID) →
      Z_CheckHeap_loop fuel z (nthBlock z n) = .fatal e z) := by
  intro j
  induction j with
  | zero =>
    intro n fuel hf hmin _ hv
    obtain ⟨f, rfl⟩ : ∃ f, fuel = f + 1 := ⟨fuel - 1, by omega⟩
    have hstep := checkHeap_step_any f z (nthBlock z n) (hmin 0 (le_refl _))
    have hv0 : spec_violation z (nthBlock z n) = some e := hv
    rw [hstep, hv0]
    refine ⟨?_, fun hid => ?_⟩
    · by_cases hid : (z.hdr (nthBlock z n)).id ≠ ZONEID
      · exact ⟨_, if_pos hid⟩
      · exact ⟨_, if_neg hid⟩
    · have h0 : (z.hdr (nthBlock z n)).id = ZONEID := hid 0 (le_refl _)
      exact if_neg (not_not.2 h0)
  | succ j ih =>
    intro n fuel hf hmin hbefore hv
    obtain ⟨f, rfl⟩ : ∃ f, fuel = f + 1 := ⟨fuel - 1, by omega⟩
    have hstep := checkHeap_step_any f z (nthBlock z n) (hmin 0 (Nat.zero_le _))
    have h0 : spec_violation z (nthBlock z n) = none := hbefore 0 (Nat.succ_pos j)
    have hsh : ∀ i, n + 1 + i = n + (i + 1) := fun i => by omega
    obtain ⟨ih1, ih2⟩ := ih (n + 1) f (by omega)
      (fun i hi => by rw [hsh]; exact hmin (i + 1) (Nat.succ_le_succ hi))
      (fun i hi => by rw [hsh]; exact hbefore (i + 1) (Nat.succ_lt_succ hi))
      (by rw [hsh]; exact hv)
    rw [hstep, h0]
    refine ⟨?_, fun hid => ?_⟩
    · by_cases hid : (z.hdr (nthBlock z n)).id ≠ ZONEID
      · exact ⟨_, if_pos hid⟩
      · rw [if_neg hid]; exact ih1
    · have hi0 : (z.hdr (nthBlock z n)).id = ZONEID := hid 0 (Nat.zero_le _)
      rw [if_neg (not_not.2 hi0)]
      exact ih2 (fun i hi => by rw [hsh]; exact hid (i + 1) (Nat.succ_le_succ hi))

/-- Among the blocks of the walk up to one that violates a structural condition there is
a first one that does. -/
theorem first_violation (z : Zone) (j : Nat)
    (hv : spec_violation z (nthBlock z (j + 1)) ≠ none) :
    ∃ j0 e, j0 ≤ j ∧ spec_violation z (nthBlock z (j0 + 1)) = some e ∧
      ∀ i, i < j0 → spec_violation z (nthBlock z (i + 1)) = none := by
  have hex : ∃ i, spec_violation z (nthBlock z (i + 1)) ≠ none := ⟨j, hv⟩
  refine ⟨Nat.find hex, ?_⟩
  have hspec := Nat.find_spec hex
  obtain ⟨e, he⟩ := Option.ne_none_iff_exists'.1 hspec
  refine ⟨e, Nat.find_min' hex hv, he, fun i hi => ?_⟩
  exact not_not.1 (Nat.find_min hex hi)

/-- C23 as stated fails: the one block of `exInit`, at `0x1000`, is in the list, is not
the sentinel, and its end `0xB000` is not its `next` (the sentinel, `0x800`), yet
`Z_CheckHeap` returns normally: the loop leaves at the block whose `next` is the
sentinel before any test. And in the 8088 build the id test comes first: in `exE` no
block before the last one violates any of the three conditions, yet `Z_CheckHeap`
stops at the free block at `0x1002`, which carries no `ZONEID`; in `exBadId` the first
violation is the size of the block at `0x1008`, and the error reported is still the id
of the block at `0x1002`. -/
theorem C23_counterexample :
    (Reachable exInit ∧ InList exInit 0x1000 ∧ 0x1000 ≠ exInit.mainzone_blocklist ∧
      0x1000 + (exInit.hdr 0x1000).size / 16 ≠ (exInit.hdr 0x1000).next ∧
      spec_violation exInit 0x1000 = some ZErr.checkSize ∧
      (exInit.hdr 0x1000).next = exInit.mainzone_blocklist ∧
      Z_CheckHeap 10 exInit = .ok exInit ()) ∧
    ((exE.hdr (nthBlock exE (3 + 1))).next = exE.mainzone_blocklist ∧
      (∀ i, i < 3 → spec_violation exE (nthBlock exE (i + 1)) = none) ∧
      (exE.hdr (nthBlock exE (1 + 1))).id ≠ ZONEID ∧
      Z_CheckHeap 10 exE = .fatal ZErr.checkId exE) ∧
    ((∀ i, i < 2 → spec_violation exBadId (nthBlock exBadId (i + 1)) = none) ∧
      spec_violation exBadId (nthBlock exBadId (2 + 1)) = some ZErr.checkSize ∧
      (exBadId.hdr (nthBlock exBadId (1 + 1))).id ≠ ZONEID ∧
      Z_CheckHeap 10 exBadId = .fatal ZErr.checkId exBadId) :=
  ⟨⟨exInit_reachable, ⟨1, rfl⟩, by decide, by decide, by decide, by decide, rfl⟩,
    ⟨by decide, by decide, by decide, rfl⟩, ⟨by decide, by decide, by decide, rfl⟩⟩

/-- C23, amended. `Z_CheckHeap` detects structural violations of the blocks before the
last one. Let the walk from the sentinel's `next` meet a block `B` that violates one of
the three conditions (its end does not abut its `next`; the `prev` of its `next` is not
`B`; `B` and its `next` are both free), no block up to `B` being the last one (the
block whose `next` is the sentinel, at which the loop stops without a test). Then
`Z_CheckHeap`, with fuel for the walk up to `B`, raises a fatal error and leaves the
heap as it is; when the blocks up to the first violating one carry `ZONEID`, the error
is that of the first violation in list order, for one block in the order size check,
back link, adjacent free. When the walk reaches the last block after `k` steps and the
`k` blocks before it carry `ZONEID` and violate none of the three conditions,
`Z_CheckHeap` returns normally and leaves the heap unchanged. -/
theorem C23_check_heap (z : Zone) :
    (∀ j fuel, j < fuel →
      (∀ i, i ≤ j → (z.hdr (nthBlock z (i + 1))).next ≠ z.mainzone_blocklist) →
      spec_violation z (nthBlock z (j + 1)) ≠ none →
      ∃ e', Z_CheckHeap fuel z = .fatal e' z) ∧
    (∀ j e fuel, j < fuel →
      (∀ i, i ≤ j → (z.hdr (nthBlock z (i + 1))).next ≠ z.mainzone_blocklist) →
      (∀ i, i < j → spec_violation z (nthBlock z (i + 1)) = none) →
      spec_violation z (nthBlock z (j + 1)) = some e →
      (∀ i, i ≤ j → (z.hdr (nthBlock z (i + 1))).id = ZONEID) →
      Z_CheckHeap fuel z = .fatal e z) ∧
    (∀ k fuel, k < fuel →
      (z.hdr (nthBlock z (k + 1))).next = z.mainzone_blocklist →
      (∀ i, i < k → (z.hdr (nthBlock z (i + 1))).next ≠ z.mainzone_blocklist) →
      (∀ i, i < k → (z.hdr (nthBlock z (i + 1))).id = ZONEID) →
      (∀ i, i < k → spec_violation z (nthBlock z (i + 1)) = none) →
      Z_CheckHeap fuel z = .ok z ()) := by
  have hsh : ∀ j, 1 + j = j + 1 := fun j => by omega
  refine ⟨fun j fuel hf hmin hv => ?_, fun j e fuel hf hmin hbefore hv hid => ?_,
    fun k fuel hf hk hmin hid hall => ?_⟩
  · obtain ⟨j0, e, hj0, he, hfirst⟩ := first_violation z j hv
    exact (checkHeap_loop_detect z e j0 1 fuel (by omega)
      (fun i hi => by rw [hsh]; exact hmin i (by omega))
      (fun i hi => by rw [hsh]; exact hfirst i hi) (by rw [hsh]; exact he)).1
  · exact (checkHeap_loop_detect z e j 1 fuel hf
      (fun i hi => by rw [hsh]; exact hmin i hi)
      (fun i hi => by rw [hsh]; exact hbefore i hi) (by rw [hsh]; exact hv)).2
      (fun i hi => by rw [hsh]; exact hid i hi)
  · exact (checkHeap_loop_spec z k 1 fuel (by rw [hsh]; exact hk)
      (fun j hj => by rw [hsh]; exact hmin j hj) (fun j hj => by rw [hsh]; exact hid j hj)
      hf).1 (fun j hj => by rw [hsh]; exact hall j hj)

/-- Witness for C23: the walk of `exW3` meets the blocks at `0x1000` and `0x1008`, which
carry `ZONEID` and violate nothing, then the last block at `0x1016`, and `Z_CheckHeap`
returns; in `exBadSize` the second block violates the size check, and `Z_CheckHeap`
raises that error. -/
theorem C23_witness :
    ((exW3.hdr (nthBlock exW3 (2 + 1))).next = exW3.mainzone_blocklist ∧
      (∀ j, j < 2 → (exW3.hdr (nthBlock exW3 (j + 1))).next ≠ exW3.mainzone_blocklist) ∧
      (∀ j, j < 2 → (exW3.hdr (nthBlock exW3 (j + 1))).id = ZONEID) ∧
      (∀ j, j < 2 → spec_violation exW3 (nthBlock exW3 (j + 1)) = none) ∧
      Z_CheckHeap 10 exW3 = .ok exW3 ()) ∧
    ((∀ j, j ≤ 1 →
        (exBadSize.hdr (nthBlock exBadSize (j + 1))).next ≠ exBadSize.mainzone_blocklist) ∧
      (∀ j, j ≤ 1 → (exBadSize.hdr (nthBlock exBadSize (j + 1))).id = ZONEID) ∧
      spec_violation exBadSize (nthBlock exBadSize (1 + 1)) = some ZErr.checkSize ∧
      (∀ i, i < 1 → spec_violation exBadSize (nthBlock exBadSize (i + 1)) = none) ∧
      (∃ e', Z_CheckHeap 10 exBadSize = .fatal e' exBadSize) ∧
      Z_CheckHeap 10 exBadSize = .fatal ZErr.checkSize exBadSize) :=
  have a1 : (exW3.hdr (nthBlock exW3 (2 + 1))).next = exW3.mainzone_blocklist := by decide
  have a2 : ∀ j, j < 2 →
      (exW3.hdr (nthBlock exW3 (j + 1))).next ≠ exW3.mainzone_blocklist := by decide
  have a3 : ∀ j, j < 2 → (exW3.hdr (nthBlock exW3 (j + 1))).id = ZONEID := by decide
  have a4 : ∀ j, j < 2 → spec_violation exW3 (nthBlock exW3 (j + 1)) = none := by decide
  have b2 : ∀ j, j ≤ 1 →
      (exBadSize.hdr (nthBlock exBadSize (j + 1))).next ≠ exBadSize.mainzone_blocklist := by
    decide
  have b3 : ∀ j, j ≤ 1 → (exBadSize.hdr (nthBlock exBadSize (j + 1))).id = ZONEID := by
    decide
  have b4 : spec_violation exBadSize (nthBlock exBadSize (1 + 1)) = some ZErr.checkSize := by
    decide
  have b5 : ∀ i, i < 1 → spec_violation exBadSize (nthBlock exBadSize (i + 1)) = none := by
    decide
  ⟨⟨a1, a2, a3, a4, (C23_check_heap exW3).2.2 2 10 (by decide) a1 a2 a3 a4⟩,
    ⟨b2, b3, b4, b5,
      (C23_check_heap exBadSize).1 1 10 (by decide) b2 (by rw [b4]; exact fun e => nomatch e),
      (C23_check_heap exBadSize).2.1 1 ZErr.checkSize 10 (by decide) b2 b5 b4 b3⟩⟩

/-- C17 as stated fails: the far pointer `FFFF:0010` is aligned, its linear address is
`0x100000` and its paragraph index `0x10000`, which does not fit the 16-bit handle:
`pointerToSegment` returns the handle 0. -/
theorem C17_counterexample :
    (FarPtr.mk 0xFFFF 0x10).linear = 0x100000 ∧ (FarPtr.mk 0xFFFF 0x10).linear % 16 = 0 ∧
      (0xFFFF * 16 + 0x10) / 16 = 0x10000 ∧
      pointerToSegment16 ⟨0xFFFF, 0x10⟩ = some 0 ∧
      pointerToSegment16 ⟨0xFFFF, 0x10⟩ ≠ some ((0xFFFF * 16 + 0x10) / 16) :=
  ⟨by decide, by decide, by decide, by decide, by decide⟩

/-- C17, amended. `pointerToSegment(ptr)` raises the alignment error exactly when the
address of `ptr` (its linear address `seg * 16 + off`) is not a multiple of 16. For
every other far pointer (segment and offset part of 16 bits) it returns the paragraph
index `(seg * 16 + off) / 16` reduced to the 16 bits of a handle, which is the
paragraph index itself whenever the linear address is below `2^20`; there it is the
value of the handle arithmetic on natural numbers used for the block list. -/
theorem C17_alignment_fault (ptr : FarPtr) :
    (pointerToSegment16 ptr = none ↔ ptr.linear % 16 ≠ 0) ∧
    (pointerToSegment16 ptr = none ↔ (ptr.seg * 16 + ptr.off) % 16 ≠ 0) ∧
    (pointerToSegment16 ptr = none ↔ pointerToSegment ptr = none) ∧
    (ptr.seg < 65536 → ptr.off < 65536 → (ptr.seg * 16 + ptr.off) % 16 = 0 →
      pointerToSegment16 ptr = some ((ptr.seg * 16 + ptr.off) / 16 % 65536)) ∧
    ((ptr.seg * 16 + ptr.off) % 16 = 0 → ptr.seg * 16 + ptr.off < 2 ^ 20 →
      pointerToSegment16 ptr = some ((ptr.seg * 16 + ptr.off) / 16) ∧
      pointerToSegment ptr = some ((ptr.seg * 16 + ptr.off) / 16)) := by
  have hb : ptr.bits % 16 = (ptr.seg * 16 + ptr.off) % 16 := by
    show (ptr.seg * 65536 + ptr.off) % 16 = _
    omega
  have hl : ptr.linear = ptr.seg * 16 + ptr.off := rfl
  have hP : (PARAGRAPH_SIZE : Nat) = 16 := rfl
  have h16 : pointerToSegment16 ptr =
      if (ptr.seg * 16 + ptr.off) % 16 = 0
        then some ((ptr.seg * 16 + ptr.off) % 2 ^ 32 / 16 % 65536)
      else none := by
    unfold pointerToSegment16 toSegment
    simp only [hP, hb]
    by_cases e : (ptr.seg * 16 + ptr.off) % 16 = 0
    · rw [if_neg (not_not.2 e), if_pos e]
    · rw [if_pos e, if_neg e]
  have hp : pointerToSegment ptr =
      if (ptr.seg * 16 + ptr.off) % 16 = 0 then some ((ptr.seg * 16 + ptr.off) / 16)
      else none := by
    unfold pointerToSegment
    simp only [hP, hb]
    by_cases e : (ptr.seg * 16 + ptr.off) % 16 = 0
    · rw [if_neg (not_not.2 e), if_pos e]
    · rw [if_pos e, if_neg e]
  refine ⟨?_, ?_, ?_, fun hs ho e => ?_, fun e hlt => ⟨?_, ?_⟩⟩
  · rw [h16, hl]
    by_cases e : (ptr.seg * 16 + ptr.off) % 16 = 0
    · rw [if_pos e]; simp [e]
    · rw [if_neg e]; simp [e]
  · rw [h16]
    by_cases e : (ptr.seg * 16 + ptr.off) % 16 = 0
    · rw [if_pos e]; simp [e]
    · rw [if_neg e]; simp [e]
  · rw [h16, hp]
    by_cases e : (ptr.seg * 16 + ptr.off) % 16 = 0
    · rw [if_pos e, if_pos e]; simp
    · rw [if_neg e, if_neg e]
  · rw [h16, if_pos e]
    have : (ptr.seg * 16 + ptr.off) % 2 ^ 32 = ptr.seg * 16 + ptr.off :=
      Nat.mod_eq_of_lt (by omega)
    rw [this]
  · rw [h16, if_pos e]
    have h1 : (ptr.seg * 16 + ptr.off) % 2 ^ 32 = ptr.seg * 16 + ptr.off :=
      Nat.mod_eq_of_lt (by omega)
    have h2 : (ptr.seg * 16 + ptr.off) / 16 % 65536 = (ptr.seg * 16 + ptr.off) / 16 :=
      Nat.mod_eq_of_lt (by omega)
    rw [h1, h2]
  · rw [hp, if_pos e]

/-- Witness for C17: the aligned pointer `1001:0000` gives the handle `0x1001`, the
pointer `1001:0008` the alignment error. -/
theorem C17_witness :
    pointerToSegment16 ⟨0x1001, 0⟩ = some 0x1001 ∧
      pointerToSegment ⟨0x1001, 0⟩ = some 0x1001 ∧
      pointerToSegment16 ⟨0x1001, 8⟩ = none ∧ (FarPtr.mk 0x1001 8).linear % 16 ≠ 0 :=
  have h := C17_alignment_fault ⟨0x1001, 0⟩
  have h2 := (C17_alignment_fault ⟨0x1001, 8⟩).1
  ⟨(h.2.2.2.2 (by decide) (by decide)).1, (h.2.2.2.2 (by decide) (by decide)).2,
    h2.2 (by decide), by decide⟩

/-- For a request up to `2^31 - 32` the 32-bit computation of the needed size does not
wrap: it is the computation on natural numbers. -/
theorem Z_Malloc_size32_eq (size : Nat) (h : size ≤ 2 ^ 31 - 32) :
    Z_Malloc_size32 size = Z_Malloc_size size := by
  have hs : Z_Malloc_size size = (size + 15) / 16 * 16 + 16 := rfl
  have h1 : (size + 15) % 2 ^ 32 = size + 15 := Nat.mod_eq_of_lt (by omega)
  have h2 := land_mask16 (size + 15) (by omega)
  show ((((size + 15) % 2 ^ 32) &&& (2 ^ 32 - 1 - 15)) + 16) % 2 ^ 32 = _
  rw [h1, h2, hs]
  exact Nat.mod_eq_of_lt (by omega)

/-- For a request up to `2^31 - 32` the needed size, as the `int32_t` the source computes,
is the rounded request plus the header. -/
theorem toInt32_size (size : Nat) (h : size ≤ 2 ^ 31 - 32) :
    toInt32 (Z_Malloc_size32 size) = Int.ofNat (Z_Malloc_size size) := by
  have hs : Z_Malloc_size size = (size + 15) / 16 * 16 + 16 := rfl
  have hlt : Z_Malloc_size size < 2147483648 := by rw [hs]; omega
  have hm : Z_Malloc_size size % 4294967296 = Z_Malloc_size size :=
    Nat.mod_eq_of_lt (by omega)
  unfold toInt32
  rw [Z_Malloc_size32_eq size h, hm, if_pos hlt]

/-- C4 as stated fails: `Z_Malloc(655296, PU_STATIC, NULL)` right after `Z_Init` finds
the free block of 655360 bytes; the 48 bytes left over are not split off, so the
payload of the allocated block is 655344 bytes, not the rounded request 655296.
And for a request above `2^31 - 32` the needed size overflows the `int32_t` it is
computed in: for 2147483647 lines 260 and 268 give the word `0x80000010`, the value
-2147483632, not the rounded request plus 16, so that the needed size is below the
size of every block. -/
theorem C4_counterexample :
    Reachable exInit ∧
      (Z_Malloc 10 exInit 655296 1 0).val = some (segmentToPointer 0x1001) ∧
      (((Z_Malloc 10 exInit 655296 1 0).zoneD exDefault).hdr 0x1000).size - 16 = 655344 ∧
      (((Z_Malloc 10 exInit 655296 1 0).zoneD exDefault).hdr 0x1000).size - 16 ≠
        (655296 + 15) / 16 * 16 ∧
      Z_Malloc_size32 2147483647 = 0x80000010 ∧
      toInt32 (Z_Malloc_size32 2147483647) = -2147483632 ∧
      toInt32 (Z_Malloc_size32 2147483647) < ((exInit.hdr 0x1000).size : Int) ∧
      toInt32 (Z_Malloc_size32 2147483647) ≠ Int.ofNat ((2147483647 + 15) / 16 * 16 + 16) :=
  ⟨exInit_reachable, by decide, by decide, by decide, by decide, by decide, by decide,
    by decide⟩

/-- C4, amended. For every successful `Z_Malloc(size, tag, user)` on a reachable heap
state the returned address is paragraph-aligned (offset part 0, linear address a
multiple of 16) and the header of the allocated block is one paragraph before it; and
when `size` is at most `2^31 - 32`, so that the 32-bit computation of the needed size
does not overflow, the payload of that block (size field minus the 16-byte header) is
at least `size` rounded up to a multiple of 16 and exceeds it by at most
`MINFRAGMENT` = 64 bytes. -/
theorem C4_alloc_payload (z : Zone) (h : Reachable z) (fuel size : Nat) (tag : Int)
    (user : Nat) (z' : Zone) (p : FarPtr)
    (hm : Z_Malloc fuel z size tag user = .ok z' p) :
    p.off = 0 ∧ p.linear % 16 = 0 ∧ 1 ≤ p.seg ∧
      (size ≤ 2 ^ 31 - 32 →
        toInt32 (Z_Malloc_size32 size) = Int.ofNat ((size + 15) / 16 * 16 + 16) ∧
        (size + 15) / 16 * 16 ≤ (z'.hdr (p.seg - 1)).size - 16 ∧
        (z'.hdr (p.seg - 1)).size - 16 ≤ (size + 15) / 16 * 16 + 64 ∧
        16 ≤ (z'.hdr (p.seg - 1)).size ∧ (z'.hdr (p.seg - 1)).size % 16 = 0) := by
  obtain ⟨rest, lo, hi, hR⟩ := Reachable_WF h
  obtain ⟨z1, start, b, pre, post, hok, -, hz, hp⟩ := Z_Malloc_ok_inv hR hm
  subst hz hp
  have hbS : b ≠ z1.mainzone_blocklist := fun e => hok.hring.pre.sentUser (e ▸ hok.hfree)
  obtain ⟨-, -, hbl, -⟩ := links_split1.1 hok.hring.pre.links
  obtain ⟨hm16, hlo, hhi, -, -⟩ := hbl.2.2 hbS
  have hbd := hok.hring.pre.bound
  have hbig := hok.hbig
  have hsz : Z_Malloc_size size = (size + 15) / 16 * 16 + 16 := rfl
  have hseg : (segmentToPointer (b + 1)).seg - 1 = b := rfl
  rw [hseg, finish_size]
  refine ⟨rfl, ?_, Nat.succ_le_succ (Nat.zero_le _),
    fun hs32 => ⟨toInt32_size size hs32, ?_⟩⟩
  · show ((b + 1) * 16 + 0) % 16 = 0
    omega
  · by_cases hex : (z1.hdr b).size - Z_Malloc_size size > MINFRAGMENT
    · rw [split_size _ _ _ _ hex, if_pos rfl]
      have : Z_Malloc_size size % 2 ^ 24 = Z_Malloc_size size :=
        Nat.mod_eq_of_lt (by omega)
      rw [this, hsz]
      omega
    · rw [split_none _ _ _ hex]
      unfold MINFRAGMENT at hex
      omega

/-- Witness for C4: `Z_Malloc(112, PU_STATIC, NULL)` right after `Z_Init`. -/
theorem C4_witness :
    Reachable exInit ∧
      Z_Malloc 10 exInit 112 1 0 = .ok exA (segmentToPointer 0x1001) ∧
      (segmentToPointer 0x1001).off = 0 ∧ (segmentToPointer 0x1001).linear % 16 = 0 ∧
      1 ≤ (segmentToPointer 0x1001).seg ∧ 112 ≤ 2 ^ 31 - 32 ∧
      toInt32 (Z_Malloc_size32 112) = Int.ofNat ((112 + 15) / 16 * 16 + 16) ∧
      (112 + 15) / 16 * 16 ≤ (exA.hdr ((segmentToPointer 0x1001).seg - 1)).size - 16 ∧
      (exA.hdr ((segmentToPointer 0x1001).seg - 1)).size - 16 ≤ (112 + 15) / 16 * 16 + 64 ∧
      16 ≤ (exA.hdr ((segmentToPointer 0x1001).seg - 1)).size ∧
      (exA.hdr ((segmentToPointer 0x1001).seg - 1)).size % 16 = 0 :=
  have h := C4_alloc_payload exInit exInit_reachable 10 112 1 0 exA (segmentToPointer 0x1001)
    rfl
  ⟨exInit_reachable, rfl, h.1, h.2.1, h.2.2.1, by decide, h.2.2.2 (by decide)⟩

/-- C11. Split threshold: a successful `Z_Malloc` has selected a free region `b` of size
`R` (in the state `z1` its scan left) for the needed block size `N`, the rounded request
plus the 16-byte header, which for a request up to `2^31 - 32` is the value the 32-bit
computation of the source gives and is at most `R`. If `R - N > 64` the
allocated block gets size `N` and is immediately followed by a new block of the list,
free, of size `R - N`, whose `prev` is the allocated block and whose `next` is the
former successor of the region, whose `prev` now is the new block; the two blocks
cover the region exactly, so no gap arises. Otherwise no block is created and the
allocated block keeps the whole size `R`. -/
theorem C11_split_threshold (z : Zone) (h : Reachable z) (fuel size : Nat) (tag : Int)
    (user : Nat) (z' : Zone) (p : FarPtr)
    (hm : Z_Malloc fuel z size tag user = .ok z' p) :
    ∃ z1 b, Z_Malloc_find fuel z size = .ok z1 b ∧ p = segmentToPointer (b + 1) ∧
      (z1.hdr b).user = 0 ∧ InList z1 b ∧
      (size ≤ 2 ^ 31 - 32 →
        toInt32 (Z_Malloc_size32 size) = Int.ofNat (Z_Malloc_size size) ∧
        Z_Malloc_size size ≤ (z1.hdr b).size) ∧
      ((z1.hdr b).size - Z_Malloc_size size > MINFRAGMENT →
        (z'.hdr b).size = Z_Malloc_size size ∧
        (z'.hdr b).next = b + Z_Malloc_size size / 16 ∧
        b * 16 + Z_Malloc_size size = (b + Z_Malloc_size size / 16) * 16 ∧
        ¬ InList z1 (b + Z_Malloc_size size / 16) ∧
        InList z' (b + Z_Malloc_size size / 16) ∧
        (z'.hdr (b + Z_Malloc_size size / 16)).user = 0 ∧
        (z'.hdr (b + Z_Malloc_size size / 16)).size = (z1.hdr b).size - Z_Malloc_size size ∧
        (z'.hdr (b + Z_Malloc_size size / 16)).prev = b ∧
        (z'.hdr (b + Z_Malloc_size size / 16)).next = (z1.hdr b).next ∧
        (z'.hdr (z1.hdr b).next).prev = b + Z_Malloc_size size / 16 ∧
        (b + Z_Malloc_size size / 16) * 16 + ((z1.hdr b).size - Z_Malloc_size size) =
          b * 16 + (z1.hdr b).size ∧
        ((z1.hdr b).next ≠ z1.mainzone_blocklist →
          (b + Z_Malloc_size size / 16) * 16 + ((z1.hdr b).size - Z_Malloc_size size) =
            (z1.hdr b).next * 16)) ∧
      (¬ (z1.hdr b).size - Z_Malloc_size size > MINFRAGMENT →
        (z'.hdr b).size = (z1.hdr b).size ∧ (z'.hdr b).next = (z1.hdr b).next ∧
        (z'.hdr (z1.hdr b).next).prev = b ∧ ∀ v, InList z' v ↔ InList z1 v) := by
  obtain ⟨rest, lo, hi, hR⟩ := Reachable_WF h
  obtain ⟨z1, start, b, pre, post, hf, hok, hz, hp⟩ := Z_Malloc_find_inv hR hm
  obtain ⟨h16, hpos⟩ := Z_Malloc_size_facts size
  have hR1 := hok.hring
  have hbS : b ≠ z1.mainzone_blocklist := fun e => hR1.pre.sentUser (e ▸ hok.hfree)
  obtain ⟨-, -, hbl, -⟩ := links_split1.1 hR1.pre.links
  obtain ⟨hm16, hlo, hhi, hgap, -⟩ := hbl.2.2 hbS
  have hnext1 : (z1.hdr b).next = firstOr post start := hbl.2.1
  have hR' := Z_Malloc_finish_ring tag user hok
  rw [← hz] at hR'
  obtain ⟨t1, t2, t3, t4, t5, t6⟩ :=
    split_tiles b (Z_Malloc_size size) (z1.hdr b).size lo hi h16 hpos hm16 hok.hbig hlo hhi
      hR1.pre.bound
  have hb1 : b ∈ start :: (pre ++ b :: post) := by simp
  refine ⟨z1, b, hf, hp, hok.hfree, (hR1.pre.inList_iff b).2 hb1,
    fun hs32 => ⟨toInt32_size size hs32, hok.hbig⟩, fun hex => ?_,
    fun hex => ?_⟩
  · rw [if_pos hex] at hR'
    have hR2 : Ring z' start (pre ++ b :: (b + Z_Malloc_size size / 16) :: post) lo hi := hR'
    have hnbm : b + Z_Malloc_size size / 16 ∈
        start :: (pre ++ b :: (b + Z_Malloc_size size / 16) :: post) := by simp
    have hbm : b ∈ start :: (pre ++ b :: (b + Z_Malloc_size size / 16) :: post) := by simp
    have hsb : ((z'.hdr b).next) = b + Z_Malloc_size size / 16 := by
      rw [hz, finish_next, split_next _ _ _ _ hex, if_pos rfl]; rfl
    have hsn : (z'.hdr (b + Z_Malloc_size size / 16)).next = (z1.hdr b).next := by
      rw [hz, finish_next, split_next _ _ _ _ hex, if_neg t3]
      exact if_pos rfl
    have hnd : (start :: ((pre ++ [b]) ++ (b + Z_Malloc_size size / 16) :: post)).Nodup := by
      have := hR2.pre.nodup
      rwa [append_singleton_append]
    obtain ⟨n1, -, -, n2, n3, -⟩ := nodup_around hnd
    refine ⟨?_, hsb, t4, ?_, (hR2.pre.inList_iff _).2 hnbm, ?_, ?_, ?_, hsn, ?_, t5, ?_⟩
    · rw [hz, finish_size, split_size _ _ _ _ hex, if_pos rfl, t1]
    · intro hin
      have hmem := (hR1.pre.inList_iff _).1 hin
      rcases List.mem_cons.1 hmem with e | e
      · exact n1 e.symm
      · rcases List.mem_append.1 e with e | e
        · exact n2 (List.mem_append_left _ e)
        · rcases List.mem_cons.1 e with e | e
          · exact t3 e
          · exact n3 e
    · rw [hz, finish_user, if_neg t3, split_user _ _ _ _ hex]
      exact if_pos rfl
    · rw [hz, finish_size, split_size _ _ _ _ hex, if_neg t3]
      exact (if_pos rfl).trans t2
    · have := hR2.pre.prev_next hbm
      rwa [hsb] at this
    · have := hR2.pre.prev_next hnbm
      rwa [hsn] at this
    · intro hne
      exact t6 _ ((hgap (hnext1 ▸ hne)).trans hnext1.symm)
  · rw [if_neg hex] at hR'
    have hR2 : Ring z' start (pre ++ b :: post) lo hi := hR'
    have hsb : (z'.hdr b).next = (z1.hdr b).next := by
      rw [hz, finish_next, split_none _ _ _ hex]
    refine ⟨?_, hsb, ?_, fun v => ?_⟩
    · rw [hz, finish_size, split_none _ _ _ hex]
    · have := hR2.pre.prev_next hb1
      rwa [hsb] at this
    · rw [hR2.pre.inList_iff, hR1.pre.inList_iff]

/-- Witness for C11: `Z_Malloc(112, PU_STATIC, NULL)` right after `Z_Init` selects the
free region of 655360 bytes at `0x1000` and needs 128 bytes. -/
theorem C11_witness :
    Reachable exInit ∧ Z_Malloc 10 exInit 112 1 0 = .ok exA (segmentToPointer 0x1001) ∧
      ∃ z1 b, Z_Malloc_find 10 exInit 112 = .ok z1 b ∧ segmentToPointer 0x1001 = segmentToPointer (b + 1) ∧
        (z1.hdr b).user = 0 ∧ InList z1 b ∧
        (112 ≤ 2 ^ 31 - 32 →
          toInt32 (Z_Malloc_size32 112) = Int.ofNat (Z_Malloc_size 112) ∧
          Z_Malloc_size 112 ≤ (z1.hdr b).size) ∧
        ((z1.hdr b).size - Z_Malloc_size 112 > MINFRAGMENT →
          (exA.hdr b).size = Z_Malloc_size 112 ∧
          (exA.hdr b).next = b + Z_Malloc_size 112 / 16 ∧
          b * 16 + Z_Malloc_size 112 = (b + Z_Malloc_size 112 / 16) * 16 ∧
          ¬ InList z1 (b + Z_Malloc_size 112 / 16) ∧
          InList exA (b + Z_Malloc_size 112 / 16) ∧
          (exA.hdr (b + Z_Malloc_size 112 / 16)).user = 0 ∧
          (exA.hdr (b + Z_Malloc_size 112 / 16)).size = (z1.hdr b).size - Z_Malloc_size 112 ∧
          (exA.hdr (b + Z_Malloc_size 112 / 16)).prev = b ∧
          (exA.hdr (b + Z_Malloc_size 112 / 16)).next = (z1.hdr b).next ∧
          (exA.hdr (z1.hdr b).next).prev = b + Z_Malloc_size 112 / 16 ∧
          (b + Z_Malloc_size 112 / 16) * 16 + ((z1.hdr b).size - Z_Malloc_size 112) =
            b * 16 + (z1.hdr b).size ∧
          ((z1.hdr b).next ≠ z1.mainzone_blocklist →
            (b + Z_Malloc_size 112 / 16) * 16 + ((z1.hdr b).size - Z_Malloc_size 112) =
              (z1.hdr b).next * 16)) ∧
        (¬ (z1.hdr b).size - Z_Malloc_size 112 > MINFRAGMENT →
          (exA.hdr b).size = (z1.hdr b).size ∧ (exA.hdr b).next = (z1.hdr b).next ∧
          (exA.hdr (z1.hdr b).next).prev = b ∧ ∀ v, InList exA v ↔ InList z1 v) :=
  ⟨exInit_reachable, rfl,
    C11_split_threshold exInit exInit_reachable 10 112 1 0 exA (segmentToPointer 0x1001) rfl⟩

/-- C34. Live allocations never overlap: in every reachable heap state the byte ranges
`[16 v, 16 v + size(v))` of any two distinct blocks of the list other than the sentinel
are disjoint, and each is disjoint from the 16 bytes of the sentinel header (the
sentinel has no payload and its size field is never written). So after a successful
`Z_Malloc` the returned payload, which starts 16 bytes into the allocated block and
ends with it, is disjoint from the header and payload of every other block of the
list, in use or free, and from the sentinel header; for a request up to `2^31 - 32`,
where the needed size does not overflow, the requested bytes lie within it. -/
theorem C34_no_overlap (z : Zone) (h : Reachable z) :
    (∀ v w, InList z v → InList z w → v ≠ z.mainzone_blocklist →
      w ≠ z.mainzone_blocklist → v ≠ w →
      v * 16 + (z.hdr v).size ≤ w * 16 ∨ w * 16 + (z.hdr w).size ≤ v * 16) ∧
    (∀ v, InList z v → v ≠ z.mainzone_blocklist →
      z.mainzone_blocklist * 16 + 16 ≤ v * 16 ∨
        v * 16 + (z.hdr v).size ≤ z.mainzone_blocklist * 16) ∧
    (∀ fuel size tag user z' p, Z_Malloc fuel z size tag user = .ok z' p →
      1 ≤ p.seg ∧ InList z' (p.seg - 1) ∧ p.seg - 1 ≠ z'.mainzone_blocklist ∧
      (z'.hdr (p.seg - 1)).user ≠ 0 ∧ p.linear = (p.seg - 1) * 16 + 16 ∧
      (size ≤ 2 ^ 31 - 32 →
        p.linear + size ≤ (p.seg - 1) * 16 + (z'.hdr (p.seg - 1)).size) ∧
      (∀ v, InList z' v → v ≠ z'.mainzone_blocklist → v ≠ p.seg - 1 →
        v * 16 + (z'.hdr v).size ≤ p.linear ∨
          (p.seg - 1) * 16 + (z'.hdr (p.seg - 1)).size ≤ v * 16) ∧
      (z'.mainzone_blocklist * 16 + 16 ≤ p.linear ∨
        (p.seg - 1) * 16 + (z'.hdr (p.seg - 1)).size ≤ z'.mainzone_blocklist * 16)) := by
  obtain ⟨rest, lo, hi, hR⟩ := Reachable_WF h
  obtain ⟨d1, d2⟩ := ring_disjoint hR
  refine ⟨d1, d2, fun fuel size tag user z' p hm => ?_⟩
  have h' := Reachable.malloc fuel z size tag user z' p h hm
  obtain ⟨rest', lo', hi', hR'⟩ := Reachable_WF h'
  obtain ⟨e1, e2⟩ := ring_disjoint hR'
  obtain ⟨z1, start, b, pre, post, hok, -, hz, hp⟩ := Z_Malloc_ok_inv hR hm
  have hRf := Z_Malloc_finish_ring tag user hok
  rw [← hz] at hRf
  have hbin : InList z' b := (hRf.pre.inList_iff b).2 (by simp)
  have hbu : (z'.hdr b).user ≠ 0 := by
    rw [hz, finish_user, if_pos rfl]
    split
    · rename_i e; exact e
    · decide
  have hbS : b ≠ z'.mainzone_blocklist := by
    have hbS1 : b ≠ z1.mainzone_blocklist := fun e => hok.hring.pre.sentUser (e ▸ hok.hfree)
    rw [hz, Z_Malloc_finish_blocklist]; exact hbS1
  have hseg : p.seg - 1 = b := by rw [hp]; rfl
  have hlin : p.linear = b * 16 + 16 := by
    rw [hp]
    show (b + 1) * 16 + 0 = _
    omega
  have hN : Z_Malloc_size size ≤ (z'.hdr b).size := by
    obtain ⟨-, -, hbl1, -⟩ := links_split1.1 hok.hring.pre.links
    have hbS1 : b ≠ z1.mainzone_blocklist := fun e => hok.hring.pre.sentUser (e ▸ hok.hfree)
    obtain ⟨-, hlo1, hhi1, -, -⟩ := hbl1.2.2 hbS1
    have hbd := hok.hring.pre.bound
    have hbig := hok.hbig
    rw [hz, finish_size]
    by_cases hex : (z1.hdr b).size - Z_Malloc_size size > MINFRAGMENT
    · rw [split_size _ _ _ _ hex, if_pos rfl]
      have : Z_Malloc_size size % 2 ^ 24 = Z_Malloc_size size :=
        Nat.mod_eq_of_lt (by omega)
      rw [this]
    · rw [split_none _ _ _ hex]
      exact hbig
  have hsz : size + 16 ≤ Z_Malloc_size size := by
    unfold Z_Malloc_size PARAGRAPH_SIZE
    omega
  rw [hseg, hlin]
  refine ⟨by rw [hp]; exact Nat.succ_le_succ (Nat.zero_le _), hbin, hbS, hbu, rfl,
    fun _ => by omega,
    fun v hv hvS hvb => ?_, ?_⟩
  · rcases e1 v b hv hbin hvS hbS hvb with e | e
    · left; omega
    · right; exact e
  · rcases e2 b hbin hbS with e | e
    · left; omega
    · right; exact e

/-- Witness for C34: the heap `exR4` with its four blocks; the blocks at `0x1002` and
`0x1042` occupy `[0x10020, 0x10420)` and `[0x10420, 0x10440)`. -/
theorem C34_witness :
    Reachable exR4 ∧ (exR4.hdr 0x1002).size = 1024 ∧ (exR4.hdr 0x1042).size = 32 ∧
    ((∀ v w, InList exR4 v → InList exR4 w → v ≠ exR4.mainzone_blocklist →
      w ≠ exR4.mainzone_blocklist → v ≠ w →
      v * 16 + (exR4.hdr v).size ≤ w * 16 ∨ w * 16 + (exR4.hdr w).size ≤ v * 16) ∧
    (∀ v, InList exR4 v → v ≠ exR4.mainzone_blocklist →
      exR4.mainzone_blocklist * 16 + 16 ≤ v * 16 ∨
        v * 16 + (exR4.hdr v).size ≤ exR4.mainzone_blocklist * 16) ∧
    (∀ fuel size tag user z' p, Z_Malloc fuel exR4 size tag user = .ok z' p →
      1 ≤ p.seg ∧ InList z' (p.seg - 1) ∧ p.seg - 1 ≠ z'.mainzone_blocklist ∧
      (z'.hdr (p.seg - 1)).user ≠ 0 ∧ p.linear = (p.seg - 1) * 16 + 16 ∧
      (size ≤ 2 ^ 31 - 32 →
        p.linear + size ≤ (p.seg - 1) * 16 + (z'.hdr (p.seg - 1)).size) ∧
      (∀ v, InList z' v → v ≠ z'.mainzone_blocklist → v ≠ p.seg - 1 →
        v * 16 + (z'.hdr v).size ≤ p.linear ∨
          (p.seg - 1) * 16 + (z'.hdr (p.seg - 1)).size ≤ v * 16) ∧
      (z'.mainzone_blocklist * 16 + 16 ≤ p.linear ∨
        (p.seg - 1) * 16 + (z'.hdr (p.seg - 1)).size ≤ z'.mainzone_blocklist * 16))) :=
  ⟨exR4_reachable, by decide, by decide, C34_no_overlap exR4 exR4_reachable⟩

end Zone8088
